import Mathlib

/-!
BusTub storage core: buffer pool, LRU replacer, extendible hash index

A shallow embedding of

* `src/storage/page/hash_table_bucket_page.cpp`
* `src/container/hash/extendible_hash_table.cpp`
* `src/buffer/lru_replacer.cpp`
* `src/buffer/buffer_pool_manager_instance.cpp`

C++ arrays are functions from the index, `char` bitmap bytes are naturals kept below 256,
`assert` is a fault (the process aborts), and the recursion `Insert -> SplitInsert -> Insert`
is driven by an explicit fuel counter whose exhaustion is a fault of its own; the public
`Insert` never exhausts it (`insert_fuel`).

The hash table is modelled twice. `ExtendibleHashTable` acts on a pool that always gives
the page with the bytes last written; the calls it makes to the buffer pool manager are
listed, in the order of the code, by `GetValueCalls`, `InsertCalls`, `SplitInsertCalls`,
`RemoveCalls` and `MergeCalls`, and are run on the pool model by `runAsserted`.
`OnPool.ExtendibleHashTable` acts on the buffer pool manager itself, which it shares with the
other users of the pool: pages are read and written in the frames that `FetchPage` and
`NewPage` hand out, and a page that leaves its frame comes back as the disk has it. The
directory page of both has an array without bound; the array of the code has
`DIRECTORY_ARRAY_SIZE` entries, so the model says what the code does as long as the global
depth is at most `MAX_BUCKET_DEPTH`.

The pool counts page ids in the integers; `Wrapping` has the allocation of page ids with the
32-bit counter. The replacer is modelled twice: as the list of candidates (`LRUReplacer`) and
with the list nodes and the map from frames to nodes of the code (`LRUNodes`); the second
refines the first (`toLRUReplacer_call`).
-/

namespace Bustub

/-- Ways in which a call does not return: a failed `assert`, the fuel of the model ran out, or
the thread waits for a `std::mutex` that it holds itself. -/
inductive Fault where
  | assertion
  | fuel
  | deadlock
  deriving DecidableEq, Repr

/-- Pointwise array store `a[i] = x`. -/
def upd {α : Type} (a : Nat → α) (i : Nat) (x : α) : Nat → α :=
  fun j => if j = i then x else a j

/-- Pointwise store in a map keyed by page id. -/
def updI {α : Type} (a : Int → α) (i : Int) (x : α) : Int → α :=
  fun j => if j = i then x else a j

/-- The constant `INVALID_PAGE_ID` of `common/config.h`. -/
def INVALID_PAGE_ID : Int := -1

/-! ## Bucket page (`hash_table_bucket_page.cpp`) -/

/-- The three arrays of a bucket page: `occupied_`, `readable_` (bytes) and `array_`. -/
structure HashTableBucketPage (K V : Type) where
  occupied_ : Nat → Nat
  readable_ : Nat → Nat
  array_ : Nat → K × V

namespace HashTableBucketPage

variable {K V : Type}

/-- Modelled from the spec: `sizeof(readable_)`, the bitmaps have `ceil(capacity/8)` bytes
(the header `hash_table_bucket_page.h` is not among the sources). -/
def bitmapBytes (BUCKET_ARRAY_SIZE : Nat) : Nat := (BUCKET_ARRAY_SIZE + 7) / 8

def IsOccupied (b : HashTableBucketPage K V) (bucket_idx : Nat) : Bool :=
  let c := b.occupied_ (bucket_idx / 8)
  decide ((c &&& (1 <<< (bucket_idx % 8))) > 0)

def SetOccupied (b : HashTableBucketPage K V) (bucket_idx : Nat) : HashTableBucketPage K V :=
  let c := b.occupied_ (bucket_idx / 8)
  let c := (c ||| (1 <<< (bucket_idx % 8))) % 256
  { b with occupied_ := upd b.occupied_ (bucket_idx / 8) c }

def IsReadable (b : HashTableBucketPage K V) (bucket_idx : Nat) : Bool :=
  let c := b.readable_ (bucket_idx / 8)
  decide ((c &&& (1 <<< (bucket_idx % 8))) > 0)

def SetReadable (b : HashTableBucketPage K V) (bucket_idx : Nat) : HashTableBucketPage K V :=
  let c := b.readable_ (bucket_idx / 8)
  let c := (c ||| (1 <<< (bucket_idx % 8))) % 256
  { b with readable_ := upd b.readable_ (bucket_idx / 8) c }

/-- `c &= ~(1 << (bucket_idx % 8))` on a `uint8_t`. -/
def RemoveAt (b : HashTableBucketPage K V) (bucket_idx : Nat) : HashTableBucketPage K V :=
  if b.IsReadable bucket_idx then
    let c := b.readable_ (bucket_idx / 8)
    let c := c &&& (255 ^^^ (1 <<< (bucket_idx % 8)))
    { b with readable_ := upd b.readable_ (bucket_idx / 8) c }
  else b

def KeyAt (b : HashTableBucketPage K V) (bucket_idx : Nat) : K := (b.array_ bucket_idx).1

def ValueAt (b : HashTableBucketPage K V) (bucket_idx : Nat) : V := (b.array_ bucket_idx).2

/-- The loop of `GetValue` over the slot indices still to visit. -/
def GetValueLoop (cmp : K → K → Int) (b : HashTableBucketPage K V) (key : K) :
    List Nat → Bool × List V → Bool × List V
  | [], acc => acc
  | i :: rest, (res, result) =>
    if b.IsReadable i && decide (cmp key (b.array_ i).1 = 0) then
      GetValueLoop cmp b key rest (true, result ++ [(b.array_ i).2])
    else
      GetValueLoop cmp b key rest (res, result)

def GetValue (BUCKET_ARRAY_SIZE : Nat) (cmp : K → K → Int) (b : HashTableBucketPage K V)
    (key : K) (result : List V) : Bool × List V :=
  GetValueLoop cmp b key (List.range BUCKET_ARRAY_SIZE) (false, result)

/-- The loop of `Insert`: `none` is the early `return false` on an exact duplicate, `some id`
is the value of `id` when the loop ends (`none` standing for `-1`). -/
def InsertLoop [DecidableEq V] (cmp : K → K → Int) (b : HashTableBucketPage K V) (key : K)
    (value : V) : List Nat → Option Nat → Option (Option Nat)
  | [], id => some id
  | index :: rest, id =>
    if b.IsReadable index then
      if cmp key (b.array_ index).1 = 0 ∧ value = (b.array_ index).2 then none
      else InsertLoop cmp b key value rest id
    else if id = none then InsertLoop cmp b key value rest (some index)
    else InsertLoop cmp b key value rest id

def Insert [DecidableEq V] (BUCKET_ARRAY_SIZE : Nat) (cmp : K → K → Int)
    (b : HashTableBucketPage K V) (key : K) (value : V) : HashTableBucketPage K V × Bool :=
  match InsertLoop cmp b key value (List.range BUCKET_ARRAY_SIZE) none with
  | none => (b, false)
  | some none => (b, false)
  | some (some id) =>
    let b := { b with array_ := upd b.array_ id (key, value) }
    let b := b.SetOccupied id
    let b := b.SetReadable id
    (b, true)

/-- The loop of `Remove`: the first readable slot holding the exact pair, if any. -/
def RemoveLoop [DecidableEq V] (cmp : K → K → Int) (b : HashTableBucketPage K V) (key : K)
    (value : V) : List Nat → Option Nat
  | [] => none
  | index :: rest =>
    if b.IsReadable index then
      if cmp key (b.array_ index).1 = 0 ∧ value = (b.array_ index).2 then some index
      else RemoveLoop cmp b key value rest
    else RemoveLoop cmp b key value rest

def Remove [DecidableEq V] (BUCKET_ARRAY_SIZE : Nat) (cmp : K → K → Int)
    (b : HashTableBucketPage K V) (key : K) (value : V) : HashTableBucketPage K V × Bool :=
  match RemoveLoop cmp b key value (List.range BUCKET_ARRAY_SIZE) with
  | some index => (b.RemoveAt index, true)
  | none => (b, false)

def IsFull (BUCKET_ARRAY_SIZE : Nat) (b : HashTableBucketPage K V) : Bool :=
  let mask := 255
  let num := BUCKET_ARRAY_SIZE / 8
  if (List.range num).any (fun index => decide (b.readable_ index ≠ mask)) then false
  else
    let id := BUCKET_ARRAY_SIZE % 8
    if (List.range id).any (fun index => decide ((b.readable_ num &&& (1 <<< index)) > 0)) then
      false
    else true

/-- The inner loop of `NumReadable`: counts the low `k` bits of the byte `c`. -/
def countBits : Nat → Nat → Nat
  | 0, _ => 0
  | k + 1, c => (if c &&& 1 = 1 then 1 else 0) + countBits k (c >>> 1)

def NumReadable (BUCKET_ARRAY_SIZE : Nat) (b : HashTableBucketPage K V) : Nat :=
  let i_num := BUCKET_ARRAY_SIZE / 8
  let num := ((List.range i_num).map (fun index => countBits 8 (b.readable_ index))).sum
  num + countBits (BUCKET_ARRAY_SIZE % 8) (b.readable_ i_num)

def IsEmpty (BUCKET_ARRAY_SIZE : Nat) (b : HashTableBucketPage K V) : Bool :=
  let num := bitmapBytes BUCKET_ARRAY_SIZE
  if (List.range num).any (fun index => decide (b.readable_ index &&& 255 ≠ 0)) then false
  else true

def GetArrayCopy (BUCKET_ARRAY_SIZE : Nat) (b : HashTableBucketPage K V) : List (K × V) :=
  ((List.range BUCKET_ARRAY_SIZE).filter (fun i => b.IsReadable i)).map (fun i => b.array_ i)

/-- A page whose bytes are all zero, seen as a bucket page. -/
def zero [Inhabited K] [Inhabited V] : HashTableBucketPage K V :=
  { occupied_ := fun _ => 0, readable_ := fun _ => 0, array_ := fun _ => default }

def Reset [Inhabited K] [Inhabited V] (_b : HashTableBucketPage K V) : HashTableBucketPage K V :=
  zero

end HashTableBucketPage

/-! ## Directory page -/

/-- Modelled from the spec: the directory page, one page holding a global depth and, for every
directory slot, a (bucket page id, local depth) pair (`hash_table_directory_page.cpp` and its
header are not among the sources). The array of the page is fixed, with one entry per slot
of a directory of the maximum global depth; here the entries are functions on all indices,
so the model follows the code as long as the global depth is at most `MAX_BUCKET_DEPTH`. -/
structure HashTableDirectoryPage where
  page_id_ : Int
  global_depth_ : Nat
  local_depths_ : Nat → Nat
  bucket_page_ids_ : Nat → Int

namespace HashTableDirectoryPage

/-- Modelled from the spec: a page whose bytes are all zero, seen as a directory page. -/
def zero : HashTableDirectoryPage :=
  { page_id_ := 0, global_depth_ := 0, local_depths_ := fun _ => 0, bucket_page_ids_ := fun _ => 0 }

/-- Modelled from the spec: accessor of the page id stored in the directory page. -/
def GetPageId (d : HashTableDirectoryPage) : Int := d.page_id_

/-- Modelled from the spec: setter of the page id stored in the directory page. -/
def SetPageId (d : HashTableDirectoryPage) (page_id : Int) : HashTableDirectoryPage :=
  { d with page_id_ := page_id }

/-- Modelled from the spec: the global depth (bit width) of the directory. -/
def GetGlobalDepth (d : HashTableDirectoryPage) : Nat := d.global_depth_

/-- Modelled from the spec: `(1 << global_depth) - 1`, the mask of the addressing rule
`hash(key) & ((1 << global_depth) - 1)`. -/
def GetGlobalDepthMask (d : HashTableDirectoryPage) : Nat := (1 <<< d.global_depth_) - 1

/-- Modelled from the spec: the number of directory slots, `2^global_depth`. -/
def Size (d : HashTableDirectoryPage) : Nat := 1 <<< d.global_depth_

/-- Modelled from the spec: the bucket page id of a slot. -/
def GetBucketPageId (d : HashTableDirectoryPage) (bucket_idx : Nat) : Int :=
  d.bucket_page_ids_ bucket_idx

/-- Modelled from the spec: store the bucket page id of a slot. -/
def SetBucketPageId (d : HashTableDirectoryPage) (bucket_idx : Nat) (bucket_page_id : Int) :
    HashTableDirectoryPage :=
  { d with bucket_page_ids_ := upd d.bucket_page_ids_ bucket_idx bucket_page_id }

/-- Modelled from the spec: the local depth of a slot. -/
def GetLocalDepth (d : HashTableDirectoryPage) (bucket_idx : Nat) : Nat :=
  d.local_depths_ bucket_idx

/-- Modelled from the spec: store the local depth of a slot. -/
def SetLocalDepth (d : HashTableDirectoryPage) (bucket_idx : Nat) (local_depth : Nat) :
    HashTableDirectoryPage :=
  { d with local_depths_ := upd d.local_depths_ bucket_idx local_depth }

/-- Modelled from the spec: "Increment `local_depth(i)`". -/
def IncrLocalDepth (d : HashTableDirectoryPage) (bucket_idx : Nat) : HashTableDirectoryPage :=
  d.SetLocalDepth bucket_idx (d.local_depths_ bucket_idx + 1)

/-- Modelled from the spec: decrement of the local depth of a slot. -/
def DecrLocalDepth (d : HashTableDirectoryPage) (bucket_idx : Nat) : HashTableDirectoryPage :=
  { d with local_depths_ := upd d.local_depths_ bucket_idx (d.local_depths_ bucket_idx - 1) }

/-- Modelled from the spec: the mask of the low-order `local_depth(i)` bits. -/
def GetLocalDepthMask (d : HashTableDirectoryPage) (bucket_idx : Nat) : Nat :=
  (1 <<< d.local_depths_ bucket_idx) - 1

/-- Modelled from the spec: the split-image index. `SplitInsert` asks for it after it has
incremented the local depth from `d` to `d + 1` and the spec places the sibling at
`i XOR (1 << d)`; `Merge` asks for it at depth `d` for the partner of the split that produced
depth `d`: in both the flipped bit is the highest of the `local_depth` low-order bits. -/
def GetSplitImageIndex (d : HashTableDirectoryPage) (bucket_idx : Nat) : Nat :=
  bucket_idx ^^^ (1 <<< (d.local_depths_ bucket_idx - 1))

/-- Modelled from the spec: "double the directory (global_depth += 1; mirror every existing slot
into the newly created upper half, copying its (bucket id, local depth) unchanged)". -/
def IncrGlobalDepth (d : HashTableDirectoryPage) : HashTableDirectoryPage :=
  let n := d.Size
  { d with
    global_depth_ := d.global_depth_ + 1
    local_depths_ := fun i => if n ≤ i ∧ i < 2 * n then d.local_depths_ (i - n)
      else d.local_depths_ i
    bucket_page_ids_ := fun i => if n ≤ i ∧ i < 2 * n then d.bucket_page_ids_ (i - n)
      else d.bucket_page_ids_ i }

/-- Modelled from the spec: "halve the directory (`global_depth -= 1`)". -/
def DecrGlobalDepth (d : HashTableDirectoryPage) : HashTableDirectoryPage :=
  { d with global_depth_ := d.global_depth_ - 1 }

/-- Modelled from the spec: the directory can be halved when "every pair of mirrored halves
agrees on (bucket id, local depth) and the maximum local depth is below the current global
depth". -/
def CanShrink (d : HashTableDirectoryPage) : Bool :=
  let half := d.Size / 2
  (List.range d.Size).all (fun i => decide (d.local_depths_ i < d.global_depth_)) &&
  (List.range half).all (fun i =>
    decide (d.bucket_page_ids_ i = d.bucket_page_ids_ (i + half)) &&
    decide (d.local_depths_ i = d.local_depths_ (i + half)))

end HashTableDirectoryPage

/-! ## Extendible hash table (`extendible_hash_table.cpp`) -/

/-- What the hash table is instantiated with: the macros `BUCKET_ARRAY_SIZE` and
`MAX_BUCKET_DEPTH` (their defining headers are not among the sources), the hash function
`hash_fn_` and the key comparator `comparator_`. Depths are `uint32_t` and `u8` values in the
code and naturals here; they never exceed `MAX_BUCKET_DEPTH + 1`, so the two agree for every
`MAX_BUCKET_DEPTH` below 31. -/
structure Params (K : Type) where
  BUCKET_ARRAY_SIZE : Nat
  MAX_BUCKET_DEPTH : Nat
  GetHash : K → Nat
  comparator_ : K → K → Int

/-- The hash table together with the pages it reaches through the buffer pool. The pool is
taken with enough frames: `FetchPage` and `NewPage` always give the page, whose content is the
content last written; `next_page_id_` is the pool's allocation counter and `deleted_` lists
the pages handed to `DeletePage`. -/
structure ExtendibleHashTable (K V : Type) where
  directory_page_id_ : Int
  next_page_id_ : Int
  dir_pages_ : Int → HashTableDirectoryPage
  bucket_pages_ : Int → HashTableBucketPage K V
  deleted_ : List Int

namespace ExtendibleHashTable

variable {K V : Type}

/-- The constructor: no directory page yet, on a pool that has allocated nothing. -/
def new [Inhabited K] [Inhabited V] : ExtendibleHashTable K V :=
  { directory_page_id_ := INVALID_PAGE_ID
    next_page_id_ := 0
    dir_pages_ := fun _ => HashTableDirectoryPage.zero
    bucket_pages_ := fun _ => HashTableBucketPage.zero
    deleted_ := [] }

/-- Downcast of the 64-bit hash to 32 bits. -/
def Hash (P : Params K) (key : K) : Nat := P.GetHash key % 2 ^ 32

def KeyToDirectoryIndex (P : Params K) (key : K) (dir_page : HashTableDirectoryPage) : Nat :=
  Hash P key &&& dir_page.GetGlobalDepthMask

def KeyToPageId (P : Params K) (key : K) (dir_page : HashTableDirectoryPage) : Int :=
  dir_page.GetBucketPageId (KeyToDirectoryIndex P key dir_page)

/-- `NewPage` of the pool: a fresh id from the counter and a zero-filled page. -/
def NewPage [Inhabited K] [Inhabited V] (t : ExtendibleHashTable K V) :
    Int × ExtendibleHashTable K V :=
  (t.next_page_id_,
    { t with
      next_page_id_ := t.next_page_id_ + 1
      dir_pages_ := updI t.dir_pages_ t.next_page_id_ HashTableDirectoryPage.zero
      bucket_pages_ := updI t.bucket_pages_ t.next_page_id_ HashTableBucketPage.zero })

/-- The creation branch of `FetchDirectoryPage`; afterwards the directory page is
`t.dir_pages_ t.directory_page_id_`. -/
def FetchDirectoryPage [Inhabited K] [Inhabited V] (t : ExtendibleHashTable K V) :
    ExtendibleHashTable K V :=
  if t.directory_page_id_ = INVALID_PAGE_ID then
    let (page_id, t) := t.NewPage
    let t := { t with directory_page_id_ := page_id }
    let directory_page := (t.dir_pages_ page_id).SetPageId t.directory_page_id_
    let (page_id, t) := t.NewPage
    let directory_page := directory_page.SetBucketPageId 0 page_id
    { t with dir_pages_ := updI t.dir_pages_ t.directory_page_id_ directory_page }
  else t

def GetValue [Inhabited K] [Inhabited V] (P : Params K) (t : ExtendibleHashTable K V) (key : K)
    (result : List V) : ExtendibleHashTable K V × Bool × List V :=
  let t := t.FetchDirectoryPage
  let dir_page := t.dir_pages_ t.directory_page_id_
  let page_id := KeyToPageId P key dir_page
  let buc_page := t.bucket_pages_ page_id
  (t, buc_page.GetValue P.BUCKET_ARRAY_SIZE P.comparator_ key result)

/-- The re-hash loop of `SplitInsert` with its three `assert`s. -/
def SplitRehashLoop [DecidableEq V] (P : Params K) (dir_page : HashTableDirectoryPage)
    (split_bucket_idx : Nat) (split_page_id bro_page_id : Int) (split_array : List (K × V))
    [Inhabited K] [Inhabited V] :
    List Nat → HashTableBucketPage K V × HashTableBucketPage K V →
      Except Fault (HashTableBucketPage K V × HashTableBucketPage K V)
  | [], acc => .ok acc
  | index :: rest, (split_bucket, bro_bucket) =>
    let e := split_array.getD index default
    let target_index := Hash P e.1 &&& dir_page.GetLocalDepthMask split_bucket_idx
    let target_page_id := dir_page.GetBucketPageId target_index
    if target_page_id = split_page_id ∨ target_page_id = bro_page_id then
      if target_page_id = split_page_id then
        match split_bucket.Insert P.BUCKET_ARRAY_SIZE P.comparator_ e.1 e.2 with
        | (split_bucket, true) =>
          SplitRehashLoop P dir_page split_bucket_idx split_page_id bro_page_id split_array rest
            (split_bucket, bro_bucket)
        | (_, false) => .error Fault.assertion
      else
        match bro_bucket.Insert P.BUCKET_ARRAY_SIZE P.comparator_ e.1 e.2 with
        | (bro_bucket, true) =>
          SplitRehashLoop P dir_page split_bucket_idx split_page_id bro_page_id split_array rest
            (split_bucket, bro_bucket)
        | (_, false) => .error Fault.assertion
    else .error Fault.assertion

/-- The loop `for (index = start; index < dir_page->Size(); index += interval)` of
`SplitInsert`, which stores `page_id` and `depth` in every slot it visits. -/
def SplitRepoint (dir_page : HashTableDirectoryPage) (start interval : Nat) (page_id : Int)
    (depth : Nat) : HashTableDirectoryPage :=
  ((List.range dir_page.Size).filter
      (fun index => decide (start ≤ index) && decide ((index - start) % interval = 0))).foldl
    (fun d index => (d.SetBucketPageId index page_id).SetLocalDepth index depth) dir_page

/-- The body of `SplitInsert` up to the release of the table latch: `none` is the early
`return false` of the depth bound, `some t` the table after the split. -/
def Split [DecidableEq V] [Inhabited K] [Inhabited V] (P : Params K)
    (t : ExtendibleHashTable K V) (key : K) : Except Fault (Option (ExtendibleHashTable K V)) :=
  let t := t.FetchDirectoryPage
  let dir_page := t.dir_pages_ t.directory_page_id_
  let split_bucket_idx := KeyToDirectoryIndex P key dir_page
  let split_depth := dir_page.GetLocalDepth split_bucket_idx
  if split_depth > P.MAX_BUCKET_DEPTH then .ok none
  else
    let global_depth := dir_page.GetGlobalDepth
    let dir_page := if split_depth = global_depth then dir_page.IncrGlobalDepth else dir_page
    let dir_page := dir_page.IncrLocalDepth split_bucket_idx
    let split_page_id := KeyToPageId P key dir_page
    let split_bucket := t.bucket_pages_ split_page_id
    let split_array_size := split_bucket.NumReadable P.BUCKET_ARRAY_SIZE
    let split_array := split_bucket.GetArrayCopy P.BUCKET_ARRAY_SIZE
    let split_bucket := split_bucket.Reset
    let t := { t with bucket_pages_ := updI t.bucket_pages_ split_page_id split_bucket }
    let (bro_page_id, t) := t.NewPage
    let bro_bucket := t.bucket_pages_ bro_page_id
    let bro_bucket_idx := dir_page.GetSplitImageIndex split_bucket_idx
    let dir_page := dir_page.SetBucketPageId bro_bucket_idx bro_page_id
    let dir_page := dir_page.SetLocalDepth bro_bucket_idx (dir_page.GetLocalDepth split_bucket_idx)
    match SplitRehashLoop P dir_page split_bucket_idx split_page_id bro_page_id split_array
        (List.range split_array_size) (split_bucket, bro_bucket) with
    | .error e => .error e
    | .ok (split_bucket, bro_bucket) =>
      let split_depth := split_depth + 1
      let interval := 1 <<< dir_page.GetLocalDepth split_bucket_idx
      let split_start := split_bucket_idx % interval
      let dir_page := SplitRepoint dir_page split_start interval split_page_id split_depth
      let bro_start := bro_bucket_idx % interval
      let dir_page := SplitRepoint dir_page bro_start interval bro_page_id split_depth
      .ok (some { t with
        bucket_pages_ :=
          updI (updI t.bucket_pages_ split_page_id split_bucket) bro_page_id bro_bucket
        dir_pages_ := updI t.dir_pages_ t.directory_page_id_ dir_page })

mutual

/-- `Insert`, with `fuel` bounding the depth of the recursion through `SplitInsert`. -/
def Insert [DecidableEq V] [Inhabited K] [Inhabited V] (P : Params K) :
    Nat → ExtendibleHashTable K V → K → V → Except Fault (ExtendibleHashTable K V × Bool)
  | 0, _, _, _ => .error Fault.fuel
  | fuel + 1, t, key, value =>
    let t := t.FetchDirectoryPage
    let dir_page := t.dir_pages_ t.directory_page_id_
    let page_id := KeyToPageId P key dir_page
    let buc_page := t.bucket_pages_ page_id
    if !buc_page.IsFull P.BUCKET_ARRAY_SIZE then
      let (buc_page, res) := buc_page.Insert P.BUCKET_ARRAY_SIZE P.comparator_ key value
      .ok ({ t with bucket_pages_ := updI t.bucket_pages_ page_id buc_page }, res)
    else SplitInsert P fuel t key value

/-- `SplitInsert`: the split, then `Insert` again, whose result is dropped. -/
def SplitInsert [DecidableEq V] [Inhabited K] [Inhabited V] (P : Params K) :
    Nat → ExtendibleHashTable K V → K → V → Except Fault (ExtendibleHashTable K V × Bool)
  | fuel, t, key, value =>
    match Split P t key with
    | .error e => .error e
    | .ok none => .ok (t.FetchDirectoryPage, false)
    | .ok (some t) =>
      match Insert P fuel t key value with
      | .error e => .error e
      | .ok (t, _) => .ok (t, true)

end

/-- The loop `for (index = 0; index < dir_page->Size(); index++)` of `Merge`. -/
def MergeRepoint (dir_page : HashTableDirectoryPage) (delete_page_id bro_page_id : Int)
    (delete_depth : Nat) : HashTableDirectoryPage :=
  (List.range dir_page.Size).foldl
    (fun d index =>
      let traverse_page_id := d.GetBucketPageId index
      if traverse_page_id = delete_page_id ∨ traverse_page_id = bro_page_id then
        (d.SetLocalDepth index delete_depth).SetBucketPageId index bro_page_id
      else d) dir_page

/-- The loop `while (dir_page->CanShrink()) dir_page->DecrGlobalDepth()`; the counter bounds
the number of rounds and is started at the global depth. -/
def ShrinkLoop : Nat → HashTableDirectoryPage → HashTableDirectoryPage
  | 0, d => d
  | n + 1, d => if d.CanShrink then ShrinkLoop n d.DecrGlobalDepth else d

def Merge [Inhabited K] [Inhabited V] (P : Params K) (t : ExtendibleHashTable K V) (key : K) :
    Except Fault (ExtendibleHashTable K V) :=
  let t := t.FetchDirectoryPage
  let dir_page := t.dir_pages_ t.directory_page_id_
  let delete_page_id := KeyToPageId P key dir_page
  let delete_bucket_idx := KeyToDirectoryIndex P key dir_page
  let bro_bucket_idx := dir_page.GetSplitImageIndex delete_bucket_idx
  let delete_depth := dir_page.GetLocalDepth delete_bucket_idx
  if delete_depth = 0 then .ok t
  else
    let bro_depth := dir_page.GetLocalDepth bro_bucket_idx
    if delete_depth ≠ bro_depth then .ok t
    else
      let bro_page_id := dir_page.GetBucketPageId bro_bucket_idx
      let delete_bucket := t.bucket_pages_ delete_page_id
      if !delete_bucket.IsEmpty P.BUCKET_ARRAY_SIZE then .ok t
      else
        let t := { t with deleted_ := t.deleted_ ++ [delete_page_id] }
        let delete_depth := delete_depth - 1
        let dir_page := dir_page.DecrLocalDepth delete_bucket_idx
        let dir_page := dir_page.DecrLocalDepth bro_bucket_idx
        let dir_page := dir_page.SetBucketPageId delete_bucket_idx bro_page_id
        if dir_page.GetLocalDepth delete_bucket_idx = dir_page.GetLocalDepth bro_bucket_idx then
          let dir_page := MergeRepoint dir_page delete_page_id bro_page_id delete_depth
          let dir_page := ShrinkLoop dir_page.global_depth_ dir_page
          .ok { t with dir_pages_ := updI t.dir_pages_ t.directory_page_id_ dir_page }
        else .error Fault.assertion

def Remove [DecidableEq V] [Inhabited K] [Inhabited V] (P : Params K)
    (t : ExtendibleHashTable K V) (key : K) (value : V) :
    Except Fault (ExtendibleHashTable K V × Bool) :=
  let t := t.FetchDirectoryPage
  let dir_page := t.dir_pages_ t.directory_page_id_
  let bucket_page_id := KeyToPageId P key dir_page
  let bucket_page := t.bucket_pages_ bucket_page_id
  let (bucket_page, res) := bucket_page.Remove P.BUCKET_ARRAY_SIZE P.comparator_ key value
  let t := { t with bucket_pages_ := updI t.bucket_pages_ bucket_page_id bucket_page }
  if bucket_page.IsEmpty P.BUCKET_ARRAY_SIZE then
    match Merge P t key with
    | .error e => .error e
    | .ok t => .ok (t, res)
  else .ok (t, res)

/-- The public `Insert`: the recursion of `Insert` and `SplitInsert` is at most
`MAX_BUCKET_DEPTH + 2` calls of `Insert` deep when local depths start at 0. -/
def insert [DecidableEq V] [Inhabited K] [Inhabited V] (P : Params K)
    (t : ExtendibleHashTable K V) (key : K) (value : V) :
    Except Fault (ExtendibleHashTable K V × Bool) :=
  Insert P (P.MAX_BUCKET_DEPTH + 2) t key value

end ExtendibleHashTable


/-! ## LRU replacer (`lru_replacer.cpp`) -/

/-- The replacer: `lt_` is the recency list (front = next victim), `mp_` the keys of the index
map; the iterator stored under a key designates the list node holding that frame. -/
structure LRUReplacer where
  capacity_ : Nat
  lt_ : List Nat
  mp_ : List Nat
  deriving DecidableEq, Repr

namespace LRUReplacer

/-- The constructor `LRUReplacer(num_pages)`. -/
def new (num_pages : Nat) : LRUReplacer := { capacity_ := num_pages, lt_ := [], mp_ := [] }

/-- `Victim`: the frame written to `*frame_id` when the call returns true, and the replacer
afterwards. In the last branch the front has been popped and the call returns false. -/
def Victim (r : LRUReplacer) : Option Nat × LRUReplacer :=
  match r.lt_ with
  | [] => (none, r)
  | frame_id :: rest =>
    let r := { r with lt_ := rest }
    if frame_id ∈ r.mp_ then (some frame_id, { r with mp_ := r.mp_.erase frame_id })
    else (none, r)

def Pin (r : LRUReplacer) (frame_id : Nat) : LRUReplacer :=
  if frame_id ∈ r.mp_ then
    { r with lt_ := r.lt_.erase frame_id, mp_ := r.mp_.erase frame_id }
  else r

def Unpin (r : LRUReplacer) (frame_id : Nat) : LRUReplacer :=
  if r.lt_.length ≥ r.capacity_ then r
  else if frame_id ∉ r.mp_ then
    { r with lt_ := r.lt_ ++ [frame_id], mp_ := frame_id :: r.mp_ }
  else r

def Size (r : LRUReplacer) : Nat := r.lt_.length

end LRUReplacer

/-! ## Buffer pool manager (`buffer_pool_manager_instance.cpp`) -/

/-- A frame: the metadata of `Page` and its bytes, of an opaque type `D` whose `default` is the
zero-filled block. -/
structure Page (D : Type) where
  page_id_ : Int
  pin_count_ : Int
  is_dirty_ : Bool
  data_ : D

/-- The calls received by the disk manager. -/
inductive DiskCall (D : Type) where
  | WritePage (page_id : Int) (data : D)
  | ReadPage (page_id : Int)

/-- The disk boundary: the block stored under every page id, and the calls made so far, oldest
first. -/
structure DiskManager (D : Type) where
  blocks_ : Int → D
  calls_ : List (DiskCall D)

namespace DiskManager

variable {D : Type}

def WritePage (m : DiskManager D) (page_id : Int) (data : D) : DiskManager D :=
  { blocks_ := updI m.blocks_ page_id data, calls_ := m.calls_ ++ [DiskCall.WritePage page_id data] }

def ReadPage (m : DiskManager D) (page_id : Int) : D × DiskManager D :=
  (m.blocks_ page_id, { m with calls_ := m.calls_ ++ [DiskCall.ReadPage page_id] })

end DiskManager

/-- The state of a `BufferPoolManagerInstance`; `page_table_` is an association list from page
id to frame id with at most one entry per page id. -/
structure BufferPoolManagerInstance (D : Type) where
  pool_size_ : Nat
  num_instances_ : Nat
  instance_index_ : Nat
  next_page_id_ : Int
  pages_ : Nat → Page D
  replacer_ : LRUReplacer
  free_list_ : List Nat
  page_table_ : List (Int × Nat)
  disk_manager_ : DiskManager D

namespace BufferPoolManagerInstance

variable {D : Type}

/-- The default constructor of `Page`, as the frames are after `new Page[pool_size_]`. -/
def freshPage [Inhabited D] : Page D :=
  { page_id_ := INVALID_PAGE_ID, pin_count_ := 0, is_dirty_ := false, data_ := default }

/-- The constructor; the two `BUSTUB_ASSERT`s are the conditions of the `if`. -/
def new [Inhabited D] (pool_size num_instances instance_index : Nat)
    (disk_manager : DiskManager D) : Except Fault (BufferPoolManagerInstance D) :=
  if num_instances > 0 ∧ instance_index < num_instances then
    .ok { pool_size_ := pool_size
          num_instances_ := num_instances
          instance_index_ := instance_index
          next_page_id_ := instance_index
          pages_ := fun _ => freshPage
          replacer_ := LRUReplacer.new pool_size
          free_list_ := List.range pool_size
          page_table_ := []
          disk_manager_ := disk_manager }
  else .error Fault.assertion

/-- `page_table_.find(page_id)`. -/
def find (m : BufferPoolManagerInstance D) (page_id : Int) : Option Nat :=
  m.page_table_.lookup page_id

/-- `page_table_.erase(page_id)`. -/
def erase (page_table : List (Int × Nat)) (page_id : Int) : List (Int × Nat) :=
  page_table.filter (fun e => decide (e.1 ≠ page_id))

/-- `page_table_[page_id] = frame_id`. -/
def assign (page_table : List (Int × Nat)) (page_id : Int) (frame_id : Nat) :
    List (Int × Nat) :=
  (page_id, frame_id) :: erase page_table page_id

def FlushPgImp (m : BufferPoolManagerInstance D) (page_id : Int) :
    Bool × BufferPoolManagerInstance D :=
  match m.find page_id with
  | some frame_id =>
    if page_id ≠ INVALID_PAGE_ID then
      let frame := m.pages_ frame_id
      let disk := m.disk_manager_.WritePage frame.page_id_ frame.data_
      (true, { m with
        disk_manager_ := disk
        pages_ := upd m.pages_ frame_id { frame with is_dirty_ := false } })
    else (false, m)
  | none => (false, m)

/-- The loop that sets `all_pinned` in `NewPgImp` and `FetchPgImp`. -/
def all_pinned (m : BufferPoolManagerInstance D) : Bool :=
  (List.range m.pool_size_).all (fun i => !decide ((m.pages_ i).pin_count_ ≤ 0))

/-- The choice of the frame to reuse, shared by `NewPgImp` and `FetchPgImp`: the front of the
free list, else the replacer's victim. -/
def acquire (m : BufferPoolManagerInstance D) : Option Nat × BufferPoolManagerInstance D :=
  match m.free_list_ with
  | frame_id :: rest => (some frame_id, { m with free_list_ := rest })
  | [] =>
    let (vict, r) := m.replacer_.Victim
    (vict, { m with replacer_ := r })

def ValidatePageId (m : BufferPoolManagerInstance D) (page_id : Int) : Bool :=
  decide (page_id % (m.num_instances_ : Int) = (m.instance_index_ : Int))

def AllocatePage (m : BufferPoolManagerInstance D) :
    Except Fault (Int × BufferPoolManagerInstance D) :=
  let next_page_id := m.next_page_id_
  let m := { m with next_page_id_ := m.next_page_id_ + m.num_instances_ }
  if m.ValidatePageId next_page_id then .ok (next_page_id, m) else .error Fault.assertion

/-- `NewPgImp`: `none` is `nullptr`, `some (page_id, frame_id)` the id written to `*page_id`
and the index of the returned frame. -/
def NewPgImp [Inhabited D] (m : BufferPoolManagerInstance D) :
    Except Fault (Option (Int × Nat) × BufferPoolManagerInstance D) :=
  if m.all_pinned then .ok (none, m)
  else
    match m.acquire with
    | (none, m) => .ok (none, m)
    | (some frame_id, m) =>
      let frame := m.pages_ frame_id
      let m := { m with page_table_ := erase m.page_table_ frame.page_id_ }
      let (frame, m) :=
        if frame.is_dirty_ then
          ({ frame with is_dirty_ := false },
            { m with disk_manager_ := m.disk_manager_.WritePage frame.page_id_ frame.data_ })
        else (frame, m)
      match m.AllocatePage with
      | .error e => .error e
      | .ok (page_id, m) =>
        let frame := { frame with page_id_ := page_id }
        let frame := { frame with pin_count_ := frame.pin_count_ + 1 }
        let frame := { frame with data_ := default }
        let m := { m with
          pages_ := upd m.pages_ frame_id frame
          page_table_ := assign m.page_table_ page_id frame_id }
        let m := { m with replacer_ := m.replacer_.Pin frame_id }
        .ok (some (page_id, frame_id), m)

/-- `FetchPgImp`: `none` is `nullptr`, `some frame_id` the index of the returned frame. -/
def FetchPgImp (m : BufferPoolManagerInstance D) (page_id : Int) :
    Option Nat × BufferPoolManagerInstance D :=
  match m.find page_id with
  | some frame_id =>
    let frame := m.pages_ frame_id
    let frame := { frame with pin_count_ := frame.pin_count_ + 1 }
    let m := { m with pages_ := upd m.pages_ frame_id frame }
    let m := { m with replacer_ := m.replacer_.Pin frame_id }
    (some frame_id, m)
  | none =>
    if m.all_pinned then (none, m)
    else
      match m.acquire with
      | (none, m) => (none, m)
      | (some frame_id, m) =>
        let frame := m.pages_ frame_id
        let (frame, m) :=
          if frame.is_dirty_ then
            ({ frame with is_dirty_ := false },
              { m with disk_manager_ := m.disk_manager_.WritePage frame.page_id_ frame.data_ })
          else (frame, m)
        let m := { m with page_table_ := erase m.page_table_ frame.page_id_ }
        let m := { m with page_table_ := assign m.page_table_ page_id frame_id }
        let frame := { frame with page_id_ := page_id }
        let frame := { frame with pin_count_ := frame.pin_count_ + 1 }
        let (data, disk) := m.disk_manager_.ReadPage page_id
        let frame := { frame with data_ := data }
        let m := { m with disk_manager_ := disk, pages_ := upd m.pages_ frame_id frame }
        let m := { m with replacer_ := m.replacer_.Pin frame_id }
        (some frame_id, m)

def DeletePgImp [Inhabited D] (m : BufferPoolManagerInstance D) (page_id : Int) :
    Bool × BufferPoolManagerInstance D :=
  match m.find page_id with
  | none => (true, m)
  | some frame_id =>
    let frame := m.pages_ frame_id
    if frame.pin_count_ > 0 then (false, m)
    else
      let m :=
        if frame.is_dirty_ then
          { m with disk_manager_ := m.disk_manager_.WritePage page_id frame.data_ }
        else m
      let frame : Page D :=
        { page_id_ := INVALID_PAGE_ID, pin_count_ := 0, is_dirty_ := false, data_ := default }
      let m := { m with pages_ := upd m.pages_ frame_id frame }
      let m := { m with page_table_ := erase m.page_table_ page_id }
      let m := { m with free_list_ := m.free_list_ ++ [frame_id] }
      (true, m)

def UnpinPgImp (m : BufferPoolManagerInstance D) (page_id : Int) (is_dirty : Bool) :
    Bool × BufferPoolManagerInstance D :=
  match m.find page_id with
  | none => (true, m)
  | some frame_id =>
    let frame := m.pages_ frame_id
    let frame := { frame with is_dirty_ := frame.is_dirty_ || is_dirty }
    let m := { m with pages_ := upd m.pages_ frame_id frame }
    if frame.pin_count_ ≤ 0 then (false, m)
    else
      let frame := { frame with pin_count_ := frame.pin_count_ - 1 }
      let m := { m with pages_ := upd m.pages_ frame_id frame }
      if frame.pin_count_ = 0 then (true, { m with replacer_ := m.replacer_.Unpin frame_id })
      else (true, m)

end BufferPoolManagerInstance

/-! ## Invariants and reachable states of the buffer pool -/

namespace LRUReplacer

/-- The representation invariant of the replacer: no frame twice in the list, and the keys of
the map are the frames of the list. -/
structure WF (r : LRUReplacer) : Prop where
  nodup_lt : r.lt_.Nodup
  nodup_mp : r.mp_.Nodup
  mem_iff : ∀ f, f ∈ r.mp_ ↔ f ∈ r.lt_

end LRUReplacer

namespace BufferPoolManagerInstance

variable {D : Type}

/-- What holds of the pool in every state the public calls can produce. -/
structure Inv (m : BufferPoolManagerInstance D) : Prop where
  cap : m.replacer_.capacity_ = m.pool_size_
  wf : m.replacer_.WF
  lt_pin : ∀ f ∈ m.replacer_.lt_, f < m.pool_size_ ∧ (m.pages_ f).pin_count_ = 0
  free_pin : ∀ f ∈ m.free_list_, f < m.pool_size_ ∧ (m.pages_ f).pin_count_ = 0 ∧
    ∀ p, m.find p ≠ some f
  free_nodup : m.free_list_.Nodup
  pin_nonneg : ∀ f, f < m.pool_size_ → 0 ≤ (m.pages_ f).pin_count_
  unpinned : ∀ f, f < m.pool_size_ → (m.pages_ f).pin_count_ = 0 →
    f ∈ m.free_list_ ∨ f ∈ m.replacer_.lt_
  table_lt : ∀ p f, m.find p = some f → f < m.pool_size_
  table_id : ∀ p f, m.find p = some f → (m.pages_ f).page_id_ = p
  alloc : m.next_page_id_ % (m.num_instances_ : Int) = (m.instance_index_ : Int)

/-- The state after a successful `NewPgImp` that reuses frame `f` taken by `acquire`. -/
def afterNew [Inhabited D] (m m1 : BufferPoolManagerInstance D) (f : Nat) :
    BufferPoolManagerInstance D :=
  { m1 with
    pages_ := upd m.pages_ f
      { page_id_ := m.next_page_id_, pin_count_ := (m.pages_ f).pin_count_ + 1,
        is_dirty_ := false, data_ := default }
    page_table_ := assign (erase m.page_table_ (m.pages_ f).page_id_) m.next_page_id_ f
    replacer_ := m1.replacer_.Pin f
    disk_manager_ :=
      if (m.pages_ f).is_dirty_ then
        m.disk_manager_.WritePage (m.pages_ f).page_id_ (m.pages_ f).data_
      else m.disk_manager_
    next_page_id_ := m.next_page_id_ + m.num_instances_ }

/-- The state after a `FetchPgImp` of a non-resident page that reuses frame `f`. -/
def afterFetch (m m1 : BufferPoolManagerInstance D) (f : Nat) (page_id : Int) :
    BufferPoolManagerInstance D :=
  let disk :=
    if (m.pages_ f).is_dirty_ then
      m.disk_manager_.WritePage (m.pages_ f).page_id_ (m.pages_ f).data_
    else m.disk_manager_
  { m1 with
    pages_ := upd m.pages_ f
      { page_id_ := page_id, pin_count_ := (m.pages_ f).pin_count_ + 1,
        is_dirty_ := false, data_ := disk.blocks_ page_id }
    page_table_ := assign (erase m.page_table_ (m.pages_ f).page_id_) page_id f
    replacer_ := m1.replacer_.Pin f
    disk_manager_ := (disk.ReadPage page_id).2 }

/-- The calls a user of the pool can make; `Write` is the caller changing the bytes of the
frame it was handed. -/
inductive PoolCall (D : Type) where
  | NewPage
  | FetchPage (page_id : Int)
  | UnpinPage (page_id : Int) (is_dirty : Bool)
  | DeletePage (page_id : Int)
  | FlushPage (page_id : Int)
  | Write (frame_id : Nat) (data : D)

/-- One call: the frame handed out (for `NewPage` and `FetchPage`), the Boolean result (for the
others; for the first two, whether a frame was handed out) and the pool afterwards. -/
def call [Inhabited D] (m : BufferPoolManagerInstance D) :
    PoolCall D → Except Fault (Option Nat × Bool × BufferPoolManagerInstance D)
  | .NewPage =>
    match m.NewPgImp with
    | .error e => .error e
    | .ok (none, m) => .ok (none, false, m)
    | .ok (some (_, frame_id), m) => .ok (some frame_id, true, m)
  | .FetchPage page_id =>
    match m.FetchPgImp page_id with
    | (none, m) => .ok (none, false, m)
    | (some frame_id, m) => .ok (some frame_id, true, m)
  | .UnpinPage page_id is_dirty =>
    let (res, m) := m.UnpinPgImp page_id is_dirty
    .ok (none, res, m)
  | .DeletePage page_id =>
    let (res, m) := m.DeletePgImp page_id
    .ok (none, res, m)
  | .FlushPage page_id =>
    let (res, m) := m.FlushPgImp page_id
    .ok (none, res, m)
  | .Write frame_id data =>
    .ok (none, true, { m with pages_ := upd m.pages_ frame_id { m.pages_ frame_id with data_ := data } })

/-- The states reachable from a newly constructed pool by public calls. -/
inductive Reachable [Inhabited D] : BufferPoolManagerInstance D → Prop where
  | init {pool_size num_instances instance_index : Nat} {disk : DiskManager D}
      {m : BufferPoolManagerInstance D} :
      new pool_size num_instances instance_index disk = .ok m → Reachable m
  | step {m m' : BufferPoolManagerInstance D} (c : PoolCall D) {fr : Option Nat} {res : Bool} :
      Reachable m → m.call c = .ok (fr, res, m') → Reachable m'

/-- Whether the call hands out frame `f`. -/
def acquires [Inhabited D] (m : BufferPoolManagerInstance D) (c : PoolCall D) (f : Nat) : Bool :=
  match m.call c with
  | .ok (some g, _, _) => decide (g = f)
  | _ => false

/-- Whether the call is an `UnpinPage` that returns true for a page resident in frame `f`. -/
def releases [Inhabited D] (m : BufferPoolManagerInstance D) (c : PoolCall D) (f : Nat) : Bool :=
  match c with
  | .UnpinPage page_id is_dirty =>
    decide (m.find page_id = some f) && (m.UnpinPgImp page_id is_dirty).1
  | _ => false

/-- A sequence of calls: the pool afterwards, with the number of calls that handed out frame
`f` and the number of successful unpins of a page held by frame `f`. -/
def trace [Inhabited D] (f : Nat) :
    BufferPoolManagerInstance D → List (PoolCall D) →
      Except Fault (BufferPoolManagerInstance D × Nat × Nat)
  | m, [] => .ok (m, 0, 0)
  | m, c :: cs =>
    match m.call c with
    | .error e => .error e
    | .ok (_, _, m') =>
      match trace f m' cs with
      | .error e => .error e
      | .ok (m'', a, u) =>
        .ok (m'', a + (if m.acquires c f then 1 else 0), u + (if m.releases c f then 1 else 0))

/-- The number of frames with a positive pin count. -/
def pinned_frames (m : BufferPoolManagerInstance D) : Nat :=
  ((List.range m.pool_size_).filter (fun i => decide ((m.pages_ i).pin_count_ > 0))).length

/-- A pool of one frame over a disk of unit blocks, as the constructor leaves it. -/
def examplePool : BufferPoolManagerInstance Unit :=
  { pool_size_ := 1
    num_instances_ := 1
    instance_index_ := 0
    next_page_id_ := 0
    pages_ := fun _ => freshPage
    replacer_ := LRUReplacer.new 1
    free_list_ := [0]
    page_table_ := []
    disk_manager_ := { blocks_ := fun _ => (), calls_ := [] } }

/-- The pool `examplePool` after one `NewPage`: page 0 is pinned in frame 0. -/
def examplePoolOnePage : BufferPoolManagerInstance Unit :=
  afterNew examplePool { examplePool with free_list_ := [] } 0

/-- The pool `examplePoolOnePage` after `UnpinPage(0, false)` and `DeletePage(0)`. -/
def examplePoolDeleted : BufferPoolManagerInstance Unit :=
  ((examplePoolOnePage.UnpinPgImp 0 false).2.DeletePgImp 0).2

/-- The pool `examplePoolOnePage` after `UnpinPage(0, true)`: frame 0 is dirty and unpinned. -/
def examplePoolDirty : BufferPoolManagerInstance Unit :=
  (examplePoolOnePage.UnpinPgImp 0 true).2

end BufferPoolManagerInstance

/-! ## Invariants of bucket pages -/

namespace HashTableBucketPage

variable {K V : Type}

/-- Every byte of the `readable_` bitmap is a `char`. -/
def BytesOK (b : HashTableBucketPage K V) : Prop := ∀ j, b.readable_ j < 256

/-- The pair `e` is stored in a readable slot of the bucket. -/
def Holds (cap : Nat) (b : HashTableBucketPage K V) (e : K × V) : Prop :=
  ∃ i, i < cap ∧ b.IsReadable i = true ∧ b.array_ i = e

/-- No two readable slots of the bucket store the same pair. -/
def NoDup (cap : Nat) (b : HashTableBucketPage K V) : Prop :=
  ∀ i j, i < cap → j < cap → b.IsReadable i = true → b.IsReadable j = true →
    b.array_ i = b.array_ j → i = j

/-- The readable slots are the first `l.length` slots and hold the pairs of `l` in order. -/
def Packed (cap : Nat) (b : HashTableBucketPage K V) (l : List (K × V)) : Prop :=
  l.length ≤ cap ∧ BytesOK b ∧ (∀ i, b.IsReadable i = true ↔ i < l.length) ∧
    ∀ i, i < l.length → l[i]? = some (b.array_ i)

end HashTableBucketPage

end Bustub

namespace Bustub

namespace HashTableDirectoryPage

/-- The directory invariant of the spec: local depths are at most the global depth, slots that
agree on the low-order `local_depth` bits share bucket page and local depth, and only such
slots share a bucket page. -/
structure DirInv (d : HashTableDirectoryPage) : Prop where
  depth_le : ∀ s, s < 2 ^ d.global_depth_ → d.local_depths_ s ≤ d.global_depth_
  same : ∀ s r, s < 2 ^ d.global_depth_ → r < 2 ^ d.global_depth_ →
    r % 2 ^ d.local_depths_ s = s % 2 ^ d.local_depths_ s →
    d.bucket_page_ids_ r = d.bucket_page_ids_ s ∧ d.local_depths_ r = d.local_depths_ s
  inj : ∀ s r, s < 2 ^ d.global_depth_ → r < 2 ^ d.global_depth_ →
    d.bucket_page_ids_ r = d.bucket_page_ids_ s →
    r % 2 ^ d.local_depths_ s = s % 2 ^ d.local_depths_ s

end HashTableDirectoryPage

namespace ExtendibleHashTable

variable {K V : Type}

/-- The re-hash loop of `SplitInsert` over the copied pairs themselves. -/
def RehashEntries [DecidableEq V] (P : Params K) (dir_page : HashTableDirectoryPage)
    (split_bucket_idx : Nat) (split_page_id bro_page_id : Int) :
    List (K × V) → HashTableBucketPage K V × HashTableBucketPage K V →
      Except Fault (HashTableBucketPage K V × HashTableBucketPage K V)
  | [], acc => .ok acc
  | e :: rest, (split_bucket, bro_bucket) =>
    let target_index := Hash P e.1 &&& dir_page.GetLocalDepthMask split_bucket_idx
    let target_page_id := dir_page.GetBucketPageId target_index
    if target_page_id = split_page_id ∨ target_page_id = bro_page_id then
      if target_page_id = split_page_id then
        match split_bucket.Insert P.BUCKET_ARRAY_SIZE P.comparator_ e.1 e.2 with
        | (split_bucket, true) =>
          RehashEntries P dir_page split_bucket_idx split_page_id bro_page_id rest
            (split_bucket, bro_bucket)
        | (_, false) => .error Fault.assertion
      else
        match bro_bucket.Insert P.BUCKET_ARRAY_SIZE P.comparator_ e.1 e.2 with
        | (bro_bucket, true) =>
          RehashEntries P dir_page split_bucket_idx split_page_id bro_page_id rest
            (split_bucket, bro_bucket)
        | (_, false) => .error Fault.assertion
    else .error Fault.assertion

/-- The directory page of the table. -/
def dir (t : ExtendibleHashTable K V) : HashTableDirectoryPage :=
  t.dir_pages_ t.directory_page_id_

/-- The directory in `SplitInsert` after `IncrGlobalDepth` (if needed) and `IncrLocalDepth`. -/
def SplitDir0 (P : Params K) (d : HashTableDirectoryPage) (key : K) : HashTableDirectoryPage :=
  let split_bucket_idx := KeyToDirectoryIndex P key d
  let split_depth := d.GetLocalDepth split_bucket_idx
  let global_depth := d.GetGlobalDepth
  let dir_page := if split_depth = global_depth then d.IncrGlobalDepth else d
  dir_page.IncrLocalDepth split_bucket_idx

/-- The directory in `SplitInsert` when the re-hash loop starts: the split image points at the
new page. -/
def SplitDir (P : Params K) (d : HashTableDirectoryPage) (key : K) (bro_page_id : Int) :
    HashTableDirectoryPage :=
  let split_bucket_idx := KeyToDirectoryIndex P key d
  let dir_page := SplitDir0 P d key
  let bro_bucket_idx := dir_page.GetSplitImageIndex split_bucket_idx
  let dir_page := dir_page.SetBucketPageId bro_bucket_idx bro_page_id
  dir_page.SetLocalDepth bro_bucket_idx (dir_page.GetLocalDepth split_bucket_idx)

/-- The directory in `SplitInsert` after the two re-pointing loops. -/
def SplitDirFinal (P : Params K) (d : HashTableDirectoryPage) (key : K)
    (split_page_id bro_page_id : Int) : HashTableDirectoryPage :=
  let split_bucket_idx := KeyToDirectoryIndex P key d
  let split_depth := d.GetLocalDepth split_bucket_idx
  let bro_bucket_idx := (SplitDir0 P d key).GetSplitImageIndex split_bucket_idx
  let dir_page := SplitDir P d key bro_page_id
  let split_depth := split_depth + 1
  let interval := 1 <<< dir_page.GetLocalDepth split_bucket_idx
  let split_start := split_bucket_idx % interval
  let dir_page := SplitRepoint dir_page split_start interval split_page_id split_depth
  let bro_start := bro_bucket_idx % interval
  SplitRepoint dir_page bro_start interval bro_page_id split_depth

/-- The table after the split of `SplitInsert`, given the two buckets the re-hash loop ends
with. -/
def SplitResult [Inhabited K] [Inhabited V] (P : Params K) (t : ExtendibleHashTable K V)
    (key : K) (split_bucket bro_bucket : HashTableBucketPage K V) : ExtendibleHashTable K V :=
  let split_page_id := KeyToPageId P key (SplitDir0 P (dir t) key)
  let bro_page_id := t.next_page_id_
  { t with
    next_page_id_ := t.next_page_id_ + 1
    bucket_pages_ :=
      updI (updI (updI (updI t.bucket_pages_ split_page_id HashTableBucketPage.zero)
        bro_page_id HashTableBucketPage.zero) split_page_id split_bucket) bro_page_id bro_bucket
    dir_pages_ := updI (updI t.dir_pages_ bro_page_id HashTableDirectoryPage.zero)
      t.directory_page_id_ (SplitDirFinal P (dir t) key split_page_id bro_page_id) }

/-- What holds of the table once its directory page exists, in every state that `Insert`,
`Remove` and `GetValue` can produce. -/
structure Inv (P : Params K) (t : ExtendibleHashTable K V) : Prop where
  created : t.directory_page_id_ ≠ INVALID_PAGE_ID
  dir_lt : t.directory_page_id_ < t.next_page_id_
  dirInv : (dir t).DirInv
  gd_le : (dir t).global_depth_ ≤ P.MAX_BUCKET_DEPTH + 1
  fresh : ∀ s, s < 2 ^ (dir t).global_depth_ → (dir t).bucket_page_ids_ s < t.next_page_id_
  placed : ∀ s, s < 2 ^ (dir t).global_depth_ → ∀ e,
    HashTableBucketPage.Holds P.BUCKET_ARRAY_SIZE
      (t.bucket_pages_ ((dir t).bucket_page_ids_ s)) e →
    Hash P e.1 % 2 ^ (dir t).local_depths_ s = s % 2 ^ (dir t).local_depths_ s
  nodup : ∀ s, s < 2 ^ (dir t).global_depth_ →
    HashTableBucketPage.NoDup P.BUCKET_ARRAY_SIZE (t.bucket_pages_ ((dir t).bucket_page_ids_ s))
  bytes : ∀ s, s < 2 ^ (dir t).global_depth_ →
    HashTableBucketPage.BytesOK (t.bucket_pages_ ((dir t).bucket_page_ids_ s))

/-- The tables reachable from a newly constructed one by the public operations. -/
inductive Reachable [DecidableEq V] [Inhabited K] [Inhabited V] (P : Params K) :
    ExtendibleHashTable K V → Prop where
  | new : Reachable P ExtendibleHashTable.new
  | insert {t t' : ExtendibleHashTable K V} {key : K} {value : V} {res : Bool} :
      Reachable P t → insert P t key value = .ok (t', res) → Reachable P t'
  | remove {t t' : ExtendibleHashTable K V} {key : K} {value : V} {res : Bool} :
      Reachable P t → Remove P t key value = .ok (t', res) → Reachable P t'
  | getValue {t : ExtendibleHashTable K V} (key : K) (result : List V) :
      Reachable P t → Reachable P (GetValue P t key result).1

/-- The values `GetValue(key)` returns. -/
def values [Inhabited K] [Inhabited V] (P : Params K) (t : ExtendibleHashTable K V) (key : K) :
    List V :=
  (GetValue P t key []).2.2

/-- A run of `Insert` calls, one per pair, with the results of the calls; the first fault ends
the run. -/
def insertAll [DecidableEq V] [Inhabited K] [Inhabited V] (P : Params K) :
    ExtendibleHashTable K V → List (K × V) → Except Fault (ExtendibleHashTable K V × List Bool)
  | t, [] => .ok (t, [])
  | t, (key, value) :: rest =>
    match insert P t key value with
    | .error e => .error e
    | .ok (t, res) =>
      match insertAll P t rest with
      | .error e => .error e
      | .ok (t, results) => .ok (t, res :: results)

end ExtendibleHashTable

end Bustub

namespace Bustub

namespace ExtendibleHashTable

variable {K V : Type}

/-- The directory in `Merge` after its re-pointing loop, before the shrinking loop, when the
bucket of slot `delete_bucket_idx` is merged into its split image. -/
def MergeDir (d : HashTableDirectoryPage) (delete_bucket_idx : Nat) : HashTableDirectoryPage :=
  let bro_bucket_idx := d.GetSplitImageIndex delete_bucket_idx
  let delete_page_id := d.GetBucketPageId delete_bucket_idx
  let bro_page_id := d.GetBucketPageId bro_bucket_idx
  let delete_depth := d.GetLocalDepth delete_bucket_idx - 1
  let dir_page := d.DecrLocalDepth delete_bucket_idx
  let dir_page := dir_page.DecrLocalDepth bro_bucket_idx
  let dir_page := dir_page.SetBucketPageId delete_bucket_idx bro_page_id
  MergeRepoint dir_page delete_page_id bro_page_id delete_depth

/-- The table before its first split: the directory has global depth 0, the pool has handed
out the directory page and one bucket page, and that bucket holds the pairs of `l` in its
first slots. -/
structure Unsplit (P : Params K) (t : ExtendibleHashTable K V) (l : List (K × V)) : Prop where
  inv : Inv P t
  global_depth : (dir t).global_depth_ = 0
  local_depth : (dir t).local_depths_ 0 = 0
  next_page : t.next_page_id_ = 2
  bucket_page : (dir t).bucket_page_ids_ 0 = 1
  packed : HashTableBucketPage.Packed P.BUCKET_ARRAY_SIZE (t.bucket_pages_ 1) l

/-- What a run of `Insert` calls on a newly constructed table shows: the results of the calls
and, in the table they leave, the global depth, the local depth of the slot of `key`, the
page counter of the pool and the values `GetValue(key)` returns; the fault when a call stops
at an `assert`. -/
def observeInserts [DecidableEq V] [Inhabited K] [Inhabited V] (P : Params K)
    (pairs : List (K × V)) (key : K) : Fault ⊕ (List Bool × Nat × Nat × Int × List V) :=
  match insertAll P (new : ExtendibleHashTable K V) pairs with
  | .error e => .inl e
  | .ok (t, results) =>
    .inr (results, (dir t).global_depth_,
      (dir t).local_depths_ (KeyToDirectoryIndex P key (dir t)), t.next_page_id_,
      values P t key)

/-- A table of `Nat` keys and values with buckets of 8 slots, the identity as hash function
and the comparator of the integers. -/
def exampleParams : Params Nat :=
  { BUCKET_ARRAY_SIZE := 8
    MAX_BUCKET_DEPTH := 9
    GetHash := fun key => key
    comparator_ := fun a b => (a : Int) - (b : Int) }

/-- Nine values under the one key 5. -/
def sameKeyPairs : List (Nat × Nat) :=
  [(5, 0), (5, 1), (5, 2), (5, 3), (5, 4), (5, 5), (5, 6), (5, 7), (5, 8)]

/-- The keys 0 to 7, which fill the single bucket of a new table. -/
def fillPairs : List (Nat × Nat) :=
  [(0, 0), (1, 1), (2, 2), (3, 3), (4, 4), (5, 5), (6, 6), (7, 7)]

/-- Nine keys that are multiples of 4, which bring the global depth to 3 and leave the four
odd slots on one bucket of local depth 1, then eight odd keys, which fill that bucket. -/
def mixedPairs : List (Nat × Nat) :=
  [(0, 0), (4, 4), (8, 8), (12, 12), (16, 16), (20, 20), (24, 24), (28, 28), (32, 32),
    (1, 1), (3, 3), (9, 9), (11, 11), (17, 17), (19, 19), (25, 25), (27, 27)]

/-- Nine even keys. -/
def evenPairs : List (Nat × Nat) :=
  [(0, 0), (2, 2), (4, 4), (6, 6), (8, 8), (10, 10), (12, 12), (14, 14), (16, 16)]

/-- The table after `Insert(1, 1)` and `Insert(2, 2)` on a new one. -/
def exampleTable : ExtendibleHashTable Nat Nat :=
  match insertAll exampleParams new [(1, 1), (2, 2)] with
  | .ok (t, _) => t
  | .error _ => new

end ExtendibleHashTable

end Bustub

namespace Bustub

/-- The statement `const std::lock_guard<std::mutex> guardmutex(latch_)`; `held` tells whether
the calling thread holds `latch_` already. A `std::mutex` is not recursive: a thread that
locks it again waits for itself, and the call does not return. -/
def lock_guard (held : Bool) : Except Fault Unit :=
  if held then .error Fault.deadlock else .ok ()

namespace LRUReplacer

/-- The calls a user of the replacer can make. -/
inductive ReplacerCall where
  | Victim
  | Pin (frame_id : Nat)
  | Unpin (frame_id : Nat)

/-- One call: the frame `Victim` writes to `*frame_id` when it returns true (`none` for the
other calls and for a `Victim` that returns false), and the replacer afterwards. -/
def call (r : LRUReplacer) : ReplacerCall → Option Nat × LRUReplacer
  | .Victim => r.Victim
  | .Pin frame_id => (none, r.Pin frame_id)
  | .Unpin frame_id => (none, r.Unpin frame_id)

/-- A sequence of calls: the results of the calls in order, and the replacer afterwards. -/
def run : LRUReplacer → List ReplacerCall → List (Option Nat) × LRUReplacer
  | r, [] => ([], r)
  | r, c :: cs =>
    let (res, r) := r.call c
    let (results, r) := run r cs
    (res :: results, r)

/-- The replacers reachable from a newly constructed one by `Victim`, `Pin` and `Unpin`. -/
inductive Reachable : LRUReplacer → Prop where
  | init (num_pages : Nat) : Reachable (LRUReplacer.new num_pages)
  | step {r : LRUReplacer} (c : ReplacerCall) : Reachable r → Reachable (r.call c).2

/-- A replacer of capacity 2 after `Unpin(0)` and `Unpin(1)`. -/
def exampleReplacer : LRUReplacer := ((LRUReplacer.new 2).Unpin 0).Unpin 1

end LRUReplacer

namespace BufferPoolManagerInstance

variable {D : Type}

/-- The loop of `FlushAllPgsImp` over the entries of the page table still to visit. It runs
with `latch_` held, and `FlushPgImp`, which it calls for a dirty frame, starts with a
`lock_guard` on `latch_` of its own. -/
def FlushAllLoop : List (Int × Nat) → BufferPoolManagerInstance D →
    Except Fault (BufferPoolManagerInstance D)
  | [], m => .ok m
  | (page_id, frame_id) :: rest, m =>
    if (m.pages_ frame_id).is_dirty_ then
      match lock_guard true with
      | .error e => .error e
      | .ok _ =>
        let (_, m) := m.FlushPgImp page_id
        let frame := m.pages_ frame_id
        let m := { m with
          disk_manager_ := m.disk_manager_.WritePage frame.page_id_ frame.data_ }
        let m := { m with pages_ := upd m.pages_ frame_id { frame with is_dirty_ := false } }
        FlushAllLoop rest m
    else FlushAllLoop rest m

/-- `FlushAllPgsImp`, entered by a thread that does not hold `latch_`. -/
def FlushAllPgsImp (m : BufferPoolManagerInstance D) :
    Except Fault (BufferPoolManagerInstance D) :=
  match lock_guard false with
  | .error e => .error e
  | .ok _ => FlushAllLoop m.page_table_ m

/-- A sequence of calls: the page ids written to `*page_id` by the `NewPage` calls that hand
out a frame, in order, and the pool afterwards. -/
def newPageIds [Inhabited D] : BufferPoolManagerInstance D → List (PoolCall D) →
    Except Fault (List Int × BufferPoolManagerInstance D)
  | m, [] => .ok ([], m)
  | m, PoolCall.NewPage :: cs =>
    match m.NewPgImp with
    | .error e => .error e
    | .ok (none, m) => newPageIds m cs
    | .ok (some (page_id, _), m) =>
      match newPageIds m cs with
      | .error e => .error e
      | .ok (ids, m) => .ok (page_id :: ids, m)
  | m, c :: cs =>
    match m.call c with
    | .error e => .error e
    | .ok (_, _, m) => newPageIds m cs

/-- The pool `examplePool` after `FetchPage(0)` and `UnpinPage(0, false)`: frame 0 holds page 0,
which was never allocated by `NewPage`, and is a replacer candidate. -/
def examplePoolFetched : BufferPoolManagerInstance Unit :=
  ((examplePool.FetchPgImp 0).2.UnpinPgImp 0 false).2

/-- The pool `examplePoolFetched` after a `NewPage`, which reuses frame 0. -/
def examplePoolRenewed : BufferPoolManagerInstance Unit :=
  match examplePoolFetched.NewPgImp with
  | .ok (_, m) => m
  | .error _ => examplePoolFetched

end BufferPoolManagerInstance

end Bustub

namespace Bustub

namespace ExtendibleHashTable

variable {K V : Type}

/-- A run of `Remove` calls, one per pair, with the results of the calls; the first fault ends
the run. -/
def removeAll [DecidableEq V] [Inhabited K] [Inhabited V] (P : Params K) :
    ExtendibleHashTable K V → List (K × V) → Except Fault (ExtendibleHashTable K V × List Bool)
  | t, [] => .ok (t, [])
  | t, (key, value) :: rest =>
    match Remove P t key value with
    | .error e => .error e
    | .ok (t, res) =>
      match removeAll P t rest with
      | .error e => .error e
      | .ok (t, results) => .ok (t, res :: results)

/-- What the split of `SplitInsert` for `key` shows on the table that a run of `Insert` calls
on a new table leaves: `none` when the split is refused, else the global depth, the local
depth of the slot of `key`, the page counter of the pool and the values `GetValue(probe)`
returns after the split; the fault when a call stops at an `assert`. -/
def observeSplit [DecidableEq V] [Inhabited K] [Inhabited V] (P : Params K)
    (pairs : List (K × V)) (key probe : K) : Fault ⊕ Option (Nat × Nat × Int × List V) :=
  match insertAll P (new : ExtendibleHashTable K V) pairs with
  | .error e => .inl e
  | .ok (t, _) =>
    match Split P t key with
    | .error e => .inl e
    | .ok none => .inr none
    | .ok (some t) =>
      .inr (some ((dir t).global_depth_,
        (dir t).local_depths_ (KeyToDirectoryIndex P key (dir t)), t.next_page_id_,
        values P t probe))

/-- The split of `SplitInsert` for `key` on the table that a run of `Insert` calls on a new
table leaves, followed by the split that the `Insert` called by `SplitInsert` goes into when it
finds the bucket of `key` full: `none` when the first split is refused, `some false` when no
second split is carried out (the bucket is not full, or the split is refused), `some true`
when it is; the fault when a split stops at an `assert`. -/
def observeSplitTwice [DecidableEq V] [Inhabited K] [Inhabited V] (P : Params K)
    (pairs : List (K × V)) (key : K) : Fault ⊕ Option Bool :=
  match insertAll P (new : ExtendibleHashTable K V) pairs with
  | .error e => .inl e
  | .ok (t, _) =>
    match Split P t key with
    | .error e => .inl e
    | .ok none => .inr none
    | .ok (some t) =>
      if !(t.bucket_pages_ (KeyToPageId P key (dir t))).IsFull P.BUCKET_ARRAY_SIZE then
        .inr (some false)
      else
        match Split P t key with
        | .error e => .inl e
        | .ok none => .inr (some false)
        | .ok (some _) => .inr (some true)

/-- Eight keys that agree on the low 9 bits of their hash, then the key 256, which differs
from them in bit 8: the ninth `Insert` splits up to local depth 9 and leaves the eight keys
in one full bucket of local depth 9. -/
def deepPairs : List (Nat × Nat) :=
  [(0, 0), (512, 512), (1024, 1024), (1536, 1536), (2048, 2048), (2560, 2560), (3072, 3072),
    (3584, 3584), (256, 256)]

/-- The table after the nine `Insert` calls of `evenPairs` and `Remove` of the keys 2, 6, 10
and 14: global depth 1, slot 0 on a bucket that holds five pairs, slot 1 on an empty bucket,
both of local depth 1. -/
def mergeableTable : ExtendibleHashTable Nat Nat :=
  match insertAll exampleParams new evenPairs with
  | .error _ => new
  | .ok (t, _) =>
    match removeAll exampleParams t [(2, 2), (6, 6), (10, 10), (14, 14)] with
    | .error _ => new
    | .ok (t, _) => t

end ExtendibleHashTable

end Bustub

namespace Bustub

namespace HashTableBucketPage

variable {K V : Type}

/-- The bucket pages that `Insert`, `Remove`, `RemoveAt` and `Reset` produce from a zero-filled
page. -/
inductive Reachable [DecidableEq V] [Inhabited K] [Inhabited V] (BUCKET_ARRAY_SIZE : Nat)
    (cmp : K → K → Int) : HashTableBucketPage K V → Prop where
  | zero : Reachable BUCKET_ARRAY_SIZE cmp HashTableBucketPage.zero
  | insert {b : HashTableBucketPage K V} (key : K) (value : V) :
      Reachable BUCKET_ARRAY_SIZE cmp b →
      Reachable BUCKET_ARRAY_SIZE cmp (b.Insert BUCKET_ARRAY_SIZE cmp key value).1
  | remove {b : HashTableBucketPage K V} (key : K) (value : V) :
      Reachable BUCKET_ARRAY_SIZE cmp b →
      Reachable BUCKET_ARRAY_SIZE cmp (b.Remove BUCKET_ARRAY_SIZE cmp key value).1
  | removeAt {b : HashTableBucketPage K V} (bucket_idx : Nat) :
      Reachable BUCKET_ARRAY_SIZE cmp b → Reachable BUCKET_ARRAY_SIZE cmp (b.RemoveAt bucket_idx)
  | reset {b : HashTableBucketPage K V} :
      Reachable BUCKET_ARRAY_SIZE cmp b → Reachable BUCKET_ARRAY_SIZE cmp b.Reset

/-- What the bitmaps of a bucket page satisfy: a readable slot is occupied, and no bit of a
slot at or above the capacity is set. -/
def BitsOK (cap : Nat) (b : HashTableBucketPage K V) : Prop :=
  (∀ i, b.IsReadable i = true → b.IsOccupied i = true) ∧
  ∀ i, cap ≤ i → b.IsReadable i = false ∧ b.IsOccupied i = false

/-- A run of bucket-page `Insert` calls, one per pair, on a bucket of the given capacity. -/
def insertPairs [DecidableEq V] (BUCKET_ARRAY_SIZE : Nat) (cmp : K → K → Int) :
    HashTableBucketPage K V → List (K × V) → HashTableBucketPage K V
  | b, [] => b
  | b, (key, value) :: rest =>
    insertPairs BUCKET_ARRAY_SIZE cmp (b.Insert BUCKET_ARRAY_SIZE cmp key value).1 rest

end HashTableBucketPage

namespace ExtendibleHashTable

/-- The table of `exampleParams` with buckets of 4 slots, a capacity that is not a multiple
of 8. -/
def smallParams : Params Nat :=
  { exampleParams with BUCKET_ARRAY_SIZE := 4 }

/-- The keys 0 to 3, which fill a bucket of 4 slots. -/
def fourPairs : List (Nat × Nat) := [(0, 0), (1, 1), (2, 2), (3, 3)]

end ExtendibleHashTable

end Bustub

namespace Bustub

/-- The replacer with the nodes of `std::list<frame_id_t> lt_` made explicit: a node is the
address where it was allocated with the frame it stores (front first), and `mp_` maps a frame
to the address of a node, as the iterator `std::prev(lt_.end())` stored by `Unpin` does;
`next_node_` is the address the next `push_back` allocates. -/
structure LRUNodes where
  capacity_ : Nat
  lt_ : List (Nat × Nat)
  mp_ : List (Nat × Nat)
  next_node_ : Nat
  deriving DecidableEq, Repr

namespace LRUNodes

/-- The constructor `LRUReplacer(num_pages)`. -/
def new (num_pages : Nat) : LRUNodes :=
  { capacity_ := num_pages, lt_ := [], mp_ := [], next_node_ := 0 }

/-- `Victim`: the frame written to `*frame_id` when the call returns true. In the last branch
the front node has been popped, the frame is not a key of the map, and the call returns
false. -/
def Victim (r : LRUNodes) : Option Nat × LRUNodes :=
  match r.lt_ with
  | [] => (none, r)
  | (_, frame_id) :: rest =>
    let r := { r with lt_ := rest }
    match r.mp_.lookup frame_id with
    | some _ => (some frame_id, { r with mp_ := r.mp_.filter (fun e => decide (e.1 ≠ frame_id)) })
    | none => (none, r)

/-- `Pin`: `lt_.erase(it->second)` unlinks the node at the address the iterator holds. -/
def Pin (r : LRUNodes) (frame_id : Nat) : LRUNodes :=
  match r.mp_.lookup frame_id with
  | some node =>
    { r with
      lt_ := r.lt_.filter (fun e => decide (e.1 ≠ node))
      mp_ := r.mp_.filter (fun e => decide (e.1 ≠ frame_id)) }
  | none => r

def Unpin (r : LRUNodes) (frame_id : Nat) : LRUNodes :=
  if r.lt_.length ≥ r.capacity_ then r
  else
    match r.mp_.lookup frame_id with
    | none =>
      { r with
        lt_ := r.lt_ ++ [(r.next_node_, frame_id)]
        mp_ := (frame_id, r.next_node_) :: r.mp_
        next_node_ := r.next_node_ + 1 }
    | some _ => r

def Size (r : LRUNodes) : Nat := r.lt_.length

/-- One call of the replacer on the representation with nodes. -/
def call (r : LRUNodes) : LRUReplacer.ReplacerCall → Option Nat × LRUNodes
  | .Victim => r.Victim
  | .Pin frame_id => (none, r.Pin frame_id)
  | .Unpin frame_id => (none, r.Unpin frame_id)

/-- The replacers reachable from a newly constructed one by `Victim`, `Pin` and `Unpin`. -/
inductive Reachable : LRUNodes → Prop where
  | init (num_pages : Nat) : Reachable (LRUNodes.new num_pages)
  | step {r : LRUNodes} (c : LRUReplacer.ReplacerCall) : Reachable r → Reachable (r.call c).2

/-- The representation invariant: no address and no frame twice in the list, every address
was allocated, the map has one entry per key, its entries are the nodes of the list (each
frame mapped to the address of the node that stores it), and the size is within the
capacity. -/
structure RepInv (r : LRUNodes) : Prop where
  nodup_frames : (r.lt_.map Prod.snd).Nodup
  nodup_nodes : (r.lt_.map Prod.fst).Nodup
  nodup_keys : (r.mp_.map Prod.fst).Nodup
  allocated : ∀ e, e ∈ r.lt_ → e.1 < r.next_node_
  entries : ∀ f a, (f, a) ∈ r.mp_ ↔ (a, f) ∈ r.lt_
  size_le : r.lt_.length ≤ r.capacity_

/-- The replacer without the node addresses: the frames of the list and the keys of the
map. -/
def toLRUReplacer (r : LRUNodes) : LRUReplacer :=
  { capacity_ := r.capacity_, lt_ := r.lt_.map Prod.snd, mp_ := r.mp_.map Prod.fst }

/-- A replacer of capacity 2 after `Unpin(0)`, `Unpin(1)` and `Pin(0)`. -/
def exampleNodes : LRUNodes := (((LRUNodes.new 2).Unpin 0).Unpin 1).Pin 0

end LRUNodes

end Bustub

namespace Bustub

namespace BufferPoolManagerInstance

variable {D : Type}

/-- Whether the call, if it is a `FetchPage`, asks for a page id that `NewPage` has handed
out before: an id other than `INVALID_PAGE_ID` below the allocation counter. -/
def fetchesAllocated (m : BufferPoolManagerInstance D) : PoolCall D → Bool
  | .FetchPage page_id => decide (page_id ≠ INVALID_PAGE_ID) && decide (page_id < m.next_page_id_)
  | _ => true

/-- The states reachable from a newly constructed pool by public calls whose `FetchPage` calls
ask for allocated page ids only. -/
inductive ReachableAllocated [Inhabited D] : BufferPoolManagerInstance D → Prop where
  | init {pool_size num_instances instance_index : Nat} {disk : DiskManager D}
      {m : BufferPoolManagerInstance D} :
      new pool_size num_instances instance_index disk = .ok m → ReachableAllocated m
  | step {m m' : BufferPoolManagerInstance D} (c : PoolCall D) {fr : Option Nat} {res : Bool} :
      ReachableAllocated m → m.fetchesAllocated c = true → m.call c = .ok (fr, res, m') →
      ReachableAllocated m'

/-- A sequence of calls: the pool afterwards. -/
def runCalls [Inhabited D] :
    BufferPoolManagerInstance D → List (PoolCall D) → Except Fault (BufferPoolManagerInstance D)
  | m, [] => .ok m
  | m, c :: cs =>
    match m.call c with
    | .error e => .error e
    | .ok (_, _, m') => runCalls m' cs

/-- The bytes that `FetchPage(page_id)` hands out: those of the returned frame, `none` when
no frame is returned. -/
def fetchedData (m : BufferPoolManagerInstance D) (page_id : Int) : Option D :=
  match m.FetchPgImp page_id with
  | (some frame_id, m') => some (m'.pages_ frame_id).data_
  | (none, _) => none

/-- What holds of the pool when `FetchPage` is only asked for allocated ids, besides `Inv`:
the allocation counter moves, no frame carries a page id at or above it, and a frame that
carries a valid page id is the frame the page table gives for that id. -/
structure Sane (m : BufferPoolManagerInstance D) : Prop where
  inv : Inv m
  instances : 0 < m.num_instances_
  next_nonneg : 0 ≤ m.next_page_id_
  below : ∀ f, (m.pages_ f).page_id_ < m.next_page_id_
  owner : ∀ f q, (m.pages_ f).page_id_ = q → q ≠ INVALID_PAGE_ID → m.find q = some f

/-- The pin count of a page: that of the frame that holds it, 0 when it is not resident. -/
def pinOf (m : BufferPoolManagerInstance D) (page_id : Int) : Int :=
  match m.find page_id with
  | some frame_id => (m.pages_ frame_id).pin_count_
  | none => 0

/-- A pool of `pool_size` frames over a disk whose blocks are numbers, all 0, as the
constructor leaves it (one instance). -/
def natPool (pool_size : Nat) : BufferPoolManagerInstance Nat :=
  { pool_size_ := pool_size
    num_instances_ := 1
    instance_index_ := 0
    next_page_id_ := 0
    pages_ := fun _ => freshPage
    replacer_ := LRUReplacer.new pool_size
    free_list_ := List.range pool_size
    page_table_ := []
    disk_manager_ := { blocks_ := fun _ => 0, calls_ := [] } }

/-- What a run of calls on `natPool pool_size` followed by `FetchPage(page_id)` shows: before
the fetch, the frame of the page with its bytes and dirty flag (if resident); and the bytes
the fetch hands out. -/
def observeFetch (pool_size : Nat) (cs : List (PoolCall Nat)) (page_id : Int) :
    Fault ⊕ (Option (Nat × Nat × Bool) × Option Nat) :=
  match runCalls (natPool pool_size) cs with
  | .error e => .inl e
  | .ok m =>
    .inr ((m.find page_id).map (fun f => (f, (m.pages_ f).data_, (m.pages_ f).is_dirty_)),
      m.fetchedData page_id)

end BufferPoolManagerInstance

end Bustub

namespace Bustub

namespace BufferPoolManagerInstance

/-- The pool `natPool 1` after `NewPage` (page 0 in frame 0), a write of the bytes 7 to frame
0 and `UnpinPage(0, true)`. -/
def natPoolWritten : BufferPoolManagerInstance Nat :=
  match runCalls (natPool 1) [.NewPage, .Write 0 7, .UnpinPage 0 true] with
  | .ok m => m
  | .error _ => natPool 1

end BufferPoolManagerInstance

end Bustub

namespace Bustub

namespace BufferPoolManagerInstance

variable {D : Type}

/-- What the hash table requires of the result of a call: `NewPage` and `FetchPage` hand out
a frame (`assert(raw_page != nullptr)`; the pool has enough frames), `UnpinPage` and
`DeletePage` return true (`assert(buffer_pool_manager_->UnpinPage(..))`). -/
def passes : PoolCall D → Option Nat → Bool → Bool
  | .NewPage, fr, _ => fr.isSome
  | .FetchPage _, fr, _ => fr.isSome
  | .UnpinPage _ _, _, res => res
  | .DeletePage _, _, res => res
  | _, _, _ => true

/-- A sequence of calls as the hash table makes them: the first call whose result is not the
required one ends the run. -/
def runAsserted [Inhabited D] :
    BufferPoolManagerInstance D → List (PoolCall D) → Except Fault (BufferPoolManagerInstance D)
  | m, [] => .ok m
  | m, c :: cs =>
    match m.call c with
    | .error e => .error e
    | .ok (fr, res, m') => if passes c fr res then runAsserted m' cs else .error Fault.assertion

/-- Whether the call hands out a frame that holds page `page_id`: a `FetchPage(page_id)` or a
`NewPage` with this new id that returns a frame. -/
def handsOut [Inhabited D] (m : BufferPoolManagerInstance D) (c : PoolCall D) (page_id : Int) :
    Bool :=
  match c with
  | .NewPage =>
    match m.NewPgImp with
    | .ok (some (new_id, _), _) => decide (new_id = page_id)
    | _ => false
  | .FetchPage q => decide (q = page_id) && (m.FetchPgImp q).1.isSome
  | _ => false

/-- Whether the call is an `UnpinPage(page_id, _)` that finds the page resident and returns
true. -/
def unpinsPage (m : BufferPoolManagerInstance D) (c : PoolCall D) (page_id : Int) : Bool :=
  match c with
  | .UnpinPage q is_dirty =>
    decide (q = page_id) && (m.find q).isSome && (m.UnpinPgImp q is_dirty).1
  | _ => false

/-- The number of calls of the sequence that hand out a frame holding page `page_id`. -/
def acquisitions [Inhabited D] (page_id : Int) :
    BufferPoolManagerInstance D → List (PoolCall D) → Nat
  | _, [] => 0
  | m, c :: cs =>
    (if m.handsOut c page_id then 1 else 0) +
      match m.call c with
      | .ok (_, _, m') => acquisitions page_id m' cs
      | .error _ => 0

/-- The number of successful unpins of the resident page `page_id` in the sequence. -/
def unpins [Inhabited D] (page_id : Int) :
    BufferPoolManagerInstance D → List (PoolCall D) → Nat
  | _, [] => 0
  | m, c :: cs =>
    (if m.unpinsPage c page_id then 1 else 0) +
      match m.call c with
      | .ok (_, _, m') => unpins page_id m' cs
      | .error _ => 0

/-- The number of pins on page `page_id` that the caller of the sequence holds at its end,
having held `held` at its start, when each `NewPage` and `FetchPage` hands out a frame and
the allocation counter of the pool (of one instance) starts at `next`; `none` when a
`FetchPage` asks for an id that is not allocated, or an `UnpinPage(page_id)` comes while the
caller holds no pin on the page. -/
def pinsHeld (page_id : Int) : Int → List (PoolCall D) → Nat → Option Nat
  | _, [], held => some held
  | next, .NewPage :: cs, held =>
    pinsHeld page_id (next + 1) cs (if next = page_id then held + 1 else held)
  | next, .FetchPage q :: cs, held =>
    if q ≠ INVALID_PAGE_ID ∧ q < next then
      pinsHeld page_id next cs (if q = page_id then held + 1 else held)
    else none
  | next, .UnpinPage q _ :: cs, held =>
    if q = page_id then
      if held = 0 then none else pinsHeld page_id next cs (held - 1)
    else pinsHeld page_id next cs held
  | next, _ :: cs, held => pinsHeld page_id next cs held

/-- The number of `NewPage` calls in the sequence. -/
def newPages : List (PoolCall D) → Nat
  | [] => 0
  | .NewPage :: cs => newPages cs + 1
  | _ :: cs => newPages cs

end BufferPoolManagerInstance

end Bustub

namespace Bustub

namespace ExtendibleHashTable

open BufferPoolManagerInstance

variable {K V : Type}

/-- The calls `FetchDirectoryPage` makes to the buffer pool manager: on first use `NewPage`
for the directory page, `NewPage` for the first bucket page and the two `UnpinPage(.., true)`;
then, always, `FetchPage(directory_page_id_)`, whose page the caller has to unpin. -/
def FetchDirectoryPageCalls (D : Type) [Inhabited K] [Inhabited V]
    (t : ExtendibleHashTable K V) : List (PoolCall D) :=
  let t1 := t.FetchDirectoryPage
  (if t.directory_page_id_ = INVALID_PAGE_ID then
    [.NewPage, .NewPage, .UnpinPage t1.directory_page_id_ true,
      .UnpinPage ((t1.dir_pages_ t1.directory_page_id_).GetBucketPageId 0) true]
  else []) ++ [.FetchPage t1.directory_page_id_]

/-- The calls `GetValue` makes to the buffer pool manager. -/
def GetValueCalls (D : Type) [Inhabited K] [Inhabited V] (P : Params K)
    (t : ExtendibleHashTable K V) (key : K) : List (PoolCall D) :=
  let calls := FetchDirectoryPageCalls D t
  let t := t.FetchDirectoryPage
  let dir_page := t.dir_pages_ t.directory_page_id_
  let page_id := KeyToPageId P key dir_page
  calls ++ [.FetchPage page_id, .UnpinPage page_id false, .UnpinPage dir_page.GetPageId false]

mutual

/-- The calls `Insert` makes to the buffer pool manager, those of `SplitInsert` included. -/
def InsertCalls (D : Type) [DecidableEq V] [Inhabited K] [Inhabited V] (P : Params K) :
    Nat → ExtendibleHashTable K V → K → V → List (PoolCall D)
  | 0, _, _, _ => []
  | fuel + 1, t, key, value =>
    let calls := FetchDirectoryPageCalls D t
    let t := t.FetchDirectoryPage
    let dir_page := t.dir_pages_ t.directory_page_id_
    let page_id := KeyToPageId P key dir_page
    let buc_page := t.bucket_pages_ page_id
    if !buc_page.IsFull P.BUCKET_ARRAY_SIZE then
      calls ++ [.FetchPage page_id, .UnpinPage page_id true, .UnpinPage dir_page.GetPageId false]
    else
      calls ++ [.FetchPage page_id, .UnpinPage page_id false,
        .UnpinPage dir_page.GetPageId false] ++ SplitInsertCalls D P fuel t key value

/-- The calls `SplitInsert` makes to the buffer pool manager, those of the `Insert` it ends
with included; when an `assert` of the re-hash loop fails, the calls made until then. -/
def SplitInsertCalls (D : Type) [DecidableEq V] [Inhabited K] [Inhabited V] (P : Params K) :
    Nat → ExtendibleHashTable K V → K → V → List (PoolCall D)
  | fuel, t, key, value =>
    let calls := FetchDirectoryPageCalls D t
    let t0 := t.FetchDirectoryPage
    let dir_page := t0.dir_pages_ t0.directory_page_id_
    let split_bucket_idx := KeyToDirectoryIndex P key dir_page
    let split_depth := dir_page.GetLocalDepth split_bucket_idx
    if split_depth > P.MAX_BUCKET_DEPTH then calls ++ [.UnpinPage dir_page.GetPageId false]
    else
      let global_depth := dir_page.GetGlobalDepth
      let dir_page := if split_depth = global_depth then dir_page.IncrGlobalDepth else dir_page
      let dir_page := dir_page.IncrLocalDepth split_bucket_idx
      let split_page_id := KeyToPageId P key dir_page
      let bro_page_id := t0.NewPage.1
      match Split P t key with
      | .ok (some t1) =>
        calls ++ [.FetchPage split_page_id, .NewPage, .UnpinPage split_page_id true,
          .UnpinPage bro_page_id true,
          .UnpinPage (t1.dir_pages_ t1.directory_page_id_).GetPageId true] ++
          InsertCalls D P fuel t1 key value
      | _ => calls ++ [.FetchPage split_page_id, .NewPage]

end

/-- The calls `Merge` makes to the buffer pool manager. -/
def MergeCalls (D : Type) [Inhabited K] [Inhabited V] (P : Params K)
    (t : ExtendibleHashTable K V) (key : K) : List (PoolCall D) :=
  let calls := FetchDirectoryPageCalls D t
  let t := t.FetchDirectoryPage
  let dir_page := t.dir_pages_ t.directory_page_id_
  let delete_page_id := KeyToPageId P key dir_page
  let delete_bucket_idx := KeyToDirectoryIndex P key dir_page
  let bro_bucket_idx := dir_page.GetSplitImageIndex delete_bucket_idx
  let delete_depth := dir_page.GetLocalDepth delete_bucket_idx
  if delete_depth = 0 then calls ++ [.UnpinPage dir_page.GetPageId false]
  else
    let bro_depth := dir_page.GetLocalDepth bro_bucket_idx
    if delete_depth ≠ bro_depth then calls ++ [.UnpinPage dir_page.GetPageId false]
    else
      let delete_bucket := t.bucket_pages_ delete_page_id
      if !delete_bucket.IsEmpty P.BUCKET_ARRAY_SIZE then
        calls ++ [.FetchPage delete_page_id, .UnpinPage delete_page_id false,
          .UnpinPage dir_page.GetPageId false]
      else
        calls ++ [.FetchPage delete_page_id, .UnpinPage delete_page_id false,
          .DeletePage delete_page_id, .UnpinPage dir_page.GetPageId false]

/-- The calls `Remove` makes to the buffer pool manager, those of `Merge` included. -/
def RemoveCalls (D : Type) [DecidableEq V] [Inhabited K] [Inhabited V] (P : Params K)
    (t : ExtendibleHashTable K V) (key : K) (value : V) : List (PoolCall D) :=
  let calls := FetchDirectoryPageCalls D t
  let t := t.FetchDirectoryPage
  let dir_page := t.dir_pages_ t.directory_page_id_
  let bucket_page_id := KeyToPageId P key dir_page
  let bucket_page := t.bucket_pages_ bucket_page_id
  let (bucket_page, _) := bucket_page.Remove P.BUCKET_ARRAY_SIZE P.comparator_ key value
  let t := { t with bucket_pages_ := updI t.bucket_pages_ bucket_page_id bucket_page }
  let calls := calls ++ [.FetchPage bucket_page_id, .UnpinPage bucket_page_id true,
    .UnpinPage dir_page.GetPageId false]
  if bucket_page.IsEmpty P.BUCKET_ARRAY_SIZE then calls ++ MergeCalls D P t key else calls

/-- The calls of the public `Insert`. -/
def insertCalls (D : Type) [DecidableEq V] [Inhabited K] [Inhabited V] (P : Params K)
    (t : ExtendibleHashTable K V) (key : K) (value : V) : List (PoolCall D) :=
  InsertCalls D P (P.MAX_BUCKET_DEPTH + 2) t key value

/-- The page ids the table holds are ids the pool has handed out: none is negative, and the
directory page carries its own id. -/
structure Alloc (t : ExtendibleHashTable K V) : Prop where
  dir_nonneg : 0 ≤ t.directory_page_id_
  page_id : (dir t).page_id_ = t.directory_page_id_
  nonneg : ∀ s, s < 2 ^ (dir t).global_depth_ → 0 ≤ (dir t).bucket_page_ids_ s

end ExtendibleHashTable

end Bustub

namespace Bustub

namespace BufferPoolManagerInstance

/-- The page ids and flags of the `UnpinPage` calls of a sequence. -/
def unpinFlags {D : Type} : List (PoolCall D) → List (Int × Bool)
  | [] => []
  | .UnpinPage page_id is_dirty :: cs => (page_id, is_dirty) :: unpinFlags cs
  | _ :: cs => unpinFlags cs

end BufferPoolManagerInstance

namespace ExtendibleHashTable

open BufferPoolManagerInstance

/-- What `Remove(key, value)` shows: its result, the global depth and the bucket page of slot
1 before and after the call, and the `UnpinPage` calls it makes. -/
def observeRemove {K V : Type} [DecidableEq V] [Inhabited K] [Inhabited V] (P : Params K)
    (t : ExtendibleHashTable K V) (key : K) (value : V) :
    Fault ⊕ (Bool × (Nat × Int) × (Nat × Int) × List (Int × Bool)) :=
  match Remove P t key value with
  | .error e => .inl e
  | .ok (t', res) =>
    .inr (res,
      ((dir t.FetchDirectoryPage).global_depth_, (dir t.FetchDirectoryPage).bucket_page_ids_ 1),
      ((dir t').global_depth_, (dir t').bucket_page_ids_ 1),
      unpinFlags (RemoveCalls Unit P t key value))

end ExtendibleHashTable

end Bustub

namespace Bustub

/-! ## The hash table on the buffer pool manager -/

/-- The bytes of a page as the hash table reads them: the `reinterpret_cast` of `GetData()`
to a directory page or to a bucket page. -/
structure TablePage (K V : Type) where
  directory_ : HashTableDirectoryPage
  bucket_ : HashTableBucketPage K V

/-- The zero-filled page that `NewPage` hands out. -/
instance TablePage.instInhabited {K V : Type} [Inhabited K] [Inhabited V] :
    Inhabited (TablePage K V) :=
  ⟨{ directory_ := HashTableDirectoryPage.zero, bucket_ := HashTableBucketPage.zero }⟩

namespace OnPool

/-- The hash table with the buffer pool manager it was constructed with: every page is
reached through `NewPage` and `FetchPage` of the pool, which the table shares with the other
users of the pool, and read and written in the frame that was handed out. -/
structure ExtendibleHashTable (K V : Type) where
  directory_page_id_ : Int
  buffer_pool_manager_ : BufferPoolManagerInstance (TablePage K V)

namespace ExtendibleHashTable

open Bustub.ExtendibleHashTable (KeyToDirectoryIndex KeyToPageId SplitRehashLoop SplitRepoint
  MergeRepoint ShrinkLoop)

variable {K V : Type}

/-- The constructor, on the pool `buffer_pool_manager`. -/
def new (buffer_pool_manager : BufferPoolManagerInstance (TablePage K V)) :
    ExtendibleHashTable K V :=
  { directory_page_id_ := INVALID_PAGE_ID, buffer_pool_manager_ := buffer_pool_manager }

/-- The directory page behind the pointer into frame `frame_id`. -/
def directory (t : ExtendibleHashTable K V) (frame_id : Nat) : HashTableDirectoryPage :=
  (t.buffer_pool_manager_.pages_ frame_id).data_.directory_

/-- The bucket page behind the pointer into frame `frame_id`. -/
def bucket (t : ExtendibleHashTable K V) (frame_id : Nat) : HashTableBucketPage K V :=
  (t.buffer_pool_manager_.pages_ frame_id).data_.bucket_

/-- A write to the directory page behind the pointer into frame `frame_id`. -/
def writeDirectory (t : ExtendibleHashTable K V) (frame_id : Nat)
    (dir_page : HashTableDirectoryPage) : ExtendibleHashTable K V :=
  let m := t.buffer_pool_manager_
  let frame := m.pages_ frame_id
  { t with buffer_pool_manager_ := { m with
      pages_ := upd m.pages_ frame_id
        { frame with data_ := { frame.data_ with directory_ := dir_page } } } }

/-- A write to the bucket page behind the pointer into frame `frame_id`. -/
def writeBucket (t : ExtendibleHashTable K V) (frame_id : Nat)
    (bucket_page : HashTableBucketPage K V) : ExtendibleHashTable K V :=
  let m := t.buffer_pool_manager_
  let frame := m.pages_ frame_id
  { t with buffer_pool_manager_ := { m with
      pages_ := upd m.pages_ frame_id
        { frame with data_ := { frame.data_ with bucket_ := bucket_page } } } }

/-- The statement `assert(buffer_pool_manager_->UnpinPage(page_id, is_dirty))`. -/
def assertUnpinPage (t : ExtendibleHashTable K V) (page_id : Int) (is_dirty : Bool) :
    Except Fault (ExtendibleHashTable K V) :=
  match t.buffer_pool_manager_.UnpinPgImp page_id is_dirty with
  | (true, m) => .ok { t with buffer_pool_manager_ := m }
  | (false, _) => .error Fault.assertion

/-- `FetchDirectoryPage`: the frame of the returned directory page, which is pinned. -/
def FetchDirectoryPage [Inhabited K] [Inhabited V] (t : ExtendibleHashTable K V) :
    Except Fault (Nat × ExtendibleHashTable K V) :=
  let created : Except Fault (ExtendibleHashTable K V) :=
    if t.directory_page_id_ = INVALID_PAGE_ID then
      match t.buffer_pool_manager_.NewPgImp with
      | .error e => .error e
      | .ok (none, _) => .error Fault.assertion
      | .ok (some (page_id, frame_id), m) =>
        let t : ExtendibleHashTable K V :=
          { directory_page_id_ := page_id, buffer_pool_manager_ := m }
        let t := t.writeDirectory frame_id
          ((t.directory frame_id).SetPageId t.directory_page_id_)
        match t.buffer_pool_manager_.NewPgImp with
        | .error e => .error e
        | .ok (none, _) => .error Fault.assertion
        | .ok (some (page_id, _), m) =>
          let t := { t with buffer_pool_manager_ := m }
          let t := t.writeDirectory frame_id
            ((t.directory frame_id).SetBucketPageId 0 page_id)
          match t.assertUnpinPage t.directory_page_id_ true with
          | .error e => .error e
          | .ok t => t.assertUnpinPage page_id true
    else .ok t
  match created with
  | .error e => .error e
  | .ok t =>
    if t.directory_page_id_ ≠ INVALID_PAGE_ID then
      match t.buffer_pool_manager_.FetchPgImp t.directory_page_id_ with
      | (none, _) => .error Fault.assertion
      | (some frame_id, m) => .ok (frame_id, { t with buffer_pool_manager_ := m })
    else .error Fault.assertion

/-- `GetValue`; the early `return false` leaves the directory page pinned. -/
def GetValue [Inhabited K] [Inhabited V] (P : Params K) (t : ExtendibleHashTable K V) (key : K)
    (result : List V) : Except Fault (ExtendibleHashTable K V × Bool × List V) :=
  match t.FetchDirectoryPage with
  | .error e => .error e
  | .ok (dir_frame, t) =>
    let page_id := KeyToPageId P key (t.directory dir_frame)
    match t.buffer_pool_manager_.FetchPgImp page_id with
    | (none, m) => .ok ({ t with buffer_pool_manager_ := m }, false, result)
    | (some frame_id, m) =>
      let t := { t with buffer_pool_manager_ := m }
      let res := (t.bucket frame_id).GetValue P.BUCKET_ARRAY_SIZE P.comparator_ key result
      match t.assertUnpinPage page_id false with
      | .error e => .error e
      | .ok t =>
        match t.assertUnpinPage (t.directory dir_frame).GetPageId false with
        | .error e => .error e
        | .ok t => .ok (t, res)

mutual

/-- `Insert`, with `fuel` bounding the depth of the recursion through `SplitInsert`. -/
def Insert [DecidableEq V] [Inhabited K] [Inhabited V] (P : Params K) :
    Nat → ExtendibleHashTable K V → K → V → Except Fault (ExtendibleHashTable K V × Bool)
  | 0, _, _, _ => .error Fault.fuel
  | fuel + 1, t, key, value =>
    match t.FetchDirectoryPage with
    | .error e => .error e
    | .ok (dir_frame, t) =>
      let page_id := KeyToPageId P key (t.directory dir_frame)
      match t.buffer_pool_manager_.FetchPgImp page_id with
      | (none, m) => .ok ({ t with buffer_pool_manager_ := m }, false)
      | (some frame_id, m) =>
        let t := { t with buffer_pool_manager_ := m }
        let buc_page := t.bucket frame_id
        if !buc_page.IsFull P.BUCKET_ARRAY_SIZE then
          let (buc_page, res) := buc_page.Insert P.BUCKET_ARRAY_SIZE P.comparator_ key value
          let t := t.writeBucket frame_id buc_page
          match t.assertUnpinPage page_id true with
          | .error e => .error e
          | .ok t =>
            match t.assertUnpinPage (t.directory dir_frame).GetPageId false with
            | .error e => .error e
            | .ok t => .ok (t, res)
        else
          match t.assertUnpinPage page_id false with
          | .error e => .error e
          | .ok t =>
            match t.assertUnpinPage (t.directory dir_frame).GetPageId false with
            | .error e => .error e
            | .ok t => SplitInsert P fuel t key value

/-- `SplitInsert`: the split, then `Insert` again, whose result is dropped. -/
def SplitInsert [DecidableEq V] [Inhabited K] [Inhabited V] (P : Params K) :
    Nat → ExtendibleHashTable K V → K → V → Except Fault (ExtendibleHashTable K V × Bool)
  | fuel, t, key, value =>
    match t.FetchDirectoryPage with
    | .error e => .error e
    | .ok (dir_frame, t) =>
      let dir_page := t.directory dir_frame
      let split_bucket_idx := KeyToDirectoryIndex P key dir_page
      let split_depth := dir_page.GetLocalDepth split_bucket_idx
      if split_depth > P.MAX_BUCKET_DEPTH then
        match t.assertUnpinPage dir_page.GetPageId false with
        | .error e => .error e
        | .ok t => .ok (t, false)
      else
        let global_depth := dir_page.GetGlobalDepth
        let dir_page := if split_depth = global_depth then dir_page.IncrGlobalDepth else dir_page
        let dir_page := dir_page.IncrLocalDepth split_bucket_idx
        let t := t.writeDirectory dir_frame dir_page
        let split_page_id := KeyToPageId P key dir_page
        match t.buffer_pool_manager_.FetchPgImp split_page_id with
        | (none, _) => .error Fault.assertion
        | (some split_frame, m) =>
          let t := { t with buffer_pool_manager_ := m }
          let split_bucket := t.bucket split_frame
          let split_array_size := split_bucket.NumReadable P.BUCKET_ARRAY_SIZE
          let split_array := split_bucket.GetArrayCopy P.BUCKET_ARRAY_SIZE
          let split_bucket := split_bucket.Reset
          let t := t.writeBucket split_frame split_bucket
          match t.buffer_pool_manager_.NewPgImp with
          | .error e => .error e
          | .ok (none, _) => .error Fault.assertion
          | .ok (some (bro_page_id, bro_frame), m) =>
            let t := { t with buffer_pool_manager_ := m }
            let bro_bucket := t.bucket bro_frame
            let bro_bucket_idx := dir_page.GetSplitImageIndex split_bucket_idx
            let dir_page := dir_page.SetBucketPageId bro_bucket_idx bro_page_id
            let dir_page :=
              dir_page.SetLocalDepth bro_bucket_idx (dir_page.GetLocalDepth split_bucket_idx)
            match SplitRehashLoop P dir_page split_bucket_idx split_page_id bro_page_id
                split_array (List.range split_array_size) (split_bucket, bro_bucket) with
            | .error e => .error e
            | .ok (split_bucket, bro_bucket) =>
              let split_depth := split_depth + 1
              let interval := 1 <<< dir_page.GetLocalDepth split_bucket_idx
              let split_start := split_bucket_idx % interval
              let dir_page := SplitRepoint dir_page split_start interval split_page_id split_depth
              let bro_start := bro_bucket_idx % interval
              let dir_page := SplitRepoint dir_page bro_start interval bro_page_id split_depth
              let t := t.writeBucket split_frame split_bucket
              let t := t.writeBucket bro_frame bro_bucket
              let t := t.writeDirectory dir_frame dir_page
              match t.assertUnpinPage split_page_id true with
              | .error e => .error e
              | .ok t =>
                match t.assertUnpinPage bro_page_id true with
                | .error e => .error e
                | .ok t =>
                  match t.assertUnpinPage (t.directory dir_frame).GetPageId true with
                  | .error e => .error e
                  | .ok t =>
                    match Insert P fuel t key value with
                    | .error e => .error e
                    | .ok (t, _) => .ok (t, true)

end

/-- `Merge`: on the path that rewrites the directory, the directory page is released with
`UnpinPage(dir_page->GetPageId(), false)`. -/
def Merge [Inhabited K] [Inhabited V] (P : Params K) (t : ExtendibleHashTable K V) (key : K) :
    Except Fault (ExtendibleHashTable K V) :=
  match t.FetchDirectoryPage with
  | .error e => .error e
  | .ok (dir_frame, t) =>
    let dir_page := t.directory dir_frame
    let delete_page_id := KeyToPageId P key dir_page
    let delete_bucket_idx := KeyToDirectoryIndex P key dir_page
    let bro_bucket_idx := dir_page.GetSplitImageIndex delete_bucket_idx
    let delete_depth := dir_page.GetLocalDepth delete_bucket_idx
    if delete_depth = 0 then t.assertUnpinPage dir_page.GetPageId false
    else
      let bro_depth := dir_page.GetLocalDepth bro_bucket_idx
      if delete_depth ≠ bro_depth then t.assertUnpinPage dir_page.GetPageId false
      else
        let bro_page_id := dir_page.GetBucketPageId bro_bucket_idx
        match t.buffer_pool_manager_.FetchPgImp delete_page_id with
        | (none, _) => .error Fault.assertion
        | (some delete_frame, m) =>
          let t := { t with buffer_pool_manager_ := m }
          let delete_bucket := t.bucket delete_frame
          if !delete_bucket.IsEmpty P.BUCKET_ARRAY_SIZE then
            match t.assertUnpinPage delete_page_id false with
            | .error e => .error e
            | .ok t => t.assertUnpinPage dir_page.GetPageId false
          else
            match t.assertUnpinPage delete_page_id false with
            | .error e => .error e
            | .ok t =>
              match t.buffer_pool_manager_.DeletePgImp delete_page_id with
              | (false, _) => .error Fault.assertion
              | (true, m) =>
                let t := { t with buffer_pool_manager_ := m }
                let delete_depth := delete_depth - 1
                let dir_page := dir_page.DecrLocalDepth delete_bucket_idx
                let dir_page := dir_page.DecrLocalDepth bro_bucket_idx
                let dir_page := dir_page.SetBucketPageId delete_bucket_idx bro_page_id
                if dir_page.GetLocalDepth delete_bucket_idx =
                    dir_page.GetLocalDepth bro_bucket_idx then
                  let dir_page := MergeRepoint dir_page delete_page_id bro_page_id delete_depth
                  let dir_page := ShrinkLoop dir_page.global_depth_ dir_page
                  let t := t.writeDirectory dir_frame dir_page
                  t.assertUnpinPage dir_page.GetPageId false
                else .error Fault.assertion

/-- `Remove`; `FetchBucketPage` asserts that a frame was handed out. -/
def Remove [DecidableEq V] [Inhabited K] [Inhabited V] (P : Params K)
    (t : ExtendibleHashTable K V) (key : K) (value : V) :
    Except Fault (ExtendibleHashTable K V × Bool) :=
  match t.FetchDirectoryPage with
  | .error e => .error e
  | .ok (dir_frame, t) =>
    let bucket_page_id := KeyToPageId P key (t.directory dir_frame)
    match t.buffer_pool_manager_.FetchPgImp bucket_page_id with
    | (none, _) => .error Fault.assertion
    | (some frame_id, m) =>
      let t := { t with buffer_pool_manager_ := m }
      let (bucket_page, res) :=
        (t.bucket frame_id).Remove P.BUCKET_ARRAY_SIZE P.comparator_ key value
      let t := t.writeBucket frame_id bucket_page
      match t.assertUnpinPage bucket_page_id true with
      | .error e => .error e
      | .ok t =>
        match t.assertUnpinPage (t.directory dir_frame).GetPageId false with
        | .error e => .error e
        | .ok t =>
          if (t.bucket frame_id).IsEmpty P.BUCKET_ARRAY_SIZE then
            match Merge P t key with
            | .error e => .error e
            | .ok t => .ok (t, res)
          else .ok (t, res)

/-- The public `Insert`, with the fuel of `Bustub.ExtendibleHashTable.insert`. -/
def insert [DecidableEq V] [Inhabited K] [Inhabited V] (P : Params K)
    (t : ExtendibleHashTable K V) (key : K) (value : V) :
    Except Fault (ExtendibleHashTable K V × Bool) :=
  Insert P (P.MAX_BUCKET_DEPTH + 2) t key value

/-- A call in the life of the table: one of its three operations, or a call that another
user of the pool makes to the buffer pool manager. -/
inductive TableCall (K V : Type) where
  | GetValue (key : K)
  | Insert (key : K) (value : V)
  | Remove (key : K) (value : V)
  | Pool (c : BufferPoolManagerInstance.PoolCall (TablePage K V))

/-- A run of calls: the results of the table operations in order (for `GetValue` with the
values found), and the table afterwards; the first fault ends the run. -/
def run [DecidableEq V] [Inhabited K] [Inhabited V] (P : Params K) :
    ExtendibleHashTable K V → List (TableCall K V) →
      Except Fault (List (Bool × List V) × ExtendibleHashTable K V)
  | t, [] => .ok ([], t)
  | t, .GetValue key :: cs =>
    match GetValue P t key [] with
    | .error e => .error e
    | .ok (t, res, result) =>
      match run P t cs with
      | .error e => .error e
      | .ok (rs, t) => .ok ((res, result) :: rs, t)
  | t, .Insert key value :: cs =>
    match insert P t key value with
    | .error e => .error e
    | .ok (t, res) =>
      match run P t cs with
      | .error e => .error e
      | .ok (rs, t) => .ok ((res, []) :: rs, t)
  | t, .Remove key value :: cs =>
    match Remove P t key value with
    | .error e => .error e
    | .ok (t, res) =>
      match run P t cs with
      | .error e => .error e
      | .ok (rs, t) => .ok ((res, []) :: rs, t)
  | t, .Pool c :: cs =>
    match t.buffer_pool_manager_.call c with
    | .error e => .error e
    | .ok (_, _, m) => run P { t with buffer_pool_manager_ := m } cs

/-- What a run of calls shows on a new table over a newly constructed pool of `pool_size`
frames (one instance, a disk of zero-filled blocks): the results of the table operations. -/
def observe [DecidableEq V] [Inhabited K] [Inhabited V] (P : Params K) (pool_size : Nat)
    (cs : List (TableCall K V)) : Fault ⊕ List (Bool × List V) :=
  match BufferPoolManagerInstance.new pool_size 1 0
      ({ blocks_ := fun _ => default, calls_ := [] } : DiskManager (TablePage K V)) with
  | .error e => .inl e
  | .ok m =>
    match run P (new m) cs with
    | .error e => .inl e
    | .ok (rs, _) => .inr rs

end ExtendibleHashTable

end OnPool

end Bustub

namespace Bustub

namespace BufferPoolManagerInstance

/-- Modelled from the spec: a page id is a 32-bit signed integer (`bucket_page_id: i32` in the
page layouts; the header that declares `page_id_t` is not among the sources). `toPageId x` is
the value a `page_id_t` holds when it is given the integer `x`: the result of an addition on
the atomic counter, or of the conversion of a `uint32_t`. -/
def toPageId (x : Int) : Int := (x + 2 ^ 31) % 2 ^ 32 - 2 ^ 31

/-! ### Allocation of page ids in 32 bits

`AllocatePage`, `ValidatePageId`, the constructor and `NewPgImp` once more, with
`next_page_id_` held as a `page_id_t`; `num_instances_` and `instance_index_` are `uint32_t`. -/

namespace Wrapping

variable {D : Type}

/-- The constructor: `next_page_id_(instance_index)` converts the `uint32_t` argument. -/
def new [Inhabited D] (pool_size num_instances instance_index : Nat)
    (disk_manager : DiskManager D) : Except Fault (BufferPoolManagerInstance D) :=
  if num_instances > 0 ∧ instance_index < num_instances then
    .ok { pool_size_ := pool_size
          num_instances_ := num_instances
          instance_index_ := instance_index
          next_page_id_ := toPageId instance_index
          pages_ := fun _ => freshPage
          replacer_ := LRUReplacer.new pool_size
          free_list_ := List.range pool_size
          page_table_ := []
          disk_manager_ := disk_manager }
  else .error Fault.assertion

/-- `ValidatePageId`: in `page_id % num_instances_ == instance_index_` the page id is
converted to `uint32_t`. -/
def ValidatePageId (m : BufferPoolManagerInstance D) (page_id : Int) : Bool :=
  decide ((page_id % 2 ^ 32) % (m.num_instances_ : Int) = (m.instance_index_ : Int))

/-- `AllocatePage`: `next_page_id_ += num_instances_` wraps around in 32 bits. -/
def AllocatePage (m : BufferPoolManagerInstance D) :
    Except Fault (Int × BufferPoolManagerInstance D) :=
  let next_page_id := m.next_page_id_
  let m := { m with next_page_id_ := toPageId (m.next_page_id_ + m.num_instances_) }
  if ValidatePageId m next_page_id then .ok (next_page_id, m) else .error Fault.assertion

/-- `NewPgImp`, as `BufferPoolManagerInstance.NewPgImp`, on the 32-bit `AllocatePage`. -/
def NewPgImp [Inhabited D] (m : BufferPoolManagerInstance D) :
    Except Fault (Option (Int × Nat) × BufferPoolManagerInstance D) :=
  if m.all_pinned then .ok (none, m)
  else
    match m.acquire with
    | (none, m) => .ok (none, m)
    | (some frame_id, m) =>
      let frame := m.pages_ frame_id
      let m := { m with page_table_ := erase m.page_table_ frame.page_id_ }
      let (frame, m) :=
        if frame.is_dirty_ then
          ({ frame with is_dirty_ := false },
            { m with disk_manager_ := m.disk_manager_.WritePage frame.page_id_ frame.data_ })
        else (frame, m)
      match AllocatePage m with
      | .error e => .error e
      | .ok (page_id, m) =>
        let frame := { frame with page_id_ := page_id }
        let frame := { frame with pin_count_ := frame.pin_count_ + 1 }
        let frame := { frame with data_ := default }
        let m := { m with
          pages_ := upd m.pages_ frame_id frame
          page_table_ := assign m.page_table_ page_id frame_id }
        let m := { m with replacer_ := m.replacer_.Pin frame_id }
        .ok (some (page_id, frame_id), m)

/-- A sequence of calls: the page ids written to `*page_id` by the `NewPage` calls that hand
out a frame, in order, and the pool afterwards. -/
def newPageIds [Inhabited D] : BufferPoolManagerInstance D → List (PoolCall D) →
    Except Fault (List Int × BufferPoolManagerInstance D)
  | m, [] => .ok ([], m)
  | m, PoolCall.NewPage :: cs =>
    match NewPgImp m with
    | .error e => .error e
    | .ok (none, m) => newPageIds m cs
    | .ok (some (page_id, _), m) =>
      match newPageIds m cs with
      | .error e => .error e
      | .ok (ids, m) => .ok (page_id :: ids, m)
  | m, c :: cs =>
    match m.call c with
    | .error e => .error e
    | .ok (_, _, m) => newPageIds m cs

end Wrapping

end BufferPoolManagerInstance

namespace ExtendibleHashTable

open BufferPoolManagerInstance

variable {K V : Type}

/-- Modelled from the spec: the number of entries of the directory page's "fixed array (sized
for the maximum supported global depth)", one per potential directory slot. -/
def DIRECTORY_ARRAY_SIZE (P : Params K) : Nat := 2 ^ P.MAX_BUCKET_DEPTH

/-- What the split of `SplitInsert` for `key` shows of the directory, on the table that a run
of `Insert` calls on a new table leaves: before the split, the slot of `key`, its local depth
and the global depth; after it, the global depth, the slot of the split image and the page
that slot points to; `none` when the split is refused. -/
def observeSplitImage [DecidableEq V] [Inhabited K] [Inhabited V] (P : Params K)
    (pairs : List (K × V)) (key : K) : Fault ⊕ Option ((Nat × Nat × Nat) × (Nat × Nat × Int)) :=
  match insertAll P (new : ExtendibleHashTable K V) pairs with
  | .error e => .inl e
  | .ok (t, _) =>
    let i := KeyToDirectoryIndex P key (dir t)
    match Split P t key with
    | .error e => .inl e
    | .ok none => .inr none
    | .ok (some t') =>
      .inr (some ((i, (dir t).local_depths_ i, (dir t).global_depth_),
        ((dir t').global_depth_, (dir t').GetSplitImageIndex i,
          (dir t').bucket_page_ids_ ((dir t').GetSplitImageIndex i))))

/-- What a run of `Insert` calls on a new table shows of the size of the directory: the
global depth and the number of slots `Size()` in use. -/
def observeDirectory [DecidableEq V] [Inhabited K] [Inhabited V] (P : Params K)
    (pairs : List (K × V)) : Fault ⊕ (Nat × Nat) :=
  match insertAll P (new : ExtendibleHashTable K V) pairs with
  | .error e => .inl e
  | .ok (t, _) => .inr ((dir t).global_depth_, (dir t).Size)

end ExtendibleHashTable

namespace OnPool

namespace ExtendibleHashTable

open BufferPoolManagerInstance

/-- Calls on a new table over a pool of three frames: nine `Insert` calls, the last of which
splits the only bucket into page 1 (even keys) and page 2 (the key 1); `Remove(0, 0)`;
`FlushPage(0)` by another user of the pool, after which the directory page is clean;
`Remove(1, 1)`, whose `Merge` deletes page 2 and halves the directory to global depth 0;
`Insert(3, 3)`, stored in page 1; and `GetValue(3)`. -/
def mergeCalls : List (TableCall Nat Nat) :=
  [.Insert 0 0, .Insert 2 2, .Insert 4 4, .Insert 6 6, .Insert 8 8, .Insert 10 10,
    .Insert 12 12, .Insert 14 14, .Insert 1 1, .Remove 0 0, .Pool (.FlushPage 0),
    .Remove 1 1, .Insert 3 3, .GetValue 3]

/-- Another user of the pool takes three new pages and unpins each: the frames of the pages
1 and 0 of the table are reused. -/
def otherUserCalls : List (TableCall Nat Nat) :=
  [.Pool .NewPage, .Pool (.UnpinPage 3 false), .Pool .NewPage, .Pool (.UnpinPage 4 false),
    .Pool .NewPage, .Pool (.UnpinPage 5 false)]

end ExtendibleHashTable

end OnPool

end Bustub

namespace Bustub

@[simp] theorem upd_same {α : Type} (a : Nat → α) (i : Nat) (x : α) : upd a i x i = x := by
  simp [upd]

theorem upd_other {α : Type} (a : Nat → α) {i j : Nat} (x : α) (h : j ≠ i) :
    upd a i x j = a j := by
  simp [upd, h]

theorem upd_apply {α : Type} (a : Nat → α) (i j : Nat) (x : α) :
    upd a i x j = if j = i then x else a j := rfl

@[simp] theorem updI_same {α : Type} (a : Int → α) (i : Int) (x : α) : updI a i x i = x := by
  simp [updI]

theorem updI_other {α : Type} (a : Int → α) {i j : Int} (x : α) (h : j ≠ i) :
    updI a i x j = a j := by
  simp [updI, h]

theorem updI_apply {α : Type} (a : Int → α) (i j : Int) (x : α) :
    updI a i x j = if j = i then x else a j := rfl

namespace LRUReplacer

theorem WF_new (n : Nat) : (LRUReplacer.new n).WF :=
  ⟨List.nodup_nil, List.nodup_nil, fun _ => Iff.rfl⟩

theorem WF_Pin {r : LRUReplacer} (h : r.WF) (f : Nat) : (r.Pin f).WF := by
  unfold Pin
  split
  · refine ⟨h.nodup_lt.erase f, h.nodup_mp.erase f, fun g => ?_⟩
    simp only [h.nodup_lt.mem_erase_iff, h.nodup_mp.mem_erase_iff, h.mem_iff]
  · exact h

theorem mem_Pin {r : LRUReplacer} (h : r.WF) (f g : Nat) :
    g ∈ (r.Pin f).lt_ ↔ g ≠ f ∧ g ∈ r.lt_ := by
  unfold Pin
  split
  · simp only [h.nodup_lt.mem_erase_iff]
  · rename_i hf
    rw [h.mem_iff] at hf
    constructor
    · intro hg
      exact ⟨fun e => hf (e ▸ hg), hg⟩
    · exact fun hg => hg.2

theorem WF_Unpin {r : LRUReplacer} (h : r.WF) (f : Nat) : (r.Unpin f).WF := by
  unfold Unpin
  split
  · exact h
  · split
    · rename_i hf
      refine ⟨?_, List.nodup_cons.mpr ⟨hf, h.nodup_mp⟩, fun g => ?_⟩
      · rw [List.nodup_append]
        refine ⟨h.nodup_lt, List.nodup_singleton f, ?_⟩
        intro a ha hb
        simp only [List.mem_singleton] at hb
        subst hb
        exact hf ((h.mem_iff a).mpr ha)
      · simp only [List.mem_cons, List.mem_append, List.mem_singleton, h.mem_iff]
        tauto
    · exact h

theorem mem_Unpin_of_lt {r : LRUReplacer} (h : r.WF) (f : Nat) (hlen : r.lt_.length < r.capacity_)
    (g : Nat) : g ∈ (r.Unpin f).lt_ ↔ g = f ∨ g ∈ r.lt_ := by
  unfold Unpin
  rw [if_neg (by omega)]
  split
  · simp only [List.mem_append, List.mem_singleton]
    tauto
  · rename_i hf
    simp only [not_not] at hf
    rw [h.mem_iff] at hf
    constructor
    · exact fun hg => Or.inr hg
    · rintro (rfl | hg)
      · exact hf
      · exact hg

theorem Victim_of_WF {r : LRUReplacer} (h : r.WF) :
    (r.lt_ = [] ∧ r.Victim = (none, r)) ∨
    ∃ f rest, r.lt_ = f :: rest ∧
      r.Victim = (some f, { r with lt_ := rest, mp_ := r.mp_.erase f }) := by
  unfold Victim
  cases hl : r.lt_ with
  | nil => exact Or.inl ⟨rfl, rfl⟩
  | cons f rest =>
    right
    refine ⟨f, rest, rfl, ?_⟩
    have hf : f ∈ r.mp_ := (h.mem_iff f).mpr (by rw [hl]; exact List.mem_cons_self _ _)
    simp [hf]

theorem WF_Victim {r : LRUReplacer} (h : r.WF) : r.Victim.2.WF := by
  rcases Victim_of_WF h with ⟨_, hv⟩ | ⟨f, rest, hl, hv⟩
  · rw [hv]; exact h
  · rw [hv]
    have hnd := h.nodup_lt
    rw [hl] at hnd
    have hnd' := List.nodup_cons.mp hnd
    refine ⟨hnd'.2, h.nodup_mp.erase f, fun g => ?_⟩
    simp only [h.nodup_mp.mem_erase_iff, h.mem_iff, hl, List.mem_cons]
    constructor
    · rintro ⟨hne, hg | hg⟩
      · exact absurd hg hne
      · exact hg
    · intro hg
      exact ⟨fun e => hnd'.1 (e ▸ hg), Or.inr hg⟩

end LRUReplacer

end Bustub

namespace Bustub
namespace BufferPoolManagerInstance

variable {D : Type}

theorem lookup_erase (tbl : List (Int × Nat)) (p q : Int) :
    (erase tbl q).lookup p = if p = q then none else tbl.lookup p := by
  induction tbl with
  | nil => simp [erase]
  | cons e rest ih =>
    obtain ⟨a, f⟩ := e
    unfold erase at ih ⊢
    by_cases haq : a = q
    · subst haq
      rw [List.filter_cons_of_neg (by simp), ih]
      by_cases hp : p = a
      · simp [hp]
      · have : (p == a) = false := by simpa using hp
        simp [hp, List.lookup_cons, this]
    · rw [List.filter_cons_of_pos (by simpa using haq)]
      by_cases hpa : p = a
      · subst hpa
        simp [List.lookup_cons, haq]
      · have : (p == a) = false := by simpa using hpa
        simp only [List.lookup_cons, this, ih]

theorem lookup_assign (tbl : List (Int × Nat)) (p q : Int) (f : Nat) :
    (assign tbl q f).lookup p = if p = q then some f else tbl.lookup p := by
  unfold assign
  by_cases hp : p = q
  · subst hp
    simp [List.lookup_cons]
  · have : (p == q) = false := by simpa using hp
    simp only [List.lookup_cons, this, lookup_erase, hp, if_false]

end BufferPoolManagerInstance
end Bustub

namespace Bustub

theorem length_lt_of_nodup_of_not_mem {l : List Nat} {n f : Nat} (hnd : l.Nodup)
    (hlt : ∀ g ∈ l, g < n) (hf : f < n) (hmem : f ∉ l) : l.length < n := by
  have h1 : (f :: l).Nodup := List.nodup_cons.mpr ⟨hmem, hnd⟩
  have h2 : (f :: l).toFinset ⊆ Finset.range n := by
    intro g hg
    simp only [List.toFinset_cons, Finset.mem_insert, List.mem_toFinset] at hg
    rw [Finset.mem_range]
    rcases hg with rfl | hg
    · exact hf
    · exact hlt g hg
  have h3 := Finset.card_le_card h2
  rw [List.toFinset_card_of_nodup h1, Finset.card_range] at h3
  simp only [List.length_cons] at h3
  omega

namespace BufferPoolManagerInstance

variable {D : Type}

theorem Inv_new [Inhabited D] {pool_size num_instances instance_index : Nat}
    {disk : DiskManager D} {m : BufferPoolManagerInstance D}
    (h : new pool_size num_instances instance_index disk = .ok m) : Inv m := by
  unfold new at h
  split at h
  · rename_i hc
    injection h with h
    subst h
    refine ⟨rfl, LRUReplacer.WF_new _, ?_, ?_, List.nodup_range _, ?_, ?_, ?_, ?_, ?_⟩
    · intro f hf
      simp [LRUReplacer.new] at hf
    · intro f hf
      simp only [List.mem_range] at hf
      exact ⟨hf, rfl, fun p => by simp [find]⟩
    · intro f _
      simp [freshPage]
    · intro f hf _
      exact Or.inl (List.mem_range.mpr hf)
    · intro p f hp
      simp [find] at hp
    · intro p f hp
      simp [find] at hp
    · show (instance_index : Int) % (num_instances : Int) = (instance_index : Int)
      exact Int.emod_eq_of_lt (by omega) (by omega)
  · cases h

/-- The frame chosen by `acquire` is unpinned and in range, and afterwards it is in neither the
free list nor (once pinned) needed in the replacer. -/
theorem acquire_spec {m : BufferPoolManagerInstance D} (h : Inv m) :
    (m.free_list_ = [] ∧ m.replacer_.lt_ = [] ∧ m.acquire = (none, m)) ∨
    ∃ f m', m.acquire = (some f, m') ∧ f < m.pool_size_ ∧ (m.pages_ f).pin_count_ = 0 ∧
      m'.pages_ = m.pages_ ∧ m'.page_table_ = m.page_table_ ∧
      m'.disk_manager_ = m.disk_manager_ ∧ m'.pool_size_ = m.pool_size_ ∧
      m'.num_instances_ = m.num_instances_ ∧ m'.instance_index_ = m.instance_index_ ∧
      m'.next_page_id_ = m.next_page_id_ ∧
      m'.replacer_.capacity_ = m.replacer_.capacity_ ∧ m'.replacer_.WF ∧
      (∀ g, g ∈ m'.replacer_.lt_ → g ∈ m.replacer_.lt_) ∧
      (∀ g, g ≠ f → g ∈ m.replacer_.lt_ → g ∈ m'.replacer_.lt_) ∧
      (∀ g, g ∈ m'.free_list_ ↔ g ≠ f ∧ g ∈ m.free_list_) ∧ m'.free_list_.Nodup ∧
      (f ∈ m.free_list_ ∨ (m.free_list_ = [] ∧ f ∈ m.replacer_.lt_)) := by
  unfold acquire
  cases hfl : m.free_list_ with
  | cons f rest =>
    right
    have hnd := h.free_nodup
    rw [hfl] at hnd
    have hnd' := List.nodup_cons.mp hnd
    have hf := h.free_pin f (by rw [hfl]; exact List.mem_cons_self _ _)
    refine ⟨f, _, rfl, hf.1, hf.2.1, rfl, rfl, rfl, rfl, rfl, rfl, rfl, rfl, h.wf,
      fun g hg => hg, fun g _ hg => hg, ?_, hnd'.2, Or.inl (List.mem_cons_self _ _)⟩
    intro g
    simp only [List.mem_cons]
    constructor
    · intro hg
      exact ⟨fun e => hnd'.1 (e ▸ hg), Or.inr hg⟩
    · rintro ⟨hne, hg | hg⟩
      · exact absurd hg hne
      · exact hg
  | nil =>
    rcases LRUReplacer.Victim_of_WF h.wf with ⟨hl, hv⟩ | ⟨f, rest, hl, hv⟩
    · left
      refine ⟨rfl, hl, ?_⟩
      simp only [hv]
      cases m
      simp_all
    · right
      have hwf := LRUReplacer.WF_Victim h.wf
      rw [hv] at hwf
      have hf := h.lt_pin f (by rw [hl]; exact List.mem_cons_self _ _)
      have hnd := h.wf.nodup_lt
      rw [hl] at hnd
      have hnd' := List.nodup_cons.mp hnd
      refine ⟨f, { m with replacer_ :=
          { m.replacer_ with lt_ := rest, mp_ := m.replacer_.mp_.erase f } },
        by simp only [hv, hfl], hf.1, hf.2, rfl, rfl, rfl, rfl, rfl, rfl, rfl, rfl, hwf,
        ?_, ?_, ?_, ?_, Or.inr ⟨rfl, by rw [hl]; exact List.mem_cons_self _ _⟩⟩
      · intro g hg
        rw [hl]
        exact List.mem_cons_of_mem _ hg
      · intro g hne hg
        rw [hl] at hg
        rcases List.mem_cons.mp hg with e | hg
        · exact absurd e hne
        · exact hg
      · intro g
        simp [hfl]
      · simp [hfl]

end BufferPoolManagerInstance
end Bustub

namespace Bustub

theorem LRUReplacer.capacity_Pin (r : LRUReplacer) (f : Nat) : (r.Pin f).capacity_ = r.capacity_ := by
  unfold LRUReplacer.Pin
  split <;> rfl

theorem LRUReplacer.capacity_Unpin (r : LRUReplacer) (f : Nat) :
    (r.Unpin f).capacity_ = r.capacity_ := by
  unfold LRUReplacer.Unpin
  split
  · rfl
  · split <;> rfl

namespace BufferPoolManagerInstance

variable {D : Type}

/-- Installing page `p` with pin count 1 in a frame `f` just taken by `acquire` keeps the
invariant. -/
theorem Inv_install {m m1 : BufferPoolManagerInstance D} (h : Inv m) {f : Nat}
    (hf : f < m.pool_size_)
    (hpages : m1.pages_ = m.pages_) (htbl : m1.page_table_ = m.page_table_)
    (hps : m1.pool_size_ = m.pool_size_) (hni : m1.num_instances_ = m.num_instances_)
    (hii : m1.instance_index_ = m.instance_index_)
    (hcap : m1.replacer_.capacity_ = m.replacer_.capacity_) (hwf : m1.replacer_.WF)
    (hlt1 : ∀ g, g ∈ m1.replacer_.lt_ → g ∈ m.replacer_.lt_)
    (hlt2 : ∀ g, g ≠ f → g ∈ m.replacer_.lt_ → g ∈ m1.replacer_.lt_)
    (hfree : ∀ g, g ∈ m1.free_list_ ↔ g ≠ f ∧ g ∈ m.free_list_) (hnd : m1.free_list_.Nodup)
    (p : Int) (fr : Page D) (hfr1 : fr.page_id_ = p) (hfr2 : fr.pin_count_ = 1)
    (disk : DiskManager D) (next : Int)
    (hnext : next % (m.num_instances_ : Int) = (m.instance_index_ : Int)) :
    Inv { m1 with
      pages_ := upd m1.pages_ f fr
      page_table_ := assign (erase m1.page_table_ (m.pages_ f).page_id_) p f
      replacer_ := m1.replacer_.Pin f
      disk_manager_ := disk
      next_page_id_ := next } := by
  have hfind : ∀ p', (assign (erase m1.page_table_ (m.pages_ f).page_id_) p f).lookup p' =
      if p' = p then some f else if p' = (m.pages_ f).page_id_ then none else m.find p' := by
    intro p'
    rw [lookup_assign, lookup_erase, htbl]
    rfl
  refine ⟨?_, LRUReplacer.WF_Pin hwf f, ?_, ?_, hnd, ?_, ?_, ?_, ?_, ?_⟩
  · show (m1.replacer_.Pin f).capacity_ = m1.pool_size_
    rw [LRUReplacer.capacity_Pin, hcap, hps, h.cap]
  · intro g hg
    have hg' := (LRUReplacer.mem_Pin hwf f g).mp hg
    have := h.lt_pin g (hlt1 g hg'.2)
    show g < m1.pool_size_ ∧ (upd m1.pages_ f fr g).pin_count_ = 0
    rw [upd_other _ _ hg'.1, hpages, hps]
    exact this
  · intro g hg
    have hg' := (hfree g).mp hg
    have := h.free_pin g hg'.2
    show g < m1.pool_size_ ∧ (upd m1.pages_ f fr g).pin_count_ = 0 ∧
      ∀ p', (assign (erase m1.page_table_ (m.pages_ f).page_id_) p f).lookup p' ≠ some g
    rw [upd_other _ _ hg'.1, hpages, hps]
    refine ⟨this.1, this.2.1, fun p' => ?_⟩
    rw [hfind]
    split
    · intro e
      injection e with e
      exact hg'.1 e.symm
    · split
      · simp
      · exact this.2.2 p'
  · intro g hg
    show 0 ≤ (upd m1.pages_ f fr g).pin_count_
    rw [upd_apply]
    split
    · rw [hfr2]; decide
    · rw [hpages]
      exact h.pin_nonneg g (hps ▸ hg)
  · intro g hg hz
    change (upd m1.pages_ f fr g).pin_count_ = 0 at hz
    have hgf : g ≠ f := by
      intro e
      rw [e, upd_same, hfr2] at hz
      exact absurd hz (by decide)
    rw [upd_other _ _ hgf, hpages] at hz
    have hg' : g < m.pool_size_ := hps ▸ hg
    rcases h.unpinned g hg' hz with h1 | h1
    · exact Or.inl ((hfree g).mpr ⟨hgf, h1⟩)
    · exact Or.inr ((LRUReplacer.mem_Pin hwf f g).mpr ⟨hgf, hlt2 g hgf h1⟩)
  · intro p' g hp
    change (assign (erase m1.page_table_ (m.pages_ f).page_id_) p f).lookup p' = some g at hp
    rw [hfind] at hp
    show g < m1.pool_size_
    rw [hps]
    split at hp
    · injection hp with hp
      exact hp ▸ hf
    · split at hp
      · cases hp
      · exact h.table_lt p' g hp
  · intro p' g hp
    change (assign (erase m1.page_table_ (m.pages_ f).page_id_) p f).lookup p' = some g at hp
    rw [hfind] at hp
    show (upd m1.pages_ f fr g).page_id_ = p'
    split at hp
    · rename_i hpp
      injection hp with hp
      rw [← hp, upd_same, hfr1, hpp]
    · split at hp
      · cases hp
      · rename_i hne
        have hid := h.table_id p' g hp
        have hgf : g ≠ f := by
          intro e
          rw [e] at hid
          exact hne hid.symm
        rw [upd_other _ _ hgf, hpages]
        exact hid
  · show next % (m1.num_instances_ : Int) = (m1.instance_index_ : Int)
    rw [hni, hii]
    exact hnext

end BufferPoolManagerInstance
end Bustub

namespace Bustub
namespace BufferPoolManagerInstance

variable {D : Type}

theorem all_pinned_iff (m : BufferPoolManagerInstance D) :
    m.all_pinned = true ↔ ∀ i, i < m.pool_size_ → (m.pages_ i).pin_count_ > 0 := by
  unfold all_pinned
  simp only [List.all_eq_true, List.mem_range, Bool.not_eq_true', decide_eq_false_iff_not,
    not_le, gt_iff_lt]

/-- When some frame is unpinned, `acquire` finds a frame. -/
theorem acquire_some {m : BufferPoolManagerInstance D} (h : Inv m) (hnp : m.all_pinned = false) :
    ∃ f m', m.acquire = (some f, m') ∧ f < m.pool_size_ ∧ (m.pages_ f).pin_count_ = 0 ∧
      m'.pages_ = m.pages_ ∧ m'.page_table_ = m.page_table_ ∧
      m'.disk_manager_ = m.disk_manager_ ∧ m'.pool_size_ = m.pool_size_ ∧
      m'.num_instances_ = m.num_instances_ ∧ m'.instance_index_ = m.instance_index_ ∧
      m'.next_page_id_ = m.next_page_id_ ∧
      m'.replacer_.capacity_ = m.replacer_.capacity_ ∧ m'.replacer_.WF ∧
      (∀ g, g ∈ m'.replacer_.lt_ → g ∈ m.replacer_.lt_) ∧
      (∀ g, g ≠ f → g ∈ m.replacer_.lt_ → g ∈ m'.replacer_.lt_) ∧
      (∀ g, g ∈ m'.free_list_ ↔ g ≠ f ∧ g ∈ m.free_list_) ∧ m'.free_list_.Nodup ∧
      (f ∈ m.free_list_ ∨ (m.free_list_ = [] ∧ f ∈ m.replacer_.lt_)) := by
  rcases acquire_spec h with ⟨h1, h2, _⟩ | h'
  · exfalso
    have : ¬ (m.all_pinned = true) := by simp [hnp]
    rw [all_pinned_iff] at this
    push_neg at this
    obtain ⟨i, hi, hpin⟩ := this
    have hz : (m.pages_ i).pin_count_ = 0 := le_antisymm hpin (h.pin_nonneg i hi)
    rcases h.unpinned i hi hz with hm | hm
    · rw [h1] at hm; cases hm
    · rw [h2] at hm; cases hm
  · exact h'

theorem NewPgImp_eq [Inhabited D] {m m1 : BufferPoolManagerInstance D} {f : Nat}
    (hnp : m.all_pinned = false) (hacq : m.acquire = (some f, m1))
    (hpages : m1.pages_ = m.pages_) (htbl : m1.page_table_ = m.page_table_)
    (hdisk : m1.disk_manager_ = m.disk_manager_) (hni : m1.num_instances_ = m.num_instances_)
    (hii : m1.instance_index_ = m.instance_index_) (hnx : m1.next_page_id_ = m.next_page_id_)
    (halloc : m.next_page_id_ % (m.num_instances_ : Int) = (m.instance_index_ : Int)) :
    m.NewPgImp = .ok (some (m.next_page_id_, f), afterNew m m1 f) := by
  unfold NewPgImp
  rw [if_neg (by simp [hnp])]
  simp only [hacq]
  cases hd : (m.pages_ f).is_dirty_
  · simp only [hpages, hd, AllocatePage, hnx, ValidatePageId, hni, hii, halloc, decide_True,
      Bool.false_eq_true, if_false, if_true, afterNew, htbl, hdisk]
  · simp only [hpages, hd, AllocatePage, hnx, ValidatePageId, hni, hii, halloc, decide_True,
      if_true, afterNew, htbl, hdisk]

end BufferPoolManagerInstance
end Bustub

namespace Bustub
namespace BufferPoolManagerInstance

variable {D : Type}

theorem Inv_afterNew [Inhabited D] {m : BufferPoolManagerInstance D} (h : Inv m)
    (hnp : m.all_pinned = false) :
    ∃ f m1, m.acquire = (some f, m1) ∧ f < m.pool_size_ ∧ (m.pages_ f).pin_count_ = 0 ∧
      m1.pool_size_ = m.pool_size_ ∧
      m.NewPgImp = .ok (some (m.next_page_id_, f), afterNew m m1 f) ∧ Inv (afterNew m m1 f) := by
  obtain ⟨f, m1, hacq, hf, hpin, hpages, htbl, hdisk, hps, hni, hii, hnx, hcap, hwf, hlt1, hlt2,
    hfree, hnd, _⟩ := acquire_some h hnp
  refine ⟨f, m1, hacq, hf, hpin, hps,
    NewPgImp_eq hnp hacq hpages htbl hdisk hni hii hnx h.alloc, ?_⟩
  have := Inv_install h hf hpages htbl hps hni hii hcap hwf hlt1 hlt2 hfree hnd m.next_page_id_
    { page_id_ := m.next_page_id_, pin_count_ := (m.pages_ f).pin_count_ + 1,
      is_dirty_ := false, data_ := default } rfl (by simp [hpin])
    (if (m.pages_ f).is_dirty_ then
        m.disk_manager_.WritePage (m.pages_ f).page_id_ (m.pages_ f).data_
      else m.disk_manager_)
    (m.next_page_id_ + m.num_instances_)
    (by rw [Int.add_emod_self]; exact h.alloc)
  simpa only [afterNew, hpages, htbl] using this

theorem FetchPgImp_resident {m : BufferPoolManagerInstance D} {page_id : Int} {f : Nat}
    (hfind : m.find page_id = some f) :
    m.FetchPgImp page_id = (some f, { m with
      pages_ := upd m.pages_ f { m.pages_ f with pin_count_ := (m.pages_ f).pin_count_ + 1 }
      replacer_ := m.replacer_.Pin f }) := by
  unfold FetchPgImp
  simp only [hfind]

theorem FetchPgImp_pinned {m : BufferPoolManagerInstance D} {page_id : Int}
    (hfind : m.find page_id = none) (hp : m.all_pinned = true) :
    m.FetchPgImp page_id = (none, m) := by
  unfold FetchPgImp
  simp only [hfind, hp, if_true]

theorem FetchPgImp_eq {m m1 : BufferPoolManagerInstance D} {f : Nat} {page_id : Int}
    (hfind : m.find page_id = none)
    (hnp : m.all_pinned = false) (hacq : m.acquire = (some f, m1))
    (hpages : m1.pages_ = m.pages_) (htbl : m1.page_table_ = m.page_table_)
    (hdisk : m1.disk_manager_ = m.disk_manager_) :
    m.FetchPgImp page_id = (some f, afterFetch m m1 f page_id) := by
  unfold FetchPgImp
  simp only [hfind, hnp, Bool.false_eq_true, if_false, hacq]
  cases hd : (m.pages_ f).is_dirty_
  · simp only [hpages, hd, Bool.false_eq_true, if_false, afterFetch, htbl, hdisk,
      DiskManager.ReadPage]
  · simp only [hpages, hd, if_true, afterFetch, htbl, hdisk, DiskManager.ReadPage]

theorem Inv_afterFetch {m : BufferPoolManagerInstance D} (h : Inv m) {page_id : Int}
    (hfind : m.find page_id = none) (hnp : m.all_pinned = false) :
    ∃ f m1, m.acquire = (some f, m1) ∧ f < m.pool_size_ ∧ (m.pages_ f).pin_count_ = 0 ∧
      m1.pool_size_ = m.pool_size_ ∧
      m.FetchPgImp page_id = (some f, afterFetch m m1 f page_id) ∧
      Inv (afterFetch m m1 f page_id) := by
  obtain ⟨f, m1, hacq, hf, hpin, hpages, htbl, hdisk, hps, hni, hii, hnx, hcap, hwf, hlt1, hlt2,
    hfree, hnd, _⟩ := acquire_some h hnp
  refine ⟨f, m1, hacq, hf, hpin, hps, FetchPgImp_eq hfind hnp hacq hpages htbl hdisk, ?_⟩
  have := Inv_install h hf hpages htbl hps hni hii hcap hwf hlt1 hlt2 hfree hnd page_id
    { page_id_ := page_id, pin_count_ := (m.pages_ f).pin_count_ + 1,
      is_dirty_ := false, data_ := (if (m.pages_ f).is_dirty_ then
        m.disk_manager_.WritePage (m.pages_ f).page_id_ (m.pages_ f).data_
      else m.disk_manager_).blocks_ page_id } rfl (by simp [hpin])
    ((if (m.pages_ f).is_dirty_ then
        m.disk_manager_.WritePage (m.pages_ f).page_id_ (m.pages_ f).data_
      else m.disk_manager_).ReadPage page_id).2
    m1.next_page_id_
    (by rw [hnx]; exact h.alloc)
  simpa only [afterFetch, hpages, htbl] using this

/-- Changing fields of frames that the invariant does not mention keeps it. -/
theorem Inv_of_same {m m' : BufferPoolManagerInstance D} (h : Inv m)
    (hps : m'.pool_size_ = m.pool_size_) (hni : m'.num_instances_ = m.num_instances_)
    (hii : m'.instance_index_ = m.instance_index_) (hnx : m'.next_page_id_ = m.next_page_id_)
    (hr : m'.replacer_ = m.replacer_) (hfl : m'.free_list_ = m.free_list_)
    (htbl : m'.page_table_ = m.page_table_)
    (hpin : ∀ f, (m'.pages_ f).pin_count_ = (m.pages_ f).pin_count_)
    (hid : ∀ f, (m'.pages_ f).page_id_ = (m.pages_ f).page_id_) : Inv m' := by
  have hfind : ∀ p, m'.find p = m.find p := fun p => by simp [find, htbl]
  refine ⟨by rw [hr, hps]; exact h.cap, hr ▸ h.wf, ?_, ?_, hfl ▸ h.free_nodup, ?_, ?_, ?_, ?_, ?_⟩
  · intro f hf
    rw [hr] at hf
    rw [hps, hpin]
    exact h.lt_pin f hf
  · intro f hf
    rw [hfl] at hf
    rw [hps, hpin]
    have := h.free_pin f hf
    exact ⟨this.1, this.2.1, fun p => by rw [hfind]; exact this.2.2 p⟩
  · intro f hf
    rw [hpin]
    exact h.pin_nonneg f (hps ▸ hf)
  · intro f hf hz
    rw [hpin] at hz
    rw [hfl, hr]
    exact h.unpinned f (hps ▸ hf) hz
  · intro p f hp
    rw [hfind] at hp
    rw [hps]
    exact h.table_lt p f hp
  · intro p f hp
    rw [hfind] at hp
    rw [hid]
    exact h.table_id p f hp
  · rw [hni, hii, hnx]
    exact h.alloc

theorem Inv_FetchPgImp {m : BufferPoolManagerInstance D} (h : Inv m) (page_id : Int) :
    Inv (m.FetchPgImp page_id).2 := by
  cases hfind : m.find page_id with
  | some f =>
    rw [FetchPgImp_resident hfind]
    have hf := h.table_lt _ _ hfind
    have hnf : f ∉ m.free_list_ := fun hm => (h.free_pin f hm).2.2 page_id hfind
    refine ⟨?_, LRUReplacer.WF_Pin h.wf f, ?_, ?_, h.free_nodup, ?_, ?_, ?_, ?_, h.alloc⟩
    · show (m.replacer_.Pin f).capacity_ = m.pool_size_
      rw [LRUReplacer.capacity_Pin]
      exact h.cap
    · intro g hg
      have hg' := (LRUReplacer.mem_Pin h.wf f g).mp hg
      show g < m.pool_size_ ∧ (upd m.pages_ f _ g).pin_count_ = 0
      rw [upd_other _ _ hg'.1]
      exact h.lt_pin g hg'.2
    · intro g hg
      have hgf : g ≠ f := fun e => hnf (e ▸ hg)
      show g < m.pool_size_ ∧ (upd m.pages_ f _ g).pin_count_ = 0 ∧ _
      rw [upd_other _ _ hgf]
      exact h.free_pin g hg
    · intro g hg
      show 0 ≤ (upd m.pages_ f _ g).pin_count_
      rw [upd_apply]
      split
      · have := h.pin_nonneg f hf
        show 0 ≤ (m.pages_ f).pin_count_ + 1
        omega
      · exact h.pin_nonneg g hg
    · intro g hg hz
      change (upd m.pages_ f _ g).pin_count_ = 0 at hz
      have hgf : g ≠ f := by
        intro e
        rw [e, upd_same] at hz
        have := h.pin_nonneg f hf
        change (m.pages_ f).pin_count_ + 1 = 0 at hz
        omega
      rw [upd_other _ _ hgf] at hz
      rcases h.unpinned g hg hz with h1 | h1
      · exact Or.inl h1
      · exact Or.inr ((LRUReplacer.mem_Pin h.wf f g).mpr ⟨hgf, h1⟩)
    · exact h.table_lt
    · intro p g hp
      show (upd m.pages_ f _ g).page_id_ = p
      rw [upd_apply]
      split
      · rename_i e
        subst e
        exact h.table_id p g hp
      · exact h.table_id p g hp
  | none =>
    cases hp : m.all_pinned
    · obtain ⟨f, m1, _, _, _, _, heq, hinv⟩ := Inv_afterFetch h hfind hp
      rw [heq]
      exact hinv
    · rw [FetchPgImp_pinned hfind hp]
      exact h

theorem Inv_NewPgImp [Inhabited D] {m m' : BufferPoolManagerInstance D} (h : Inv m)
    {r : Option (Int × Nat)} (hnew : m.NewPgImp = .ok (r, m')) : Inv m' := by
  cases hp : m.all_pinned
  · obtain ⟨f, m1, _, _, _, _, heq, hinv⟩ := Inv_afterNew h hp
    rw [heq] at hnew
    injection hnew with hnew
    injection hnew with _ hnew
    exact hnew ▸ hinv
  · unfold NewPgImp at hnew
    rw [if_pos hp] at hnew
    injection hnew with hnew
    injection hnew with _ hnew
    exact hnew ▸ h

end BufferPoolManagerInstance
end Bustub

namespace Bustub
namespace BufferPoolManagerInstance

variable {D : Type}

theorem UnpinPgImp_absent {m : BufferPoolManagerInstance D} {page_id : Int} (is_dirty : Bool)
    (hfind : m.find page_id = none) : m.UnpinPgImp page_id is_dirty = (true, m) := by
  unfold UnpinPgImp
  simp only [hfind]

theorem UnpinPgImp_zero {m : BufferPoolManagerInstance D} {page_id : Int} {f : Nat}
    (is_dirty : Bool) (hfind : m.find page_id = some f) (hpin : (m.pages_ f).pin_count_ ≤ 0) :
    m.UnpinPgImp page_id is_dirty = (false, { m with
      pages_ := upd m.pages_ f
        { m.pages_ f with is_dirty_ := (m.pages_ f).is_dirty_ || is_dirty } }) := by
  unfold UnpinPgImp
  simp only [hfind, hpin, if_true]

theorem UnpinPgImp_pos {m : BufferPoolManagerInstance D} {page_id : Int} {f : Nat}
    (is_dirty : Bool) (hfind : m.find page_id = some f) (hpin : 0 < (m.pages_ f).pin_count_) :
    m.UnpinPgImp page_id is_dirty = (true, { m with
      pages_ := upd m.pages_ f
        { m.pages_ f with
          is_dirty_ := (m.pages_ f).is_dirty_ || is_dirty
          pin_count_ := (m.pages_ f).pin_count_ - 1 }
      replacer_ := if (m.pages_ f).pin_count_ - 1 = 0 then m.replacer_.Unpin f
        else m.replacer_ }) := by
  unfold UnpinPgImp
  simp only [hfind, not_le.mpr hpin, if_false]
  have hu : ∀ (a : Nat → Page D) (x y : Page D), upd (upd a f x) f y = upd a f y := by
    intro a x y
    funext j
    simp only [upd]
    split <;> rfl
  split
  · simp only [hu]
  · simp only [hu]

theorem Inv_UnpinPgImp {m : BufferPoolManagerInstance D} (h : Inv m) (page_id : Int)
    (is_dirty : Bool) : Inv (m.UnpinPgImp page_id is_dirty).2 := by
  cases hfind : m.find page_id with
  | none =>
    rw [UnpinPgImp_absent is_dirty hfind]
    exact h
  | some f =>
    have hf := h.table_lt _ _ hfind
    by_cases hpin : (m.pages_ f).pin_count_ ≤ 0
    · rw [UnpinPgImp_zero is_dirty hfind hpin]
      refine Inv_of_same h rfl rfl rfl rfl rfl rfl rfl (fun g => ?_) (fun g => ?_)
      · show (upd m.pages_ f _ g).pin_count_ = _
        rw [upd_apply]
        split
        · rename_i e; rw [e]
        · rfl
      · show (upd m.pages_ f _ g).page_id_ = _
        rw [upd_apply]
        split
        · rename_i e; rw [e]
        · rfl
    · have hpos : 0 < (m.pages_ f).pin_count_ := not_le.mp hpin
      rw [UnpinPgImp_pos is_dirty hfind hpos]
      have hnf : f ∉ m.free_list_ := fun hm => (h.free_pin f hm).2.2 page_id hfind
      have hnl : f ∉ m.replacer_.lt_ := fun hm => by
        have := (h.lt_pin f hm).2
        omega
      have hlen : m.replacer_.lt_.length < m.replacer_.capacity_ := by
        rw [h.cap]
        exact length_lt_of_nodup_of_not_mem h.wf.nodup_lt (fun g hg => (h.lt_pin g hg).1) hf hnl
      refine ⟨?_, ?_, ?_, ?_, h.free_nodup, ?_, ?_, h.table_lt, ?_, h.alloc⟩
      · show (if _ then _ else _ : LRUReplacer).capacity_ = m.pool_size_
        split
        · rw [LRUReplacer.capacity_Unpin]; exact h.cap
        · exact h.cap
      · show (if _ then _ else _ : LRUReplacer).WF
        split
        · exact LRUReplacer.WF_Unpin h.wf f
        · exact h.wf
      · intro g hg
        change g ∈ (if _ then _ else _ : LRUReplacer).lt_ at hg
        show g < m.pool_size_ ∧ (upd m.pages_ f _ g).pin_count_ = 0
        split at hg
        · rename_i hz
          rcases (LRUReplacer.mem_Unpin_of_lt h.wf f hlen g).mp hg with e | hg
          · rw [e, upd_same]
            exact ⟨hf, hz⟩
          · have hgf : g ≠ f := fun e => hnl (e ▸ hg)
            rw [upd_other _ _ hgf]
            exact h.lt_pin g hg
        · have hgf : g ≠ f := fun e => hnl (e ▸ hg)
          rw [upd_other _ _ hgf]
          exact h.lt_pin g hg
      · intro g hg
        have hgf : g ≠ f := fun e => hnf (e ▸ hg)
        show g < m.pool_size_ ∧ (upd m.pages_ f _ g).pin_count_ = 0 ∧ _
        rw [upd_other _ _ hgf]
        exact h.free_pin g hg
      · intro g hg
        show 0 ≤ (upd m.pages_ f _ g).pin_count_
        rw [upd_apply]
        split
        · show 0 ≤ (m.pages_ f).pin_count_ - 1
          omega
        · exact h.pin_nonneg g hg
      · intro g hg hz
        change (upd m.pages_ f _ g).pin_count_ = 0 at hz
        show g ∈ m.free_list_ ∨ g ∈ (if _ then _ else _ : LRUReplacer).lt_
        by_cases hgf : g = f
        · subst hgf
          rw [upd_same] at hz
          change (m.pages_ g).pin_count_ - 1 = 0 at hz
          rw [if_pos hz]
          exact Or.inr ((LRUReplacer.mem_Unpin_of_lt h.wf g hlen g).mpr (Or.inl rfl))
        · rw [upd_other _ _ hgf] at hz
          rcases h.unpinned g hg hz with h1 | h1
          · exact Or.inl h1
          · right
            split
            · exact (LRUReplacer.mem_Unpin_of_lt h.wf f hlen g).mpr (Or.inr h1)
            · exact h1
      · intro p g hp
        show (upd m.pages_ f _ g).page_id_ = p
        rw [upd_apply]
        split
        · rename_i e
          subst e
          exact h.table_id p g hp
        · exact h.table_id p g hp

theorem DeletePgImp_absent [Inhabited D] {m : BufferPoolManagerInstance D} {page_id : Int}
    (hfind : m.find page_id = none) : m.DeletePgImp page_id = (true, m) := by
  unfold DeletePgImp
  simp only [hfind]

theorem DeletePgImp_pinned [Inhabited D] {m : BufferPoolManagerInstance D} {page_id : Int}
    {f : Nat} (hfind : m.find page_id = some f) (hpin : 0 < (m.pages_ f).pin_count_) :
    m.DeletePgImp page_id = (false, m) := by
  unfold DeletePgImp
  simp only [hfind, gt_iff_lt, hpin, if_true]

theorem DeletePgImp_unpinned [Inhabited D] {m : BufferPoolManagerInstance D} {page_id : Int}
    {f : Nat} (hfind : m.find page_id = some f) (hpin : ¬ 0 < (m.pages_ f).pin_count_) :
    m.DeletePgImp page_id = (true, { m with
      disk_manager_ := if (m.pages_ f).is_dirty_ then
          m.disk_manager_.WritePage page_id (m.pages_ f).data_
        else m.disk_manager_
      pages_ := upd m.pages_ f
        { page_id_ := INVALID_PAGE_ID, pin_count_ := 0, is_dirty_ := false, data_ := default }
      page_table_ := erase m.page_table_ page_id
      free_list_ := m.free_list_ ++ [f] }) := by
  unfold DeletePgImp
  simp only [hfind, gt_iff_lt, hpin, if_false]
  cases (m.pages_ f).is_dirty_ <;> simp

theorem Inv_DeletePgImp [Inhabited D] {m : BufferPoolManagerInstance D} (h : Inv m)
    (page_id : Int) : Inv (m.DeletePgImp page_id).2 := by
  cases hfind : m.find page_id with
  | none =>
    rw [DeletePgImp_absent hfind]
    exact h
  | some f =>
    have hf := h.table_lt _ _ hfind
    by_cases hpin : 0 < (m.pages_ f).pin_count_
    · rw [DeletePgImp_pinned hfind hpin]
      exact h
    · rw [DeletePgImp_unpinned hfind hpin]
      have hnf : f ∉ m.free_list_ := fun hm => (h.free_pin f hm).2.2 page_id hfind
      have hfind' : ∀ p, (erase m.page_table_ page_id).lookup p =
          if p = page_id then none else m.find p := fun p => lookup_erase _ _ _
      have hown : ∀ p, p ≠ page_id → m.find p ≠ some f := by
        intro p hne hp
        have h1 := h.table_id p f hp
        have h2 := h.table_id page_id f hfind
        exact hne (h1.symm.trans h2)
      refine ⟨h.cap, h.wf, ?_, ?_, ?_, ?_, ?_, ?_, ?_, h.alloc⟩
      · intro g hg
        show g < m.pool_size_ ∧ (upd m.pages_ f _ g).pin_count_ = 0
        rw [upd_apply]
        split
        · rename_i e
          exact ⟨e ▸ hf, rfl⟩
        · exact h.lt_pin g hg
      · intro g hg
        change g ∈ m.free_list_ ++ [f] at hg
        show g < m.pool_size_ ∧ (upd m.pages_ f _ g).pin_count_ = 0 ∧
          ∀ p, (erase m.page_table_ page_id).lookup p ≠ some g
        rw [List.mem_append, List.mem_singleton] at hg
        rcases hg with hg | hg
        · have hgf : g ≠ f := fun e => hnf (e ▸ hg)
          rw [upd_other _ _ hgf]
          have := h.free_pin g hg
          refine ⟨this.1, this.2.1, fun p => ?_⟩
          rw [hfind']
          split
          · simp
          · exact this.2.2 p
        · subst hg
          rw [upd_same]
          refine ⟨hf, rfl, fun p => ?_⟩
          rw [hfind']
          split
          · simp
          · rename_i hne
            exact hown p hne
      · show (m.free_list_ ++ [f]).Nodup
        rw [List.nodup_append]
        refine ⟨h.free_nodup, List.nodup_singleton f, ?_⟩
        intro a ha hb
        simp only [List.mem_singleton] at hb
        exact hnf (hb ▸ ha)
      · intro g hg
        show 0 ≤ (upd m.pages_ f _ g).pin_count_
        rw [upd_apply]
        split
        · exact le_refl _
        · exact h.pin_nonneg g hg
      · intro g hg hz
        change (upd m.pages_ f _ g).pin_count_ = 0 at hz
        show g ∈ m.free_list_ ++ [f] ∨ g ∈ m.replacer_.lt_
        by_cases hgf : g = f
        · left
          rw [hgf]
          simp
        · rw [upd_other _ _ hgf] at hz
          rcases h.unpinned g hg hz with h1 | h1
          · exact Or.inl (List.mem_append_left _ h1)
          · exact Or.inr h1
      · intro p g hp
        change (erase m.page_table_ page_id).lookup p = some g at hp
        rw [hfind'] at hp
        split at hp
        · cases hp
        · exact h.table_lt p g hp
      · intro p g hp
        change (erase m.page_table_ page_id).lookup p = some g at hp
        rw [hfind'] at hp
        show (upd m.pages_ f _ g).page_id_ = p
        split at hp
        · cases hp
        · rename_i hne
          have hgf : g ≠ f := fun e => hown p hne (e ▸ hp)
          rw [upd_other _ _ hgf]
          exact h.table_id p g hp

theorem Inv_FlushPgImp {m : BufferPoolManagerInstance D} (h : Inv m) (page_id : Int) :
    Inv (m.FlushPgImp page_id).2 := by
  unfold FlushPgImp
  split
  · rename_i f hfind
    split
    · refine Inv_of_same h rfl rfl rfl rfl rfl rfl rfl (fun g => ?_) (fun g => ?_)
      · show (upd m.pages_ f _ g).pin_count_ = _
        rw [upd_apply]
        split
        · rename_i e; rw [e]
        · rfl
      · show (upd m.pages_ f _ g).page_id_ = _
        rw [upd_apply]
        split
        · rename_i e; rw [e]
        · rfl
    · exact h
  · exact h

end BufferPoolManagerInstance
end Bustub

namespace Bustub
namespace BufferPoolManagerInstance

variable {D : Type}

theorem Inv_call [Inhabited D] {m m' : BufferPoolManagerInstance D} (h : Inv m) (c : PoolCall D)
    {fr : Option Nat} {res : Bool} (hc : m.call c = .ok (fr, res, m')) : Inv m' := by
  cases c with
  | NewPage =>
    simp only [call] at hc
    split at hc
    · cases hc
    · rename_i m1 hnew
      injection hc with hc
      simp only [Prod.mk.injEq] at hc
      exact hc.2.2 ▸ Inv_NewPgImp h hnew
    · rename_i pid f m1 hnew
      injection hc with hc
      simp only [Prod.mk.injEq] at hc
      exact hc.2.2 ▸ Inv_NewPgImp h hnew
  | FetchPage p =>
    simp only [call] at hc
    have := Inv_FetchPgImp h p
    split at hc
    · rename_i m1 hf
      injection hc with hc
      simp only [Prod.mk.injEq] at hc
      rw [hf] at this
      exact hc.2.2 ▸ this
    · rename_i f m1 hf
      injection hc with hc
      simp only [Prod.mk.injEq] at hc
      rw [hf] at this
      exact hc.2.2 ▸ this
  | UnpinPage p d =>
    simp only [call] at hc
    injection hc with hc
    simp only [Prod.mk.injEq] at hc
    exact hc.2.2 ▸ Inv_UnpinPgImp h p d
  | DeletePage p =>
    simp only [call] at hc
    injection hc with hc
    simp only [Prod.mk.injEq] at hc
    exact hc.2.2 ▸ Inv_DeletePgImp h p
  | FlushPage p =>
    simp only [call] at hc
    injection hc with hc
    simp only [Prod.mk.injEq] at hc
    exact hc.2.2 ▸ Inv_FlushPgImp h p
  | Write f d =>
    simp only [call] at hc
    injection hc with hc
    simp only [Prod.mk.injEq] at hc
    rw [← hc.2.2]
    refine Inv_of_same h rfl rfl rfl rfl rfl rfl rfl (fun g => ?_) (fun g => ?_)
    · show (upd m.pages_ f _ g).pin_count_ = _
      rw [upd_apply]
      split
      · rename_i e; rw [e]
      · rfl
    · show (upd m.pages_ f _ g).page_id_ = _
      rw [upd_apply]
      split
      · rename_i e; rw [e]
      · rfl

theorem Inv_of_Reachable [Inhabited D] {m : BufferPoolManagerInstance D} (h : Reachable m) :
    Inv m := by
  induction h with
  | init h0 => exact Inv_new h0
  | step c _ hc ih => exact Inv_call ih c hc

theorem Reachable_trace [Inhabited D] (f : Nat) {m m' : BufferPoolManagerInstance D}
    (cs : List (PoolCall D)) {a u : Nat} (h : Reachable m)
    (ht : trace f m cs = .ok (m', a, u)) : Reachable m' := by
  induction cs generalizing m a u with
  | nil =>
    simp only [trace] at ht
    injection ht with ht
    simp only [Prod.mk.injEq] at ht
    exact ht.1 ▸ h
  | cons c cs ih =>
    simp only [trace] at ht
    split at ht
    · cases ht
    · rename_i fr res m1 hc
      split at ht
      · cases ht
      · rename_i m2 a' u' ht'
        injection ht with ht
        simp only [Prod.mk.injEq] at ht
        have e := ht.1
        subst e
        exact ih (Reachable.step c h hc) ht'

end BufferPoolManagerInstance
end Bustub

namespace Bustub
namespace BufferPoolManagerInstance

variable {D : Type}

/-- `acquire` touches only the free list and the replacer. -/
theorem acquire_frame {m m1 : BufferPoolManagerInstance D} {r : Option Nat}
    (h : m.acquire = (r, m1)) :
    m1.pages_ = m.pages_ ∧ m1.page_table_ = m.page_table_ ∧
    m1.disk_manager_ = m.disk_manager_ ∧ m1.num_instances_ = m.num_instances_ ∧
    m1.instance_index_ = m.instance_index_ ∧ m1.next_page_id_ = m.next_page_id_ ∧
    m1.pool_size_ = m.pool_size_ := by
  unfold acquire at h
  split at h
  · injection h with _ h
    subst h
    exact ⟨rfl, rfl, rfl, rfl, rfl, rfl, rfl⟩
  · injection h with _ h
    subst h
    exact ⟨rfl, rfl, rfl, rfl, rfl, rfl, rfl⟩

/-- A `NewPgImp` that hands out a frame ends in the state `afterNew`. -/
theorem NewPgImp_some [Inhabited D] {m m' : BufferPoolManagerInstance D} {page_id : Int}
    {f : Nat} (h : m.NewPgImp = .ok (some (page_id, f), m')) :
    ∃ m1, m.all_pinned = false ∧ m.acquire = (some f, m1) ∧ page_id = m.next_page_id_ ∧
      m' = afterNew m m1 f := by
  cases hp : m.all_pinned
  · cases hacq : m.acquire with
    | mk r m1 =>
      obtain ⟨hpages, htbl, hdisk, hni, hii, hnx, _⟩ := acquire_frame hacq
      cases r with
      | none =>
        unfold NewPgImp at h
        simp [hp, hacq] at h
      | some g =>
        by_cases hv : m.next_page_id_ % (m.num_instances_ : Int) = (m.instance_index_ : Int)
        · rw [NewPgImp_eq hp hacq hpages htbl hdisk hni hii hnx hv] at h
          injection h with h
          simp only [Prod.mk.injEq, Option.some.injEq] at h
          obtain ⟨⟨h1, h2⟩, h3⟩ := h
          subst h2
          exact ⟨m1, rfl, rfl, h1.symm, h3.symm⟩
        · exfalso
          unfold NewPgImp at h
          rw [if_neg (by simp [hp])] at h
          simp only [hacq] at h
          cases hd : (m.pages_ g).is_dirty_ <;>
            simp [hpages, hd, AllocatePage, hnx, ValidatePageId, hni, hii, hv] at h
  · unfold NewPgImp at h
    simp [hp] at h

/-- A `FetchPgImp` of a non-resident page that hands out a frame ends in `afterFetch`. -/
theorem FetchPgImp_some {m m' : BufferPoolManagerInstance D} {page_id : Int} {f : Nat}
    (hfind : m.find page_id = none) (h : m.FetchPgImp page_id = (some f, m')) :
    ∃ m1, m.all_pinned = false ∧ m.acquire = (some f, m1) ∧ m' = afterFetch m m1 f page_id := by
  cases hp : m.all_pinned
  · cases hacq : m.acquire with
    | mk r m1 =>
      obtain ⟨hpages, htbl, hdisk, _⟩ := acquire_frame hacq
      cases r with
      | none =>
        unfold FetchPgImp at h
        simp [hfind, hp, hacq] at h
      | some g =>
        rw [FetchPgImp_eq hfind hp hacq hpages htbl hdisk] at h
        simp only [Prod.mk.injEq, Option.some.injEq] at h
        obtain ⟨h1, h2⟩ := h
        subst h1
        exact ⟨m1, rfl, rfl, h2.symm⟩
  · rw [FetchPgImp_pinned hfind hp] at h
    simp at h

/-- Every call changes the pin count of a frame by the number of times it hands the frame out
minus the number of successful unpins of the page the frame holds. -/
theorem pin_count_call [Inhabited D] {m m' : BufferPoolManagerInstance D} (h : Inv m)
    (c : PoolCall D) {fr : Option Nat} {res : Bool} (hc : m.call c = .ok (fr, res, m'))
    (f : Nat) :
    (m'.pages_ f).pin_count_ + (if m.releases c f then 1 else 0) =
      (m.pages_ f).pin_count_ + (if m.acquires c f then 1 else 0) := by
  have hacq : m.acquires c f = decide (fr = some f) := by
    unfold acquires
    rw [hc]
    cases fr <;> simp
  rw [hacq]
  cases c with
  | NewPage =>
    have hrel : m.releases PoolCall.NewPage f = false := rfl
    rw [hrel]
    simp only [call] at hc
    split at hc
    · cases hc
    · rename_i _ m1 hnew
      injection hc with hc
      simp only [Prod.mk.injEq] at hc
      obtain ⟨h1, _, h3⟩ := hc
      subst h1
      cases hp : m.all_pinned
      · obtain ⟨_, _, _, _, _, _, heq, _⟩ := Inv_afterNew h hp
        rw [heq] at hnew
        simp at hnew
      · unfold NewPgImp at hnew
        rw [if_pos hp] at hnew
        injection hnew with hnew
        simp only [Prod.mk.injEq, true_and] at hnew
        subst hnew
        subst h3
        simp
    · rename_i _ pid g m1 hnew
      injection hc with hc
      simp only [Prod.mk.injEq] at hc
      obtain ⟨h1, _, h3⟩ := hc
      subst h1
      subst h3
      obtain ⟨m2, hp, hacq2, _, hm⟩ := NewPgImp_some hnew
      obtain ⟨g', m3, hacq3, _, hpin, _, _, _⟩ := Inv_afterNew h hp
      rw [hacq2] at hacq3
      simp only [Prod.mk.injEq, Option.some.injEq] at hacq3
      obtain ⟨hg, _⟩ := hacq3
      subst hg
      subst hm
      show (upd m.pages_ g _ f).pin_count_ + _ = _
      rw [upd_apply]
      by_cases hfg : f = g
      · subst hfg
        simp [hpin]
      · have : ¬ g = f := fun e => hfg e.symm
        simp [hfg, this]
  | FetchPage p =>
    have hrel : m.releases (PoolCall.FetchPage p) f = false := rfl
    rw [hrel]
    simp only [call] at hc
    cases hfind : m.find p with
    | some g =>
      rw [FetchPgImp_resident hfind] at hc
      injection hc with hc
      simp only [Prod.mk.injEq] at hc
      obtain ⟨h1, _, h3⟩ := hc
      subst h1
      subst h3
      show (upd m.pages_ g _ f).pin_count_ + _ = _
      rw [upd_apply]
      by_cases hfg : f = g
      · subst hfg
        simp
      · have : ¬ g = f := fun e => hfg e.symm
        simp [hfg, this]
    | none =>
      cases hp : m.all_pinned
      · obtain ⟨g, m1, _, _, hpin, _, heq, _⟩ := Inv_afterFetch h hfind hp
        rw [heq] at hc
        injection hc with hc
        simp only [Prod.mk.injEq] at hc
        obtain ⟨h1, _, h3⟩ := hc
        subst h1
        subst h3
        show (upd m.pages_ g _ f).pin_count_ + _ = _
        rw [upd_apply]
        by_cases hfg : f = g
        · subst hfg
          simp [hpin]
        · have : ¬ g = f := fun e => hfg e.symm
          simp [hfg, this]
      · rw [FetchPgImp_pinned hfind hp] at hc
        injection hc with hc
        simp only [Prod.mk.injEq] at hc
        obtain ⟨h1, _, h3⟩ := hc
        subst h1
        subst h3
        simp
  | UnpinPage p d =>
    simp only [call] at hc
    simp only [releases]
    obtain hfind | ⟨g, hfind⟩ : m.find p = none ∨ ∃ g, m.find p = some g := by
      cases m.find p <;> simp
    · rw [UnpinPgImp_absent d hfind] at hc
      simp only [UnpinPgImp_absent d hfind, hfind]
      injection hc with hc
      simp only [Prod.mk.injEq] at hc
      obtain ⟨h1, _, h3⟩ := hc
      subst h1
      subst h3
      simp
    · simp only [hfind]
      by_cases hpin : (m.pages_ g).pin_count_ ≤ 0
      · rw [UnpinPgImp_zero d hfind hpin] at hc
        simp only [UnpinPgImp_zero d hfind hpin]
        injection hc with hc
        simp only [Prod.mk.injEq] at hc
        obtain ⟨h1, _, h3⟩ := hc
        subst h1
        subst h3
        simp only [Bool.and_false, Bool.false_eq_true, if_false, add_zero]
        show (upd m.pages_ g _ f).pin_count_ = _
        rw [upd_apply]
        split
        · rename_i e; rw [e]; simp
        · simp
      · rw [UnpinPgImp_pos d hfind (not_le.mp hpin)] at hc
        simp only [UnpinPgImp_pos d hfind (not_le.mp hpin)]
        injection hc with hc
        simp only [Prod.mk.injEq] at hc
        obtain ⟨h1, _, h3⟩ := hc
        subst h1
        subst h3
        show (upd m.pages_ g _ f).pin_count_ + _ = _
        rw [upd_apply]
        by_cases hfg : f = g
        · subst hfg
          simp
        · have : ¬ g = f := fun e => hfg e.symm
          simp [hfg, this]
  | DeletePage p =>
    have hrel : m.releases (PoolCall.DeletePage p) f = false := rfl
    rw [hrel]
    simp only [call] at hc
    obtain hfind | ⟨g, hfind⟩ : m.find p = none ∨ ∃ g, m.find p = some g := by
      cases m.find p <;> simp
    · rw [DeletePgImp_absent hfind] at hc
      injection hc with hc
      simp only [Prod.mk.injEq] at hc
      obtain ⟨h1, _, h3⟩ := hc
      subst h1
      subst h3
      simp
    · by_cases hpin : 0 < (m.pages_ g).pin_count_
      · rw [DeletePgImp_pinned hfind hpin] at hc
        injection hc with hc
        simp only [Prod.mk.injEq] at hc
        obtain ⟨h1, _, h3⟩ := hc
        subst h1
        subst h3
        simp
      · rw [DeletePgImp_unpinned hfind hpin] at hc
        injection hc with hc
        simp only [Prod.mk.injEq] at hc
        obtain ⟨h1, _, h3⟩ := hc
        subst h1
        subst h3
        simp only [Bool.false_eq_true, if_false, add_zero]
        show (upd m.pages_ g _ f).pin_count_ = _
        rw [upd_apply]
        split
        · rename_i e
          subst e
          have := h.pin_nonneg f (h.table_lt _ _ hfind)
          show (0 : Int) = _
          simp
          omega
        · simp
  | FlushPage p =>
    have hrel : m.releases (PoolCall.FlushPage p) f = false := rfl
    rw [hrel]
    simp only [call] at hc
    injection hc with hc
    simp only [Prod.mk.injEq] at hc
    obtain ⟨h1, _, h3⟩ := hc
    subst h1
    subst h3
    simp only [Bool.false_eq_true, if_false, add_zero]
    unfold FlushPgImp
    split
    · split
      · show (upd m.pages_ _ _ f).pin_count_ = _
        rw [upd_apply]
        split
        · rename_i e; rw [e]; simp
        · simp
      · simp
    · simp
  | Write g d =>
    have hrel : m.releases (PoolCall.Write g d) f = false := rfl
    rw [hrel]
    simp only [call] at hc
    injection hc with hc
    simp only [Prod.mk.injEq] at hc
    obtain ⟨h1, _, h3⟩ := hc
    subst h1
    subst h3
    simp only [Bool.false_eq_true, if_false, add_zero]
    show (upd m.pages_ g _ f).pin_count_ = _
    rw [upd_apply]
    split
    · rename_i e; rw [e]; simp
    · simp

theorem pin_count_trace [Inhabited D] (f : Nat) (cs : List (PoolCall D))
    {m m' : BufferPoolManagerInstance D} {a u : Nat} (h : Inv m)
    (ht : trace f m cs = .ok (m', a, u)) :
    (m'.pages_ f).pin_count_ + (u : Int) = (m.pages_ f).pin_count_ + (a : Int) := by
  induction cs generalizing m a u with
  | nil =>
    simp only [trace] at ht
    injection ht with ht
    simp only [Prod.mk.injEq] at ht
    obtain ⟨h1, h2, h3⟩ := ht
    subst h1 h2 h3
    rfl
  | cons c cs ih =>
    simp only [trace] at ht
    split at ht
    · cases ht
    · rename_i fr res m1 hc
      split at ht
      · cases ht
      · rename_i m2 a' u' ht'
        injection ht with ht
        simp only [Prod.mk.injEq] at ht
        obtain ⟨h1, h2, h3⟩ := ht
        subst h1 h2 h3
        have h1 := ih (Inv_call h c hc) ht'
        have h2 := pin_count_call h c hc f
        push_cast
        split_ifs at h2 ⊢ <;> omega

end BufferPoolManagerInstance
end Bustub

namespace Bustub
namespace BufferPoolManagerInstance

variable {D : Type}

theorem examplePool_new :
    new 1 1 0 ({ blocks_ := fun _ => (), calls_ := [] } : DiskManager Unit) = .ok examplePool :=
  rfl

theorem examplePool_call :
    examplePool.call PoolCall.NewPage = .ok (some 0, true, examplePoolOnePage) := rfl

theorem examplePoolOnePage_reachable : Reachable examplePoolOnePage :=
  Reachable.step PoolCall.NewPage (Reachable.init examplePool_new) examplePool_call

theorem examplePoolDeleted_reachable : Reachable examplePoolDeleted :=
  Reachable.step (PoolCall.DeletePage 0)
    (Reachable.step (PoolCall.UnpinPage 0 false) examplePoolOnePage_reachable rfl) rfl

/-- C7 (the code breaks it): from a new pool of one frame, `NewPage`, `UnpinPage(0)`,
`DeletePage(0)` reach a state in which frame 0 has pin count 0 and is both in the free list and
a replacer candidate, so `pinned_frames + free_list_size + replacer_size` is 2, not the pool
size 1: `DeletePgImp` returns the frame to the free list without taking it out of the
replacer. -/
theorem C7_deleted_frame_is_free_and_candidate :
    Reachable examplePoolDeleted ∧ examplePoolDeleted.pool_size_ = 1 ∧
      (examplePoolDeleted.pages_ 0).pin_count_ = 0 ∧
      0 ∈ examplePoolDeleted.free_list_ ∧ 0 ∈ examplePoolDeleted.replacer_.lt_ ∧
      pinned_frames examplePoolDeleted + examplePoolDeleted.free_list_.length +
        examplePoolDeleted.replacer_.Size = 2 :=
  ⟨examplePoolDeleted_reachable, by decide⟩

/-- C8: in every reachable pool state, `FetchPage` of a resident page hands out the frame that
holds it, with page id, bytes and dirty flag unchanged, without any disk call, with the pin
count one higher and the frame out of the replacer, every other frame, the page table and the
free list untouched; and over any sequence of calls the pin count of a frame changes by the
number of times it was handed out minus the number of successful unpins of its page. -/
theorem C8_fetch_resident_pins_once [Inhabited D] (m : BufferPoolManagerInstance D)
    (hr : Reachable m) (page_id : Int) (f : Nat) (hfind : m.find page_id = some f) :
    (∃ m', m.FetchPgImp page_id = (some f, m') ∧
      (m'.pages_ f).page_id_ = page_id ∧ (m'.pages_ f).data_ = (m.pages_ f).data_ ∧
      (m'.pages_ f).is_dirty_ = (m.pages_ f).is_dirty_ ∧
      (m'.pages_ f).pin_count_ = (m.pages_ f).pin_count_ + 1 ∧
      (∀ g, g ≠ f → m'.pages_ g = m.pages_ g) ∧
      m'.disk_manager_ = m.disk_manager_ ∧ m'.page_table_ = m.page_table_ ∧
      m'.free_list_ = m.free_list_ ∧ m'.next_page_id_ = m.next_page_id_ ∧
      f ∉ m'.replacer_.lt_ ∧ f ∉ m'.replacer_.mp_ ∧
      (∀ g, g ≠ f → (g ∈ m'.replacer_.lt_ ↔ g ∈ m.replacer_.lt_))) ∧
    (∀ (cs : List (PoolCall D)) (m' : BufferPoolManagerInstance D) (a u : Nat),
      trace f m cs = .ok (m', a, u) →
        (m'.pages_ f).pin_count_ + (u : Int) = (m.pages_ f).pin_count_ + (a : Int)) := by
  have h := Inv_of_Reachable hr
  refine ⟨⟨_, FetchPgImp_resident hfind, ?_, ?_, ?_, ?_, ?_, rfl, rfl, rfl, rfl, ?_, ?_, ?_⟩, ?_⟩
  · show (upd m.pages_ f _ f).page_id_ = page_id
    rw [upd_same]
    exact h.table_id _ _ hfind
  · show (upd m.pages_ f _ f).data_ = _
    rw [upd_same]
  · show (upd m.pages_ f _ f).is_dirty_ = _
    rw [upd_same]
  · show (upd m.pages_ f _ f).pin_count_ = _
    rw [upd_same]
  · intro g hg
    show upd m.pages_ f _ g = _
    rw [upd_other _ _ hg]
  · intro hm
    exact ((LRUReplacer.mem_Pin h.wf f f).mp hm).1 rfl
  · intro hm
    have := ((LRUReplacer.WF_Pin h.wf f).mem_iff f).mp hm
    exact ((LRUReplacer.mem_Pin h.wf f f).mp this).1 rfl
  · intro g hg
    show g ∈ (m.replacer_.Pin f).lt_ ↔ _
    rw [LRUReplacer.mem_Pin h.wf f g]
    exact ⟨fun x => x.2, fun x => ⟨hg, x⟩⟩
  · intro cs m' a u ht
    exact pin_count_trace f cs h ht

theorem C8_fetch_resident_pins_once_witness :
    (∃ m', examplePoolOnePage.FetchPgImp 0 = (some 0, m') ∧
      (m'.pages_ 0).page_id_ = 0 ∧ (m'.pages_ 0).data_ = (examplePoolOnePage.pages_ 0).data_ ∧
      (m'.pages_ 0).is_dirty_ = (examplePoolOnePage.pages_ 0).is_dirty_ ∧
      (m'.pages_ 0).pin_count_ = (examplePoolOnePage.pages_ 0).pin_count_ + 1 ∧
      (∀ g, g ≠ 0 → m'.pages_ g = examplePoolOnePage.pages_ g) ∧
      m'.disk_manager_ = examplePoolOnePage.disk_manager_ ∧
      m'.page_table_ = examplePoolOnePage.page_table_ ∧
      m'.free_list_ = examplePoolOnePage.free_list_ ∧
      m'.next_page_id_ = examplePoolOnePage.next_page_id_ ∧
      0 ∉ m'.replacer_.lt_ ∧ 0 ∉ m'.replacer_.mp_ ∧
      (∀ g, g ≠ 0 → (g ∈ m'.replacer_.lt_ ↔ g ∈ examplePoolOnePage.replacer_.lt_))) ∧
    (∀ (cs : List (PoolCall Unit)) (m' : BufferPoolManagerInstance Unit) (a u : Nat),
      trace 0 examplePoolOnePage cs = .ok (m', a, u) →
        (m'.pages_ 0).pin_count_ + (u : Int) =
          (examplePoolOnePage.pages_ 0).pin_count_ + (a : Int)) :=
  C8_fetch_resident_pins_once examplePoolOnePage examplePoolOnePage_reachable 0 0 rfl

end BufferPoolManagerInstance
end Bustub

namespace Bustub

/-! ## Bits of the bitmap bytes -/

theorem and_one_shiftLeft_pos (c k : Nat) : (c &&& (1 <<< k) > 0) ↔ c.testBit k = true := by
  rw [Nat.one_shiftLeft]
  constructor
  · intro h
    have hne : c &&& 2 ^ k ≠ 0 := by omega
    obtain ⟨i, hi⟩ := Nat.ne_zero_implies_bit_true hne
    rw [Nat.testBit_and, Nat.testBit_two_pow] at hi
    simp only [Bool.and_eq_true, decide_eq_true_eq] at hi
    rw [hi.2]
    exact hi.1
  · intro h
    have : (c &&& 2 ^ k).testBit k = true := by
      rw [Nat.testBit_and, Nat.testBit_two_pow_self, h]
      rfl
    have := Nat.testBit_implies_ge this
    have := Nat.two_pow_pos k
    omega

theorem div_mod_eight_eq {i j : Nat} : (j / 8 = i / 8 ∧ j % 8 = i % 8) ↔ j = i := by
  omega

theorem byte_eq_255_iff {c : Nat} (hc : c < 256) :
    c = 255 ↔ ∀ k, k < 8 → c.testBit k = true := by
  constructor
  · intro h k hk
    subst h
    have : (255 : Nat) = 2 ^ 8 - 1 := by norm_num
    rw [this, Nat.testBit_two_pow_sub_one]
    simpa using hk
  · intro h
    apply Nat.eq_of_testBit_eq
    intro i
    have h255 : (255 : Nat) = 2 ^ 8 - 1 := by norm_num
    rw [h255, Nat.testBit_two_pow_sub_one]
    by_cases hi : i < 8
    · simp [hi, h i hi]
    · simp only [hi, decide_False]
      apply Nat.testBit_lt_two_pow
      calc c < 256 := hc
        _ = 2 ^ 8 := by norm_num
        _ ≤ 2 ^ i := Nat.pow_le_pow_right (by norm_num) (by omega)

theorem byte_and_255_eq_zero_iff (c : Nat) :
    c &&& 255 = 0 ↔ ∀ k, k < 8 → c.testBit k = false := by
  have h255 : (255 : Nat) = 2 ^ 8 - 1 := by norm_num
  constructor
  · intro h k hk
    have : (c &&& 255).testBit k = false := by rw [h]; exact Nat.zero_testBit k
    rw [Nat.testBit_and, h255, Nat.testBit_two_pow_sub_one] at this
    simpa [hk] using this
  · intro h
    apply Nat.eq_of_testBit_eq
    intro i
    rw [Nat.testBit_and, h255, Nat.testBit_two_pow_sub_one, Nat.zero_testBit]
    by_cases hi : i < 8
    · simp [h i hi]
    · simp [hi]

namespace HashTableBucketPage

variable {K V : Type}

theorem IsReadable_eq (b : HashTableBucketPage K V) (i : Nat) :
    b.IsReadable i = (b.readable_ (i / 8)).testBit (i % 8) := by
  unfold IsReadable
  by_cases h : (b.readable_ (i / 8)).testBit (i % 8) = true
  · rw [h]
    exact decide_eq_true ((and_one_shiftLeft_pos _ _).mpr h)
  · have h' : (b.readable_ (i / 8)).testBit (i % 8) = false := by simpa using h
    rw [h']
    exact decide_eq_false (fun hp => h ((and_one_shiftLeft_pos _ _).mp hp))

theorem IsReadable_SetReadable (b : HashTableBucketPage K V) (i j : Nat) :
    (b.SetReadable i).IsReadable j = (decide (j = i) || b.IsReadable j) := by
  rw [IsReadable_eq, IsReadable_eq]
  show (upd b.readable_ (i / 8) _ (j / 8)).testBit (j % 8) = _
  rw [upd_apply]
  by_cases hb : j / 8 = i / 8
  · rw [if_pos hb]
    have h256 : (256 : Nat) = 2 ^ 8 := by norm_num
    rw [h256, Nat.testBit_mod_two_pow, Nat.testBit_or, Nat.one_shiftLeft, Nat.testBit_two_pow, hb]
    have hj : j % 8 < 8 := Nat.mod_lt _ (by norm_num)
    by_cases hji : j = i
    · subst hji
      simp [hj]
    · have : ¬ i % 8 = j % 8 := fun e => hji (div_mod_eight_eq.mp ⟨hb, e.symm⟩)
      simp [hj, this, hji, Bool.or_comm]
  · rw [if_neg hb]
    have hji : ¬ j = i := fun e => hb (by rw [e])
    simp [hji]

theorem IsReadable_RemoveAt (b : HashTableBucketPage K V) (i j : Nat) :
    (b.RemoveAt i).IsReadable j = (!decide (j = i) && b.IsReadable j) := by
  unfold RemoveAt
  by_cases hr : b.IsReadable i = true
  · rw [if_pos hr, IsReadable_eq, IsReadable_eq]
    show (upd b.readable_ (i / 8) _ (j / 8)).testBit (j % 8) = _
    rw [upd_apply]
    by_cases hb : j / 8 = i / 8
    · rw [if_pos hb]
      have h255 : (255 : Nat) = 2 ^ 8 - 1 := by norm_num
      rw [Nat.testBit_and, Nat.testBit_xor, h255, Nat.testBit_two_pow_sub_one,
        Nat.one_shiftLeft, Nat.testBit_two_pow, hb]
      have hj : j % 8 < 8 := Nat.mod_lt _ (by norm_num)
      by_cases hji : j = i
      · subst hji
        simp [hj]
      · have : ¬ i % 8 = j % 8 := fun e => hji (div_mod_eight_eq.mp ⟨hb, e.symm⟩)
        simp [hj, this, hji]
    · rw [if_neg hb]
      have hji : ¬ j = i := fun e => hb (by rw [e])
      simp [hji]
  · rw [if_neg hr]
    by_cases hji : j = i
    · subst hji
      simp at hr
      simp [hr]
    · simp [hji]

theorem IsReadable_SetOccupied (b : HashTableBucketPage K V) (i j : Nat) :
    (b.SetOccupied i).IsReadable j = b.IsReadable j := rfl

theorem IsReadable_zero [Inhabited K] [Inhabited V] (i : Nat) :
    (zero : HashTableBucketPage K V).IsReadable i = false := by
  rw [IsReadable_eq]
  exact Nat.zero_testBit _

theorem BytesOK_zero [Inhabited K] [Inhabited V] : BytesOK (zero : HashTableBucketPage K V) :=
  fun _ => by show (0 : Nat) < 256; norm_num

theorem BytesOK_SetReadable {b : HashTableBucketPage K V} (h : BytesOK b) (i : Nat) :
    BytesOK (b.SetReadable i) := by
  intro j
  show upd b.readable_ (i / 8) _ j < 256
  rw [upd_apply]
  split
  · exact Nat.mod_lt _ (by norm_num)
  · exact h j

theorem BytesOK_RemoveAt {b : HashTableBucketPage K V} (h : BytesOK b) (i : Nat) :
    BytesOK (b.RemoveAt i) := by
  intro j
  unfold RemoveAt
  split
  · show upd b.readable_ (i / 8) _ j < 256
    rw [upd_apply]
    split
    · exact lt_of_le_of_lt Nat.and_le_left (h _)
    · exact h j
  · exact h j

theorem IsFull_iff (cap : Nat) (b : HashTableBucketPage K V) :
    b.IsFull cap = true ↔
      (∀ j, j < cap / 8 → b.readable_ j = 255) ∧
      (∀ k, k < cap % 8 → (b.readable_ (cap / 8)).testBit k = false) := by
  unfold IsFull
  simp only [List.any_eq_true, List.mem_range, decide_eq_true_eq, gt_iff_lt]
  constructor
  · intro h
    split at h
    · cases h
    · rename_i h1
      split at h
      · cases h
      · rename_i h2
        push_neg at h1 h2
        refine ⟨h1, fun k hk => ?_⟩
        have := h2 k hk
        by_contra hc
        have hc' : (b.readable_ (cap / 8)).testBit k = true := by simpa using hc
        have := (and_one_shiftLeft_pos _ _).mpr hc'
        omega
  · rintro ⟨h1, h2⟩
    rw [if_neg, if_neg]
    · rintro ⟨k, hk, hpos⟩
      have := (and_one_shiftLeft_pos _ _).mp hpos
      rw [h2 k hk] at this
      cases this
    · rintro ⟨j, hj, hne⟩
      exact hne (h1 j hj)

/-- `IsFull` in terms of slots: the slots of the whole bytes are all readable and the slots of
the last, partial byte are all free. -/
theorem IsFull_iff_slots (cap : Nat) {b : HashTableBucketPage K V} (hb : BytesOK b) :
    b.IsFull cap = true ↔
      (∀ i, i < 8 * (cap / 8) → b.IsReadable i = true) ∧
      (∀ i, 8 * (cap / 8) ≤ i → i < cap → b.IsReadable i = false) := by
  rw [IsFull_iff]
  constructor
  · rintro ⟨h1, h2⟩
    constructor
    · intro i hi
      rw [IsReadable_eq]
      have hj : i / 8 < cap / 8 := by omega
      exact (byte_eq_255_iff (hb _)).mp (h1 _ hj) _ (Nat.mod_lt _ (by norm_num))
    · intro i hi1 hi2
      rw [IsReadable_eq]
      have e1 : i / 8 = cap / 8 := by omega
      rw [e1]
      exact h2 _ (by omega)
  · rintro ⟨h1, h2⟩
    constructor
    · intro j hj
      rw [byte_eq_255_iff (hb _)]
      intro k hk
      have := h1 (8 * j + k) (by omega)
      rw [IsReadable_eq] at this
      have e1 : (8 * j + k) / 8 = j := by omega
      have e2 : (8 * j + k) % 8 = k := by omega
      rw [e1, e2] at this
      exact this
    · intro k hk
      have := h2 (8 * (cap / 8) + k) (by omega) (by omega)
      rw [IsReadable_eq] at this
      have e1 : (8 * (cap / 8) + k) / 8 = cap / 8 := by omega
      have e2 : (8 * (cap / 8) + k) % 8 = k := by omega
      rw [e1, e2] at this
      exact this

theorem IsEmpty_iff (cap : Nat) (b : HashTableBucketPage K V) :
    b.IsEmpty cap = true ↔ ∀ i, i < 8 * bitmapBytes cap → b.IsReadable i = false := by
  unfold IsEmpty
  simp only [List.any_eq_true, List.mem_range, decide_eq_true_eq]
  constructor
  · intro h i hi
    split at h
    · cases h
    · rename_i h1
      push_neg at h1
      have := h1 (i / 8) (by omega)
      rw [byte_and_255_eq_zero_iff] at this
      rw [IsReadable_eq]
      exact this _ (Nat.mod_lt _ (by norm_num))
  · intro h
    rw [if_neg]
    rintro ⟨j, hj, hne⟩
    apply hne
    rw [byte_and_255_eq_zero_iff]
    intro k hk
    have := h (8 * j + k) (by omega)
    rw [IsReadable_eq] at this
    have e1 : (8 * j + k) / 8 = j := by omega
    have e2 : (8 * j + k) % 8 = k := by omega
    rw [e1, e2] at this
    exact this

theorem not_IsReadable_of_IsEmpty {cap : Nat} {b : HashTableBucketPage K V}
    (h : b.IsEmpty cap = true) {i : Nat} (hi : i < cap) : b.IsReadable i = false := by
  apply (IsEmpty_iff cap b).mp h
  unfold bitmapBytes
  omega

end HashTableBucketPage
end Bustub

namespace Bustub
namespace HashTableBucketPage

variable {K V : Type}

theorem mem_GetArrayCopy (cap : Nat) (b : HashTableBucketPage K V) (e : K × V) :
    e ∈ b.GetArrayCopy cap ↔ Holds cap b e := by
  unfold GetArrayCopy Holds
  simp only [List.mem_map, List.mem_filter, List.mem_range]
  constructor
  · rintro ⟨i, ⟨hi, hr⟩, he⟩
    exact ⟨i, hi, hr, he⟩
  · rintro ⟨i, hi, hr, he⟩
    exact ⟨i, ⟨hi, hr⟩, he⟩

/-! ### `Insert` -/

theorem InsertLoop_some_id [DecidableEq V] (cmp : K → K → Int) (b : HashTableBucketPage K V)
    (key : K) (value : V) (l : List Nat) (j : Nat) :
    InsertLoop cmp b key value l (some j) = none ∨
      InsertLoop cmp b key value l (some j) = some (some j) := by
  induction l with
  | nil => right; rfl
  | cons i rest ih =>
    simp only [InsertLoop]
    split
    · split
      · left; rfl
      · exact ih
    · simp only [reduceCtorEq, if_false]
      exact ih

theorem InsertLoop_eq_none_iff [DecidableEq V] (cmp : K → K → Int) (b : HashTableBucketPage K V)
    (key : K) (value : V) (l : List Nat) (id : Option Nat) :
    InsertLoop cmp b key value l id = none ↔
      ∃ i, i ∈ l ∧ b.IsReadable i = true ∧ cmp key (b.array_ i).1 = 0 ∧
        value = (b.array_ i).2 := by
  induction l generalizing id with
  | nil => simp [InsertLoop]
  | cons i rest ih =>
    simp only [InsertLoop, List.mem_cons]
    by_cases hr : b.IsReadable i = true
    · rw [if_pos hr]
      by_cases hm : cmp key (b.array_ i).1 = 0 ∧ value = (b.array_ i).2
      · rw [if_pos hm]
        simp only [true_iff]
        exact ⟨i, Or.inl rfl, hr, hm.1, hm.2⟩
      · rw [if_neg hm, ih]
        constructor
        · rintro ⟨x, hx, h⟩
          exact ⟨x, Or.inr hx, h⟩
        · rintro ⟨x, hx | hx, h⟩
          · subst hx
            exact absurd ⟨h.2.1, h.2.2⟩ hm
          · exact ⟨x, hx, h⟩
    · rw [if_neg hr]
      have hstep : ∀ id', (InsertLoop cmp b key value rest id' = none ↔
          ∃ x, (x = i ∨ x ∈ rest) ∧ b.IsReadable x = true ∧ cmp key (b.array_ x).1 = 0 ∧
            value = (b.array_ x).2) := by
        intro id'
        rw [ih]
        constructor
        · rintro ⟨x, hx, h⟩
          exact ⟨x, Or.inr hx, h⟩
        · rintro ⟨x, hx | hx, h⟩
          · subst hx
            exact absurd h.1 hr
          · exact ⟨x, hx, h⟩
      split
      · exact hstep _
      · exact hstep _

theorem InsertLoop_none_acc [DecidableEq V] (cmp : K → K → Int) (b : HashTableBucketPage K V)
    (key : K) (value : V) (l : List Nat)
    (hno : ¬ ∃ i, i ∈ l ∧ b.IsReadable i = true ∧ cmp key (b.array_ i).1 = 0 ∧
        value = (b.array_ i).2) :
    InsertLoop cmp b key value l none = some (l.find? (fun i => !b.IsReadable i)) := by
  induction l with
  | nil => rfl
  | cons i rest ih =>
    have hno' : ¬ ∃ x, x ∈ rest ∧ b.IsReadable x = true ∧ cmp key (b.array_ x).1 = 0 ∧
        value = (b.array_ x).2 := by
      rintro ⟨x, hx, h⟩
      exact hno ⟨x, List.mem_cons_of_mem _ hx, h⟩
    simp only [InsertLoop]
    by_cases hr : b.IsReadable i = true
    · rw [if_pos hr]
      have hm : ¬ (cmp key (b.array_ i).1 = 0 ∧ value = (b.array_ i).2) := by
        intro hm
        exact hno ⟨i, List.mem_cons_self _ _, hr, hm.1, hm.2⟩
      rw [if_neg hm, ih hno', List.find?_cons_of_neg _ (by simp [hr])]
    · rw [if_neg hr, if_pos trivial, List.find?_cons_of_pos _ (by simpa using hr)]
      rcases InsertLoop_some_id cmp b key value rest i with h | h
      · exact absurd ((InsertLoop_eq_none_iff cmp b key value rest (some i)).mp h) hno'
      · exact h

/-- The bucket after a successful `Insert` into slot `id`. -/
theorem Insert_cases [DecidableEq V] (cap : Nat) (cmp : K → K → Int)
    (b : HashTableBucketPage K V) (key : K) (value : V) :
    ((∃ i, i < cap ∧ b.IsReadable i = true ∧ cmp key (b.array_ i).1 = 0 ∧
        value = (b.array_ i).2) ∧ b.Insert cap cmp key value = (b, false)) ∨
    ((¬ ∃ i, i < cap ∧ b.IsReadable i = true ∧ cmp key (b.array_ i).1 = 0 ∧
        value = (b.array_ i).2) ∧ (∀ i, i < cap → b.IsReadable i = true) ∧
      b.Insert cap cmp key value = (b, false)) ∨
    ((¬ ∃ i, i < cap ∧ b.IsReadable i = true ∧ cmp key (b.array_ i).1 = 0 ∧
        value = (b.array_ i).2) ∧
      ∃ id, id < cap ∧ b.IsReadable id = false ∧ (∀ i, i < id → b.IsReadable i = true) ∧
        b.Insert cap cmp key value =
          ((({ b with array_ := upd b.array_ id (key, value) } :
            HashTableBucketPage K V).SetOccupied id).SetReadable id, true)) := by
  by_cases hm : ∃ i, i < cap ∧ b.IsReadable i = true ∧ cmp key (b.array_ i).1 = 0 ∧
      value = (b.array_ i).2
  · left
    refine ⟨hm, ?_⟩
    have : InsertLoop cmp b key value (List.range cap) none = none := by
      rw [InsertLoop_eq_none_iff]
      obtain ⟨i, hi, h⟩ := hm
      exact ⟨i, List.mem_range.mpr hi, h⟩
    unfold Insert
    rw [this]
  · right
    have hno : ¬ ∃ i, i ∈ List.range cap ∧ b.IsReadable i = true ∧
        cmp key (b.array_ i).1 = 0 ∧ value = (b.array_ i).2 := by
      rintro ⟨i, hi, h⟩
      exact hm ⟨i, List.mem_range.mp hi, h⟩
    have hloop := InsertLoop_none_acc cmp b key value (List.range cap) hno
    cases hf : (List.range cap).find? (fun i => !b.IsReadable i) with
    | none =>
      left
      refine ⟨hm, ?_, ?_⟩
      · intro i hi
        have := List.find?_eq_none.mp hf i (List.mem_range.mpr hi)
        simpa using this
      · unfold Insert
        rw [hloop, hf]
    | some id =>
      right
      refine ⟨hm, id, ?_⟩
      have h := List.find?_range_eq_some.mp hf
      refine ⟨List.mem_range.mp h.2.1, by simpa using h.1, ?_, ?_⟩
      · intro i hi
        have := h.2.2 i hi
        simpa using this
      · unfold Insert
        rw [hloop, hf]

end HashTableBucketPage
end Bustub

namespace Bustub
namespace HashTableBucketPage

variable {K V : Type}

theorem match_iff {cmp : K → K → Int} (hcmp : ∀ a b, cmp a b = 0 ↔ a = b) (key : K) (value : V)
    (e : K × V) : (cmp key e.1 = 0 ∧ value = e.2) ↔ e = (key, value) := by
  rw [hcmp]
  constructor
  · rintro ⟨h1, h2⟩
    exact Prod.ext h1.symm h2.symm
  · intro h
    subst h
    exact ⟨rfl, rfl⟩

theorem exists_match_iff {cmp : K → K → Int} (hcmp : ∀ a b, cmp a b = 0 ↔ a = b) (cap : Nat)
    (b : HashTableBucketPage K V) (key : K) (value : V) :
    (∃ i, i < cap ∧ b.IsReadable i = true ∧ cmp key (b.array_ i).1 = 0 ∧
      value = (b.array_ i).2) ↔ Holds cap b (key, value) := by
  unfold Holds
  constructor
  · rintro ⟨i, hi, hr, h⟩
    exact ⟨i, hi, hr, (match_iff hcmp key value _).mp h⟩
  · rintro ⟨i, hi, hr, h⟩
    exact ⟨i, hi, hr, (match_iff hcmp key value _).mpr h⟩

/-- What a successful bucket `Insert` does. -/
theorem Insert_true [DecidableEq V] {cmp : K → K → Int} (hcmp : ∀ a b, cmp a b = 0 ↔ a = b)
    {cap : Nat} {b b' : HashTableBucketPage K V} {key : K} {value : V}
    (h : b.Insert cap cmp key value = (b', true)) :
    ¬ Holds cap b (key, value) ∧
    ∃ id, id < cap ∧ b.IsReadable id = false ∧ (∀ i, i < id → b.IsReadable i = true) ∧
      (∀ j, b'.IsReadable j = (decide (j = id) || b.IsReadable j)) ∧
      (∀ j, b'.array_ j = if j = id then (key, value) else b.array_ j) ∧
      (BytesOK b → BytesOK b') := by
  rcases Insert_cases cap cmp b key value with ⟨_, h1⟩ | ⟨_, _, h1⟩ | ⟨hm, id, hid, hfree, hlow, h1⟩
  · rw [h1] at h
    simp at h
  · rw [h1] at h
    simp at h
  · rw [h1] at h
    simp only [Prod.mk.injEq, and_true] at h
    subst h
    refine ⟨fun hh => hm ((exists_match_iff hcmp cap b key value).mpr hh), id, hid, hfree, hlow,
      ?_, ?_, ?_⟩
    · intro j
      rw [IsReadable_SetReadable, IsReadable_SetOccupied]
      rfl
    · intro j
      rfl
    · intro hb
      exact BytesOK_SetReadable (b := ({ b with array_ := upd b.array_ id (key, value) } :
        HashTableBucketPage K V).SetOccupied id) hb id

/-- What a failed bucket `Insert` means. -/
theorem Insert_false [DecidableEq V] {cmp : K → K → Int} (hcmp : ∀ a b, cmp a b = 0 ↔ a = b)
    {cap : Nat} {b b' : HashTableBucketPage K V} {key : K} {value : V}
    (h : b.Insert cap cmp key value = (b', false)) :
    b' = b ∧ (Holds cap b (key, value) ∨ ∀ i, i < cap → b.IsReadable i = true) := by
  rcases Insert_cases cap cmp b key value with ⟨hm, h1⟩ | ⟨_, hall, h1⟩ | ⟨_, id, _, _, _, h1⟩
  · rw [h1] at h
    simp only [Prod.mk.injEq, and_true] at h
    exact ⟨h.symm, Or.inl ((exists_match_iff hcmp cap b key value).mp hm)⟩
  · rw [h1] at h
    simp only [Prod.mk.injEq, and_true] at h
    exact ⟨h.symm, Or.inr hall⟩
  · rw [h1] at h
    simp at h

theorem Insert_succeeds [DecidableEq V] {cmp : K → K → Int}
    (hcmp : ∀ a b, cmp a b = 0 ↔ a = b) {cap : Nat} {b : HashTableBucketPage K V} {key : K}
    {value : V} (hno : ¬ Holds cap b (key, value)) {i : Nat} (hi : i < cap)
    (hfree : b.IsReadable i = false) : (b.Insert cap cmp key value).2 = true := by
  cases hres : b.Insert cap cmp key value with
  | mk b' r =>
    cases r with
    | true => rfl
    | false =>
      exfalso
      rcases (Insert_false hcmp hres).2 with h | h
      · exact hno h
      · rw [h i hi] at hfree
        cases hfree

theorem Holds_Insert [DecidableEq V] {cmp : K → K → Int} (hcmp : ∀ a b, cmp a b = 0 ↔ a = b)
    {cap : Nat} {b b' : HashTableBucketPage K V} {key : K} {value : V}
    (h : b.Insert cap cmp key value = (b', true)) (e : K × V) :
    Holds cap b' e ↔ e = (key, value) ∨ Holds cap b e := by
  obtain ⟨_, id, hid, hfree, _, hr, ha, _⟩ := Insert_true hcmp h
  unfold Holds
  constructor
  · rintro ⟨i, hi, hri, hai⟩
    rw [hr] at hri
    rw [ha] at hai
    by_cases hii : i = id
    · left
      rw [if_pos hii] at hai
      exact hai.symm
    · right
      rw [if_neg hii] at hai
      simp only [hii, decide_False, Bool.false_or] at hri
      exact ⟨i, hi, hri, hai⟩
  · rintro (he | ⟨i, hi, hri, hai⟩)
    · refine ⟨id, hid, ?_, ?_⟩
      · rw [hr]
        simp
      · rw [ha, if_pos rfl, he]
    · have hii : i ≠ id := by
        intro e'
        rw [e', hfree] at hri
        cases hri
      refine ⟨i, hi, ?_, ?_⟩
      · rw [hr, hri]
        simp
      · rw [ha, if_neg hii]
        exact hai

theorem NoDup_Insert [DecidableEq V] {cmp : K → K → Int} (hcmp : ∀ a b, cmp a b = 0 ↔ a = b)
    {cap : Nat} {b b' : HashTableBucketPage K V} {key : K} {value : V}
    (h : b.Insert cap cmp key value = (b', true)) (hnd : NoDup cap b) : NoDup cap b' := by
  obtain ⟨hno, id, hid, hfree, _, hr, ha, _⟩ := Insert_true hcmp h
  intro i j hi hj hri hrj hij
  rw [hr] at hri hrj
  rw [ha, ha] at hij
  by_cases h1 : i = id
  · by_cases h2 : j = id
    · rw [h1, h2]
    · exfalso
      rw [if_pos h1, if_neg h2] at hij
      simp only [h2, decide_False, Bool.false_or] at hrj
      exact hno ⟨j, hj, hrj, hij.symm⟩
  · by_cases h2 : j = id
    · exfalso
      rw [if_neg h1, if_pos h2] at hij
      simp only [h1, decide_False, Bool.false_or] at hri
      exact hno ⟨i, hi, hri, hij⟩
    · rw [if_neg h1, if_neg h2] at hij
      simp only [h1, decide_False, Bool.false_or] at hri
      simp only [h2, decide_False, Bool.false_or] at hrj
      exact hnd i j hi hj hri hrj hij

/-! ### `Remove` -/

theorem RemoveLoop_eq_none_iff [DecidableEq V] (cmp : K → K → Int)
    (b : HashTableBucketPage K V) (key : K) (value : V) (l : List Nat) :
    RemoveLoop cmp b key value l = none ↔
      ¬ ∃ i, i ∈ l ∧ b.IsReadable i = true ∧ cmp key (b.array_ i).1 = 0 ∧
        value = (b.array_ i).2 := by
  induction l with
  | nil => simp [RemoveLoop]
  | cons i rest ih =>
    simp only [RemoveLoop, List.mem_cons]
    by_cases hr : b.IsReadable i = true
    · rw [if_pos hr]
      by_cases hm : cmp key (b.array_ i).1 = 0 ∧ value = (b.array_ i).2
      · rw [if_pos hm]
        simp only [reduceCtorEq, false_iff, not_not]
        exact ⟨i, Or.inl rfl, hr, hm.1, hm.2⟩
      · rw [if_neg hm, ih]
        constructor
        · rintro hno ⟨x, hx | hx, h⟩
          · subst hx
            exact hm ⟨h.2.1, h.2.2⟩
          · exact hno ⟨x, hx, h⟩
        · rintro hno ⟨x, hx, h⟩
          exact hno ⟨x, Or.inr hx, h⟩
    · rw [if_neg hr, ih]
      constructor
      · rintro hno ⟨x, hx | hx, h⟩
        · subst hx
          exact hr h.1
        · exact hno ⟨x, hx, h⟩
      · rintro hno ⟨x, hx, h⟩
        exact hno ⟨x, Or.inr hx, h⟩

theorem RemoveLoop_some [DecidableEq V] (cmp : K → K → Int) (b : HashTableBucketPage K V)
    (key : K) (value : V) (l : List Nat) {j : Nat}
    (h : RemoveLoop cmp b key value l = some j) :
    j ∈ l ∧ b.IsReadable j = true ∧ cmp key (b.array_ j).1 = 0 ∧ value = (b.array_ j).2 := by
  induction l with
  | nil => simp [RemoveLoop] at h
  | cons i rest ih =>
    simp only [RemoveLoop] at h
    split at h
    · rename_i hr
      split at h
      · rename_i hm
        injection h with h
        subst h
        exact ⟨List.mem_cons_self _ _, hr, hm.1, hm.2⟩
      · have := ih h
        exact ⟨List.mem_cons_of_mem _ this.1, this.2⟩
    · have := ih h
      exact ⟨List.mem_cons_of_mem _ this.1, this.2⟩

/-- What the bucket `Remove` does. -/
theorem Remove_cases [DecidableEq V] {cmp : K → K → Int} (hcmp : ∀ a b, cmp a b = 0 ↔ a = b)
    (cap : Nat) (b : HashTableBucketPage K V) (key : K) (value : V) :
    (¬ Holds cap b (key, value) ∧ b.Remove cap cmp key value = (b, false)) ∨
    (∃ j, j < cap ∧ b.IsReadable j = true ∧ b.array_ j = (key, value) ∧
      b.Remove cap cmp key value = (b.RemoveAt j, true)) := by
  cases hl : RemoveLoop cmp b key value (List.range cap) with
  | none =>
    left
    have := (RemoveLoop_eq_none_iff cmp b key value _).mp hl
    refine ⟨?_, ?_⟩
    · intro hh
      apply this
      obtain ⟨i, hi, h⟩ := (exists_match_iff hcmp cap b key value).mpr hh
      exact ⟨i, List.mem_range.mpr hi, h⟩
    · unfold Remove
      rw [hl]
  | some j =>
    right
    have := RemoveLoop_some cmp b key value _ hl
    refine ⟨j, List.mem_range.mp this.1, this.2.1,
      (match_iff hcmp key value _).mp this.2.2, ?_⟩
    unfold Remove
    rw [hl]

theorem Holds_RemoveAt {cap : Nat} {b : HashTableBucketPage K V} (hnd : NoDup cap b) {j : Nat}
    (hj : j < cap) (hr : b.IsReadable j = true) (e : K × V) :
    Holds cap (b.RemoveAt j) e ↔ Holds cap b e ∧ e ≠ b.array_ j := by
  have harr : (b.RemoveAt j).array_ = b.array_ := by
    unfold RemoveAt
    split <;> rfl
  unfold Holds
  constructor
  · rintro ⟨i, hi, hri, hai⟩
    rw [IsReadable_RemoveAt] at hri
    simp only [Bool.and_eq_true, Bool.not_eq_true', decide_eq_false_iff_not] at hri
    rw [harr] at hai
    refine ⟨⟨i, hi, hri.2, hai⟩, ?_⟩
    intro he
    exact hri.1 (hnd i j hi hj hri.2 hr (hai.trans he))
  · rintro ⟨⟨i, hi, hri, hai⟩, hne⟩
    refine ⟨i, hi, ?_, ?_⟩
    · rw [IsReadable_RemoveAt, hri]
      have : i ≠ j := fun e' => hne (by rw [← hai, e'])
      simp [this]
    · rw [harr]
      exact hai

theorem NoDup_RemoveAt {cap : Nat} {b : HashTableBucketPage K V} (hnd : NoDup cap b) (j : Nat) :
    NoDup cap (b.RemoveAt j) := by
  have harr : (b.RemoveAt j).array_ = b.array_ := by
    unfold RemoveAt
    split <;> rfl
  intro i i' hi hi' hri hri' he
  rw [IsReadable_RemoveAt] at hri hri'
  simp only [Bool.and_eq_true] at hri hri'
  rw [harr] at he
  exact hnd i i' hi hi' hri.2 hri'.2 he

/-! ### `GetValue` -/

theorem GetValueLoop_eq (cmp : K → K → Int) (b : HashTableBucketPage K V) (key : K)
    (l : List Nat) (res : Bool) (result : List V) :
    GetValueLoop cmp b key l (res, result) =
      (res || l.any (fun i => b.IsReadable i && decide (cmp key (b.array_ i).1 = 0)),
        result ++ (l.filter (fun i => b.IsReadable i &&
          decide (cmp key (b.array_ i).1 = 0))).map (fun i => (b.array_ i).2)) := by
  induction l generalizing res result with
  | nil => simp [GetValueLoop]
  | cons i rest ih =>
    simp only [GetValueLoop]
    by_cases h : (b.IsReadable i && decide (cmp key (b.array_ i).1 = 0)) = true
    · rw [if_pos h, ih]
      simp [h, List.filter_cons]
    · rw [if_neg h, ih]
      simp [h, List.filter_cons]

theorem mem_GetValue {cmp : K → K → Int} (hcmp : ∀ a b, cmp a b = 0 ↔ a = b) (cap : Nat)
    (b : HashTableBucketPage K V) (key : K) (result : List V) (v : V) :
    v ∈ (b.GetValue cap cmp key result).2 ↔ v ∈ result ∨ Holds cap b (key, v) := by
  unfold GetValue
  rw [GetValueLoop_eq]
  simp only [List.mem_append, List.mem_map, List.mem_filter, List.mem_range, Bool.and_eq_true,
    decide_eq_true_eq, hcmp]
  unfold Holds
  constructor
  · rintro (h | ⟨i, ⟨hi, hr, hk⟩, hv⟩)
    · exact Or.inl h
    · exact Or.inr ⟨i, hi, hr, Prod.ext hk.symm hv⟩
  · rintro (h | ⟨i, hi, hr, he⟩)
    · exact Or.inl h
    · right
      refine ⟨i, ⟨hi, hr, ?_⟩, ?_⟩
      · rw [he]
      · rw [he]

theorem GetValue_fst {cmp : K → K → Int} (hcmp : ∀ a b, cmp a b = 0 ↔ a = b) (cap : Nat)
    (b : HashTableBucketPage K V) (key : K) (result : List V) :
    (b.GetValue cap cmp key result).1 = true ↔ ∃ v, Holds cap b (key, v) := by
  unfold GetValue
  rw [GetValueLoop_eq]
  simp only [Bool.false_or, List.any_eq_true, List.mem_range, Bool.and_eq_true,
    decide_eq_true_eq, hcmp]
  unfold Holds
  constructor
  · rintro ⟨i, hi, hr, hk⟩
    exact ⟨(b.array_ i).2, i, hi, hr, Prod.ext hk.symm rfl⟩
  · rintro ⟨v, i, hi, hr, he⟩
    exact ⟨i, hi, hr, by rw [he]⟩

end HashTableBucketPage
end Bustub

namespace Bustub
namespace HashTableBucketPage

variable {K V : Type}

/-! ### `NumReadable` -/

theorem countBits_eq (k c : Nat) :
    countBits k c = ((List.range k).filter (fun j => c.testBit j)).length := by
  induction k generalizing c with
  | zero => rfl
  | succ k ih =>
    have hs : ((fun j => c.testBit j) ∘ Nat.succ) = fun j => (c >>> 1).testBit j := by
      funext j
      simp only [Function.comp, Nat.testBit_shiftRight, Nat.succ_eq_add_one]
      rw [Nat.add_comm]
    rw [countBits, ih, List.range_succ_eq_map, List.filter_cons, List.filter_map, hs]
    have h0 : c.testBit 0 = decide (c &&& 1 = 1) := by
      rw [Nat.and_one_is_mod, Nat.testBit_zero]
    by_cases hc : c &&& 1 = 1
    · have ht : c.testBit 0 = true := by rw [h0]; simpa using hc
      rw [if_pos hc, if_pos ht, List.length_cons, List.length_map]
      omega
    · have ht : ¬ c.testBit 0 = true := by rw [h0]; simpa using hc
      rw [if_neg hc, if_neg ht, List.length_map]
      omega

theorem length_filter_range_bytes (p : Nat → Bool) (n r : Nat) :
    ((List.range (8 * n + r)).filter p).length =
      ((List.range n).map
        (fun j => ((List.range 8).filter (fun k => p (8 * j + k))).length)).sum +
      ((List.range r).filter (fun k => p (8 * n + k))).length := by
  have hmain : ∀ m, ((List.range (8 * m)).filter p).length =
      ((List.range m).map
        (fun j => ((List.range 8).filter (fun k => p (8 * j + k))).length)).sum := by
    intro m
    induction m with
    | zero => rfl
    | succ m ih =>
      have e : 8 * (m + 1) = 8 * m + 8 := by ring
      have e2 : List.range (m + 1) = List.range m ++ [m] := List.range_succ m
      rw [e, List.range_add, List.filter_append, List.length_append, ih, e2,
        List.map_append, List.sum_append, List.filter_map, List.length_map]
      simp only [List.map_cons, List.map_nil, List.sum_cons, List.sum_nil, Nat.add_zero]
      rfl
  rw [List.range_add, List.filter_append, List.length_append, hmain, List.filter_map,
    List.length_map]
  rfl

theorem NumReadable_eq (cap : Nat) (b : HashTableBucketPage K V) :
    b.NumReadable cap = (b.GetArrayCopy cap).length := by
  unfold NumReadable GetArrayCopy
  rw [List.length_map]
  have hcap : cap = 8 * (cap / 8) + cap % 8 := by omega
  conv_rhs => rw [hcap]
  rw [length_filter_range_bytes]
  have h1 : ∀ j, countBits 8 (b.readable_ j) =
      ((List.range 8).filter (fun k => b.IsReadable (8 * j + k))).length := by
    intro j
    rw [countBits_eq]
    congr 1
    apply List.filter_congr
    intro k hk
    rw [IsReadable_eq]
    have hk' := List.mem_range.mp hk
    have e1 : (8 * j + k) / 8 = j := by omega
    have e2 : (8 * j + k) % 8 = k := by omega
    rw [e1, e2]
  have h2 : countBits (cap % 8) (b.readable_ (cap / 8)) =
      ((List.range (cap % 8)).filter (fun k => b.IsReadable (8 * (cap / 8) + k))).length := by
    rw [countBits_eq]
    congr 1
    apply List.filter_congr
    intro k hk
    rw [IsReadable_eq]
    have hk' := List.mem_range.mp hk
    have e1 : (8 * (cap / 8) + k) / 8 = cap / 8 := by omega
    have e2 : (8 * (cap / 8) + k) % 8 = k := by omega
    rw [e1, e2]
  show ((List.range (cap / 8)).map (fun index => countBits 8 (b.readable_ index))).sum +
    countBits (cap % 8) (b.readable_ (cap / 8)) = _
  rw [h2]
  simp only [h1]

theorem length_GetArrayCopy_le (cap : Nat) (b : HashTableBucketPage K V) :
    (b.GetArrayCopy cap).length ≤ cap := by
  unfold GetArrayCopy
  rw [List.length_map]
  calc ((List.range cap).filter _).length ≤ (List.range cap).length := List.length_filter_le _ _
    _ = cap := List.length_range cap

theorem nodup_GetArrayCopy {cap : Nat} {b : HashTableBucketPage K V} (h : NoDup cap b) :
    (b.GetArrayCopy cap).Nodup := by
  unfold GetArrayCopy
  apply List.Nodup.map_on
  · intro i hi j hj hij
    simp only [List.mem_filter, List.mem_range] at hi hj
    exact h i j hi.1 hj.1 hi.2 hj.2 hij
  · exact (List.nodup_range cap).filter _

/-! ### Packed buckets -/

theorem Packed_zero [Inhabited K] [Inhabited V] (cap : Nat) :
    Packed cap (zero : HashTableBucketPage K V) [] := by
  refine ⟨Nat.zero_le _, BytesOK_zero, fun i => ?_, fun i hi => ?_⟩
  · rw [IsReadable_zero]
    simp
  · cases hi

theorem Holds_Packed {cap : Nat} {b : HashTableBucketPage K V} {l : List (K × V)}
    (h : Packed cap b l) (e : K × V) : Holds cap b e ↔ e ∈ l := by
  obtain ⟨hlen, _, hr, ha⟩ := h
  unfold Holds
  constructor
  · rintro ⟨i, _, hri, hai⟩
    have hi := (hr i).mp hri
    have := ha i hi
    rw [hai] at this
    exact List.getElem?_mem this
  · intro he
    obtain ⟨i, hi, hget⟩ := List.mem_iff_getElem.mp he
    refine ⟨i, by omega, (hr i).mpr hi, ?_⟩
    have := ha i hi
    rw [List.getElem?_eq_getElem hi, hget] at this
    injection this with this
    exact this.symm

theorem NoDup_Packed {cap : Nat} {b : HashTableBucketPage K V} {l : List (K × V)}
    (h : Packed cap b l) (hnd : l.Nodup) : NoDup cap b := by
  obtain ⟨hlen, _, hr, ha⟩ := h
  intro i j _ _ hri hrj hij
  have hi := (hr i).mp hri
  have hj := (hr j).mp hrj
  have h1 := ha i hi
  have h2 := ha j hj
  rw [List.getElem?_eq_getElem hi] at h1
  rw [List.getElem?_eq_getElem hj] at h2
  injection h1 with h1
  injection h2 with h2
  exact (List.Nodup.getElem_inj_iff hnd).mp (by rw [h1, h2, hij])

theorem Packed_Insert [DecidableEq V] {cmp : K → K → Int} (hcmp : ∀ a b, cmp a b = 0 ↔ a = b)
    {cap : Nat} {b : HashTableBucketPage K V} {l : List (K × V)} (h : Packed cap b l)
    (hlen : l.length < cap) {key : K} {value : V} (hno : (key, value) ∉ l) :
    ∃ b', b.Insert cap cmp key value = (b', true) ∧ Packed cap b' (l ++ [(key, value)]) := by
  have hnh : ¬ Holds cap b (key, value) := fun hh => hno ((Holds_Packed h _).mp hh)
  obtain ⟨_, hb, hr, ha⟩ := h
  have hfree : b.IsReadable l.length = false := by
    have := (hr l.length).not.mpr (lt_irrefl _)
    simpa using this
  have hsucc : (b.Insert cap cmp key value).2 = true := Insert_succeeds hcmp hnh hlen hfree
  cases hres : b.Insert cap cmp key value with
  | mk b' r =>
    rw [hres] at hsucc
    change r = true at hsucc
    subst hsucc
    refine ⟨b', rfl, ?_⟩
    obtain ⟨_, id, hid, hidfree, hlow, hr', ha', hb'⟩ := Insert_true hcmp hres
    have hidl : id = l.length := by
      apply le_antisymm
      · by_contra hgt
        have := hlow l.length (by omega)
        rw [hfree] at this
        cases this
      · by_contra hlt
        have := (hr id).mpr (by omega)
        rw [hidfree] at this
        cases this
    subst hidl
    refine ⟨by simp; omega, hb' hb, fun i => ?_, fun i hi => ?_⟩
    · rw [hr']
      simp only [Bool.or_eq_true, decide_eq_true_eq, hr, List.length_append,
        List.length_singleton]
      omega
    · rw [ha']
      simp only [List.length_append, List.length_singleton] at hi
      by_cases hil : i = l.length
      · rw [if_pos hil, hil]
        simp
      · rw [if_neg hil, List.getElem?_append_left (by omega)]
        exact ha i (by omega)

theorem filter_range_lt {n cap : Nat} (h : n ≤ cap) :
    (List.range cap).filter (fun i => decide (i < n)) = List.range n := by
  induction cap with
  | zero =>
    have : n = 0 := by omega
    subst this
    rfl
  | succ c ih =>
    rw [List.range_succ, List.filter_append]
    by_cases hn : n ≤ c
    · rw [ih hn]
      simp
      omega
    · have hn' : n = c + 1 := by omega
      subst hn'
      have : (List.range c).filter (fun i => decide (i < c + 1)) = List.range c := by
        apply List.filter_eq_self.mpr
        intro a ha
        have := List.mem_range.mp ha
        simp
        omega
      rw [this, List.range_succ]
      simp

theorem GetArrayCopy_Packed {cap : Nat} {b : HashTableBucketPage K V} {l : List (K × V)}
    (h : Packed cap b l) : b.GetArrayCopy cap = l := by
  obtain ⟨hlen, _, hr, ha⟩ := h
  unfold GetArrayCopy
  have hf : (List.range cap).filter (fun i => b.IsReadable i) = List.range l.length := by
    rw [← filter_range_lt hlen]
    apply List.filter_congr
    intro i _
    by_cases hi : i < l.length
    · simp [hi, (hr i).mpr hi]
    · have : b.IsReadable i = false := by
        have := (hr i).not.mpr hi
        simpa using this
      simp [hi, this]
  rw [hf]
  apply List.ext_getElem?
  intro i
  by_cases hi : i < l.length
  · rw [ha i hi, List.getElem?_map, List.getElem?_range hi]
    rfl
  · rw [List.getElem?_eq_none (by simpa using hi), List.getElem?_eq_none (by simpa using hi)]

theorem IsFull_Packed {cap : Nat} {b : HashTableBucketPage K V} {l : List (K × V)}
    (h : Packed cap b l) : b.IsFull cap = true ↔ l.length = 8 * (cap / 8) := by
  obtain ⟨hlen, hb, hr, _⟩ := h
  rw [IsFull_iff_slots cap hb]
  constructor
  · rintro ⟨h1, h2⟩
    apply le_antisymm
    · by_contra hgt
      have hlt : 8 * (cap / 8) < l.length := by omega
      have := h2 (8 * (cap / 8)) (le_refl _) (by omega)
      rw [(hr _).mpr hlt] at this
      cases this
    · by_contra hlt
      have := (hr _).mp (h1 l.length (by omega))
      omega
  · intro he
    constructor
    · intro i hi
      exact (hr i).mpr (by omega)
    · intro i hi _
      have := (hr i).not.mpr (by omega)
      simpa using this

end HashTableBucketPage
end Bustub

namespace Bustub

/-! ## Arithmetic of directory indices -/

theorem and_mask_eq_mod (x g : Nat) : x &&& ((1 <<< g) - 1) = x % 2 ^ g := by
  rw [Nat.one_shiftLeft, Nat.and_pow_two_sub_one_eq_mod]

theorem mod_pow_eq_iff_bits (x y n : Nat) :
    x % 2 ^ n = y % 2 ^ n ↔ ∀ j, j < n → x.testBit j = y.testBit j := by
  constructor
  · intro h j hj
    have h1 := Nat.testBit_mod_two_pow x n j
    have h2 := Nat.testBit_mod_two_pow y n j
    rw [h] at h1
    rw [h1] at h2
    simpa [hj] using h2
  · intro h
    apply Nat.eq_of_testBit_eq
    intro j
    rw [Nat.testBit_mod_two_pow, Nat.testBit_mod_two_pow]
    by_cases hj : j < n
    · simp [hj, h j hj]
    · simp [hj]

theorem mod_pow_of_le {a b : Nat} (h : a ≤ b) (x : Nat) : x % 2 ^ b % 2 ^ a = x % 2 ^ a :=
  Nat.mod_mod_of_dvd x (Nat.pow_dvd_pow 2 h)

theorem mod_pow_eq_of_le {a b : Nat} (h : a ≤ b) {x y : Nat} (hxy : x % 2 ^ b = y % 2 ^ b) :
    x % 2 ^ a = y % 2 ^ a := by
  rw [← mod_pow_of_le h x, ← mod_pow_of_le h y, hxy]

theorem testBit_xor_pow (i d j : Nat) :
    (i ^^^ 2 ^ d).testBit j = (i.testBit j != decide (d = j)) := by
  rw [Nat.testBit_xor, Nat.testBit_two_pow]

theorem xor_pow_mod_same (i d : Nat) : (i ^^^ 2 ^ d) % 2 ^ d = i % 2 ^ d := by
  rw [mod_pow_eq_iff_bits]
  intro j hj
  rw [testBit_xor_pow]
  have : ¬ d = j := by omega
  simp [this]

theorem xor_pow_mod_succ_ne (i d : Nat) : (i ^^^ 2 ^ d) % 2 ^ (d + 1) ≠ i % 2 ^ (d + 1) := by
  intro h
  rw [mod_pow_eq_iff_bits] at h
  have := h d (by omega)
  rw [testBit_xor_pow] at this
  simp at this

theorem xor_pow_lt {i d g : Nat} (hi : i < 2 ^ g) (hd : d < g) : i ^^^ 2 ^ d < 2 ^ g :=
  Nat.xor_lt_two_pow hi (Nat.pow_lt_pow_right (by norm_num) hd)

theorem xor_pow_lt_iff {i d g : Nat} (hd : d < g) : i ^^^ 2 ^ d < 2 ^ g ↔ i < 2 ^ g := by
  constructor
  · intro h
    have := xor_pow_lt h hd
    rwa [Nat.xor_assoc, Nat.xor_self, Nat.xor_zero] at this
  · intro h
    exact xor_pow_lt h hd

/-- A number that agrees with `i` on the low `d` bits agrees on the low `d + 1` bits with `i` or
with `i XOR 2^d`. -/
theorem mod_succ_cases {x i d : Nat} (h : x % 2 ^ d = i % 2 ^ d) :
    x % 2 ^ (d + 1) = i % 2 ^ (d + 1) ∨ x % 2 ^ (d + 1) = (i ^^^ 2 ^ d) % 2 ^ (d + 1) := by
  rw [mod_pow_eq_iff_bits] at h
  by_cases hb : x.testBit d = i.testBit d
  · left
    rw [mod_pow_eq_iff_bits]
    intro j hj
    by_cases hjd : j = d
    · rw [hjd]; exact hb
    · exact h j (by omega)
  · right
    rw [mod_pow_eq_iff_bits]
    intro j hj
    rw [testBit_xor_pow]
    by_cases hjd : j = d
    · subst hjd
      simp only [decide_True]
      cases hx : x.testBit j <;> cases hi : i.testBit j <;> simp_all
    · have : ¬ d = j := fun e => hjd e.symm
      simp only [this, decide_False, Bool.bne_false]
      exact h j (by omega)

theorem mod_succ_iff {x i d : Nat} :
    x % 2 ^ d = i % 2 ^ d ↔
      (x % 2 ^ (d + 1) = i % 2 ^ (d + 1) ∨ x % 2 ^ (d + 1) = (i ^^^ 2 ^ d) % 2 ^ (d + 1)) := by
  constructor
  · exact mod_succ_cases
  · rintro (h | h)
    · exact mod_pow_eq_of_le (Nat.le_succ d) h
    · have := mod_pow_eq_of_le (Nat.le_succ d) h
      rw [this, xor_pow_mod_same]

theorem mod_lt_pow (x g : Nat) : x % 2 ^ g < 2 ^ g := Nat.mod_lt _ (Nat.two_pow_pos g)

theorem sub_pow_eq_mod {s g : Nat} (h1 : 2 ^ g ≤ s) (h2 : s < 2 * 2 ^ g) : s - 2 ^ g = s % 2 ^ g := by
  have : s = (s - 2 ^ g) + 2 ^ g := by omega
  conv_rhs => rw [this]
  rw [Nat.add_mod_right, Nat.mod_eq_of_lt (by omega)]

end Bustub

namespace Bustub
namespace HashTableDirectoryPage

theorem Size_eq (d : HashTableDirectoryPage) : d.Size = 2 ^ d.global_depth_ := by
  unfold Size
  rw [Nat.one_shiftLeft]

theorem IncrGlobalDepth_global_depth (d : HashTableDirectoryPage) :
    d.IncrGlobalDepth.global_depth_ = d.global_depth_ + 1 := rfl

theorem IncrGlobalDepth_local_depths (d : HashTableDirectoryPage) {s : Nat}
    (hs : s < 2 ^ (d.global_depth_ + 1)) :
    d.IncrGlobalDepth.local_depths_ s = d.local_depths_ (s % 2 ^ d.global_depth_) := by
  show (if d.Size ≤ s ∧ s < 2 * d.Size then d.local_depths_ (s - d.Size)
    else d.local_depths_ s) = _
  rw [Size_eq]
  have hs' : s < 2 * 2 ^ d.global_depth_ := by rw [pow_succ] at hs; omega
  by_cases h : 2 ^ d.global_depth_ ≤ s
  · rw [if_pos ⟨h, hs'⟩, sub_pow_eq_mod h hs']
  · rw [if_neg (fun hh => h hh.1), Nat.mod_eq_of_lt (by omega)]

theorem IncrGlobalDepth_bucket_page_ids (d : HashTableDirectoryPage) {s : Nat}
    (hs : s < 2 ^ (d.global_depth_ + 1)) :
    d.IncrGlobalDepth.bucket_page_ids_ s = d.bucket_page_ids_ (s % 2 ^ d.global_depth_) := by
  show (if d.Size ≤ s ∧ s < 2 * d.Size then d.bucket_page_ids_ (s - d.Size)
    else d.bucket_page_ids_ s) = _
  rw [Size_eq]
  have hs' : s < 2 * 2 ^ d.global_depth_ := by rw [pow_succ] at hs; omega
  by_cases h : 2 ^ d.global_depth_ ≤ s
  · rw [if_pos ⟨h, hs'⟩, sub_pow_eq_mod h hs']
  · rw [if_neg (fun hh => h hh.1), Nat.mod_eq_of_lt (by omega)]

/-- Storing the same page id and depth in every slot of a list. -/
theorem foldl_set (l : List Nat) (p : Int) (dep : Nat) (d : HashTableDirectoryPage) :
    let d' := l.foldl (fun d index => (d.SetBucketPageId index p).SetLocalDepth index dep) d
    d'.global_depth_ = d.global_depth_ ∧ d'.page_id_ = d.page_id_ ∧
    (∀ s, d'.bucket_page_ids_ s = if s ∈ l then p else d.bucket_page_ids_ s) ∧
    (∀ s, d'.local_depths_ s = if s ∈ l then dep else d.local_depths_ s) := by
  induction l generalizing d with
  | nil => simp
  | cons a rest ih =>
    have := ih ((d.SetBucketPageId a p).SetLocalDepth a dep)
    simp only [List.foldl_cons]
    refine ⟨this.1, this.2.1, fun s => ?_, fun s => ?_⟩
    · rw [this.2.2.1 s]
      by_cases hs : s ∈ rest
      · simp [hs]
      · rw [if_neg hs]
        show upd d.bucket_page_ids_ a p s = _
        rw [upd_apply]
        by_cases hsa : s = a
        · simp [hsa]
        · simp [hsa, hs]
    · rw [this.2.2.2 s]
      by_cases hs : s ∈ rest
      · simp [hs]
      · rw [if_neg hs]
        show upd d.local_depths_ a dep s = _
        rw [upd_apply]
        by_cases hsa : s = a
        · simp [hsa]
        · simp [hsa, hs]

theorem stride_iff {start interval s : Nat} (h : start < interval) :
    (start ≤ s ∧ (s - start) % interval = 0) ↔ s % interval = start := by
  constructor
  · rintro ⟨h1, h2⟩
    have hd := Nat.div_add_mod (s - start) interval
    rw [h2, Nat.add_zero] at hd
    have hs : s = start + interval * ((s - start) / interval) := by omega
    rw [hs, Nat.add_mul_mod_self_left, Nat.mod_eq_of_lt h]
  · intro h1
    have hd := Nat.div_add_mod s interval
    rw [h1] at hd
    refine ⟨by omega, ?_⟩
    have : s - start = interval * (s / interval) := by omega
    rw [this, Nat.mul_mod_right]

end HashTableDirectoryPage

namespace ExtendibleHashTable

open HashTableDirectoryPage

theorem SplitRepoint_spec (d : HashTableDirectoryPage) {start interval : Nat}
    (h : start < interval) (p : Int) (dep : Nat) :
    (SplitRepoint d start interval p dep).global_depth_ = d.global_depth_ ∧
    (SplitRepoint d start interval p dep).page_id_ = d.page_id_ ∧
    (∀ s, (SplitRepoint d start interval p dep).bucket_page_ids_ s =
      if s < 2 ^ d.global_depth_ ∧ s % interval = start then p else d.bucket_page_ids_ s) ∧
    (∀ s, (SplitRepoint d start interval p dep).local_depths_ s =
      if s < 2 ^ d.global_depth_ ∧ s % interval = start then dep else d.local_depths_ s) := by
  have := foldl_set ((List.range d.Size).filter
      (fun index => decide (start ≤ index) && decide ((index - start) % interval = 0))) p dep d
  have hmem : ∀ s, s ∈ (List.range d.Size).filter
      (fun index => decide (start ≤ index) && decide ((index - start) % interval = 0)) ↔
      (s < 2 ^ d.global_depth_ ∧ s % interval = start) := by
    intro s
    simp only [List.mem_filter, List.mem_range, Bool.and_eq_true, decide_eq_true_eq, Size_eq]
    rw [stride_iff h]
  unfold SplitRepoint
  refine ⟨this.1, this.2.1, fun s => ?_, fun s => ?_⟩
  · rw [this.2.2.1 s]
    simp only [hmem]
  · rw [this.2.2.2 s]
    simp only [hmem]

end ExtendibleHashTable
end Bustub

namespace Bustub
namespace ExtendibleHashTable

open HashTableDirectoryPage

variable {K V : Type}

theorem KeyToDirectoryIndex_eq (P : Params K) (key : K) (d : HashTableDirectoryPage) :
    KeyToDirectoryIndex P key d = Hash P key % 2 ^ d.global_depth_ := by
  unfold KeyToDirectoryIndex GetGlobalDepthMask
  exact and_mask_eq_mod _ _

theorem KeyToDirectoryIndex_lt (P : Params K) (key : K) (d : HashTableDirectoryPage) :
    KeyToDirectoryIndex P key d < 2 ^ d.global_depth_ := by
  rw [KeyToDirectoryIndex_eq]
  exact mod_lt_pow _ _

theorem SplitDir0_splitImage (P : Params K) (d : HashTableDirectoryPage) (key : K) :
    (SplitDir0 P d key).GetSplitImageIndex (KeyToDirectoryIndex P key d) =
      KeyToDirectoryIndex P key d ^^^ 2 ^ d.local_depths_ (KeyToDirectoryIndex P key d) := by
  have hi : KeyToDirectoryIndex P key d < 2 ^ d.global_depth_ := KeyToDirectoryIndex_lt P key d
  have hgen : ∀ d1 : HashTableDirectoryPage,
      d1.local_depths_ (KeyToDirectoryIndex P key d) =
        d.local_depths_ (KeyToDirectoryIndex P key d) →
      (d1.IncrLocalDepth (KeyToDirectoryIndex P key d)).GetSplitImageIndex
        (KeyToDirectoryIndex P key d) =
      KeyToDirectoryIndex P key d ^^^ 2 ^ d.local_depths_ (KeyToDirectoryIndex P key d) := by
    intro d1 h1
    unfold GetSplitImageIndex IncrLocalDepth SetLocalDepth
    simp only [upd_same, h1, Nat.add_sub_cancel, Nat.one_shiftLeft]
  unfold SplitDir0
  simp only [GetLocalDepth, GetGlobalDepth]
  split
  · apply hgen
    rw [IncrGlobalDepth_local_depths d
      (lt_of_lt_of_le hi (Nat.pow_le_pow_right (by norm_num) (Nat.le_succ _))),
      Nat.mod_eq_of_lt hi]
  · exact hgen d rfl

/-- The directory when the re-hash loop of `SplitInsert` starts, slot by slot. -/
theorem SplitDir_spec (P : Params K) (d : HashTableDirectoryPage) (key : K) (Pb : Int) :
    let i := KeyToDirectoryIndex P key d
    let dep := d.local_depths_ i
    let gd1 := if dep = d.global_depth_ then d.global_depth_ + 1 else d.global_depth_
    (SplitDir P d key Pb).global_depth_ = gd1 ∧
    (SplitDir P d key Pb).page_id_ = d.page_id_ ∧
    (∀ s, s < 2 ^ gd1 → (SplitDir P d key Pb).bucket_page_ids_ s =
      if s = i ^^^ 2 ^ dep then Pb else d.bucket_page_ids_ (s % 2 ^ d.global_depth_)) ∧
    (∀ s, s < 2 ^ gd1 → (SplitDir P d key Pb).local_depths_ s =
      if s = i ^^^ 2 ^ dep ∨ s = i then dep + 1
      else d.local_depths_ (s % 2 ^ d.global_depth_)) := by
  intro i dep gd1
  have hi : i < 2 ^ d.global_depth_ := KeyToDirectoryIndex_lt P key d
  have himod : i % 2 ^ d.global_depth_ = i := Nat.mod_eq_of_lt hi
  by_cases hc : dep = d.global_depth_
  · have hgd1 : gd1 = d.global_depth_ + 1 := if_pos hc
    have hi1 : i < 2 ^ (d.global_depth_ + 1) :=
      lt_of_lt_of_le hi (Nat.pow_le_pow_right (by norm_num) (Nat.le_succ _))
    have hld1 : d.IncrGlobalDepth.local_depths_ i = dep := by
      rw [IncrGlobalDepth_local_depths d hi1, himod]
    have hbro : (d.IncrGlobalDepth.IncrLocalDepth i).GetSplitImageIndex i = i ^^^ 2 ^ dep := by
      unfold GetSplitImageIndex IncrLocalDepth SetLocalDepth
      simp only [upd_same, hld1, Nat.add_sub_cancel, Nat.one_shiftLeft]
    have hsd : SplitDir P d key Pb =
        ((d.IncrGlobalDepth.IncrLocalDepth i).SetBucketPageId (i ^^^ 2 ^ dep) Pb).SetLocalDepth
          (i ^^^ 2 ^ dep) (dep + 1) := by
      unfold SplitDir SplitDir0
      simp only [GetLocalDepth, GetGlobalDepth]
      rw [if_pos hc, hbro]
      congr 1
      show upd d.IncrGlobalDepth.local_depths_ i (d.IncrGlobalDepth.local_depths_ i + 1) i = _
      rw [upd_same, hld1]
    rw [hsd, hgd1]
    refine ⟨rfl, rfl, fun s hs => ?_, fun s hs => ?_⟩
    · show upd d.IncrGlobalDepth.bucket_page_ids_ (i ^^^ 2 ^ dep) Pb s = _
      rw [upd_apply]
      split
      · rfl
      · exact IncrGlobalDepth_bucket_page_ids d hs
    · show upd (upd d.IncrGlobalDepth.local_depths_ i (d.IncrGlobalDepth.local_depths_ i + 1))
        (i ^^^ 2 ^ dep) (dep + 1) s = _
      rw [upd_apply]
      by_cases h1 : s = i ^^^ 2 ^ dep
      · simp [h1]
      · rw [if_neg h1, upd_apply]
        by_cases h2 : s = i
        · simp [h2, hld1]
        · simp only [h1, h2, if_false, or_self]
          exact IncrGlobalDepth_local_depths d hs
  · have hgd1 : gd1 = d.global_depth_ := if_neg hc
    have hbro : (d.IncrLocalDepth i).GetSplitImageIndex i = i ^^^ 2 ^ dep := by
      unfold GetSplitImageIndex IncrLocalDepth SetLocalDepth
      simp only [upd_same, Nat.add_sub_cancel, Nat.one_shiftLeft]
    have hsd : SplitDir P d key Pb =
        ((d.IncrLocalDepth i).SetBucketPageId (i ^^^ 2 ^ dep) Pb).SetLocalDepth
          (i ^^^ 2 ^ dep) (dep + 1) := by
      unfold SplitDir SplitDir0
      simp only [GetLocalDepth, GetGlobalDepth]
      rw [if_neg hc, hbro]
      congr 1
      show upd d.local_depths_ i (d.local_depths_ i + 1) i = _
      rw [upd_same]
    rw [hsd, hgd1]
    refine ⟨rfl, rfl, fun s hs => ?_, fun s hs => ?_⟩
    · show upd d.bucket_page_ids_ (i ^^^ 2 ^ dep) Pb s = _
      rw [upd_apply, Nat.mod_eq_of_lt hs]
    · show upd (upd d.local_depths_ i (d.local_depths_ i + 1)) (i ^^^ 2 ^ dep) (dep + 1) s = _
      rw [upd_apply]
      by_cases h1 : s = i ^^^ 2 ^ dep
      · simp [h1]
      · rw [if_neg h1, upd_apply]
        by_cases h2 : s = i
        · simp [h2]
        · simp only [h1, h2, if_false, or_self, Nat.mod_eq_of_lt hs]

/-- The directory after the split, slot by slot: the slots that agree with the split slot on
the low `dep + 1` bits point to the split page, those that agree with its split image point to
the new page, both at depth `dep + 1`; the others keep what the (mirrored) directory had. -/
theorem SplitDirFinal_spec (P : Params K) (d : HashTableDirectoryPage) (key : K)
    (Ps Pb : Int) :
    let i := KeyToDirectoryIndex P key d
    let dep := d.local_depths_ i
    let gd1 := if dep = d.global_depth_ then d.global_depth_ + 1 else d.global_depth_
    (SplitDirFinal P d key Ps Pb).global_depth_ = gd1 ∧
    (SplitDirFinal P d key Ps Pb).page_id_ = d.page_id_ ∧
    (∀ s, s < 2 ^ gd1 → (SplitDirFinal P d key Ps Pb).bucket_page_ids_ s =
      if s % 2 ^ (dep + 1) = (i ^^^ 2 ^ dep) % 2 ^ (dep + 1) then Pb
      else if s % 2 ^ (dep + 1) = i % 2 ^ (dep + 1) then Ps
      else d.bucket_page_ids_ (s % 2 ^ d.global_depth_)) ∧
    (∀ s, s < 2 ^ gd1 → (SplitDirFinal P d key Ps Pb).local_depths_ s =
      if s % 2 ^ (dep + 1) = (i ^^^ 2 ^ dep) % 2 ^ (dep + 1) ∨
          s % 2 ^ (dep + 1) = i % 2 ^ (dep + 1) then dep + 1
      else d.local_depths_ (s % 2 ^ d.global_depth_)) := by
  intro i dep gd1
  obtain ⟨h1, h2, h3, h4⟩ := SplitDir_spec P d key Pb
  have hi : i < 2 ^ d.global_depth_ := KeyToDirectoryIndex_lt P key d
  have hgd1 : d.global_depth_ ≤ gd1 := by
    show d.global_depth_ ≤ if dep = d.global_depth_ then d.global_depth_ + 1 else d.global_depth_
    split <;> omega
  have hi1 : i < 2 ^ gd1 := lt_of_lt_of_le hi (Nat.pow_le_pow_right (by norm_num) hgd1)
  have hld : (SplitDir P d key Pb).GetLocalDepth i = dep + 1 := by
    show (SplitDir P d key Pb).local_depths_ i = dep + 1
    rw [h4 i hi1]
    simp
  have hint : (1 <<< (SplitDir P d key Pb).GetLocalDepth i) = 2 ^ (dep + 1) := by
    rw [hld, Nat.one_shiftLeft]
  have hbro := SplitDir0_splitImage P d key
  have hfin : SplitDirFinal P d key Ps Pb =
      SplitRepoint (SplitRepoint (SplitDir P d key Pb) (i % 2 ^ (dep + 1)) (2 ^ (dep + 1)) Ps
        (dep + 1)) ((i ^^^ 2 ^ dep) % 2 ^ (dep + 1)) (2 ^ (dep + 1)) Pb (dep + 1) := by
    unfold SplitDirFinal
    simp only [GetLocalDepth] at hint ⊢
    rw [hint, hbro]
  obtain ⟨a1, a2, a3, a4⟩ := SplitRepoint_spec (SplitDir P d key Pb)
    (mod_lt_pow i (dep + 1)) Ps (dep + 1)
  obtain ⟨b1, b2, b3, b4⟩ := SplitRepoint_spec
    (SplitRepoint (SplitDir P d key Pb) (i % 2 ^ (dep + 1)) (2 ^ (dep + 1)) Ps (dep + 1))
    (mod_lt_pow (i ^^^ 2 ^ dep) (dep + 1)) Pb (dep + 1)
  rw [hfin]
  refine ⟨by rw [b1, a1, h1], by rw [b2, a2, h2], fun s hs => ?_, fun s hs => ?_⟩
  · have hs' : s < 2 ^ (SplitDir P d key Pb).global_depth_ := by rw [h1]; exact hs
    have hs'' : s < 2 ^ (SplitRepoint (SplitDir P d key Pb) (i % 2 ^ (dep + 1))
        (2 ^ (dep + 1)) Ps (dep + 1)).global_depth_ := by rw [a1]; exact hs'
    rw [b3 s, a3 s]
    by_cases c1 : s % 2 ^ (dep + 1) = (i ^^^ 2 ^ dep) % 2 ^ (dep + 1)
    · rw [if_pos ⟨hs'', c1⟩, if_pos c1]
    · rw [if_neg (fun hh => c1 hh.2), if_neg c1]
      by_cases c2 : s % 2 ^ (dep + 1) = i % 2 ^ (dep + 1)
      · rw [if_pos ⟨hs', c2⟩, if_pos c2]
      · rw [if_neg (fun hh => c2 hh.2), if_neg c2, h3 s hs]
        have : s ≠ i ^^^ 2 ^ dep := fun e => c1 (by rw [e])
        rw [if_neg this]
  · have hs' : s < 2 ^ (SplitDir P d key Pb).global_depth_ := by rw [h1]; exact hs
    have hs'' : s < 2 ^ (SplitRepoint (SplitDir P d key Pb) (i % 2 ^ (dep + 1))
        (2 ^ (dep + 1)) Ps (dep + 1)).global_depth_ := by rw [a1]; exact hs'
    rw [b4 s, a4 s]
    by_cases c1 : s % 2 ^ (dep + 1) = (i ^^^ 2 ^ dep) % 2 ^ (dep + 1)
    · rw [if_pos ⟨hs'', c1⟩, if_pos (Or.inl c1)]
    · rw [if_neg (fun hh => c1 hh.2)]
      by_cases c2 : s % 2 ^ (dep + 1) = i % 2 ^ (dep + 1)
      · rw [if_pos ⟨hs', c2⟩, if_pos (Or.inr c2)]
      · rw [if_neg (fun hh => c2 hh.2), if_neg (fun hh => hh.elim c1 c2), h4 s hs]
        have e1 : s ≠ i ^^^ 2 ^ dep := fun e => c1 (by rw [e])
        have e2 : s ≠ i := fun e => c2 (by rw [e])
        rw [if_neg (fun hh => hh.elim e1 e2)]

end ExtendibleHashTable
end Bustub

namespace Bustub
namespace ExtendibleHashTable

open HashTableDirectoryPage HashTableBucketPage

variable {K V : Type}

/-- The directory invariant survives the split. -/
theorem DirInv_SplitDirFinal (P : Params K) {d : HashTableDirectoryPage} (hd : d.DirInv)
    (key : K) (Pb : Int) (hfresh : ∀ s, s < 2 ^ d.global_depth_ → d.bucket_page_ids_ s ≠ Pb) :
    (SplitDirFinal P d key (d.bucket_page_ids_ (KeyToDirectoryIndex P key d)) Pb).DirInv := by
  obtain ⟨h1, _, h3, h4⟩ := SplitDirFinal_spec P d key
    (d.bucket_page_ids_ (KeyToDirectoryIndex P key d)) Pb
  generalize hi' : KeyToDirectoryIndex P key d = i at h1 h3 h4
  have hi : i < 2 ^ d.global_depth_ := hi' ▸ KeyToDirectoryIndex_lt P key d
  generalize hdep' : d.local_depths_ i = dep at h1 h3 h4
  have hdep : dep ≤ d.global_depth_ := hdep' ▸ hd.depth_le i hi
  generalize hD : SplitDirFinal P d key (d.bucket_page_ids_ i) Pb = D at h1 h3 h4
  generalize hgd1' : (if dep = d.global_depth_ then d.global_depth_ + 1 else d.global_depth_)
    = gd1 at h1 h3 h4
  have hgd : d.global_depth_ ≤ gd1 := by rw [← hgd1']; split <;> omega
  have hdep1 : dep + 1 ≤ gd1 := by rw [← hgd1']; split <;> omega
  -- facts on the mirrored slot
  have hm : ∀ s, s % 2 ^ d.global_depth_ < 2 ^ d.global_depth_ := fun s => mod_lt_pow _ _
  have hmd : ∀ s a, a ≤ d.global_depth_ → s % 2 ^ d.global_depth_ % 2 ^ a = s % 2 ^ a :=
    fun s a ha => mod_pow_of_le ha s
  have hne := xor_pow_mod_succ_ne i dep
  -- the three kinds of slot
  have hother : ∀ s, ¬ s % 2 ^ (dep + 1) = (i ^^^ 2 ^ dep) % 2 ^ (dep + 1) →
      ¬ s % 2 ^ (dep + 1) = i % 2 ^ (dep + 1) → s % 2 ^ dep ≠ i % 2 ^ dep := by
    intro s c1 c2 hc
    rcases mod_succ_cases hc with h | h
    · exact c2 h
    · exact c1 h
  have hcls : ∀ s, s < 2 ^ d.global_depth_ → d.bucket_page_ids_ s = d.bucket_page_ids_ i →
      s % 2 ^ dep = i % 2 ^ dep := by
    intro s hs hp
    have := hd.inj i s hi hs hp
    rwa [hdep'] at this
  refine ⟨fun s hs => ?_, fun s r hs hr hrs => ?_, fun s r hs hr hp => ?_⟩
  · rw [h1] at hs ⊢
    rw [h4 s hs]
    split
    · exact hdep1
    · exact le_trans (hd.depth_le _ (hm s)) hgd
  · rw [h1] at hs hr
    rw [h4 s hs] at hrs
    rw [h3 s hs, h3 r hr, h4 s hs, h4 r hr]
    by_cases c1 : s % 2 ^ (dep + 1) = (i ^^^ 2 ^ dep) % 2 ^ (dep + 1)
    · rw [if_pos (Or.inl c1)] at hrs
      have c1r : r % 2 ^ (dep + 1) = (i ^^^ 2 ^ dep) % 2 ^ (dep + 1) := hrs.trans c1
      simp [c1, c1r]
    · by_cases c2 : s % 2 ^ (dep + 1) = i % 2 ^ (dep + 1)
      · rw [if_pos (Or.inr c2)] at hrs
        have c2r : r % 2 ^ (dep + 1) = i % 2 ^ (dep + 1) := hrs.trans c2
        have c1r : ¬ r % 2 ^ (dep + 1) = (i ^^^ 2 ^ dep) % 2 ^ (dep + 1) :=
          fun e => hne (e.symm.trans c2r)
        simp [c1, c2, c1r, c2r]
      · rw [if_neg (fun hh => hh.elim c1 c2)] at hrs
        have hla := hd.depth_le _ (hm s)
        have hrs' : r % 2 ^ d.global_depth_ %
            2 ^ d.local_depths_ (s % 2 ^ d.global_depth_) =
            s % 2 ^ d.global_depth_ % 2 ^ d.local_depths_ (s % 2 ^ d.global_depth_) := by
          rw [hmd r _ hla, hmd s _ hla]
          exact hrs
        have hsame := hd.same _ _ (hm s) (hm r) hrs'
        have hro : r % 2 ^ dep ≠ i % 2 ^ dep := by
          intro hc
          have hri : r % 2 ^ d.global_depth_ % 2 ^ d.local_depths_ i = i % 2 ^ d.local_depths_ i := by
            rw [hdep', hmd r _ hdep]
            exact hc
          have h2 := hd.same i _ hi (hm r) hri
          have hls : d.local_depths_ (s % 2 ^ d.global_depth_) = dep := by
            rw [← hsame.2, h2.2, hdep']
          rw [hls] at hrs
          exact hother s c1 c2 (hrs.symm.trans hc)
        have c1r : ¬ r % 2 ^ (dep + 1) = (i ^^^ 2 ^ dep) % 2 ^ (dep + 1) := by
          intro e
          apply hro
          have := mod_pow_eq_of_le (Nat.le_succ dep) e
          rw [this, xor_pow_mod_same]
        have c2r : ¬ r % 2 ^ (dep + 1) = i % 2 ^ (dep + 1) :=
          fun e => hro (mod_pow_eq_of_le (Nat.le_succ dep) e)
        simp only [c1, c2, c1r, c2r, if_false, or_self]
        exact hsame
  · rw [h1] at hs hr
    rw [h3 s hs, h3 r hr] at hp
    rw [h4 s hs]
    by_cases c1 : s % 2 ^ (dep + 1) = (i ^^^ 2 ^ dep) % 2 ^ (dep + 1)
    · rw [if_pos (Or.inl c1)]
      rw [if_pos c1] at hp
      by_cases c1r : r % 2 ^ (dep + 1) = (i ^^^ 2 ^ dep) % 2 ^ (dep + 1)
      · exact c1r.trans c1.symm
      · exfalso
        rw [if_neg c1r] at hp
        split at hp
        · exact hfresh i hi hp
        · exact hfresh _ (hm r) hp
    · rw [if_neg c1] at hp
      by_cases c2 : s % 2 ^ (dep + 1) = i % 2 ^ (dep + 1)
      · rw [if_pos (Or.inr c2)]
        rw [if_pos c2] at hp
        by_cases c1r : r % 2 ^ (dep + 1) = (i ^^^ 2 ^ dep) % 2 ^ (dep + 1)
        · exfalso
          rw [if_pos c1r] at hp
          exact hfresh i hi hp.symm
        · rw [if_neg c1r] at hp
          by_cases c2r : r % 2 ^ (dep + 1) = i % 2 ^ (dep + 1)
          · exact c2r.trans c2.symm
          · exfalso
            rw [if_neg c2r] at hp
            have := hcls _ (hm r) hp
            rw [hmd r _ hdep] at this
            exact hother r c1r c2r this
      · rw [if_neg (fun hh => hh.elim c1 c2)]
        rw [if_neg c2] at hp
        have hso : s % 2 ^ dep ≠ i % 2 ^ dep := hother s c1 c2
        by_cases c1r : r % 2 ^ (dep + 1) = (i ^^^ 2 ^ dep) % 2 ^ (dep + 1)
        · exfalso
          rw [if_pos c1r] at hp
          exact hfresh _ (hm s) hp.symm
        · rw [if_neg c1r] at hp
          by_cases c2r : r % 2 ^ (dep + 1) = i % 2 ^ (dep + 1)
          · exfalso
            rw [if_pos c2r] at hp
            have := hcls _ (hm s) hp.symm
            rw [hmd s _ hdep] at this
            exact hso this
          · rw [if_neg c2r] at hp
            have hla := hd.depth_le _ (hm s)
            have := hd.inj _ _ (hm s) (hm r) hp
            rw [hmd r _ hla, hmd s _ hla] at this
            exact this

end ExtendibleHashTable
end Bustub

namespace Bustub
namespace ExtendibleHashTable

open HashTableDirectoryPage HashTableBucketPage

variable {K V : Type}

/-- An entry whose recomputed slot holds neither of the two pages makes the loop fail. -/
theorem RehashEntries_error [DecidableEq V] (P : Params K) (d : HashTableDirectoryPage)
    (i : Nat) (sp bp : Int) (es : List (K × V))
    (acc : HashTableBucketPage K V × HashTableBucketPage K V)
    (h : ∃ e, e ∈ es ∧
      d.GetBucketPageId (Hash P e.1 &&& d.GetLocalDepthMask i) ≠ sp ∧
      d.GetBucketPageId (Hash P e.1 &&& d.GetLocalDepthMask i) ≠ bp) :
    RehashEntries P d i sp bp es acc = .error Fault.assertion := by
  induction es generalizing acc with
  | nil =>
    obtain ⟨e, he, _⟩ := h
    cases he
  | cons a rest ih =>
    obtain ⟨sb, bb⟩ := acc
    simp only [RehashEntries]
    by_cases hin : d.GetBucketPageId (Hash P a.1 &&& d.GetLocalDepthMask i) = sp ∨
        d.GetBucketPageId (Hash P a.1 &&& d.GetLocalDepthMask i) = bp
    · have hrest : ∃ e, e ∈ rest ∧
          d.GetBucketPageId (Hash P e.1 &&& d.GetLocalDepthMask i) ≠ sp ∧
          d.GetBucketPageId (Hash P e.1 &&& d.GetLocalDepthMask i) ≠ bp := by
        obtain ⟨e, he, h1, h2⟩ := h
        rcases List.mem_cons.mp he with rfl | he
        · exact absurd hin (by tauto)
        · exact ⟨e, he, h1, h2⟩
      rw [if_pos hin]
      split
      · split
        · exact ih _ hrest
        · rfl
      · split
        · exact ih _ hrest
        · rfl
    · rw [if_neg hin]

/-- From packed buckets, with every recomputed slot holding one of the two pages, the loop
succeeds and leaves the buckets packed with the entries routed to each. -/
theorem RehashEntries_ok [DecidableEq V] (P : Params K)
    (hcmp : ∀ a b, P.comparator_ a b = 0 ↔ a = b) (d : HashTableDirectoryPage)
    (i : Nat) (sp bp : Int) (es : List (K × V)) (hnd : es.Nodup)
    (htarget : ∀ e, e ∈ es →
      d.GetBucketPageId (Hash P e.1 &&& d.GetLocalDepthMask i) = sp ∨
      d.GetBucketPageId (Hash P e.1 &&& d.GetLocalDepthMask i) = bp)
    (sb bb : HashTableBucketPage K V) (ls lb : List (K × V))
    (hsb : Packed P.BUCKET_ARRAY_SIZE sb ls) (hbb : Packed P.BUCKET_ARRAY_SIZE bb lb)
    (hls : ∀ e, e ∈ es → e ∉ ls) (hlb : ∀ e, e ∈ es → e ∉ lb)
    (hlen1 : ls.length + es.length ≤ P.BUCKET_ARRAY_SIZE)
    (hlen2 : lb.length + es.length ≤ P.BUCKET_ARRAY_SIZE) :
    ∃ sb' bb', RehashEntries P d i sp bp es (sb, bb) = .ok (sb', bb') ∧
      Packed P.BUCKET_ARRAY_SIZE sb' (ls ++ es.filter (fun e =>
        decide (d.GetBucketPageId (Hash P e.1 &&& d.GetLocalDepthMask i) = sp))) ∧
      Packed P.BUCKET_ARRAY_SIZE bb' (lb ++ es.filter (fun e =>
        !decide (d.GetBucketPageId (Hash P e.1 &&& d.GetLocalDepthMask i) = sp))) := by
  induction es generalizing sb bb ls lb with
  | nil =>
    refine ⟨sb, bb, rfl, ?_, ?_⟩
    · simpa using hsb
    · simpa using hbb
  | cons a rest ih =>
    have hnd' := List.nodup_cons.mp hnd
    have hin := htarget a (List.mem_cons_self _ _)
    have htarget' : ∀ e, e ∈ rest →
        d.GetBucketPageId (Hash P e.1 &&& d.GetLocalDepthMask i) = sp ∨
        d.GetBucketPageId (Hash P e.1 &&& d.GetLocalDepthMask i) = bp :=
      fun e he => htarget e (List.mem_cons_of_mem _ he)
    simp only [List.length_cons] at hlen1 hlen2
    simp only [RehashEntries]
    rw [if_pos hin]
    by_cases hsp : d.GetBucketPageId (Hash P a.1 &&& d.GetLocalDepthMask i) = sp
    · rw [if_pos hsp]
      obtain ⟨sb1, hins, hp1⟩ := Packed_Insert hcmp hsb (by omega)
        (show (a.1, a.2) ∉ ls from hls a (List.mem_cons_self _ _))
      rw [hins]
      have := ih hnd'.2 htarget' sb1 bb (ls ++ [(a.1, a.2)]) lb hp1 hbb
        (fun e he => by
          simp only [List.mem_append, List.mem_singleton, not_or]
          exact ⟨hls e (List.mem_cons_of_mem _ he), fun h => hnd'.1 ((show e = a from h) ▸ he)⟩)
        (fun e he => hlb e (List.mem_cons_of_mem _ he))
        (by simp only [List.length_append, List.length_singleton]; omega) (by omega)
      obtain ⟨sb', bb', h1, h2, h3⟩ := this
      refine ⟨sb', bb', h1, ?_, ?_⟩
      · rw [List.filter_cons_of_pos (by simpa using hsp)]
        simpa using h2
      · rw [List.filter_cons_of_neg (by simpa using hsp)]
        exact h3
    · rw [if_neg hsp]
      obtain ⟨bb1, hins, hp1⟩ := Packed_Insert hcmp hbb (by omega)
        (show (a.1, a.2) ∉ lb from hlb a (List.mem_cons_self _ _))
      rw [hins]
      have := ih hnd'.2 htarget' sb bb1 ls (lb ++ [(a.1, a.2)]) hsb hp1
        (fun e he => hls e (List.mem_cons_of_mem _ he))
        (fun e he => by
          simp only [List.mem_append, List.mem_singleton, not_or]
          exact ⟨hlb e (List.mem_cons_of_mem _ he), fun h => hnd'.1 ((show e = a from h) ▸ he)⟩)
        (by omega) (by simp only [List.length_append, List.length_singleton]; omega)
      obtain ⟨sb', bb', h1, h2, h3⟩ := this
      refine ⟨sb', bb', h1, ?_, ?_⟩
      · rw [List.filter_cons_of_neg (by simpa using hsp)]
        exact h2
      · rw [List.filter_cons_of_pos (by simpa using hsp)]
        simpa using h3

/-- The loop over the indices of the copy is the loop over its entries. -/
theorem SplitRehashLoop_range' [DecidableEq V] [Inhabited K] [Inhabited V] (P : Params K)
    (d : HashTableDirectoryPage) (i : Nat) (sp bp : Int) (L : List (K × V)) (n s : Nat)
    (h : s + n ≤ L.length) (acc : HashTableBucketPage K V × HashTableBucketPage K V) :
    SplitRehashLoop P d i sp bp L (List.range' s n) acc =
      RehashEntries P d i sp bp ((L.drop s).take n) acc := by
  induction n generalizing s acc with
  | zero => simp [SplitRehashLoop, RehashEntries]
  | succ n ih =>
    obtain ⟨sb, bb⟩ := acc
    have hs : s < L.length := by omega
    have hdrop : L.drop s = L[s] :: L.drop (s + 1) := List.drop_eq_getElem_cons hs
    have hget : L.getD s default = L[s] := by
      rw [List.getD_eq_getElem?_getD, List.getElem?_eq_getElem hs]
      rfl
    rw [List.range'_succ, hdrop, List.take_succ_cons]
    simp only [SplitRehashLoop, RehashEntries, hget]
    by_cases hin : d.GetBucketPageId (Hash P L[s].1 &&& d.GetLocalDepthMask i) = sp ∨
        d.GetBucketPageId (Hash P L[s].1 &&& d.GetLocalDepthMask i) = bp
    · rw [if_pos hin, if_pos hin]
      by_cases hsp : d.GetBucketPageId (Hash P L[s].1 &&& d.GetLocalDepthMask i) = sp
      · rw [if_pos hsp, if_pos hsp]
        cases hins : sb.Insert P.BUCKET_ARRAY_SIZE P.comparator_ L[s].1 L[s].2 with
        | mk sb1 r =>
          cases r with
          | true => exact ih (s + 1) (by omega) _
          | false => rfl
      · rw [if_neg hsp, if_neg hsp]
        cases hins : bb.Insert P.BUCKET_ARRAY_SIZE P.comparator_ L[s].1 L[s].2 with
        | mk bb1 r =>
          cases r with
          | true => exact ih (s + 1) (by omega) _
          | false => rfl
    · rw [if_neg hin, if_neg hin]

theorem SplitRehashLoop_eq [DecidableEq V] [Inhabited K] [Inhabited V] (P : Params K)
    (d : HashTableDirectoryPage) (i : Nat) (sp bp : Int) (L : List (K × V))
    (acc : HashTableBucketPage K V × HashTableBucketPage K V) :
    SplitRehashLoop P d i sp bp L (List.range L.length) acc =
      RehashEntries P d i sp bp L acc := by
  rw [List.range_eq_range', SplitRehashLoop_range' P d i sp bp L L.length 0 (by omega)]
  simp

end ExtendibleHashTable
end Bustub

namespace Bustub
namespace ExtendibleHashTable

open HashTableDirectoryPage HashTableBucketPage

variable {K V : Type}

theorem FetchDirectoryPage_of_created [Inhabited K] [Inhabited V]
    {t : ExtendibleHashTable K V} (h : t.directory_page_id_ ≠ INVALID_PAGE_ID) :
    t.FetchDirectoryPage = t := by
  unfold FetchDirectoryPage
  rw [if_neg h]

/-- `SplitInsert` up to the release of the latch, on a table whose directory exists. -/
theorem Split_eq [DecidableEq V] [Inhabited K] [Inhabited V] (P : Params K)
    {t : ExtendibleHashTable K V} (hc : t.directory_page_id_ ≠ INVALID_PAGE_ID) (key : K) :
    Split P t key =
      if (dir t).local_depths_ (KeyToDirectoryIndex P key (dir t)) > P.MAX_BUCKET_DEPTH then
        .ok none
      else
        match RehashEntries P (SplitDir P (dir t) key t.next_page_id_)
            (KeyToDirectoryIndex P key (dir t))
            (KeyToPageId P key (SplitDir0 P (dir t) key)) t.next_page_id_
            ((t.bucket_pages_ (KeyToPageId P key (SplitDir0 P (dir t) key))).GetArrayCopy
              P.BUCKET_ARRAY_SIZE)
            (HashTableBucketPage.zero, HashTableBucketPage.zero) with
        | .error e => .error e
        | .ok (sb, bb) => .ok (some (SplitResult P t key sb bb)) := by
  unfold Split
  rw [FetchDirectoryPage_of_created hc]
  simp only [NumReadable_eq, SplitRehashLoop_eq, NewPage, Reset, updI_same]
  rfl

end ExtendibleHashTable
end Bustub

namespace Bustub
namespace ExtendibleHashTable

open HashTableDirectoryPage HashTableBucketPage

variable {K V : Type}

/-- The page the key addresses is the same before and after the two increments. -/
theorem KeyToPageId_SplitDir0 (P : Params K) (d : HashTableDirectoryPage) (key : K) :
    KeyToPageId P key (SplitDir0 P d key) =
      d.bucket_page_ids_ (KeyToDirectoryIndex P key d) := by
  unfold KeyToPageId GetBucketPageId
  rw [KeyToDirectoryIndex_eq, KeyToDirectoryIndex_eq]
  unfold SplitDir0
  simp only [GetLocalDepth, GetGlobalDepth]
  split
  · show d.IncrGlobalDepth.bucket_page_ids_ (Hash P key % 2 ^ (d.global_depth_ + 1)) = _
    rw [IncrGlobalDepth_bucket_page_ids d (mod_lt_pow _ _), mod_pow_of_le (Nat.le_succ _)]
  · rfl

theorem SplitDir_local_depth (P : Params K) (d : HashTableDirectoryPage) (key : K) (Pb : Int) :
    (SplitDir P d key Pb).local_depths_ (KeyToDirectoryIndex P key d) =
      d.local_depths_ (KeyToDirectoryIndex P key d) + 1 := by
  obtain ⟨_, _, _, h4⟩ := SplitDir_spec P d key Pb
  have hi := KeyToDirectoryIndex_lt P key d
  rw [h4 _ (lt_of_lt_of_le hi (Nat.pow_le_pow_right (by norm_num) (by split <;> omega)))]
  simp

/-- The slot recomputed for an entry in the re-hash loop. -/
theorem rehash_target (P : Params K) (d : HashTableDirectoryPage) (key : K) (Pb : Int)
    (e : K × V) :
    Hash P e.1 &&& (SplitDir P d key Pb).GetLocalDepthMask (KeyToDirectoryIndex P key d) =
      Hash P e.1 % 2 ^ (d.local_depths_ (KeyToDirectoryIndex P key d) + 1) := by
  unfold GetLocalDepthMask
  rw [SplitDir_local_depth, and_mask_eq_mod]

theorem dir_SplitResult [Inhabited K] [Inhabited V] (P : Params K)
    (t : ExtendibleHashTable K V) (key : K) (sb bb : HashTableBucketPage K V) :
    dir (SplitResult P t key sb bb) =
      SplitDirFinal P (dir t) key (KeyToPageId P key (SplitDir0 P (dir t) key))
        t.next_page_id_ := by
  show updI _ t.directory_page_id_ _ t.directory_page_id_ = _
  rw [updI_same]

theorem bucket_SplitResult [Inhabited K] [Inhabited V] (P : Params K)
    (t : ExtendibleHashTable K V) (key : K) (sb bb : HashTableBucketPage K V) (p : Int) :
    (SplitResult P t key sb bb).bucket_pages_ p =
      if p = t.next_page_id_ then bb
      else if p = KeyToPageId P key (SplitDir0 P (dir t) key) then sb
      else t.bucket_pages_ p := by
  show updI (updI (updI (updI t.bucket_pages_ _ _) _ _) _ sb) t.next_page_id_ bb p = _
  simp only [updI_apply]
  split
  · rfl
  · split
    · rfl
    · rfl

/-- From a table that satisfies the invariant, the re-hash loop succeeds: every entry of the
split bucket is sent to the split page or to the new page. -/
theorem Split_ok [DecidableEq V] [Inhabited K] [Inhabited V] (P : Params K)
    (hcmp : ∀ a b, P.comparator_ a b = 0 ↔ a = b)
    {t : ExtendibleHashTable K V} (h : Inv P t) (key : K)
    (hdep : (dir t).local_depths_ (KeyToDirectoryIndex P key (dir t)) ≤ P.MAX_BUCKET_DEPTH) :
    ∃ sb bb, Split P t key = .ok (some (SplitResult P t key sb bb)) ∧
      Packed P.BUCKET_ARRAY_SIZE sb
        (((t.bucket_pages_ ((dir t).bucket_page_ids_ (KeyToDirectoryIndex P key (dir t)))
          ).GetArrayCopy P.BUCKET_ARRAY_SIZE).filter (fun e =>
            decide (Hash P e.1 % 2 ^ ((dir t).local_depths_
              (KeyToDirectoryIndex P key (dir t)) + 1) ≠
              KeyToDirectoryIndex P key (dir t) ^^^
                2 ^ (dir t).local_depths_ (KeyToDirectoryIndex P key (dir t))))) ∧
      Packed P.BUCKET_ARRAY_SIZE bb
        (((t.bucket_pages_ ((dir t).bucket_page_ids_ (KeyToDirectoryIndex P key (dir t)))
          ).GetArrayCopy P.BUCKET_ARRAY_SIZE).filter (fun e =>
            decide (Hash P e.1 % 2 ^ ((dir t).local_depths_
              (KeyToDirectoryIndex P key (dir t)) + 1) =
              KeyToDirectoryIndex P key (dir t) ^^^
                2 ^ (dir t).local_depths_ (KeyToDirectoryIndex P key (dir t))))) := by
  rw [Split_eq P h.created, if_neg (by omega), KeyToPageId_SplitDir0]
  have hdI := h.dirInv
  have hfr := h.fresh
  have hpla := h.placed
  have hndp := h.nodup
  clear h
  generalize hd : dir t = d at *
  generalize hi' : KeyToDirectoryIndex P key d = i at *
  have hi : i < 2 ^ d.global_depth_ := hi' ▸ KeyToDirectoryIndex_lt P key d
  generalize hdep' : d.local_depths_ i = dep at *
  have hdepgd : dep ≤ d.global_depth_ := hdep' ▸ hdI.depth_le i hi
  generalize hL : (t.bucket_pages_ (d.bucket_page_ids_ i)).GetArrayCopy P.BUCKET_ARRAY_SIZE = L
  obtain ⟨g1, _, g3, g4⟩ := SplitDir_spec P d key t.next_page_id_
  rw [hi', hdep'] at g1 g3 g4
  have hgd1 : dep < (if dep = d.global_depth_ then d.global_depth_ + 1 else d.global_depth_) := by
    split <;> omega
  have hgd : d.global_depth_ ≤
      (if dep = d.global_depth_ then d.global_depth_ + 1 else d.global_depth_) := by
    split <;> omega
  -- where each entry goes
  have hpage : ∀ e, e ∈ L →
      (SplitDir P d key t.next_page_id_).GetBucketPageId
        (Hash P e.1 &&& (SplitDir P d key t.next_page_id_).GetLocalDepthMask i) =
      if Hash P e.1 % 2 ^ (dep + 1) = i ^^^ 2 ^ dep then t.next_page_id_
      else d.bucket_page_ids_ i := by
    intro e he
    have hholds : Holds P.BUCKET_ARRAY_SIZE (t.bucket_pages_ (d.bucket_page_ids_ i)) e := by
      rw [← mem_GetArrayCopy, hL]
      exact he
    have hpl := hpla i hi e hholds
    rw [hdep'] at hpl
    have ht := rehash_target P d key t.next_page_id_ e
    rw [hi', hdep'] at ht
    rw [ht]
    have hlt : Hash P e.1 % 2 ^ (dep + 1) <
        2 ^ (if dep = d.global_depth_ then d.global_depth_ + 1 else d.global_depth_) :=
      lt_of_lt_of_le (mod_lt_pow _ _) (Nat.pow_le_pow_right (by norm_num) hgd1)
    show (SplitDir P d key t.next_page_id_).bucket_page_ids_ _ = _
    rw [g3 _ hlt]
    split
    · rfl
    · have hmod : Hash P e.1 % 2 ^ (dep + 1) % 2 ^ d.global_depth_ % 2 ^ d.local_depths_ i =
          i % 2 ^ d.local_depths_ i := by
        rw [hdep', mod_pow_of_le hdepgd, mod_pow_of_le (Nat.le_succ dep)]
        exact hpl
      exact (hdI.same i _ hi (mod_lt_pow _ _) hmod).1
  have hne : d.bucket_page_ids_ i ≠ t.next_page_id_ := ne_of_lt (hfr i hi)
  have hnd : L.Nodup := hL ▸ nodup_GetArrayCopy (hndp i hi)
  have hlen : L.length ≤ P.BUCKET_ARRAY_SIZE := hL ▸ length_GetArrayCopy_le _ _
  obtain ⟨sb, bb, hre, hsb, hbb⟩ := RehashEntries_ok P hcmp (SplitDir P d key t.next_page_id_) i
    (d.bucket_page_ids_ i) t.next_page_id_ L hnd
    (fun e he => by
      rw [hpage e he]
      split
      · exact Or.inr rfl
      · exact Or.inl rfl)
    HashTableBucketPage.zero HashTableBucketPage.zero [] []
    (Packed_zero _) (Packed_zero _) (fun _ _ => List.not_mem_nil _)
    (fun _ _ => List.not_mem_nil _) (by simpa using hlen) (by simpa using hlen)
  refine ⟨sb, bb, by rw [hre], ?_, ?_⟩
  · have : L.filter (fun e => decide ((SplitDir P d key t.next_page_id_).GetBucketPageId
          (Hash P e.1 &&& (SplitDir P d key t.next_page_id_).GetLocalDepthMask i) =
          d.bucket_page_ids_ i)) =
        L.filter (fun e => decide (Hash P e.1 % 2 ^ (dep + 1) ≠ i ^^^ 2 ^ dep)) := by
      apply List.filter_congr
      intro e he
      rw [hpage e he]
      by_cases hc : Hash P e.1 % 2 ^ (dep + 1) = i ^^^ 2 ^ dep
      · simp [hc, hne.symm]
      · simp [hc]
    rw [this] at hsb
    simpa using hsb
  · have : L.filter (fun e => !decide ((SplitDir P d key t.next_page_id_).GetBucketPageId
          (Hash P e.1 &&& (SplitDir P d key t.next_page_id_).GetLocalDepthMask i) =
          d.bucket_page_ids_ i)) =
        L.filter (fun e => decide (Hash P e.1 % 2 ^ (dep + 1) = i ^^^ 2 ^ dep)) := by
      apply List.filter_congr
      intro e he
      rw [hpage e he]
      by_cases hc : Hash P e.1 % 2 ^ (dep + 1) = i ^^^ 2 ^ dep
      · simp [hc, hne.symm]
      · simp [hc]
    rw [this] at hbb
    simpa using hbb

end ExtendibleHashTable
end Bustub

namespace Bustub
namespace ExtendibleHashTable

open HashTableDirectoryPage HashTableBucketPage

variable {K V : Type}

/-- The invariant survives the split when no entry that stays in the split bucket belongs to
the split image. -/
theorem Inv_SplitResult [DecidableEq V] [Inhabited K] [Inhabited V] (P : Params K)
    {t : ExtendibleHashTable K V} (h : Inv P t) (key : K)
    {i dep : Nat} {L : List (K × V)}
    (hi' : KeyToDirectoryIndex P key (dir t) = i) (hdep' : (dir t).local_depths_ i = dep)
    (hL : (t.bucket_pages_ ((dir t).bucket_page_ids_ i)).GetArrayCopy P.BUCKET_ARRAY_SIZE = L)
    (hdep : dep ≤ P.MAX_BUCKET_DEPTH)
    (sb bb : HashTableBucketPage K V)
    (hsb : Packed P.BUCKET_ARRAY_SIZE sb
      (L.filter (fun e => decide (Hash P e.1 % 2 ^ (dep + 1) ≠ i ^^^ 2 ^ dep))))
    (hbb : Packed P.BUCKET_ARRAY_SIZE bb
      (L.filter (fun e => decide (Hash P e.1 % 2 ^ (dep + 1) = i ^^^ 2 ^ dep))))
    (hgood : ∀ e, e ∈ L → Hash P e.1 % 2 ^ (dep + 1) ≠ i ^^^ 2 ^ dep →
      Hash P e.1 % 2 ^ (dep + 1) = i % 2 ^ (dep + 1)) :
    Inv P (SplitResult P t key sb bb) := by
  have hdI := h.dirInv
  have hfr := h.fresh
  have hpla := h.placed
  have hndp := h.nodup
  have hbyt := h.bytes
  have hgdle := h.gd_le
  have hdir := dir_SplitResult P t key sb bb
  have hbkt := bucket_SplitResult P t key sb bb
  rw [KeyToPageId_SplitDir0] at hdir
  simp only [KeyToPageId_SplitDir0] at hbkt
  obtain ⟨f1, _, f3, f4⟩ := SplitDirFinal_spec P (dir t) key
    ((dir t).bucket_page_ids_ (KeyToDirectoryIndex P key (dir t))) t.next_page_id_
  have hDI := DirInv_SplitDirFinal P hdI key t.next_page_id_
    (fun s hs => ne_of_lt (hfr s hs))
  rw [← hdir] at f1 f3 f4 hDI
  have hcr := h.created
  have hdlt := h.dir_lt
  have hnext : (SplitResult P t key sb bb).next_page_id_ = t.next_page_id_ + 1 := rfl
  have hdid : (SplitResult P t key sb bb).directory_page_id_ = t.directory_page_id_ := rfl
  clear h hdir
  generalize SplitResult P t key sb bb = T at *
  obtain ⟨D, hD⟩ : ∃ D, dir T = D := ⟨_, rfl⟩
  rw [hD] at f1 f3 f4 hDI
  generalize dir t = d at *
  rw [hi'] at f1 f3 f4 hbkt
  rw [hdep'] at f1 f3 f4
  have hi : i < 2 ^ d.global_depth_ := hi' ▸ KeyToDirectoryIndex_lt P key d
  have hdepgd : dep ≤ d.global_depth_ := hdep' ▸ hdI.depth_le i hi
  have hgd : d.global_depth_ ≤ D.global_depth_ := by rw [f1]; split <;> omega
  have hm : ∀ s, s % 2 ^ d.global_depth_ < 2 ^ d.global_depth_ := fun s => mod_lt_pow _ _
  have hmd : ∀ s a, a ≤ d.global_depth_ → s % 2 ^ d.global_depth_ % 2 ^ a = s % 2 ^ a :=
    fun s a ha => mod_pow_of_le ha s
  have hne := xor_pow_mod_succ_ne i dep
  have hPs : d.bucket_page_ids_ i ≠ t.next_page_id_ := ne_of_lt (hfr i hi)
  have hnd : L.Nodup := hL ▸ nodup_GetArrayCopy (hndp i hi)
  have hother : ∀ s, ¬ s % 2 ^ (dep + 1) = (i ^^^ 2 ^ dep) % 2 ^ (dep + 1) →
      ¬ s % 2 ^ (dep + 1) = i % 2 ^ (dep + 1) →
      d.bucket_page_ids_ (s % 2 ^ d.global_depth_) ≠ d.bucket_page_ids_ i := by
    intro s c1 c2 hp
    have := hdI.inj i _ hi (hm s) hp
    rw [hdep', hmd s _ hdepgd] at this
    rcases mod_succ_cases this with h' | h'
    · exact c2 h'
    · exact c1 h'
  -- the bucket of every slot
  have hslot : ∀ s, s < 2 ^ D.global_depth_ →
      (s % 2 ^ (dep + 1) = (i ^^^ 2 ^ dep) % 2 ^ (dep + 1) ∧
        D.bucket_page_ids_ s = t.next_page_id_ ∧ D.local_depths_ s = dep + 1 ∧
        T.bucket_pages_ (D.bucket_page_ids_ s) = bb) ∨
      (s % 2 ^ (dep + 1) = i % 2 ^ (dep + 1) ∧
        D.bucket_page_ids_ s = d.bucket_page_ids_ i ∧ D.local_depths_ s = dep + 1 ∧
        T.bucket_pages_ (D.bucket_page_ids_ s) = sb) ∨
      (D.bucket_page_ids_ s = d.bucket_page_ids_ (s % 2 ^ d.global_depth_) ∧
        D.local_depths_ s = d.local_depths_ (s % 2 ^ d.global_depth_) ∧
        T.bucket_pages_ (D.bucket_page_ids_ s) =
          t.bucket_pages_ (d.bucket_page_ids_ (s % 2 ^ d.global_depth_))) := by
    intro s hs
    rw [f1] at hs
    by_cases c1 : s % 2 ^ (dep + 1) = (i ^^^ 2 ^ dep) % 2 ^ (dep + 1)
    · left
      have e3 := f3 s hs
      have e4 := f4 s hs
      rw [if_pos c1] at e3
      rw [if_pos (Or.inl c1)] at e4
      refine ⟨c1, e3, e4, ?_⟩
      rw [e3, hbkt, if_pos rfl]
    · by_cases c2 : s % 2 ^ (dep + 1) = i % 2 ^ (dep + 1)
      · right; left
        have e3 := f3 s hs
        have e4 := f4 s hs
        rw [if_neg c1, if_pos c2] at e3
        rw [if_pos (Or.inr c2)] at e4
        refine ⟨c2, e3, e4, ?_⟩
        rw [e3, hbkt, if_neg hPs, if_pos rfl]
      · right; right
        have e3 := f3 s hs
        have e4 := f4 s hs
        rw [if_neg c1, if_neg c2] at e3
        rw [if_neg (fun hh => hh.elim c1 c2)] at e4
        refine ⟨e3, e4, ?_⟩
        rw [e3, hbkt, if_neg (ne_of_lt (hfr _ (hm s))), if_neg (hother s c1 c2)]
  refine ⟨by rw [hdid]; exact hcr, by rw [hdid, hnext]; omega, hD ▸ hDI, ?_, ?_, ?_, ?_, ?_⟩
    <;> rw [hD]
  · rw [f1]
    split <;> omega
  · intro s hs
    rw [hnext]
    rcases hslot s hs with ⟨_, e, _⟩ | ⟨_, e, _⟩ | ⟨e, _⟩
    · rw [e]; omega
    · rw [e]
      have := hfr i hi
      omega
    · rw [e]
      have := hfr _ (hm s)
      omega
  · intro s hs e he
    rcases hslot s hs with ⟨c, _, e4, eb⟩ | ⟨c, _, e4, eb⟩ | ⟨_, e4, eb⟩
    · rw [eb, Holds_Packed hbb] at he
      rw [e4, c]
      have := (List.mem_filter.mp he).2
      simp only [decide_eq_true_eq] at this
      conv_rhs => rw [← this, Nat.mod_mod]
    · rw [eb, Holds_Packed hsb] at he
      rw [e4, c]
      have hm' := List.mem_filter.mp he
      have := hm'.2
      simp only [ne_eq, decide_not, Bool.not_eq_true', decide_eq_false_iff_not] at this
      exact hgood e hm'.1 this
    · rw [eb] at he
      rw [e4]
      have := hpla _ (hm s) e he
      rw [hmd s _ (hdI.depth_le _ (hm s))] at this
      exact this
  · intro s hs
    rcases hslot s hs with ⟨_, _, _, eb⟩ | ⟨_, _, _, eb⟩ | ⟨_, _, eb⟩
    · rw [eb]
      exact NoDup_Packed hbb (hnd.filter _)
    · rw [eb]
      exact NoDup_Packed hsb (hnd.filter _)
    · rw [eb]
      exact hndp _ (hm s)
  · intro s hs
    rcases hslot s hs with ⟨_, _, _, eb⟩ | ⟨_, _, _, eb⟩ | ⟨_, _, eb⟩
    · rw [eb]
      exact hbb.2.1
    · rw [eb]
      exact hsb.2.1
    · rw [eb]
      exact hbyt _ (hm s)

end ExtendibleHashTable
end Bustub

namespace Bustub
namespace HashTableBucketPage

variable {K V : Type}

theorem length_GetArrayCopy_of_IsFull {cap : Nat} {b : HashTableBucketPage K V} (hb : BytesOK b)
    (h : b.IsFull cap = true) : (b.GetArrayCopy cap).length = 8 * (cap / 8) := by
  obtain ⟨h1, h2⟩ := (IsFull_iff_slots cap hb).mp h
  have hle : 8 * (cap / 8) ≤ cap := Nat.mul_div_le cap 8
  have e : (List.range cap).filter (fun i => b.IsReadable i) =
      (List.range cap).filter (fun i => decide (i < 8 * (cap / 8))) := by
    apply List.filter_congr
    intro i hi
    have hi' := List.mem_range.mp hi
    by_cases c : i < 8 * (cap / 8)
    · rw [h1 i c]; simp [c]
    · rw [h2 i (by omega) hi']; simp [c]
  unfold GetArrayCopy
  rw [List.length_map, e, filter_range_lt hle, List.length_range]

end HashTableBucketPage

namespace ExtendibleHashTable

open HashTableDirectoryPage HashTableBucketPage

variable {K V : Type}

theorem Insert_zero [DecidableEq V] [Inhabited K] [Inhabited V] (P : Params K)
    (t : ExtendibleHashTable K V) (key : K) (value : V) :
    Insert P 0 t key value = .error Fault.fuel := by
  unfold Insert
  rfl

theorem Insert_succ [DecidableEq V] [Inhabited K] [Inhabited V] (P : Params K) (fuel : Nat)
    {t : ExtendibleHashTable K V} (hc : t.directory_page_id_ ≠ INVALID_PAGE_ID)
    (key : K) (value : V) :
    Insert P (fuel + 1) t key value =
      if (t.bucket_pages_ ((dir t).bucket_page_ids_ (KeyToDirectoryIndex P key (dir t)))).IsFull
          P.BUCKET_ARRAY_SIZE = true then
        match Split P t key with
        | .error e => .error e
        | .ok none => .ok (t, false)
        | .ok (some t1) =>
          match Insert P fuel t1 key value with
          | .error e => .error e
          | .ok (t2, _) => .ok (t2, true)
      else
        .ok ({ t with bucket_pages_ := (updI t.bucket_pages_
            ((dir t).bucket_page_ids_ (KeyToDirectoryIndex P key (dir t)))
            ((t.bucket_pages_ ((dir t).bucket_page_ids_ (KeyToDirectoryIndex P key (dir t)))
              ).Insert P.BUCKET_ARRAY_SIZE P.comparator_ key value).1) },
          ((t.bucket_pages_ ((dir t).bucket_page_ids_ (KeyToDirectoryIndex P key (dir t)))
              ).Insert P.BUCKET_ARRAY_SIZE P.comparator_ key value).2) := by
  rw [Insert]
  simp only [FetchDirectoryPage_of_created hc, KeyToPageId, GetBucketPageId, dir]
  by_cases hf : (t.bucket_pages_ ((t.dir_pages_ t.directory_page_id_).bucket_page_ids_
      (KeyToDirectoryIndex P key (t.dir_pages_ t.directory_page_id_)))).IsFull
        P.BUCKET_ARRAY_SIZE = true
  · rw [if_pos hf]
    simp only [hf, Bool.not_true, Bool.false_eq_true, if_false]
    rw [SplitInsert]
    simp only [FetchDirectoryPage_of_created hc]
  · rw [if_neg hf]
    simp only [Bool.not_eq_true] at hf
    simp only [hf, Bool.not_false, if_true]

end ExtendibleHashTable
end Bustub

namespace Bustub
namespace ExtendibleHashTable

open HashTableDirectoryPage HashTableBucketPage

variable {K V : Type}

/-- When the split leaves behind an entry that belongs to neither half, the `Insert` that
`SplitInsert` runs next stops at an `assert` of the following split. -/
theorem Insert_SplitResult_error [DecidableEq V] [Inhabited K] [Inhabited V] (P : Params K)
    {t : ExtendibleHashTable K V} (h : Inv P t) (key : K)
    {i dep : Nat} {L : List (K × V)}
    (hi' : KeyToDirectoryIndex P key (dir t) = i) (hdep' : (dir t).local_depths_ i = dep)
    (hL : (t.bucket_pages_ ((dir t).bucket_page_ids_ i)).GetArrayCopy P.BUCKET_ARRAY_SIZE = L)
    (hfull : (t.bucket_pages_ ((dir t).bucket_page_ids_ i)).IsFull P.BUCKET_ARRAY_SIZE = true)
    (sb bb : HashTableBucketPage K V)
    (hsb : Packed P.BUCKET_ARRAY_SIZE sb
      (L.filter (fun e => decide (Hash P e.1 % 2 ^ (dep + 1) ≠ i ^^^ 2 ^ dep))))
    (hbad : ∃ e, e ∈ L ∧ Hash P e.1 % 2 ^ (dep + 1) ≠ i ^^^ 2 ^ dep ∧
      Hash P e.1 % 2 ^ (dep + 1) ≠ i % 2 ^ (dep + 1))
    (fuel : Nat) (value : V) :
    ∃ err, Insert P fuel (SplitResult P t key sb bb) key value = .error err := by
  cases fuel with
  | zero => exact ⟨_, Insert_zero P _ key value⟩
  | succ fuel =>
  obtain ⟨e, heL, hb1, hb2⟩ := hbad
  have hdI := h.dirInv
  have hfr := h.fresh
  have hpla := h.placed
  have hbyt := h.bytes
  have hgdle := h.gd_le
  have hcr := h.created
  have hdir := dir_SplitResult P t key sb bb
  have hbkt := bucket_SplitResult P t key sb bb
  rw [KeyToPageId_SplitDir0] at hdir
  simp only [KeyToPageId_SplitDir0] at hbkt
  obtain ⟨f1, _, f3, f4⟩ := SplitDirFinal_spec P (dir t) key
    ((dir t).bucket_page_ids_ (KeyToDirectoryIndex P key (dir t))) t.next_page_id_
  rw [← hdir] at f1 f3 f4
  have hnext : (SplitResult P t key sb bb).next_page_id_ = t.next_page_id_ + 1 := rfl
  have hcrT : (SplitResult P t key sb bb).directory_page_id_ ≠ INVALID_PAGE_ID := hcr
  have hidx := KeyToDirectoryIndex_eq P key (dir t)
  clear h hdir
  generalize SplitResult P t key sb bb = T at *
  have hidxT := KeyToDirectoryIndex_eq P key (dir T)
  obtain ⟨g1, _, g3, _⟩ := SplitDir_spec P (dir T) key T.next_page_id_
  have hrt := rehash_target P (dir T) key T.next_page_id_ e
  generalize hD : dir T = D at *
  generalize dir t = d at *
  rw [hi'] at f1 f3 f4 hbkt hidx
  rw [hdep'] at f1 f3 f4
  have hi : i < 2 ^ d.global_depth_ := hi' ▸ KeyToDirectoryIndex_lt P key d
  have hdepgd : dep ≤ d.global_depth_ := hdep' ▸ hdI.depth_le i hi
  -- the entry is in the image class although the image index is out of its range
  have hpe : Hash P e.1 % 2 ^ dep = i % 2 ^ dep := by
    have := hpla i hi e ((mem_GetArrayCopy _ _ e).mp (hL ▸ heL))
    rwa [hdep'] at this
  have hE : Hash P e.1 % 2 ^ (dep + 1) = (i ^^^ 2 ^ dep) % 2 ^ (dep + 1) :=
    (mod_succ_cases hpe).resolve_left hb2
  have hbro : 2 ^ (dep + 1) ≤ i ^^^ 2 ^ dep := by
    by_contra hlt
    exact hb1 (hE.trans (Nat.mod_eq_of_lt (not_le.mp hlt)))
  have hige : 2 ^ (dep + 1) ≤ i := by
    by_contra hlt
    exact absurd ((xor_pow_lt_iff (Nat.lt_succ_self dep)).mpr (not_le.mp hlt)) (not_lt.mpr hbro)
  have hdlt : dep + 1 < d.global_depth_ := by
    by_contra hge
    have : 2 ^ d.global_depth_ ≤ 2 ^ (dep + 1) := Nat.pow_le_pow_right (by norm_num) (not_lt.mp hge)
    omega
  have hgdD : D.global_depth_ = d.global_depth_ := by
    rw [f1, if_neg (by omega)]
  rw [if_neg (by omega)] at f3 f4
  have hiT : KeyToDirectoryIndex P key D = i := by rw [hidxT, hgdD, ← hidx]
  rw [hiT] at g1 g3 hrt
  have hne := xor_pow_mod_succ_ne i dep
  have hPs : d.bucket_page_ids_ i ≠ t.next_page_id_ := ne_of_lt (hfr i hi)
  have hDi3 : D.bucket_page_ids_ i = d.bucket_page_ids_ i := by
    rw [f3 i hi, if_neg hne.symm, if_pos rfl]
  have hDi4 : D.local_depths_ i = dep + 1 := by
    rw [f4 i hi, if_pos (Or.inr rfl)]
  rw [hDi4] at g1 g3 hrt
  rw [if_neg (by omega)] at g1 g3
  -- the split bucket keeps all its entries and is still full
  have hfilter : L.filter (fun e => decide (Hash P e.1 % 2 ^ (dep + 1) ≠ i ^^^ 2 ^ dep)) = L := by
    rw [List.filter_eq_self]
    intro a _
    have := mod_lt_pow (Hash P a.1) (dep + 1)
    simp only [ne_eq, decide_not, Bool.not_eq_true', decide_eq_false_iff_not]
    omega
  rw [hfilter] at hsb
  have hlen : L.length = 8 * (P.BUCKET_ARRAY_SIZE / 8) :=
    hL ▸ length_GetArrayCopy_of_IsFull (hbyt i hi) hfull
  have hsbfull := (IsFull_Packed hsb).mpr hlen
  have hTb : T.bucket_pages_ (d.bucket_page_ids_ i) = sb := by
    rw [hbkt, if_neg hPs, if_pos rfl]
  refine ⟨Fault.assertion, ?_⟩
  rw [Insert_succ P fuel hcrT, hD, hiT, hDi3, hTb, if_pos hsbfull, Split_eq P hcrT, hD, hiT,
    hDi4, if_neg (by omega), KeyToPageId_SplitDir0, hiT, hDi3, hTb, GetArrayCopy_Packed hsb,
    RehashEntries_error]
  refine ⟨e, heL, ?_⟩
  rw [hrt]
  have hs : Hash P e.1 % 2 ^ (dep + 1 + 1) < 2 ^ d.global_depth_ :=
    lt_of_lt_of_le (mod_lt_pow _ _) (Nat.pow_le_pow_right (by norm_num) (by omega))
  have hsm : Hash P e.1 % 2 ^ (dep + 1 + 1) % 2 ^ (dep + 1) =
      (i ^^^ 2 ^ dep) % 2 ^ (dep + 1) := by
    rw [mod_pow_of_le (Nat.le_succ _), hE]
  have hsne : Hash P e.1 % 2 ^ (dep + 1 + 1) ≠ i ^^^ 2 ^ (dep + 1) := by
    intro hc
    have h1 := congrArg (· % 2 ^ (dep + 1)) hc
    simp only [hsm, xor_pow_mod_same] at h1
    exact hne h1
  have hpage : (SplitDir P D key T.next_page_id_).GetBucketPageId
      (Hash P e.1 % 2 ^ (dep + 1 + 1)) = t.next_page_id_ := by
    show (SplitDir P D key T.next_page_id_).bucket_page_ids_ _ = _
    rw [g3 _ (hgdD ▸ hs), if_neg hsne, hgdD, Nat.mod_eq_of_lt hs, f3 _ hs, if_pos hsm]
  rw [hpage]
  exact ⟨hPs.symm, by rw [hnext]; omega⟩

end ExtendibleHashTable
end Bustub

namespace Bustub
namespace ExtendibleHashTable

open HashTableDirectoryPage HashTableBucketPage

variable {K V : Type}

/-- The bucket page a key is addressed to, as stored in the table. -/
theorem key_slot (P : Params K) {d : HashTableDirectoryPage} (hd : d.DirInv) (key : K)
    {s : Nat} (hs : s < 2 ^ d.global_depth_)
    (hp : d.bucket_page_ids_ s = d.bucket_page_ids_ (KeyToDirectoryIndex P key d)) :
    Hash P key % 2 ^ d.local_depths_ s = s % 2 ^ d.local_depths_ s := by
  have hi := KeyToDirectoryIndex_lt P key d
  have h1 := hd.inj s _ hs hi hp.symm
  have h2 := (hd.same s _ hs hi h1).2
  rw [KeyToDirectoryIndex_eq, mod_pow_of_le (hd.depth_le s hs)] at h1
  exact h1

/-- Replacing the bucket a key is addressed to by one that adds at most pairs of that key keeps
the invariant. -/
theorem Inv_setBucket [Inhabited K] [Inhabited V] (P : Params K)
    {t : ExtendibleHashTable K V} (h : Inv P t) (key : K) (b' : HashTableBucketPage K V)
    (hH : ∀ e, Holds P.BUCKET_ARRAY_SIZE b' e →
      Holds P.BUCKET_ARRAY_SIZE
        (t.bucket_pages_ ((dir t).bucket_page_ids_ (KeyToDirectoryIndex P key (dir t)))) e ∨
      e.1 = key)
    (hN : NoDup P.BUCKET_ARRAY_SIZE b') (hB : BytesOK b') :
    Inv P { t with bucket_pages_ := (updI t.bucket_pages_
      ((dir t).bucket_page_ids_ (KeyToDirectoryIndex P key (dir t))) b') } := by
  have hbk : ∀ s, (updI t.bucket_pages_
      ((dir t).bucket_page_ids_ (KeyToDirectoryIndex P key (dir t))) b')
        ((dir t).bucket_page_ids_ s) =
      if (dir t).bucket_page_ids_ s =
          (dir t).bucket_page_ids_ (KeyToDirectoryIndex P key (dir t)) then b'
      else t.bucket_pages_ ((dir t).bucket_page_ids_ s) := by
    intro s
    rw [updI_apply]
  refine ⟨h.created, h.dir_lt, h.dirInv, h.gd_le, h.fresh, ?_, ?_, ?_⟩
  · intro s hs e he
    change Holds _ (updI _ _ _ ((dir t).bucket_page_ids_ s)) e at he
    change Hash P e.1 % 2 ^ (dir t).local_depths_ s = s % 2 ^ (dir t).local_depths_ s
    rw [hbk] at he
    split at he
    · rename_i hp
      rcases hH e he with h1 | h1
      · rw [← hp] at h1
        exact h.placed s hs e h1
      · rw [h1]
        exact key_slot P h.dirInv key hs hp
    · exact h.placed s hs e he
  · intro s hs
    change NoDup _ (updI _ _ _ ((dir t).bucket_page_ids_ s))
    rw [hbk]
    split
    · exact hN
    · exact h.nodup s hs
  · intro s hs
    change BytesOK (updI _ _ _ ((dir t).bucket_page_ids_ s))
    rw [hbk]
    split
    · exact hB
    · exact h.bytes s hs

/-- Every table `Insert` returns satisfies the invariant. -/
theorem Inv_Insert [DecidableEq V] [Inhabited K] [Inhabited V] (P : Params K)
    (hcmp : ∀ a b, P.comparator_ a b = 0 ↔ a = b) (fuel : Nat) :
    ∀ {t t' : ExtendibleHashTable K V} {key : K} {value : V} {res : Bool}, Inv P t →
      Insert P fuel t key value = .ok (t', res) → Inv P t' := by
  induction fuel with
  | zero =>
    intro t t' key value res _ h
    rw [Insert_zero] at h
    cases h
  | succ fuel ih =>
    intro t t' key value res hI h
    rw [Insert_succ P fuel hI.created] at h
    split at h
    · rename_i hfull
      by_cases hdep : (dir t).local_depths_ (KeyToDirectoryIndex P key (dir t)) ≤
          P.MAX_BUCKET_DEPTH
      · obtain ⟨sb, bb, hS, hsb, hbb⟩ := Split_ok P hcmp hI key hdep
        rw [hS] at h
        simp only [] at h
        by_cases hbad : ∃ e, e ∈ (t.bucket_pages_ ((dir t).bucket_page_ids_
            (KeyToDirectoryIndex P key (dir t)))).GetArrayCopy P.BUCKET_ARRAY_SIZE ∧
            Hash P e.1 % 2 ^ ((dir t).local_depths_ (KeyToDirectoryIndex P key (dir t)) + 1) ≠
              KeyToDirectoryIndex P key (dir t) ^^^
                2 ^ (dir t).local_depths_ (KeyToDirectoryIndex P key (dir t)) ∧
            Hash P e.1 % 2 ^ ((dir t).local_depths_ (KeyToDirectoryIndex P key (dir t)) + 1) ≠
              KeyToDirectoryIndex P key (dir t) %
                2 ^ ((dir t).local_depths_ (KeyToDirectoryIndex P key (dir t)) + 1)
        · obtain ⟨err, herr⟩ := Insert_SplitResult_error P hI key rfl rfl rfl hfull sb bb hsb
            hbad fuel value
          rw [herr] at h
          cases h
        · have hI1 := Inv_SplitResult P hI key rfl rfl rfl hdep sb bb hsb hbb
            (fun e he h1 => by
              by_contra h2
              exact hbad ⟨e, he, h1, h2⟩)
          cases hins : Insert P fuel (SplitResult P t key sb bb) key value with
          | error err =>
            rw [hins] at h
            cases h
          | ok r =>
            rw [hins] at h
            obtain ⟨t2, r2⟩ := r
            simp only [Except.ok.injEq, Prod.mk.injEq] at h
            rw [← h.1]
            exact ih hI1 hins
      · rw [Split_eq P hI.created, if_pos (by omega)] at h
        simp only [Except.ok.injEq, Prod.mk.injEq] at h
        rw [← h.1]
        exact hI
    · simp only [Except.ok.injEq, Prod.mk.injEq] at h
      rw [← h.1]
      cases hb : (t.bucket_pages_ ((dir t).bucket_page_ids_
          (KeyToDirectoryIndex P key (dir t)))).Insert P.BUCKET_ARRAY_SIZE P.comparator_
          key value with
      | mk b' r =>
        cases r with
        | true =>
          refine Inv_setBucket P hI key b' ?_ ?_ ?_
          · intro e he
            rcases (Holds_Insert hcmp hb e).mp he with h1 | h1
            · right; rw [h1]
            · left; exact h1
          · exact NoDup_Insert hcmp hb (hI.nodup _ (KeyToDirectoryIndex_lt P key _))
          · obtain ⟨_, id, _, _, _, _, _, hB⟩ := Insert_true hcmp hb
            exact hB (hI.bytes _ (KeyToDirectoryIndex_lt P key _))
        | false =>
          obtain ⟨h1, _⟩ := Insert_false hcmp hb
          rw [h1]
          exact Inv_setBucket P hI key _ (fun e he => Or.inl he)
            (hI.nodup _ (KeyToDirectoryIndex_lt P key _))
            (hI.bytes _ (KeyToDirectoryIndex_lt P key _))

end ExtendibleHashTable
end Bustub

namespace Bustub

namespace HashTableDirectoryPage

/-- A directory whose local depths fit a smaller global depth keeps its invariant there, and
addresses every hash as before. -/
theorem DirInv_restrict {d : HashTableDirectoryPage} (hd : d.DirInv) {g : Nat}
    (hg : g ≤ d.global_depth_) (hle : ∀ s, s < 2 ^ d.global_depth_ → d.local_depths_ s ≤ g) :
    ({ d with global_depth_ := g } : HashTableDirectoryPage).DirInv ∧
    ∀ x, d.bucket_page_ids_ (x % 2 ^ g) = d.bucket_page_ids_ (x % 2 ^ d.global_depth_) ∧
      d.local_depths_ (x % 2 ^ g) = d.local_depths_ (x % 2 ^ d.global_depth_) := by
  have hpow : 2 ^ g ≤ 2 ^ d.global_depth_ := Nat.pow_le_pow_right (by norm_num) hg
  refine ⟨⟨?_, ?_, ?_⟩, ?_⟩
  · intro s hs
    exact hle s (lt_of_lt_of_le hs hpow)
  · intro s r hs hr h
    exact hd.same s r (lt_of_lt_of_le hs hpow) (lt_of_lt_of_le hr hpow) h
  · intro s r hs hr h
    exact hd.inj s r (lt_of_lt_of_le hs hpow) (lt_of_lt_of_le hr hpow) h
  · intro x
    have hs := mod_lt_pow x d.global_depth_
    have hr := lt_of_lt_of_le (mod_lt_pow x g) hpow
    refine hd.same _ _ hs hr ?_
    rw [mod_pow_of_le (le_trans (hle _ hs) hg), mod_pow_of_le (hle _ hs)]

theorem CanShrink_lt {d : HashTableDirectoryPage} (h : d.CanShrink = true) :
    0 < d.global_depth_ ∧ ∀ s, s < 2 ^ d.global_depth_ → d.local_depths_ s < d.global_depth_ := by
  unfold CanShrink at h
  simp only [Bool.and_eq_true, List.all_eq_true, List.mem_range, decide_eq_true_eq,
    Size_eq] at h
  have h0 := h.1 0 (Nat.two_pow_pos _)
  exact ⟨by omega, h.1⟩

/-- The shrinking loop only lowers the global depth, to a value that still bounds every local
depth. -/
theorem ShrinkLoop_spec (n : Nat) : ∀ (d : HashTableDirectoryPage), d.DirInv →
    ∃ g, g ≤ d.global_depth_ ∧
      ExtendibleHashTable.ShrinkLoop n d = { d with global_depth_ := g } ∧
      ∀ s, s < 2 ^ d.global_depth_ → d.local_depths_ s ≤ g := by
  induction n with
  | zero =>
    intro d hd
    exact ⟨d.global_depth_, le_rfl, rfl, hd.depth_le⟩
  | succ n ih =>
    intro d hd
    unfold ExtendibleHashTable.ShrinkLoop
    by_cases hc : d.CanShrink = true
    · rw [if_pos hc]
      obtain ⟨hpos, hlt⟩ := CanShrink_lt hc
      have hle : ∀ s, s < 2 ^ d.global_depth_ → d.local_depths_ s ≤ d.global_depth_ - 1 :=
        fun s hs => by have := hlt s hs; omega
      obtain ⟨hd', hx⟩ := DirInv_restrict hd (Nat.sub_le _ 1) hle
      obtain ⟨g, hg, he, hb⟩ := ih d.DecrGlobalDepth hd'
      refine ⟨g, le_trans hg (Nat.sub_le _ 1), he, ?_⟩
      intro s hs
      have h1 := hb (s % 2 ^ (d.global_depth_ - 1)) (mod_lt_pow _ _)
      have h2 := (hx s).2
      rw [Nat.mod_eq_of_lt hs] at h2
      show d.local_depths_ s ≤ g
      rw [← h2]
      exact h1
    · rw [if_neg hc]
      exact ⟨d.global_depth_, le_rfl, rfl, hd.depth_le⟩

end HashTableDirectoryPage

namespace ExtendibleHashTable

open HashTableDirectoryPage

/-- The re-pointing loop of `Merge` over a list of slots. -/
theorem foldl_merge (l : List Nat) (hl : l.Nodup) (pd pb : Int) (dep : Nat)
    (d : HashTableDirectoryPage) :
    let d' := l.foldl (fun d index =>
      let traverse_page_id := d.GetBucketPageId index
      if traverse_page_id = pd ∨ traverse_page_id = pb then
        (d.SetLocalDepth index dep).SetBucketPageId index pb
      else d) d
    d'.global_depth_ = d.global_depth_ ∧
    (∀ s, d'.bucket_page_ids_ s =
      if s ∈ l ∧ (d.bucket_page_ids_ s = pd ∨ d.bucket_page_ids_ s = pb) then pb
      else d.bucket_page_ids_ s) ∧
    (∀ s, d'.local_depths_ s =
      if s ∈ l ∧ (d.bucket_page_ids_ s = pd ∨ d.bucket_page_ids_ s = pb) then dep
      else d.local_depths_ s) := by
  induction l generalizing d with
  | nil => simp
  | cons a rest ih =>
    have hna : a ∉ rest := (List.nodup_cons.mp hl).1
    simp only [List.foldl_cons, GetBucketPageId]
    by_cases hc : d.bucket_page_ids_ a = pd ∨ d.bucket_page_ids_ a = pb
    · rw [if_pos hc]
      have := ih (List.nodup_cons.mp hl).2 ((d.SetLocalDepth a dep).SetBucketPageId a pb)
      simp only [GetBucketPageId] at this
      have hp : ∀ s, ((d.SetLocalDepth a dep).SetBucketPageId a pb).bucket_page_ids_ s =
          if s = a then pb else d.bucket_page_ids_ s := fun s => rfl
      have hq : ∀ s, ((d.SetLocalDepth a dep).SetBucketPageId a pb).local_depths_ s =
          if s = a then dep else d.local_depths_ s := fun s => rfl
      refine ⟨this.1, fun s => ?_, fun s => ?_⟩
      · rw [this.2.1 s, hp]
        by_cases hsa : s = a
        · subst hsa
          simp [hna, hc]
        · simp [hsa]
      · rw [this.2.2 s, hp, hq]
        by_cases hsa : s = a
        · subst hsa
          simp [hna, hc]
        · simp [hsa]
    · rw [if_neg hc]
      have := ih (List.nodup_cons.mp hl).2 d
      simp only [GetBucketPageId] at this
      refine ⟨this.1, fun s => ?_, fun s => ?_⟩
      · rw [this.2.1 s]
        by_cases hsa : s = a
        · subst hsa
          simp [hna, hc]
        · simp [hsa]
      · rw [this.2.2 s]
        by_cases hsa : s = a
        · subst hsa
          simp [hna, hc]
        · simp [hsa]

/-- The directory after the re-pointing loop of `Merge`: the slots of the deleted bucket and
of its split image point at the image, one level up. -/
theorem MergeDir_spec (d : HashTableDirectoryPage) (i m : Nat) (hi : i < 2 ^ d.global_depth_)
    (hm : d.local_depths_ i = m + 1)
    (hb : d.local_depths_ (i ^^^ 2 ^ m) = m + 1) :
    (MergeDir d i).global_depth_ = d.global_depth_ ∧
    (∀ s, s < 2 ^ d.global_depth_ → (MergeDir d i).bucket_page_ids_ s =
      if d.bucket_page_ids_ s = d.bucket_page_ids_ i ∨
          d.bucket_page_ids_ s = d.bucket_page_ids_ (i ^^^ 2 ^ m) then
        d.bucket_page_ids_ (i ^^^ 2 ^ m)
      else d.bucket_page_ids_ s) ∧
    (∀ s, s < 2 ^ d.global_depth_ → (MergeDir d i).local_depths_ s =
      if d.bucket_page_ids_ s = d.bucket_page_ids_ i ∨
          d.bucket_page_ids_ s = d.bucket_page_ids_ (i ^^^ 2 ^ m) then m
      else d.local_depths_ s) := by
  have hbro : d.GetSplitImageIndex i = i ^^^ 2 ^ m := by
    unfold GetSplitImageIndex
    rw [hm, Nat.add_sub_cancel, Nat.one_shiftLeft]
  have hne : i ^^^ 2 ^ m ≠ i := by
    intro h
    have := xor_pow_mod_succ_ne i m
    rw [h] at this
    exact this rfl
  unfold MergeDir
  simp only [hbro, GetBucketPageId, GetLocalDepth, hm, Nat.add_sub_cancel]
  have := foldl_merge (List.range (((d.DecrLocalDepth i).DecrLocalDepth (i ^^^ 2 ^ m)
    ).SetBucketPageId i (d.bucket_page_ids_ (i ^^^ 2 ^ m))).Size) (List.nodup_range _)
    (d.bucket_page_ids_ i) (d.bucket_page_ids_ (i ^^^ 2 ^ m)) m
    (((d.DecrLocalDepth i).DecrLocalDepth (i ^^^ 2 ^ m)).SetBucketPageId i
      (d.bucket_page_ids_ (i ^^^ 2 ^ m)))
  have hp : ∀ s, (((d.DecrLocalDepth i).DecrLocalDepth (i ^^^ 2 ^ m)).SetBucketPageId i
      (d.bucket_page_ids_ (i ^^^ 2 ^ m))).bucket_page_ids_ s =
      if s = i then d.bucket_page_ids_ (i ^^^ 2 ^ m) else d.bucket_page_ids_ s := fun s => rfl
  have hq : ∀ s, (((d.DecrLocalDepth i).DecrLocalDepth (i ^^^ 2 ^ m)).SetBucketPageId i
      (d.bucket_page_ids_ (i ^^^ 2 ^ m))).local_depths_ s =
      if s = i ^^^ 2 ^ m then m else if s = i then m else d.local_depths_ s := by
    intro s
    show upd (upd d.local_depths_ i (d.local_depths_ i - 1)) (i ^^^ 2 ^ m)
      (upd d.local_depths_ i (d.local_depths_ i - 1) (i ^^^ 2 ^ m) - 1) s = _
    rw [upd_apply, upd_apply, upd_apply, if_neg hne, hm, hb, Nat.add_sub_cancel]
  have hsz : (((d.DecrLocalDepth i).DecrLocalDepth (i ^^^ 2 ^ m)).SetBucketPageId i
      (d.bucket_page_ids_ (i ^^^ 2 ^ m))).Size = 2 ^ d.global_depth_ := Size_eq d
  unfold MergeRepoint
  refine ⟨this.1, fun s hs => ?_, fun s hs => ?_⟩
  · rw [this.2.1 s, hp, hsz]
    by_cases hsi : s = i
    · subst hsi
      simp [hs]
    · simp [hsi, hs]
  · rw [this.2.2 s, hp, hq, hsz]
    by_cases hsi : s = i
    · subst hsi
      simp [hs]
    · by_cases hsb : s = i ^^^ 2 ^ m
      · subst hsb
        simp [hs]
      · simp [hsi, hsb, hs]

end ExtendibleHashTable
end Bustub

namespace Bustub
namespace ExtendibleHashTable

open HashTableDirectoryPage HashTableBucketPage

variable {K V : Type}

theorem xor_pow_ne (i m : Nat) : i ^^^ 2 ^ m ≠ i := by
  intro h
  have := xor_pow_mod_succ_ne i m
  rw [h] at this
  exact this rfl

/-- `Merge` on a table whose directory page exists, with the `assert` discharged. -/
theorem Merge_eq [Inhabited K] [Inhabited V] (P : Params K)
    {t : ExtendibleHashTable K V} (hc : t.directory_page_id_ ≠ INVALID_PAGE_ID) (key : K) :
    Merge P t key =
      if (dir t).local_depths_ (KeyToDirectoryIndex P key (dir t)) = 0 then .ok t
      else if (dir t).local_depths_ (KeyToDirectoryIndex P key (dir t)) ≠
          (dir t).local_depths_ ((dir t).GetSplitImageIndex (KeyToDirectoryIndex P key (dir t)))
        then .ok t
      else if (t.bucket_pages_ ((dir t).bucket_page_ids_ (KeyToDirectoryIndex P key (dir t)))
          ).IsEmpty P.BUCKET_ARRAY_SIZE = false then .ok t
      else .ok { t with
        deleted_ := (t.deleted_ ++
          [(dir t).bucket_page_ids_ (KeyToDirectoryIndex P key (dir t))])
        dir_pages_ := (updI t.dir_pages_ t.directory_page_id_
          (ShrinkLoop (MergeDir (dir t) (KeyToDirectoryIndex P key (dir t))).global_depth_
            (MergeDir (dir t) (KeyToDirectoryIndex P key (dir t))))) } := by
  unfold Merge
  simp only [FetchDirectoryPage_of_created hc, KeyToPageId, GetBucketPageId, GetLocalDepth]
  show (if (dir t).local_depths_ (KeyToDirectoryIndex P key (dir t)) = 0 then _ else _) = _
  by_cases h0 : (dir t).local_depths_ (KeyToDirectoryIndex P key (dir t)) = 0
  · rw [if_pos h0, if_pos h0]
  · rw [if_neg h0, if_neg h0]
    by_cases h1 : (dir t).local_depths_ (KeyToDirectoryIndex P key (dir t)) ≠
          (dir t).local_depths_ ((dir t).GetSplitImageIndex (KeyToDirectoryIndex P key (dir t)))
    · rw [if_pos h1]
      exact if_pos h1
    · rw [if_neg h1]
      refine (if_neg h1).trans ?_
      by_cases h2 : (t.bucket_pages_ ((dir t).bucket_page_ids_
          (KeyToDirectoryIndex P key (dir t)))).IsEmpty P.BUCKET_ARRAY_SIZE = false
      · rw [if_pos h2]
        refine if_pos ?_
        change (!(t.bucket_pages_ ((dir t).bucket_page_ids_
          (KeyToDirectoryIndex P key (dir t)))).IsEmpty P.BUCKET_ARRAY_SIZE) = true
        rw [h2]
        rfl
      · rw [if_neg h2]
        have h2' : ¬ ((!(t.bucket_pages_ ((dir t).bucket_page_ids_
          (KeyToDirectoryIndex P key (dir t)))).IsEmpty P.BUCKET_ARRAY_SIZE) = true) := by
          simpa using h2
        refine (if_neg h2').trans ?_
        have hne : (dir t).GetSplitImageIndex (KeyToDirectoryIndex P key (dir t)) ≠
            KeyToDirectoryIndex P key (dir t) := by
          unfold GetSplitImageIndex
          rw [Nat.one_shiftLeft]
          exact xor_pow_ne _ _
        refine (if_pos ?_).trans rfl
        show upd (upd (dir t).local_depths_ _ _) _ _ _ = upd (upd (dir t).local_depths_ _ _) _ _ _
        simp only [dir, DecrLocalDepth] at hne h1 ⊢
        rw [upd_other _ _ hne.symm, upd_same, upd_other _ _ hne]
        push_neg at h1
        rw [h1, upd_same]

end ExtendibleHashTable
end Bustub

namespace Bustub
namespace ExtendibleHashTable

open HashTableDirectoryPage HashTableBucketPage

variable {K V : Type}

/-- Under the directory invariant the slots of a bucket and of its split image are the slots
that agree with it one level up. -/
theorem merged_iff {d : HashTableDirectoryPage} (hd : d.DirInv) {i m : Nat}
    (hi : i < 2 ^ d.global_depth_) (hm : d.local_depths_ i = m + 1)
    (hb : d.local_depths_ (i ^^^ 2 ^ m) = m + 1) {s : Nat} (hs : s < 2 ^ d.global_depth_) :
    (d.bucket_page_ids_ s = d.bucket_page_ids_ i ∨
      d.bucket_page_ids_ s = d.bucket_page_ids_ (i ^^^ 2 ^ m)) ↔ s % 2 ^ m = i % 2 ^ m := by
  have hle : m + 1 ≤ d.global_depth_ := hm ▸ hd.depth_le i hi
  have hbl : i ^^^ 2 ^ m < 2 ^ d.global_depth_ := xor_pow_lt hi (by omega)
  constructor
  · rintro (h | h)
    · have := hd.inj i s hi hs h
      rw [hm] at this
      exact mod_pow_eq_of_le (Nat.le_succ m) this
    · have := hd.inj _ s hbl hs h
      rw [hb] at this
      rw [mod_pow_eq_of_le (Nat.le_succ m) this, xor_pow_mod_same]
  · intro h
    rcases mod_succ_cases h with h1 | h1
    · left
      exact (hd.same i s hi hs (by rw [hm]; exact h1)).1
    · right
      exact (hd.same _ s hbl hs (by rw [hb]; exact h1)).1

theorem DirInv_MergeDir {d : HashTableDirectoryPage} (hd : d.DirInv) {i m : Nat}
    (hi : i < 2 ^ d.global_depth_) (hm : d.local_depths_ i = m + 1)
    (hb : d.local_depths_ (i ^^^ 2 ^ m) = m + 1) : (MergeDir d i).DirInv := by
  obtain ⟨e1, e3, e4⟩ := MergeDir_spec d i m hi hm hb
  have hle : m + 1 ≤ d.global_depth_ := hm ▸ hd.depth_le i hi
  have hM := fun s hs => merged_iff hd hi hm hb (s := s) hs
  refine ⟨?_, ?_, ?_⟩
  · intro s hs
    rw [e1] at hs ⊢
    rw [e4 s hs]
    split
    · omega
    · exact hd.depth_le s hs
  · intro s r hs hr h
    rw [e1] at hs hr
    rw [e4 s hs] at h
    rw [e3 s hs, e3 r hr, e4 s hs, e4 r hr]
    by_cases c : d.bucket_page_ids_ s = d.bucket_page_ids_ i ∨
        d.bucket_page_ids_ s = d.bucket_page_ids_ (i ^^^ 2 ^ m)
    · rw [if_pos c] at h
      have cr := (hM r hr).mpr (h.trans ((hM s hs).mp c))
      rw [if_pos c, if_pos c, if_pos cr, if_pos cr]
      exact ⟨rfl, rfl⟩
    · rw [if_neg c] at h
      have := hd.same s r hs hr h
      have cr : ¬ (d.bucket_page_ids_ r = d.bucket_page_ids_ i ∨
        d.bucket_page_ids_ r = d.bucket_page_ids_ (i ^^^ 2 ^ m)) := by
        rw [this.1]
        exact c
      rw [if_neg c, if_neg c, if_neg cr, if_neg cr]
      exact this
  · intro s r hs hr h
    rw [e1] at hs hr
    rw [e3 s hs, e3 r hr] at h
    rw [e4 s hs]
    by_cases c : d.bucket_page_ids_ s = d.bucket_page_ids_ i ∨
        d.bucket_page_ids_ s = d.bucket_page_ids_ (i ^^^ 2 ^ m)
    · rw [if_pos c] at h ⊢
      by_cases cr : d.bucket_page_ids_ r = d.bucket_page_ids_ i ∨
        d.bucket_page_ids_ r = d.bucket_page_ids_ (i ^^^ 2 ^ m)
      · rw [(hM r hr).mp cr, (hM s hs).mp c]
      · rw [if_neg cr] at h
        exact absurd (Or.inr h) cr
    · rw [if_neg c] at h ⊢
      by_cases cr : d.bucket_page_ids_ r = d.bucket_page_ids_ i ∨
        d.bucket_page_ids_ r = d.bucket_page_ids_ (i ^^^ 2 ^ m)
      · rw [if_pos cr] at h
        exact absurd (Or.inr h.symm) c
      · rw [if_neg cr] at h
        exact hd.inj s r hs hr h

/-- The values `GetValue` returns are the ones stored with the key in the bucket the key is
addressed to. -/
theorem mem_values [Inhabited K] [Inhabited V] (P : Params K)
    (hcmp : ∀ a b, P.comparator_ a b = 0 ↔ a = b) {t : ExtendibleHashTable K V}
    (hc : t.directory_page_id_ ≠ INVALID_PAGE_ID) (key : K) (v : V) :
    v ∈ values P t key ↔
      Holds P.BUCKET_ARRAY_SIZE
        (t.bucket_pages_ ((dir t).bucket_page_ids_ (KeyToDirectoryIndex P key (dir t))))
        (key, v) := by
  unfold values GetValue
  simp only [FetchDirectoryPage_of_created hc, KeyToPageId, GetBucketPageId]
  rw [mem_GetValue hcmp]
  simp [dir]

end ExtendibleHashTable
end Bustub

namespace Bustub
namespace ExtendibleHashTable

open HashTableDirectoryPage HashTableBucketPage

variable {K V : Type}

/-- `Merge` never faults on a table that satisfies the invariant, keeps the invariant, and
leaves what every key finds in its bucket unchanged. -/
theorem Merge_spec [Inhabited K] [Inhabited V] (P : Params K)
    {t : ExtendibleHashTable K V} (hI : Inv P t) (key : K) :
    ∃ t', Merge P t key = .ok t' ∧ Inv P t' ∧
      ∀ (k : K) (v : V),
        Holds P.BUCKET_ARRAY_SIZE
          (t'.bucket_pages_ ((dir t').bucket_page_ids_ (KeyToDirectoryIndex P k (dir t'))))
          (k, v) ↔
        Holds P.BUCKET_ARRAY_SIZE
          (t.bucket_pages_ ((dir t).bucket_page_ids_ (KeyToDirectoryIndex P k (dir t))))
          (k, v) := by
  rw [Merge_eq P hI.created]
  by_cases h0 : (dir t).local_depths_ (KeyToDirectoryIndex P key (dir t)) = 0
  · rw [if_pos h0]
    exact ⟨t, rfl, hI, fun _ _ => Iff.rfl⟩
  rw [if_neg h0]
  by_cases h1 : (dir t).local_depths_ (KeyToDirectoryIndex P key (dir t)) ≠
      (dir t).local_depths_ ((dir t).GetSplitImageIndex (KeyToDirectoryIndex P key (dir t)))
  · rw [if_pos h1]
    exact ⟨t, rfl, hI, fun _ _ => Iff.rfl⟩
  rw [if_neg h1]
  by_cases h2 : (t.bucket_pages_ ((dir t).bucket_page_ids_
      (KeyToDirectoryIndex P key (dir t)))).IsEmpty P.BUCKET_ARRAY_SIZE = false
  · rw [if_pos h2]
    exact ⟨t, rfl, hI, fun _ _ => Iff.rfl⟩
  rw [if_neg h2]
  refine ⟨_, rfl, ?_⟩
  simp only [Bool.not_eq_false] at h2
  push_neg at h1
  have hd := hI.dirInv
  have hfr := hI.fresh
  have hpla := hI.placed
  have hndp := hI.nodup
  have hbyt := hI.bytes
  obtain ⟨m, hm⟩ : ∃ m, (dir t).local_depths_ (KeyToDirectoryIndex P key (dir t)) = m + 1 :=
    ⟨_, (Nat.succ_pred_eq_of_ne_zero h0).symm⟩
  have hi := KeyToDirectoryIndex_lt P key (dir t)
  have hbro : (dir t).GetSplitImageIndex (KeyToDirectoryIndex P key (dir t)) =
      KeyToDirectoryIndex P key (dir t) ^^^ 2 ^ m := by
    unfold GetSplitImageIndex
    rw [hm, Nat.add_sub_cancel, Nat.one_shiftLeft]
  rw [hbro, hm] at h1
  generalize KeyToDirectoryIndex P key (dir t) = i at *
  have hle : m + 1 ≤ (dir t).global_depth_ := hm ▸ hd.depth_le i hi
  have hbl : i ^^^ 2 ^ m < 2 ^ (dir t).global_depth_ := xor_pow_lt hi (by omega)
  obtain ⟨e1, e3, e4⟩ := MergeDir_spec (dir t) i m hi hm h1.symm
  have hD2 := DirInv_MergeDir hd hi hm h1.symm
  obtain ⟨g, hg, hS, hgb⟩ := ShrinkLoop_spec (MergeDir (dir t) i).global_depth_ _ hD2
  obtain ⟨hD3, hx⟩ := DirInv_restrict hD2 hg hgb
  have hM := fun s hs => merged_iff hd hi hm h1.symm (s := s) hs
  rw [hS]
  rw [e1] at hg hx
  have hpow : 2 ^ g ≤ 2 ^ (dir t).global_depth_ := Nat.pow_le_pow_right (by norm_num) hg
  generalize hT : ({ t with
      deleted_ := (t.deleted_ ++ [(dir t).bucket_page_ids_ i])
      dir_pages_ := (updI t.dir_pages_ t.directory_page_id_
        ({ MergeDir (dir t) i with global_depth_ := g } : HashTableDirectoryPage)) } :
      ExtendibleHashTable K V) = T
  have hTd : dir T = { MergeDir (dir t) i with global_depth_ := g } := by
    rw [← hT]
    exact updI_same _ _ _
  have hTb : T.bucket_pages_ = t.bucket_pages_ := by rw [← hT]
  have hTn : T.next_page_id_ = t.next_page_id_ := by rw [← hT]
  have hTi : T.directory_page_id_ = t.directory_page_id_ := by rw [← hT]
  have hgd : (dir T).global_depth_ = g := by rw [hTd]
  have hpg : ∀ s, (dir T).bucket_page_ids_ s = (MergeDir (dir t) i).bucket_page_ids_ s := by
    intro s; rw [hTd]
  have hld : ∀ s, (dir T).local_depths_ s = (MergeDir (dir t) i).local_depths_ s := by
    intro s; rw [hTd]
  -- the bucket of every slot of the new directory
  have hslot : ∀ s, s < 2 ^ (dir t).global_depth_ →
      (s % 2 ^ m = i % 2 ^ m ∧
        (dir T).bucket_page_ids_ s = (dir t).bucket_page_ids_ (i ^^^ 2 ^ m) ∧
        (dir T).local_depths_ s = m) ∨
      ((dir T).bucket_page_ids_ s = (dir t).bucket_page_ids_ s ∧
        (dir T).local_depths_ s = (dir t).local_depths_ s) := by
    intro s hs
    rw [hpg, hld, e3 s hs, e4 s hs]
    by_cases c : (dir t).bucket_page_ids_ s = (dir t).bucket_page_ids_ i ∨
        (dir t).bucket_page_ids_ s = (dir t).bucket_page_ids_ (i ^^^ 2 ^ m)
    · left
      rw [if_pos c, if_pos c]
      exact ⟨(hM s hs).mp c, rfl, rfl⟩
    · right
      rw [if_neg c, if_neg c]
      exact ⟨rfl, rfl⟩
  refine ⟨⟨by rw [hTi]; exact hI.created, by rw [hTi, hTn]; exact hI.dir_lt,
    by rw [hTd]; exact hD3, by rw [hgd]; exact le_trans hg hI.gd_le, ?_, ?_, ?_, ?_⟩, ?_⟩
  · intro s hs
    rw [hgd] at hs
    have hs' := lt_of_lt_of_le hs hpow
    rw [hTn]
    rcases hslot s hs' with ⟨_, e, _⟩ | ⟨e, _⟩
    · rw [e]; exact hfr _ hbl
    · rw [e]; exact hfr _ hs'
  · intro s hs e he
    rw [hgd] at hs
    have hs' := lt_of_lt_of_le hs hpow
    rw [hTb] at he
    rcases hslot s hs' with ⟨c, e3', e4'⟩ | ⟨e3', e4'⟩
    · rw [e3'] at he
      rw [e4', c]
      have := hpla _ hbl e he
      rw [← h1] at this
      rw [mod_pow_eq_of_le (Nat.le_succ m) this, xor_pow_mod_same]
    · rw [e3'] at he
      rw [e4']
      exact hpla s hs' e he
  · intro s hs
    rw [hgd] at hs
    have hs' := lt_of_lt_of_le hs hpow
    rw [hTb]
    rcases hslot s hs' with ⟨_, e3', _⟩ | ⟨e3', _⟩
    · rw [e3']; exact hndp _ hbl
    · rw [e3']; exact hndp _ hs'
  · intro s hs
    rw [hgd] at hs
    have hs' := lt_of_lt_of_le hs hpow
    rw [hTb]
    rcases hslot s hs' with ⟨_, e3', _⟩ | ⟨e3', _⟩
    · rw [e3']; exact hbyt _ hbl
    · rw [e3']; exact hbyt _ hs'
  · intro k v
    have hs := KeyToDirectoryIndex_lt P k (dir t)
    rw [KeyToDirectoryIndex_eq P k (dir T), hgd, hpg, (hx _).1, hTb,
      ← KeyToDirectoryIndex_eq P k (dir t), e3 _ hs]
    by_cases c : (dir t).bucket_page_ids_ (KeyToDirectoryIndex P k (dir t)) =
        (dir t).bucket_page_ids_ i
    · rw [if_pos (Or.inl c), c]
      constructor
      · intro hh
        exfalso
        have h3 := hpla _ hbl _ hh
        rw [← h1] at h3
        have h4 := hd.inj i _ hi hs c
        rw [hm, KeyToDirectoryIndex_eq, mod_pow_of_le hle] at h4
        exact xor_pow_mod_succ_ne i m (h3.symm.trans h4)
      · rintro ⟨j, hj, hr, _⟩
        rw [not_IsReadable_of_IsEmpty h2 hj] at hr
        cases hr
    · by_cases c2 : (dir t).bucket_page_ids_ (KeyToDirectoryIndex P k (dir t)) =
          (dir t).bucket_page_ids_ (i ^^^ 2 ^ m)
      · rw [if_pos (Or.inr c2), c2]
      · rw [if_neg (fun hh => hh.elim c c2)]

end ExtendibleHashTable
end Bustub

namespace Bustub
namespace ExtendibleHashTable

open HashTableDirectoryPage HashTableBucketPage

variable {K V : Type}

/-- `Remove` of the hash table on a table that satisfies the invariant: it returns, the pair
is gone afterwards, every other pair is found as before, and the result tells whether the
pair was there. -/
theorem Remove_spec [DecidableEq V] [Inhabited K] [Inhabited V] (P : Params K)
    (hcmp : ∀ a b, P.comparator_ a b = 0 ↔ a = b)
    {t : ExtendibleHashTable K V} (hI : Inv P t) (key : K) (value : V) :
    ∃ t' res, Remove P t key value = .ok (t', res) ∧ Inv P t' ∧
      (res = true ↔ value ∈ values P t key) ∧
      ∀ (k : K) (v : V), v ∈ values P t' k ↔ (v ∈ values P t k ∧ (k, v) ≠ (key, value)) := by
  have hc := hI.created
  have hi := KeyToDirectoryIndex_lt P key (dir t)
  have hnd := hI.nodup _ hi
  have hby := hI.bytes _ hi
  -- the bucket-level removal
  obtain ⟨b', res, hR, hres, hH, hN, hB⟩ : ∃ b' res,
      (t.bucket_pages_ ((dir t).bucket_page_ids_ (KeyToDirectoryIndex P key (dir t)))).Remove
        P.BUCKET_ARRAY_SIZE P.comparator_ key value = (b', res) ∧
      (res = true ↔ Holds P.BUCKET_ARRAY_SIZE
        (t.bucket_pages_ ((dir t).bucket_page_ids_ (KeyToDirectoryIndex P key (dir t))))
        (key, value)) ∧
      (∀ e, Holds P.BUCKET_ARRAY_SIZE b' e ↔
        (Holds P.BUCKET_ARRAY_SIZE
          (t.bucket_pages_ ((dir t).bucket_page_ids_ (KeyToDirectoryIndex P key (dir t)))) e ∧
          e ≠ (key, value))) ∧
      NoDup P.BUCKET_ARRAY_SIZE b' ∧ BytesOK b' := by
    rcases Remove_cases hcmp P.BUCKET_ARRAY_SIZE
      (t.bucket_pages_ ((dir t).bucket_page_ids_ (KeyToDirectoryIndex P key (dir t))))
      key value with ⟨hno, he⟩ | ⟨j, hj, hr, ha, he⟩
    · refine ⟨_, false, he, ?_, ?_, hnd, hby⟩
      · simp [hno]
      · intro e
        constructor
        · intro h
          exact ⟨h, fun hh => hno (hh ▸ h)⟩
        · exact fun h => h.1
    · refine ⟨_, true, he, ?_, ?_, NoDup_RemoveAt hnd j, BytesOK_RemoveAt hby j⟩
      · simp only [true_iff]
        exact ⟨j, hj, hr, ha⟩
      · intro e
        rw [Holds_RemoveAt hnd hj hr, ha]
  have hI1 := Inv_setBucket P hI key b' (fun e he => Or.inl ((hH e).mp he).1) hN hB
  have hval1 : ∀ (k : K) (v : V),
      Holds P.BUCKET_ARRAY_SIZE
        ((updI t.bucket_pages_
          ((dir t).bucket_page_ids_ (KeyToDirectoryIndex P key (dir t))) b')
          ((dir t).bucket_page_ids_ (KeyToDirectoryIndex P k (dir t)))) (k, v) ↔
      (v ∈ values P t k ∧ (k, v) ≠ (key, value)) := by
    intro k v
    rw [mem_values P hcmp hc, updI_apply]
    split
    · rename_i hp
      rw [hH, hp]
    · rename_i hp
      constructor
      · intro h
        refine ⟨h, fun hh => hp ?_⟩
        rw [(Prod.mk.inj hh).1]
      · exact fun h => h.1
  unfold Remove
  simp only [FetchDirectoryPage_of_created hc, KeyToPageId, GetBucketPageId]
  rw [show t.dir_pages_ t.directory_page_id_ = dir t from rfl, hR]
  simp only []
  split
  · obtain ⟨t', hM, hI', hv'⟩ := Merge_spec P hI1 key
    rw [hM]
    refine ⟨t', res, rfl, hI', ?_, ?_⟩
    · rw [hres, mem_values P hcmp hc]
    · intro k v
      rw [mem_values P hcmp hI'.created, hv']
      exact hval1 k v
  · refine ⟨_, res, rfl, hI1, ?_, ?_⟩
    · rw [hres, mem_values P hcmp hc]
    · intro k v
      rw [mem_values P hcmp hI1.created]
      exact hval1 k v

end ExtendibleHashTable
end Bustub

namespace Bustub
namespace ExtendibleHashTable

open HashTableDirectoryPage HashTableBucketPage

variable {K V : Type}

theorem new_bucket_pages [Inhabited K] [Inhabited V] (p : Int) :
    (new : ExtendibleHashTable K V).FetchDirectoryPage.bucket_pages_ p =
      HashTableBucketPage.zero := by
  show updI (updI (fun _ => HashTableBucketPage.zero) 0 HashTableBucketPage.zero) (0 + 1)
    HashTableBucketPage.zero p = HashTableBucketPage.zero
  rw [updI_apply, updI_apply]
  split
  · rfl
  · split <;> rfl

/-- The table `FetchDirectoryPage` creates on first use satisfies the invariant. -/
theorem Inv_created_new [Inhabited K] [Inhabited V] (P : Params K) :
    Inv P (new : ExtendibleHashTable K V).FetchDirectoryPage := by
  have hgd : (dir (new : ExtendibleHashTable K V).FetchDirectoryPage).global_depth_ = 0 := rfl
  have hpg : (dir (new : ExtendibleHashTable K V).FetchDirectoryPage).bucket_page_ids_ 0 = 1 :=
    rfl
  have hnx : (new : ExtendibleHashTable K V).FetchDirectoryPage.next_page_id_ = 2 := rfl
  have hid : (new : ExtendibleHashTable K V).FetchDirectoryPage.directory_page_id_ = 0 := rfl
  have hs0 : ∀ s, s < 2 ^ (dir (new : ExtendibleHashTable K V).FetchDirectoryPage).global_depth_
      → s = 0 := by
    intro s hs
    rw [hgd] at hs
    omega
  refine ⟨by rw [hid]; decide, by rw [hid, hnx]; decide, ⟨?_, ?_, ?_⟩, by rw [hgd]; omega,
    ?_, ?_, ?_, ?_⟩
  · intro s hs
    rw [hs0 s hs]
    exact Nat.zero_le _
  · intro s r hs hr _
    rw [hs0 s hs, hs0 r hr]
    exact ⟨rfl, rfl⟩
  · intro s r hs hr _
    rw [hs0 s hs, hs0 r hr]
  · intro s hs
    rw [hs0 s hs, hpg, hnx]
    decide
  · intro s _ e he
    rw [new_bucket_pages] at he
    obtain ⟨j, _, hr, _⟩ := he
    rw [IsReadable_zero] at hr
    cases hr
  · intro s _
    rw [new_bucket_pages]
    intro a b _ _ hr
    rw [IsReadable_zero] at hr
    cases hr
  · intro s _
    rw [new_bucket_pages]
    exact BytesOK_zero

theorem new_created [Inhabited K] [Inhabited V] :
    (new : ExtendibleHashTable K V).FetchDirectoryPage.directory_page_id_ ≠ INVALID_PAGE_ID := by
  show (0 : Int) ≠ -1
  decide

/-- The operations start with `FetchDirectoryPage`, so they act on a table as on the table
with its directory page created. -/
theorem Insert_FetchDirectoryPage [DecidableEq V] [Inhabited K] [Inhabited V] (P : Params K)
    (fuel : Nat) {t : ExtendibleHashTable K V}
    (hc : t.FetchDirectoryPage.directory_page_id_ ≠ INVALID_PAGE_ID) (key : K) (value : V) :
    Insert P fuel t key value = Insert P fuel t.FetchDirectoryPage key value := by
  cases fuel with
  | zero => rw [Insert_zero, Insert_zero]
  | succ fuel =>
    rw [Insert, Insert, FetchDirectoryPage_of_created hc]

theorem Remove_FetchDirectoryPage [DecidableEq V] [Inhabited K] [Inhabited V] (P : Params K)
    {t : ExtendibleHashTable K V}
    (hc : t.FetchDirectoryPage.directory_page_id_ ≠ INVALID_PAGE_ID) (key : K) (value : V) :
    Remove P t key value = Remove P t.FetchDirectoryPage key value := by
  unfold Remove
  rw [FetchDirectoryPage_of_created hc]

theorem values_FetchDirectoryPage [Inhabited K] [Inhabited V] (P : Params K)
    {t : ExtendibleHashTable K V}
    (hc : t.FetchDirectoryPage.directory_page_id_ ≠ INVALID_PAGE_ID) (key : K) :
    values P t key = values P t.FetchDirectoryPage key := by
  unfold values GetValue
  rw [FetchDirectoryPage_of_created hc]

/-- Every reachable table is the newly constructed one or satisfies the invariant. -/
theorem Reachable_cases [DecidableEq V] [Inhabited K] [Inhabited V] (P : Params K)
    (hcmp : ∀ a b, P.comparator_ a b = 0 ↔ a = b) {t : ExtendibleHashTable K V}
    (h : Reachable P t) : t = new ∨ Inv P t := by
  induction h with
  | new => exact Or.inl rfl
  | insert _ hins ih =>
    right
    unfold insert at hins
    rcases ih with h0 | hI
    · subst h0
      rw [Insert_FetchDirectoryPage P _ (new_created (K := K) (V := V))] at hins
      exact Inv_Insert P hcmp _ (Inv_created_new (V := V) P) hins
    · exact Inv_Insert P hcmp _ hI hins
  | @remove t0 t1 key value res _ hrem ih =>
    right
    rcases ih with h0 | hI
    · subst h0
      rw [Remove_FetchDirectoryPage P (new_created (K := K) (V := V))] at hrem
      obtain ⟨t', res', h1, h2, _⟩ := Remove_spec P hcmp (Inv_created_new (V := V) P) key value
      rw [h1] at hrem
      cases hrem
      exact h2
    · obtain ⟨t', res', h1, h2, _⟩ := Remove_spec P hcmp hI key value
      rw [h1] at hrem
      cases hrem
      exact h2
  | getValue key result _ ih =>
    right
    show Inv P (FetchDirectoryPage _)
    rcases ih with h0 | hI
    · subst h0
      exact Inv_created_new P
    · rw [FetchDirectoryPage_of_created hI.created]
      exact hI

/-- `Remove` on a reachable table, in the terms of `GetValue`. -/
theorem Remove_reachable [DecidableEq V] [Inhabited K] [Inhabited V] (P : Params K)
    (hcmp : ∀ a b, P.comparator_ a b = 0 ↔ a = b) {t : ExtendibleHashTable K V}
    (h : Reachable P t) (key : K) (value : V) :
    ∃ t' res, Remove P t key value = .ok (t', res) ∧
      (res = true ↔ value ∈ values P t key) ∧
      ∀ (k : K) (v : V), v ∈ values P t' k ↔ (v ∈ values P t k ∧ (k, v) ≠ (key, value)) := by
  rcases Reachable_cases P hcmp h with h0 | hI
  · subst h0
    obtain ⟨t', res, h1, _, h3, h4⟩ := Remove_spec P hcmp (Inv_created_new P) key value
    refine ⟨t', res, by rw [Remove_FetchDirectoryPage P (new_created (K := K) (V := V))]; exact h1, ?_, ?_⟩
    · rw [values_FetchDirectoryPage P (new_created (K := K) (V := V))]
      exact h3
    · intro k v
      rw [values_FetchDirectoryPage P (new_created (K := K) (V := V))]
      exact h4 k v
  · obtain ⟨t', res, h1, _, h3, h4⟩ := Remove_spec P hcmp hI key value
    exact ⟨t', res, h1, h3, h4⟩

end ExtendibleHashTable
end Bustub

namespace Bustub
namespace ExtendibleHashTable

open HashTableDirectoryPage HashTableBucketPage

variable {K V : Type}

theorem Unsplit_new [Inhabited K] [Inhabited V] (P : Params K) :
    Unsplit P (new : ExtendibleHashTable K V).FetchDirectoryPage [] :=
  ⟨Inv_created_new P, rfl, rfl, rfl, rfl, by rw [new_bucket_pages]; exact Packed_zero _⟩

/-- While the first bucket has a free slot, `Insert` of a new pair stores it there. -/
theorem Unsplit_insert [DecidableEq V] [Inhabited K] [Inhabited V] (P : Params K)
    (hcmp : ∀ a b, P.comparator_ a b = 0 ↔ a = b) {c : Nat} (hcap : P.BUCKET_ARRAY_SIZE = 8 * c)
    {t : ExtendibleHashTable K V} {l : List (K × V)} (h : Unsplit P t l)
    (hlen : l.length < P.BUCKET_ARRAY_SIZE) {key : K} {value : V} (hno : (key, value) ∉ l) :
    ∃ t', insert P t key value = .ok (t', true) ∧ Unsplit P t' (l ++ [(key, value)]) := by
  have hidx : KeyToDirectoryIndex P key (dir t) = 0 := by
    rw [KeyToDirectoryIndex_eq, h.global_depth, pow_zero, Nat.mod_one]
  have hfull : ¬ (t.bucket_pages_ 1).IsFull P.BUCKET_ARRAY_SIZE = true := by
    rw [IsFull_Packed h.packed, hcap, Nat.mul_div_cancel_left c (by norm_num), ← hcap]
    omega
  obtain ⟨b', hb, hp⟩ := Packed_Insert hcmp h.packed hlen hno
  have hins : insert P t key value = .ok ({ t with bucket_pages_ := (updI t.bucket_pages_
      ((dir t).bucket_page_ids_ (KeyToDirectoryIndex P key (dir t))) b') }, true) := by
    unfold insert
    rw [Insert_succ P _ h.inv.created, hidx, h.bucket_page, if_neg hfull, hb]
  refine ⟨_, hins, ?_⟩
  unfold insert at hins
  refine ⟨Inv_Insert P hcmp _ h.inv hins, h.global_depth, h.local_depth, h.next_page,
    h.bucket_page, ?_⟩
  show Packed _ (updI _ _ _ 1) _
  rw [hidx, h.bucket_page, updI_same]
  exact hp

theorem length_insertAll_nil [DecidableEq V] [Inhabited K] [Inhabited V] (P : Params K)
    (t : ExtendibleHashTable K V) : insertAll P t [] = .ok (t, []) := rfl

theorem insertAll_cons [DecidableEq V] [Inhabited K] [Inhabited V] (P : Params K)
    {t t1 : ExtendibleHashTable K V} {key : K} {value : V} {res : Bool}
    (h : insert P t key value = .ok (t1, res)) (rest : List (K × V)) :
    insertAll P t ((key, value) :: rest) =
      match insertAll P t1 rest with
      | .error e => .error e
      | .ok (t2, results) => .ok (t2, res :: results) := by
  rw [insertAll, h]

/-- A run of `Insert` calls that fits the first bucket stores every pair there. -/
theorem Unsplit_insertAll [DecidableEq V] [Inhabited K] [Inhabited V] (P : Params K)
    (hcmp : ∀ a b, P.comparator_ a b = 0 ↔ a = b) {c : Nat} (hcap : P.BUCKET_ARRAY_SIZE = 8 * c)
    (rest : List (K × V)) :
    ∀ {t : ExtendibleHashTable K V} {l : List (K × V)}, Unsplit P t l →
      l.length + rest.length ≤ P.BUCKET_ARRAY_SIZE → (l ++ rest).Nodup →
      ∃ t', insertAll P t rest = .ok (t', List.replicate rest.length true) ∧
        Unsplit P t' (l ++ rest) := by
  induction rest with
  | nil =>
    intro t l h _ _
    exact ⟨t, rfl, by rw [List.append_nil]; exact h⟩
  | cons e rest ih =>
    intro t l h hlen hnd
    obtain ⟨key, value⟩ := e
    rw [List.length_cons] at hlen
    have hno : (key, value) ∉ l := by
      intro hm
      have := List.nodup_append.mp hnd
      exact this.2.2 hm (List.mem_cons_self _ _)
    obtain ⟨t1, h1, hU⟩ := Unsplit_insert P hcmp hcap h (by omega) hno
    have hnd' : ((l ++ [(key, value)]) ++ rest).Nodup := by
      rw [List.append_assoc]
      exact hnd
    obtain ⟨t2, h2, hU2⟩ := ih hU (by rw [List.length_append, List.length_singleton]; omega) hnd'
    refine ⟨t2, ?_, ?_⟩
    · rw [insertAll_cons P h1, h2]
      rfl
    · rw [List.append_assoc] at hU2
      exact hU2

end ExtendibleHashTable
end Bustub

namespace Bustub
namespace ExtendibleHashTable

open HashTableDirectoryPage HashTableBucketPage

variable {K V : Type}

/-- The first split: the directory gets two slots, slot `s` on page `s + 1` at local depth 1,
and the pairs are divided by the lowest bit of their hash. -/
theorem Unsplit_split [DecidableEq V] [Inhabited K] [Inhabited V] (P : Params K)
    (hcmp : ∀ a b, P.comparator_ a b = 0 ↔ a = b)
    {t : ExtendibleHashTable K V} {L : List (K × V)} (h : Unsplit P t L) (key : K) :
    ∃ T, Split P t key = .ok (some T) ∧ Inv P T ∧ T.next_page_id_ = 3 ∧
      (dir T).global_depth_ = 1 ∧
      ∀ s, s < 2 → (dir T).local_depths_ s = 1 ∧ (dir T).bucket_page_ids_ s = (s : Int) + 1 ∧
        Packed P.BUCKET_ARRAY_SIZE (T.bucket_pages_ ((s : Int) + 1))
          (L.filter (fun e => decide (Hash P e.1 % 2 = s))) := by
  have hI := h.inv
  have hidx : KeyToDirectoryIndex P key (dir t) = 0 := by
    rw [KeyToDirectoryIndex_eq, h.global_depth, pow_zero, Nat.mod_one]
  have hdep : (dir t).local_depths_ (KeyToDirectoryIndex P key (dir t)) ≤ P.MAX_BUCKET_DEPTH := by
    rw [hidx, h.local_depth]
    exact Nat.zero_le _
  have hL : (t.bucket_pages_ ((dir t).bucket_page_ids_ 0)).GetArrayCopy P.BUCKET_ARRAY_SIZE = L := by
    rw [h.bucket_page]
    exact GetArrayCopy_Packed h.packed
  have x1 : (0 : Nat) ^^^ 2 ^ 0 = 1 := by decide
  have x2 : (2 : Nat) ^ (0 + 1) = 2 := by norm_num
  obtain ⟨sb, bb, hS, hsb, hbb⟩ := Split_ok P hcmp hI key hdep
  rw [hidx, h.local_depth, hL, x1, x2] at hsb hbb
  have hIT := Inv_SplitResult P hI key hidx h.local_depth hL (by omega) sb bb
    (by rw [x1, x2]; exact hsb) (by rw [x1, x2]; exact hbb)
    (by
      intro e _ h1
      rw [x1, x2] at h1
      rw [x2]
      omega)
  have hdir := dir_SplitResult P t key sb bb
  have hbkt := bucket_SplitResult P t key sb bb
  rw [KeyToPageId_SplitDir0] at hdir
  simp only [KeyToPageId_SplitDir0] at hbkt
  obtain ⟨f1, _, f3, f4⟩ := SplitDirFinal_spec P (dir t) key
    ((dir t).bucket_page_ids_ (KeyToDirectoryIndex P key (dir t))) t.next_page_id_
  rw [← hdir] at f1 f3 f4
  simp only [hidx, h.local_depth, h.global_depth, x1, x2, h.bucket_page, h.next_page, if_true,
    zero_add, pow_one] at f1 f3 f4 hbkt
  have hnext : (SplitResult P t key sb bb).next_page_id_ = 3 := by
    show t.next_page_id_ + 1 = 3
    rw [h.next_page]
    rfl
  refine ⟨_, hS, hIT, hnext, f1, ?_⟩
  intro s hs
  have hs01 : s = 0 ∨ s = 1 := by omega
  rcases hs01 with rfl | rfl
  · refine ⟨?_, ?_, ?_⟩
    · rw [f4 0 (by norm_num)]
      simp
    · rw [f3 0 (by norm_num)]
      simp
    · rw [hbkt]
      simp only [Nat.cast_zero, zero_add]
      rw [if_neg (by decide)]
      simp only [if_true]
      have e : L.filter (fun e => decide (Hash P e.1 % 2 = 0)) =
          L.filter (fun e => decide (Hash P e.1 % 2 ≠ 1)) := by
        apply List.filter_congr
        intro a _
        have := Nat.mod_lt (Hash P a.1) (show 0 < 2 by norm_num)
        by_cases c : Hash P a.1 % 2 = 0
        · simp [c]
        · have c1 : Hash P a.1 % 2 = 1 := by omega
          simp [c1]
      rw [e]
      exact hsb
  · refine ⟨?_, ?_, ?_⟩
    · rw [f4 1 (by norm_num)]
      simp
    · rw [f3 1 (by norm_num)]
      simp
    · rw [hbkt]
      simp only [Nat.cast_one]
      rw [if_pos (by norm_num)]
      exact hbb

end ExtendibleHashTable
end Bustub

namespace Bustub
namespace ExtendibleHashTable

open HashTableDirectoryPage HashTableBucketPage

variable {K V : Type}

/-- The `Insert` that finds the first bucket full: one split, then the pair goes to the
bucket of its lowest hash bit, which has a free slot when some stored pair went the other
way. -/
theorem Unsplit_last_insert [DecidableEq V] [Inhabited K] [Inhabited V] (P : Params K)
    (hcmp : ∀ a b, P.comparator_ a b = 0 ↔ a = b) {c : Nat} (hcap : P.BUCKET_ARRAY_SIZE = 8 * c)
    {t : ExtendibleHashTable K V} {L : List (K × V)} (h : Unsplit P t L)
    (hlen : L.length = P.BUCKET_ARRAY_SIZE) {key : K} (value : V)
    (hkey : ∀ e, e ∈ L → e.1 ≠ key)
    (hbit : ∃ e, e ∈ L ∧ Hash P e.1 % 2 ≠ Hash P key % 2) :
    ∃ t', insert P t key value = .ok (t', true) ∧ t'.next_page_id_ = 3 ∧
      (dir t').global_depth_ = 1 ∧ (dir t').local_depths_ 0 = 1 ∧
      (dir t').local_depths_ 1 = 1 ∧
      (dir t').bucket_page_ids_ 0 = 1 ∧ (dir t').bucket_page_ids_ 1 = 2 ∧
      ∀ e, e ∈ L ++ [(key, value)] →
        Holds P.BUCKET_ARRAY_SIZE
          (t'.bucket_pages_ ((dir t').bucket_page_ids_ (Hash P e.1 % 2))) e ∧
        e.2 ∈ values P t' e.1 := by
  obtain ⟨T, hS, hIT, hn, hg, hslots⟩ := Unsplit_split P hcmp h key
  have hidx : KeyToDirectoryIndex P key (dir t) = 0 := by
    rw [KeyToDirectoryIndex_eq, h.global_depth, pow_zero, Nat.mod_one]
  have hdiv : 8 * (P.BUCKET_ARRAY_SIZE / 8) = P.BUCKET_ARRAY_SIZE := by
    rw [hcap, Nat.mul_div_cancel_left c (by norm_num)]
  have hfull : (t.bucket_pages_ 1).IsFull P.BUCKET_ARRAY_SIZE = true := by
    rw [IsFull_Packed h.packed, hdiv, hlen]
  have hj : Hash P key % 2 < 2 := Nat.mod_lt _ (by norm_num)
  obtain ⟨hl, hp, hpk⟩ := hslots _ hj
  have hidxT : KeyToDirectoryIndex P key (dir T) = Hash P key % 2 := by
    rw [KeyToDirectoryIndex_eq, hg, pow_one]
  have hlt : (L.filter (fun e => decide (Hash P e.1 % 2 = Hash P key % 2))).length <
      P.BUCKET_ARRAY_SIZE := by
    rw [← hlen, List.length_filter_lt_length_iff_exists]
    obtain ⟨e, he, hne⟩ := hbit
    exact ⟨e, he, by simpa using hne⟩
  have hnotfull : ¬ (T.bucket_pages_ (((Hash P key % 2 : Nat) : Int) + 1)).IsFull
      P.BUCKET_ARRAY_SIZE = true := by
    rw [IsFull_Packed hpk, hdiv]
    omega
  have hno : (key, value) ∉ L.filter (fun e => decide (Hash P e.1 % 2 = Hash P key % 2)) :=
    fun hm => hkey _ (List.mem_filter.mp hm).1 rfl
  obtain ⟨b', hb, hp'⟩ := Packed_Insert hcmp hpk hlt hno
  have hins : insert P t key value =
      .ok ({ T with bucket_pages_ := (updI T.bucket_pages_
        (((Hash P key % 2 : Nat) : Int) + 1) b') }, true) := by
    unfold insert
    rw [Insert_succ P _ h.inv.created, hidx, h.bucket_page, if_pos hfull, hS]
    simp only []
    rw [Insert_succ P _ hIT.created, hidxT, hp, if_neg hnotfull, hb]
  refine ⟨_, hins, hn, hg, (hslots 0 (by norm_num)).1, (hslots 1 (by norm_num)).1,
    by simpa using (hslots 0 (by norm_num)).2.1,
    by simpa using (hslots 1 (by norm_num)).2.1, ?_⟩
  generalize hT' : ({ T with bucket_pages_ := (updI T.bucket_pages_
        (((Hash P key % 2 : Nat) : Int) + 1) b') } : ExtendibleHashTable K V) = T'
  have hdT : dir T' = dir T := by rw [← hT']; rfl
  have hbT : ∀ p, T'.bucket_pages_ p =
      if p = ((Hash P key % 2 : Nat) : Int) + 1 then b' else T.bucket_pages_ p := by
    intro p
    rw [← hT']
    rfl
  have hcT : T'.directory_page_id_ ≠ INVALID_PAGE_ID := by
    rw [← hT']
    exact hIT.created
  have hholds : ∀ e, e ∈ L ++ [(key, value)] →
      Holds P.BUCKET_ARRAY_SIZE
        (T'.bucket_pages_ ((dir T').bucket_page_ids_ (Hash P e.1 % 2))) e := by
    intro e he
    have hs : Hash P e.1 % 2 < 2 := Nat.mod_lt _ (by norm_num)
    obtain ⟨_, hps, hpks⟩ := hslots _ hs
    rw [hdT, hps, hbT]
    rcases List.mem_append.mp he with hm | hm
    · by_cases c1 : Hash P e.1 % 2 = Hash P key % 2
      · rw [if_pos (by rw [c1])]
        rw [Holds_Insert hcmp hb]
        right
        rw [Holds_Packed hpk]
        exact List.mem_filter.mpr ⟨hm, by simpa using c1⟩
      · rw [if_neg (by omega)]
        rw [Holds_Packed hpks]
        exact List.mem_filter.mpr ⟨hm, by simp⟩
    · rw [List.mem_singleton] at hm
      subst hm
      rw [if_pos rfl, Holds_Insert hcmp hb]
      exact Or.inl rfl
  intro e he
  refine ⟨hholds e he, ?_⟩
  rw [mem_values P hcmp hcT, KeyToDirectoryIndex_eq, hdT, hg, pow_one, ← hdT]
  exact hholds e he

theorem insertAll_FetchDirectoryPage [DecidableEq V] [Inhabited K] [Inhabited V]
    (P : Params K) {t : ExtendibleHashTable K V}
    (hc : t.FetchDirectoryPage.directory_page_id_ ≠ INVALID_PAGE_ID) {l : List (K × V)}
    (hl : l ≠ []) : insertAll P t l = insertAll P t.FetchDirectoryPage l := by
  cases l with
  | nil => exact absurd rfl hl
  | cons e rest =>
    obtain ⟨key, value⟩ := e
    rw [insertAll, insertAll]
    unfold insert
    rw [Insert_FetchDirectoryPage P _ hc]

theorem insertAll_append [DecidableEq V] [Inhabited K] [Inhabited V] (P : Params K)
    (l1 l2 : List (K × V)) : ∀ {t t1 t2 : ExtendibleHashTable K V} {r1 r2 : List Bool},
      insertAll P t l1 = .ok (t1, r1) → insertAll P t1 l2 = .ok (t2, r2) →
      insertAll P t (l1 ++ l2) = .ok (t2, r1 ++ r2) := by
  induction l1 with
  | nil =>
    intro t t1 t2 r1 r2 h1 h2
    rw [length_insertAll_nil] at h1
    cases h1
    exact h2
  | cons e rest ih =>
    intro t t1 t2 r1 r2 h1 h2
    obtain ⟨key, value⟩ := e
    rw [List.cons_append]
    cases hi : insert P t key value with
    | error err =>
      rw [insertAll, hi] at h1
      cases h1
    | ok p =>
      obtain ⟨t0, res⟩ := p
      rw [insertAll_cons P hi] at h1 ⊢
      cases hr : insertAll P t0 rest with
      | error err =>
        rw [hr] at h1
        cases h1
      | ok q =>
        obtain ⟨t0', rs⟩ := q
        rw [hr] at h1
        simp only [Except.ok.injEq, Prod.mk.injEq] at h1
        obtain ⟨rfl, rfl⟩ := h1
        rw [ih hr h2]
        rfl

end ExtendibleHashTable
end Bustub

namespace Bustub
namespace ExtendibleHashTable

open HashTableDirectoryPage HashTableBucketPage

variable {K V : Type}

theorem exampleParams_lawful (a b : Nat) : exampleParams.comparator_ a b = 0 ↔ a = b := by
  show (a : Int) - (b : Int) = 0 ↔ a = b
  omega

/-- A run of `Insert` calls that returns leads from reachable tables to reachable tables. -/
theorem Reachable_insertAll [DecidableEq V] [Inhabited K] [Inhabited V] (P : Params K)
    (pairs : List (K × V)) : ∀ {t t' : ExtendibleHashTable K V} {results : List Bool},
      Reachable P t → insertAll P t pairs = .ok (t', results) → Reachable P t' := by
  induction pairs with
  | nil =>
    intro t t' results ht h
    rw [length_insertAll_nil] at h
    cases h
    exact ht
  | cons e rest ih =>
    intro t t' results ht h
    obtain ⟨key, value⟩ := e
    cases hi : insert P t key value with
    | error err =>
      rw [insertAll, hi] at h
      cases h
    | ok p =>
      obtain ⟨t0, res⟩ := p
      rw [insertAll_cons P hi] at h
      cases hr : insertAll P t0 rest with
      | error err =>
        rw [hr] at h
        cases h
      | ok q =>
        obtain ⟨t1, rs⟩ := q
        rw [hr] at h
        simp only [Except.ok.injEq, Prod.mk.injEq] at h
        rw [← h.1]
        exact ih (Reachable.insert ht hi) hr

theorem exampleTable_reachable : Reachable exampleParams exampleTable := by
  unfold exampleTable
  cases h : insertAll exampleParams (new : ExtendibleHashTable Nat Nat) [(1, 1), (2, 2)] with
  | error err => exact Reachable.new
  | ok p => exact Reachable_insertAll exampleParams _ Reachable.new h

/-- In the table model, whose pool keeps every page with the bytes last written:
`Remove(key, value)` on a reachable table returns, its result is `true` exactly when
`GetValue(key)` contained `value` before the call, and `GetValue(key)` does not contain
`value` afterwards. -/
theorem Remove_true_iff_contained [DecidableEq V] [Inhabited K] [Inhabited V]
    (P : Params K) (hcmp : ∀ a b, P.comparator_ a b = 0 ↔ a = b)
    (t : ExtendibleHashTable K V) (ht : Reachable P t) (key : K) (value : V) :
    ∃ t' res, Remove P t key value = .ok (t', res) ∧
      (res = true ↔ value ∈ values P t key) ∧ value ∉ values P t' key := by
  obtain ⟨t', res, h1, h2, h3⟩ := Remove_reachable P hcmp ht key value
  exact ⟨t', res, h1, h2, fun hm => ((h3 key value).mp hm).2 rfl⟩

/-- C3, refuted on the code: the pairs (0,0) to (7,7) fill the single 8-slot bucket of a new
table (global depth 0, two pages handed out); `Insert(0, 0)` again, with the pair present
and its bucket full, returns `true` and splits the bucket: the global depth is 1 and a third
page is handed out. -/
theorem C3_reinsert_into_full_bucket_splits :
    observeInserts exampleParams fillPairs 0 =
      .inr ([true, true, true, true, true, true, true, true], 0, 0, 2, [0]) ∧
    observeInserts exampleParams (fillPairs ++ [(0, 0)]) 0 =
      .inr ([true, true, true, true, true, true, true, true, true], 1, 1, 3, [0]) :=
  ⟨by decide!, by decide!⟩

/-- C4, refuted on the code: after the seventeen `Insert` calls of `mixedPairs`, which all
return `true`, the key 7 has no value, its slot has local depth 1 and the global depth is 3;
`Insert(7, 7)` then does not return: it stops at an `assert` of `SplitInsert`. -/
theorem C4_insert_of_absent_pair_faults :
    observeInserts exampleParams mixedPairs 7 =
      .inr (List.replicate 17 true, 3, 1, 5, []) ∧
    observeInserts exampleParams (mixedPairs ++ [(7, 7)]) 7 = .inl Fault.assertion :=
  ⟨by decide!, by decide!⟩

/-- In the table model, whose pool keeps every page with the bytes last written:
`Remove(key, value)` on a reachable table returns, and every pair other than `(key, value)`
is returned by `GetValue` after the call exactly when it was before. -/
theorem Remove_keeps_other_pairs [DecidableEq V] [Inhabited K] [Inhabited V]
    (P : Params K) (hcmp : ∀ a b, P.comparator_ a b = 0 ↔ a = b)
    (t : ExtendibleHashTable K V) (ht : Reachable P t) (key : K) (value : V) :
    ∃ t' res, Remove P t key value = .ok (t', res) ∧
      ∀ (k : K) (v : V), (k, v) ≠ (key, value) →
        (v ∈ values P t' k ↔ v ∈ values P t k) := by
  obtain ⟨t', res, h1, _, h3⟩ := Remove_reachable P hcmp ht key value
  refine ⟨t', res, h1, fun k v hne => ?_⟩
  rw [h3 k v]
  exact ⟨fun h => h.1, fun h => ⟨h, hne⟩⟩

/-- C6 as stated fails: nine distinct even keys on a new table of 8-slot buckets split
twice: the global depth is 2 and four pages are handed out. -/
theorem C6_nine_even_keys_split_twice :
    observeInserts exampleParams evenPairs 0 =
      .inr ([true, true, true, true, true, true, true, true, true], 2, 2, 4, [0]) := by
  decide!

/-- C6, amended: when the bucket capacity is a multiple of 8 and, among capacity + 1 pairs
with distinct keys, one of the first capacity keys differs from the last key in the lowest
bit of its hash, the `Insert` calls on a new table all return `true` and split exactly once
(three pages are handed out: directory, first bucket, split image): the global depth is 1,
the two slots have local depth 1 and different bucket pages, every pair is stored in the
bucket of the lowest bit of its hash, and `GetValue` returns its value. -/
theorem C6_one_split_when_low_bits_differ [DecidableEq V] [Inhabited K] [Inhabited V]
    (P : Params K) (hcmp : ∀ a b, P.comparator_ a b = 0 ↔ a = b) (c : Nat)
    (hcap : P.BUCKET_ARRAY_SIZE = 8 * c) (pairs : List (K × V)) (last : K × V)
    (hlen : pairs.length = P.BUCKET_ARRAY_SIZE)
    (hkeys : ((pairs ++ [last]).map Prod.fst).Nodup)
    (hbit : ∃ e, e ∈ pairs ∧ Hash P e.1 % 2 ≠ Hash P last.1 % 2) :
    ∃ t, insertAll P new (pairs ++ [last]) =
        .ok (t, List.replicate (P.BUCKET_ARRAY_SIZE + 1) true) ∧
      t.next_page_id_ = 3 ∧ (dir t).global_depth_ = 1 ∧
      (dir t).local_depths_ 0 = 1 ∧ (dir t).local_depths_ 1 = 1 ∧
      (dir t).bucket_page_ids_ 0 = 1 ∧ (dir t).bucket_page_ids_ 1 = 2 ∧
      ∀ e, e ∈ pairs ++ [last] →
        Holds P.BUCKET_ARRAY_SIZE
          (t.bucket_pages_ ((dir t).bucket_page_ids_ (Hash P e.1 % 2))) e ∧
        e.2 ∈ values P t e.1 := by
  obtain ⟨key, value⟩ := last
  have hnd : (pairs ++ [(key, value)]).Nodup := List.Nodup.of_map _ hkeys
  have hndp : pairs.Nodup := (List.nodup_append.mp hnd).1
  have hkey : ∀ e, e ∈ pairs → e.1 ≠ key := by
    intro e he hek
    rw [List.map_append, List.nodup_append] at hkeys
    exact hkeys.2.2 (List.mem_map_of_mem Prod.fst he) (by simp [hek])
  obtain ⟨t1, h1, hU⟩ := Unsplit_insertAll P hcmp hcap pairs (Unsplit_new P)
    (by rw [List.length_nil, hlen]; omega) (by rw [List.nil_append]; exact hndp)
  rw [List.nil_append] at hU
  obtain ⟨t', h2, hrest⟩ := Unsplit_last_insert P hcmp hcap hU hlen value hkey hbit
  have h2' : insertAll P t1 [(key, value)] = .ok (t', [true]) := by
    rw [insertAll_cons P h2]
    rfl
  refine ⟨t', ?_, hrest⟩
  rw [insertAll_FetchDirectoryPage P (new_created (K := K) (V := V)) (by simp),
    insertAll_append P _ _ h1 h2', hlen, List.replicate_succ']

theorem C6_one_split_when_low_bits_differ_witness :
    (∀ a b, exampleParams.comparator_ a b = 0 ↔ a = b) ∧
    exampleParams.BUCKET_ARRAY_SIZE = 8 * 1 ∧
    fillPairs.length = exampleParams.BUCKET_ARRAY_SIZE ∧
    ((fillPairs ++ [(8, 8)]).map Prod.fst).Nodup ∧
    (∃ e, e ∈ fillPairs ∧ Hash exampleParams e.1 % 2 ≠ Hash exampleParams 8 % 2) ∧
    ∃ t, insertAll exampleParams new (fillPairs ++ [(8, 8)]) =
        .ok (t, List.replicate (exampleParams.BUCKET_ARRAY_SIZE + 1) true) ∧
      t.next_page_id_ = 3 ∧ (dir t).global_depth_ = 1 ∧
      (dir t).local_depths_ 0 = 1 ∧ (dir t).local_depths_ 1 = 1 ∧
      (dir t).bucket_page_ids_ 0 = 1 ∧ (dir t).bucket_page_ids_ 1 = 2 ∧
      ∀ e, e ∈ fillPairs ++ [(8, 8)] →
        Holds exampleParams.BUCKET_ARRAY_SIZE
          (t.bucket_pages_ ((dir t).bucket_page_ids_ (Hash exampleParams e.1 % 2))) e ∧
        e.2 ∈ values exampleParams t e.1 :=
  ⟨exampleParams_lawful, rfl, rfl, by decide, ⟨(1, 1), by decide, by decide⟩,
    C6_one_split_when_low_bits_differ exampleParams exampleParams_lawful 1 rfl fillPairs
      (8, 8) rfl (by decide) ⟨(1, 1), by decide, by decide⟩⟩

end ExtendibleHashTable
end Bustub

namespace Bustub

namespace LRUReplacer

theorem WF_call {r : LRUReplacer} (h : r.WF) (c : ReplacerCall) : (r.call c).2.WF := by
  cases c with
  | Victim => exact WF_Victim h
  | Pin f => exact WF_Pin h f
  | Unpin f => exact WF_Unpin h f

theorem WF_of_Reachable {r : LRUReplacer} (h : Reachable r) : r.WF := by
  induction h with
  | init n => exact WF_new n
  | step c _ ih => exact WF_call ih c

theorem exampleReplacer_reachable : Reachable exampleReplacer :=
  Reachable.step (ReplacerCall.Unpin 1)
    (Reachable.step (ReplacerCall.Unpin 0) (Reachable.init 2))

theorem run_cons (r : LRUReplacer) (c : ReplacerCall) (cs : List ReplacerCall) :
    run r (c :: cs) = ((r.call c).1 :: (run (r.call c).2 cs).1, (run (r.call c).2 cs).2) := rfl

theorem run_append (cs1 cs2 : List ReplacerCall) : ∀ r : LRUReplacer,
    run r (cs1 ++ cs2) =
      ((run r cs1).1 ++ (run (run r cs1).2 cs2).1, (run (run r cs1).2 cs2).2) := by
  induction cs1 with
  | nil => intro r; rfl
  | cons c cs ih =>
    intro r
    rw [List.cons_append, run_cons, run_cons, ih]
    rfl

/-- `Victim` on a replacer that satisfies the representation invariant. -/
theorem Victim_cons {r : LRUReplacer} (h : r.WF) {f : Nat} {rest : List Nat}
    (hl : r.lt_ = f :: rest) :
    r.Victim = (some f, { r with lt_ := rest, mp_ := r.mp_.erase f }) := by
  rcases Victim_of_WF h with ⟨h0, _⟩ | ⟨g, rest', h1, h2⟩
  · rw [hl] at h0
    cases h0
  · rw [hl] at h1
    cases h1
    exact h2

/-- `Unpin` of a frame that is no candidate, below the capacity. -/
theorem Unpin_absent {r : LRUReplacer} (h : r.WF) {f : Nat} (hf : f ∉ r.lt_)
    (hlen : r.lt_.length < r.capacity_) :
    r.Unpin f = { r with lt_ := r.lt_ ++ [f], mp_ := f :: r.mp_ } := by
  unfold Unpin
  rw [if_neg (by omega), if_pos (fun hm => hf ((h.mem_iff f).mp hm))]

/-- `Unpin` of a candidate. -/
theorem Unpin_present {r : LRUReplacer} (h : r.WF) {f : Nat} (hf : f ∈ r.lt_) :
    r.Unpin f = r := by
  unfold Unpin
  split
  · rfl
  · rw [if_neg (fun hn => hn ((h.mem_iff f).mpr hf))]

/-- `Unpin` of distinct frames that fit the capacity appends them in order. -/
theorem run_Unpin (fs : List Nat) : ∀ {r : LRUReplacer}, r.WF →
    (r.lt_ ++ fs).Nodup → (r.lt_ ++ fs).length ≤ r.capacity_ →
    (run r (fs.map ReplacerCall.Unpin)).1 = fs.map (fun _ => none) ∧
    (run r (fs.map ReplacerCall.Unpin)).2.lt_ = r.lt_ ++ fs ∧
    (run r (fs.map ReplacerCall.Unpin)).2.WF := by
  induction fs with
  | nil =>
    intro r h _ _
    exact ⟨rfl, (List.append_nil _).symm, h⟩
  | cons f fs ih =>
    intro r h hnd hlen
    have hf : f ∉ r.lt_ := by
      intro hm
      exact (List.nodup_append.mp hnd).2.2 hm (List.mem_cons_self _ _)
    have hl : r.lt_.length < r.capacity_ := by
      rw [List.length_append, List.length_cons] at hlen
      omega
    have hU := Unpin_absent h hf hl
    have hW := WF_Unpin h f
    rw [List.map_cons, run_cons]
    show (none :: (run (r.Unpin f) _).1 = _) ∧ (run (r.Unpin f) _).2.lt_ = _ ∧
      (run (r.Unpin f) _).2.WF
    have hl2 : (r.Unpin f).lt_ = r.lt_ ++ [f] := by rw [hU]
    have hc2 : (r.Unpin f).capacity_ = r.capacity_ := by rw [hU]
    have := ih hW (by rw [hl2, List.append_assoc]; exact hnd)
      (by rw [hl2, hc2, List.append_assoc]; exact hlen)
    refine ⟨by rw [this.1]; rfl, ?_, this.2.2⟩
    rw [this.2.1, hl2, List.append_assoc]
    rfl

/-- As many `Victim` calls as there are candidates, and one more, return the candidates from
the front of the list to its back and then no frame. -/
theorem run_Victim (l : List Nat) : ∀ {r : LRUReplacer}, r.WF → r.lt_ = l →
    (run r (List.replicate (l.length + 1) ReplacerCall.Victim)).1 = l.map some ++ [none] := by
  induction l with
  | nil =>
    intro r h hl
    rcases Victim_of_WF h with ⟨_, h2⟩ | ⟨g, rest', h1, _⟩
    · show [(r.Victim).1] = [none]
      rw [h2]
    · rw [hl] at h1
      cases h1
  | cons f rest ih =>
    intro r h hl
    have hV := Victim_cons h hl
    have hW := WF_Victim h
    rw [List.length_cons, List.replicate_succ, run_cons]
    show (r.Victim).1 :: (run (r.Victim).2 _).1 = _
    rw [ih hW (by rw [hV]), hV]
    rfl

/-- After `Pin(f)` no `Victim` returns `f` as long as `Unpin(f)` is not called. -/
theorem run_not_victim (f : Nat) (cs : List ReplacerCall) : ∀ {r : LRUReplacer},
    f ∉ r.lt_ → (∀ c, c ∈ cs → c ≠ ReplacerCall.Unpin f) → some f ∉ (run r cs).1 := by
  induction cs with
  | nil =>
    intro r _ _ hm
    cases hm
  | cons c cs ih =>
    intro r hf hcs
    rw [run_cons]
    have hcs' : ∀ c', c' ∈ cs → c' ≠ ReplacerCall.Unpin f :=
      fun c' hc' => hcs c' (List.mem_cons_of_mem _ hc')
    have key : (r.call c).1 ≠ some f ∧ f ∉ (r.call c).2.lt_ := by
      cases c with
      | Victim =>
        show r.Victim.1 ≠ some f ∧ f ∉ r.Victim.2.lt_
        unfold Victim
        cases hl : r.lt_ with
        | nil =>
          simp only []
          exact ⟨by simp, by rw [hl]; simp⟩
        | cons g rest =>
          have hg : g ≠ f := by
            intro hgf
            rw [hl, hgf] at hf
            exact hf (List.mem_cons_self _ _)
          have hr : f ∉ rest := by
            intro hm
            rw [hl] at hf
            exact hf (List.mem_cons_of_mem _ hm)
          simp only []
          split
          · exact ⟨by simpa using hg, hr⟩
          · exact ⟨by simp, hr⟩
      | Pin g =>
        show (none : Option Nat) ≠ some f ∧ f ∉ (r.Pin g).lt_
        refine ⟨by simp, ?_⟩
        unfold Pin
        split
        · exact fun hm => hf (List.mem_of_mem_erase hm)
        · exact hf
      | Unpin g =>
        show (none : Option Nat) ≠ some f ∧ f ∉ (r.Unpin g).lt_
        refine ⟨by simp, ?_⟩
        have hgf : g ≠ f := by
          intro hgf
          exact hcs _ (List.mem_cons_self _ _) (by rw [hgf])
        unfold Unpin
        split
        · exact hf
        · split
          · simp only [List.mem_append, List.mem_singleton, not_or]
            exact ⟨hf, fun h => hgf h.symm⟩
          · exact hf
    intro hm
    rcases List.mem_cons.mp hm with h1 | h1
    · exact key.1 h1.symm
    · exact ih key.2 hcs' h1

end LRUReplacer

end Bustub

namespace Bustub

namespace LRUReplacer

/-- C18: on a reachable replacer `Victim` returns no frame and changes nothing when there is
no candidate; otherwise it returns the front of the recency list, which holds the candidates
in the order in which they entered, removes exactly that frame and lowers `Size` by one. So
after `Unpin` of `n` distinct frames (`n` at most the capacity) on a new replacer, `n` calls
of `Victim` return the frames in that order and the next `Victim` returns no frame. -/
theorem C18_victim_returns_oldest_candidate (r : LRUReplacer) (hr : Reachable r)
    (num_pages : Nat) (fs : List Nat) (hnd : fs.Nodup) (hlen : fs.length ≤ num_pages) :
    (r.Size = 0 → r.Victim = (none, r)) ∧
    (∀ f rest, r.lt_ = f :: rest →
      r.Victim.1 = some f ∧ r.Victim.2.lt_ = rest ∧ r.Victim.2.Size + 1 = r.Size ∧
      r.Victim.2.capacity_ = r.capacity_) ∧
    (run (LRUReplacer.new num_pages)
        (fs.map ReplacerCall.Unpin ++
          List.replicate (fs.length + 1) ReplacerCall.Victim)).1 =
      fs.map (fun _ => none) ++ (fs.map some ++ [none]) := by
  have h := WF_of_Reachable hr
  refine ⟨?_, ?_, ?_⟩
  · intro h0
    rcases Victim_of_WF h with ⟨_, h2⟩ | ⟨g, rest, h1, _⟩
    · exact h2
    · unfold Size at h0
      rw [h1] at h0
      cases h0
  · intro f rest hl
    rw [Victim_cons h hl]
    refine ⟨rfl, rfl, ?_, rfl⟩
    show rest.length + 1 = r.lt_.length
    rw [hl]
    rfl
  · have hU := run_Unpin fs (WF_new num_pages) (by simpa [LRUReplacer.new] using hnd)
      (by simpa [LRUReplacer.new] using hlen)
    rw [run_append, hU.1]
    have hl : (run (LRUReplacer.new num_pages) (fs.map ReplacerCall.Unpin)).2.lt_ = fs := by
      rw [hU.2.1]
      rfl
    rw [run_Victim fs hU.2.2 hl]

theorem C18_victim_returns_oldest_candidate_witness :
    Reachable exampleReplacer ∧ [3, 1, 2].Nodup ∧ [3, 1, 2].length ≤ 4 ∧
    (exampleReplacer.Size = 0 → exampleReplacer.Victim = (none, exampleReplacer)) ∧
    (∀ f rest, exampleReplacer.lt_ = f :: rest →
      exampleReplacer.Victim.1 = some f ∧ exampleReplacer.Victim.2.lt_ = rest ∧
      exampleReplacer.Victim.2.Size + 1 = exampleReplacer.Size ∧
      exampleReplacer.Victim.2.capacity_ = exampleReplacer.capacity_) ∧
    (run (LRUReplacer.new 4)
        ([3, 1, 2].map ReplacerCall.Unpin ++
          List.replicate ([3, 1, 2].length + 1) ReplacerCall.Victim)).1 =
      [3, 1, 2].map (fun _ => none) ++ ([3, 1, 2].map some ++ [none]) :=
  ⟨exampleReplacer_reachable, by decide, by decide,
    C18_victim_returns_oldest_candidate exampleReplacer exampleReplacer_reachable 4 [3, 1, 2]
      (by decide) (by decide)⟩

/-- C19: on a reachable replacer `Unpin(f)` of a candidate changes nothing (members, order and
`Size` stay), and `Unpin(f)` of a frame that is no candidate, with `Size` below the capacity,
puts `f` at the back of the recency list. So on a new replacer of capacity at least 2, after
`Unpin(a)`, `Unpin(b)`, `Unpin(a)` with `a ≠ b`, `Victim` returns `a` and then `b`. -/
theorem C19_unpin_keeps_recency (r : LRUReplacer) (hr : Reachable r) (f : Nat)
    (a b num_pages : Nat) (hab : a ≠ b) (hcap : 2 ≤ num_pages) :
    (f ∈ r.lt_ → r.Unpin f = r) ∧
    (f ∉ r.lt_ → r.Size < r.capacity_ →
      (r.Unpin f).lt_ = r.lt_ ++ [f] ∧ (r.Unpin f).Size = r.Size + 1) ∧
    (run (LRUReplacer.new num_pages)
        [ReplacerCall.Unpin a, ReplacerCall.Unpin b, ReplacerCall.Unpin a,
          ReplacerCall.Victim, ReplacerCall.Victim]).1 =
      [none, none, none, some a, some b] := by
  have h := WF_of_Reachable hr
  refine ⟨fun hf => Unpin_present h hf, ?_, ?_⟩
  · intro hf hlen
    rw [Unpin_absent h hf hlen]
    exact ⟨rfl, by simp [Size]⟩
  · have h0 := WF_new num_pages
    have e1 : (LRUReplacer.new num_pages).Unpin a =
        { capacity_ := num_pages, lt_ := [a], mp_ := [a] } := by
      rw [Unpin_absent h0 (by simp [LRUReplacer.new]) (by simp [LRUReplacer.new]; omega)]
      rfl
    have h1 : ({ capacity_ := num_pages, lt_ := [a], mp_ := [a] } : LRUReplacer).WF := by
      rw [← e1]
      exact WF_Unpin h0 a
    have e2 : ({ capacity_ := num_pages, lt_ := [a], mp_ := [a] } : LRUReplacer).Unpin b =
        { capacity_ := num_pages, lt_ := [a, b], mp_ := [b, a] } := by
      rw [Unpin_absent h1 (by simpa using hab.symm) (by simp; omega)]
      rfl
    have h2 : ({ capacity_ := num_pages, lt_ := [a, b], mp_ := [b, a] } : LRUReplacer).WF := by
      rw [← e2]
      exact WF_Unpin h1 b
    have e3 : ({ capacity_ := num_pages, lt_ := [a, b], mp_ := [b, a] } : LRUReplacer).Unpin a =
        { capacity_ := num_pages, lt_ := [a, b], mp_ := [b, a] } :=
      Unpin_present h2 (by simp)
    have e4 := @Victim_cons _ h2 a [b] rfl
    have h3 := WF_Victim h2
    rw [e4] at h3
    have e5 := @Victim_cons _ h3 b [] rfl
    simp only [run_cons, call, e1, e2, e3, e4, e5]
    rfl

theorem C19_unpin_keeps_recency_witness :
    Reachable exampleReplacer ∧ (5 : Nat) ≠ 7 ∧ 2 ≤ 3 ∧
    (0 ∈ exampleReplacer.lt_ → exampleReplacer.Unpin 0 = exampleReplacer) ∧
    (0 ∉ exampleReplacer.lt_ → exampleReplacer.Size < exampleReplacer.capacity_ →
      (exampleReplacer.Unpin 0).lt_ = exampleReplacer.lt_ ++ [0] ∧
      (exampleReplacer.Unpin 0).Size = exampleReplacer.Size + 1) ∧
    (run (LRUReplacer.new 3)
        [ReplacerCall.Unpin 5, ReplacerCall.Unpin 7, ReplacerCall.Unpin 5,
          ReplacerCall.Victim, ReplacerCall.Victim]).1 =
      [none, none, none, some 5, some 7] :=
  ⟨exampleReplacer_reachable, by decide, by decide,
    C19_unpin_keeps_recency exampleReplacer exampleReplacer_reachable 0 5 7 3 (by decide)
      (by decide)⟩

/-- C20: on a reachable replacer `Pin(f)` of a candidate removes `f` and nothing else from the
recency list, keeping the order of the others, and lowers `Size` by one; `Pin(f)` of a frame
that is no candidate changes nothing; a second `Pin(f)` changes nothing; and after `Pin(f)`
no `Victim` returns `f` in any sequence of calls without an `Unpin(f)`. -/
theorem C20_pin_removes_candidate (r : LRUReplacer) (hr : Reachable r) (f : Nat)
    (cs : List ReplacerCall) (hcs : ∀ c, c ∈ cs → c ≠ ReplacerCall.Unpin f) :
    (f ∈ r.lt_ → (r.Pin f).lt_ = r.lt_.filter (fun g => decide (g ≠ f)) ∧
      (r.Pin f).Size + 1 = r.Size) ∧
    (f ∉ r.lt_ → r.Pin f = r) ∧
    (r.Pin f).Pin f = r.Pin f ∧
    some f ∉ (run (r.Pin f) cs).1 := by
  have h := WF_of_Reachable hr
  have hnot : f ∉ (r.Pin f).lt_ := fun hm => ((mem_Pin h f f).mp hm).1 rfl
  have habs : ∀ {r' : LRUReplacer}, r'.WF → f ∉ r'.lt_ → r'.Pin f = r' := by
    intro r' h' hf
    unfold Pin
    rw [if_neg (fun hm => hf ((h'.mem_iff f).mp hm))]
  refine ⟨?_, habs h, habs (WF_Pin h f) hnot, run_not_victim f cs hnot hcs⟩
  intro hf
  have hm : f ∈ r.mp_ := (h.mem_iff f).mpr hf
  have e : (r.Pin f).lt_ = r.lt_.erase f := by
    unfold Pin
    rw [if_pos hm]
  refine ⟨?_, ?_⟩
  · rw [e, h.nodup_lt.erase_eq_filter]
    apply List.filter_congr
    intro g _
    by_cases c : g = f <;> simp [c]
  · show (r.Pin f).lt_.length + 1 = r.lt_.length
    rw [e, List.length_erase_of_mem hf]
    have := List.length_pos_of_mem hf
    omega

theorem C20_pin_removes_candidate_witness :
    Reachable exampleReplacer ∧
    (∀ c, c ∈ [ReplacerCall.Victim, ReplacerCall.Unpin 1, ReplacerCall.Victim] →
      c ≠ ReplacerCall.Unpin 0) ∧
    (0 ∈ exampleReplacer.lt_ →
      (exampleReplacer.Pin 0).lt_ = exampleReplacer.lt_.filter (fun g => decide (g ≠ 0)) ∧
      (exampleReplacer.Pin 0).Size + 1 = exampleReplacer.Size) ∧
    (0 ∉ exampleReplacer.lt_ → exampleReplacer.Pin 0 = exampleReplacer) ∧
    (exampleReplacer.Pin 0).Pin 0 = exampleReplacer.Pin 0 ∧
    some 0 ∉ (run (exampleReplacer.Pin 0)
      [ReplacerCall.Victim, ReplacerCall.Unpin 1, ReplacerCall.Victim]).1 :=
  have hcs : ∀ c, c ∈ [ReplacerCall.Victim, ReplacerCall.Unpin 1, ReplacerCall.Victim] →
      c ≠ ReplacerCall.Unpin 0 := by
    intro c hc
    simp only [List.mem_cons, List.mem_singleton, List.not_mem_nil, or_false] at hc
    rcases hc with rfl | rfl | rfl <;> simp
  ⟨exampleReplacer_reachable, hcs,
    C20_pin_removes_candidate exampleReplacer exampleReplacer_reachable 0 _ hcs⟩

end LRUReplacer

end Bustub

namespace Bustub

namespace BufferPoolManagerInstance

variable {D : Type}

theorem NewPgImp_all_pinned [Inhabited D] {m : BufferPoolManagerInstance D}
    (hp : m.all_pinned = true) : m.NewPgImp = .ok (none, m) := by
  unfold NewPgImp
  rw [if_pos hp]

/-- In a state that satisfies the invariant `NewPgImp` returns: without a frame and without
any change when all frames are pinned, else with the next page id. -/
theorem NewPgImp_cases [Inhabited D] {m : BufferPoolManagerInstance D} (h : Inv m) :
    (m.all_pinned = true ∧ m.NewPgImp = .ok (none, m)) ∨
    ∃ f m1, m.all_pinned = false ∧ m.acquire = (some f, m1) ∧ f < m.pool_size_ ∧
      (m.pages_ f).pin_count_ = 0 ∧
      m.NewPgImp = .ok (some (m.next_page_id_, f), afterNew m m1 f) ∧
      Inv (afterNew m m1 f) := by
  cases hp : m.all_pinned
  · right
    obtain ⟨f, m1, h1, h2, h3, _, h5, h6⟩ := Inv_afterNew h hp
    exact ⟨f, m1, rfl, h1, h2, h3, h5, h6⟩
  · left
    exact ⟨rfl, NewPgImp_all_pinned hp⟩

end BufferPoolManagerInstance

end Bustub

namespace Bustub

namespace BufferPoolManagerInstance

variable {D : Type}

end BufferPoolManagerInstance

end Bustub

namespace Bustub

namespace BufferPoolManagerInstance

variable {D : Type}

theorem examplePoolFetched_reachable : Reachable examplePoolFetched :=
  Reachable.step (PoolCall.UnpinPage 0 false)
    (Reachable.step (PoolCall.FetchPage 0) (Reachable.init examplePool_new) rfl) rfl

theorem examplePoolDirty_reachable : Reachable examplePoolDirty :=
  Reachable.step (PoolCall.UnpinPage 0 true) examplePoolOnePage_reachable rfl

/-- C12 as stated fails: in the reachable pool `examplePoolFetched` frame 0 holds page 0, which
was fetched before its id was allocated; `NewPage` reuses frame 0 and returns the id 0, so the
page id the frame held before is resident after the call. -/
theorem C12_fetched_id_is_allocated_again :
    Reachable examplePoolFetched ∧ (examplePoolFetched.pages_ 0).page_id_ = 0 ∧
    examplePoolFetched.find 0 = some 0 ∧
    examplePoolFetched.NewPgImp = .ok (some (0, 0), examplePoolRenewed) ∧
    examplePoolRenewed.find 0 = some 0 :=
  ⟨examplePoolFetched_reachable, rfl, rfl, rfl, rfl⟩

/-- C12, amended: in every reachable pool state a `NewPage` that hands out frame `f` with page
id `page_id` leaves the frame with zero bytes, pin count 1, a clear dirty flag and that page
id; `page_id` is resident and mapped to `f`, `f` is no replacer candidate, and the page id
the frame held before is no longer resident, unless it is `page_id` itself. -/
theorem C12_new_page_frame [Inhabited D] (m m' : BufferPoolManagerInstance D)
    (hr : Reachable m) (page_id : Int) (f : Nat)
    (h : m.NewPgImp = .ok (some (page_id, f), m')) :
    (m'.pages_ f).data_ = default ∧ (m'.pages_ f).pin_count_ = 1 ∧
    (m'.pages_ f).is_dirty_ = false ∧ (m'.pages_ f).page_id_ = page_id ∧
    m'.find page_id = some f ∧ f ∉ m'.replacer_.lt_ ∧
    ((m.pages_ f).page_id_ ≠ page_id → m'.find (m.pages_ f).page_id_ = none) := by
  have hI := Inv_of_Reachable hr
  obtain ⟨m1, _, hacq, hid, hm'⟩ := NewPgImp_some h
  have hspec := acquire_spec hI
  rw [hacq] at hspec
  rcases hspec with ⟨_, _, h0⟩ | ⟨f', m1', h1, _, hpin, _, _, _, _, _, _, _, _, hwf, _⟩
  · cases h0
  · simp only [Prod.mk.injEq, Option.some.injEq] at h1
    obtain ⟨rfl, rfl⟩ := h1
    subst hm' hid
    have hp : (afterNew m m1 f).pages_ f =
        { page_id_ := m.next_page_id_, pin_count_ := (m.pages_ f).pin_count_ + 1,
          is_dirty_ := false, data_ := default } := upd_same _ _ _
    have hfind : ∀ q, (afterNew m m1 f).find q =
        if q = m.next_page_id_ then some f
        else if q = (m.pages_ f).page_id_ then none else m.find q := by
      intro q
      show (assign (erase m.page_table_ (m.pages_ f).page_id_) m.next_page_id_ f).lookup q = _
      rw [lookup_assign, lookup_erase]
      rfl
    refine ⟨by rw [hp], by rw [hp, hpin]; rfl, by rw [hp], by rw [hp], ?_, ?_, ?_⟩
    · rw [hfind, if_pos rfl]
    · show f ∉ (m1.replacer_.Pin f).lt_
      exact fun hm => ((LRUReplacer.mem_Pin hwf f f).mp hm).1 rfl
    · intro hne
      rw [hfind, if_neg hne, if_pos rfl]

theorem C12_new_page_frame_witness :
    Reachable examplePool ∧ examplePool.NewPgImp = .ok (some (0, 0), examplePoolOnePage) ∧
    ((examplePoolOnePage.pages_ 0).data_ = default ∧
      (examplePoolOnePage.pages_ 0).pin_count_ = 1 ∧
      (examplePoolOnePage.pages_ 0).is_dirty_ = false ∧
      (examplePoolOnePage.pages_ 0).page_id_ = 0 ∧
      examplePoolOnePage.find 0 = some 0 ∧ 0 ∉ examplePoolOnePage.replacer_.lt_ ∧
      ((examplePool.pages_ 0).page_id_ ≠ 0 →
        examplePoolOnePage.find (examplePool.pages_ 0).page_id_ = none)) :=
  ⟨Reachable.init examplePool_new, rfl,
    C12_new_page_frame examplePool examplePoolOnePage (Reachable.init examplePool_new) 0 0 rfl⟩

/-- C13: in every reachable pool state `UnpinPage(page_id, is_dirty)` of a page that is not
resident returns true and changes nothing; of a page resident in frame `f` with a positive
pin count it returns true, lowers the pin count by one, and `f` is a replacer candidate
afterwards exactly when the new pin count is 0; of a resident page with pin count 0 it
returns false and the pin count stays 0. -/
theorem C13_unpin_page [Inhabited D] (m : BufferPoolManagerInstance D) (hr : Reachable m)
    (page_id : Int) (is_dirty : Bool) :
    (m.find page_id = none → m.UnpinPgImp page_id is_dirty = (true, m)) ∧
    (∀ f, m.find page_id = some f → 0 < (m.pages_ f).pin_count_ →
      (m.UnpinPgImp page_id is_dirty).1 = true ∧
      ((m.UnpinPgImp page_id is_dirty).2.pages_ f).pin_count_ = (m.pages_ f).pin_count_ - 1 ∧
      (f ∈ (m.UnpinPgImp page_id is_dirty).2.replacer_.lt_ ↔
        ((m.UnpinPgImp page_id is_dirty).2.pages_ f).pin_count_ = 0)) ∧
    (∀ f, m.find page_id = some f → (m.pages_ f).pin_count_ = 0 →
      (m.UnpinPgImp page_id is_dirty).1 = false ∧
      ((m.UnpinPgImp page_id is_dirty).2.pages_ f).pin_count_ = 0) := by
  have hI := Inv_of_Reachable hr
  refine ⟨fun hfind => UnpinPgImp_absent is_dirty hfind, ?_, ?_⟩
  · intro f hfind hpin
    rw [UnpinPgImp_pos is_dirty hfind hpin]
    have hnot : f ∉ m.replacer_.lt_ := by
      intro hm
      have := (hI.lt_pin f hm).2
      omega
    have hflt := hI.table_lt _ _ hfind
    have hlen : m.replacer_.lt_.length < m.replacer_.capacity_ := by
      rw [hI.cap]
      exact length_lt_of_nodup_of_not_mem hI.wf.nodup_lt (fun g hg => (hI.lt_pin g hg).1)
        hflt hnot
    refine ⟨rfl, ?_, ?_⟩
    · show (upd m.pages_ f _ f).pin_count_ = _
      rw [upd_same]
    · show f ∈ (if (m.pages_ f).pin_count_ - 1 = 0 then m.replacer_.Unpin f
          else m.replacer_).lt_ ↔ (upd m.pages_ f _ f).pin_count_ = 0
      rw [upd_same]
      by_cases h0 : (m.pages_ f).pin_count_ - 1 = 0
      · rw [if_pos h0, LRUReplacer.mem_Unpin_of_lt hI.wf f hlen]
        exact ⟨fun _ => h0, fun _ => Or.inl rfl⟩
      · rw [if_neg h0]
        exact ⟨fun hm => absurd hm hnot, fun h1 => absurd h1 h0⟩
  · intro f hfind hpin
    rw [UnpinPgImp_zero is_dirty hfind (le_of_eq hpin)]
    refine ⟨rfl, ?_⟩
    show (upd m.pages_ f _ f).pin_count_ = 0
    rw [upd_same]
    exact hpin

theorem C13_unpin_page_witness :
    Reachable examplePoolOnePage ∧
    (examplePoolOnePage.find 0 = none →
      examplePoolOnePage.UnpinPgImp 0 true = (true, examplePoolOnePage)) ∧
    (∀ f, examplePoolOnePage.find 0 = some f → 0 < (examplePoolOnePage.pages_ f).pin_count_ →
      (examplePoolOnePage.UnpinPgImp 0 true).1 = true ∧
      ((examplePoolOnePage.UnpinPgImp 0 true).2.pages_ f).pin_count_ =
        (examplePoolOnePage.pages_ f).pin_count_ - 1 ∧
      (f ∈ (examplePoolOnePage.UnpinPgImp 0 true).2.replacer_.lt_ ↔
        ((examplePoolOnePage.UnpinPgImp 0 true).2.pages_ f).pin_count_ = 0)) ∧
    (∀ f, examplePoolOnePage.find 0 = some f → (examplePoolOnePage.pages_ f).pin_count_ = 0 →
      (examplePoolOnePage.UnpinPgImp 0 true).1 = false ∧
      ((examplePoolOnePage.UnpinPgImp 0 true).2.pages_ f).pin_count_ = 0) :=
  ⟨examplePoolOnePage_reachable,
    C13_unpin_page examplePoolOnePage examplePoolOnePage_reachable 0 true⟩

/-- C14: after `UnpinPage(page_id, is_dirty)` of a page resident in frame `f`, whatever the
call returns, the dirty flag of the frame is the flag before OR `is_dirty`, the bytes and the
page id of the frame are unchanged, and so is every other frame. -/
theorem C14_unpin_dirty_flag (m : BufferPoolManagerInstance D) (page_id : Int)
    (is_dirty : Bool) (f : Nat) (hfind : m.find page_id = some f) :
    ((m.UnpinPgImp page_id is_dirty).2.pages_ f).is_dirty_ =
      ((m.pages_ f).is_dirty_ || is_dirty) ∧
    ((m.UnpinPgImp page_id is_dirty).2.pages_ f).data_ = (m.pages_ f).data_ ∧
    ((m.UnpinPgImp page_id is_dirty).2.pages_ f).page_id_ = (m.pages_ f).page_id_ ∧
    ∀ g, g ≠ f → (m.UnpinPgImp page_id is_dirty).2.pages_ g = m.pages_ g := by
  by_cases hpin : 0 < (m.pages_ f).pin_count_
  · rw [UnpinPgImp_pos is_dirty hfind hpin]
    refine ⟨?_, ?_, ?_, fun g hg => upd_other _ _ hg⟩ <;> simp only [upd_same]
  · rw [UnpinPgImp_zero is_dirty hfind (not_lt.mp hpin)]
    refine ⟨?_, ?_, ?_, fun g hg => upd_other _ _ hg⟩ <;> simp only [upd_same]

theorem C14_unpin_dirty_flag_witness :
    examplePoolDirty.find 0 = some 0 ∧
    (((examplePoolDirty.UnpinPgImp 0 false).2.pages_ 0).is_dirty_ =
        ((examplePoolDirty.pages_ 0).is_dirty_ || false) ∧
      ((examplePoolDirty.UnpinPgImp 0 false).2.pages_ 0).data_ =
        (examplePoolDirty.pages_ 0).data_ ∧
      ((examplePoolDirty.UnpinPgImp 0 false).2.pages_ 0).page_id_ =
        (examplePoolDirty.pages_ 0).page_id_ ∧
      ∀ g, g ≠ 0 → (examplePoolDirty.UnpinPgImp 0 false).2.pages_ g =
        examplePoolDirty.pages_ g) :=
  ⟨rfl, C14_unpin_dirty_flag examplePoolDirty 0 false 0 rfl⟩

/-- C15: `DeletePage(page_id)` returns false exactly when the page is resident with a positive
pin count, and then the pool and the disk are unchanged; otherwise it returns true and the
page is not resident afterwards, and for a page that was not resident nothing changes. -/
theorem C15_delete_page_result [Inhabited D] (m : BufferPoolManagerInstance D)
    (page_id : Int) :
    ((m.DeletePgImp page_id).1 = false ↔
      ∃ f, m.find page_id = some f ∧ 0 < (m.pages_ f).pin_count_) ∧
    ((m.DeletePgImp page_id).1 = false → (m.DeletePgImp page_id).2 = m) ∧
    ((m.DeletePgImp page_id).1 = true → (m.DeletePgImp page_id).2.find page_id = none) ∧
    (m.find page_id = none → (m.DeletePgImp page_id).2 = m) := by
  obtain hfind | ⟨g, hfind⟩ : m.find page_id = none ∨ ∃ g, m.find page_id = some g := by
    cases m.find page_id <;> simp
  · rw [DeletePgImp_absent hfind]
    refine ⟨⟨fun h => (by cases h), ?_⟩, fun _ => rfl, fun _ => hfind, fun _ => rfl⟩
    rintro ⟨f, hf, _⟩
    rw [hfind] at hf
    cases hf
  · by_cases hpin : 0 < (m.pages_ g).pin_count_
    · rw [DeletePgImp_pinned hfind hpin]
      refine ⟨⟨fun _ => ⟨g, hfind, hpin⟩, fun _ => rfl⟩, fun _ => rfl, fun h => (by cases h), ?_⟩
      intro h
      exact absurd (hfind.symm.trans h) (by simp)
    · rw [DeletePgImp_unpinned hfind hpin]
      refine ⟨⟨fun h => (by cases h), ?_⟩, fun h => (by cases h), ?_, ?_⟩
      · rintro ⟨f, hf, hp⟩
        rw [hfind] at hf
        cases hf
        exact absurd hp hpin
      · intro _
        show (erase m.page_table_ page_id).lookup page_id = none
        rw [lookup_erase, if_pos rfl]
      · intro h
        exact absurd (hfind.symm.trans h) (by simp)

/-- C16: `DeletePage(page_id)` of a page resident in frame `f` with no positive pin count
returns true; it writes the bytes of the frame to disk under `page_id` exactly when the
frame is dirty, then leaves the frame with the invalid page id, pin count 0, a clear dirty
flag and zero bytes, takes `page_id` out of the page table and puts `f` at the back of the
free list; every other frame and the entry of every other page id are unchanged. -/
theorem C16_delete_page_effect [Inhabited D] (m : BufferPoolManagerInstance D)
    (page_id : Int) (f : Nat) (hfind : m.find page_id = some f)
    (hpin : ¬ 0 < (m.pages_ f).pin_count_) :
    (m.DeletePgImp page_id).1 = true ∧
    (m.DeletePgImp page_id).2.disk_manager_ =
      (if (m.pages_ f).is_dirty_ then m.disk_manager_.WritePage page_id (m.pages_ f).data_
        else m.disk_manager_) ∧
    (m.DeletePgImp page_id).2.pages_ f =
      { page_id_ := INVALID_PAGE_ID, pin_count_ := 0, is_dirty_ := false, data_ := default } ∧
    (m.DeletePgImp page_id).2.find page_id = none ∧
    (m.DeletePgImp page_id).2.free_list_ = m.free_list_ ++ [f] ∧
    (∀ g, g ≠ f → (m.DeletePgImp page_id).2.pages_ g = m.pages_ g) ∧
    (∀ q, q ≠ page_id → (m.DeletePgImp page_id).2.find q = m.find q) := by
  rw [DeletePgImp_unpinned hfind hpin]
  refine ⟨rfl, rfl, upd_same _ _ _, ?_, rfl, fun g hg => upd_other _ _ hg, ?_⟩
  · show (erase m.page_table_ page_id).lookup page_id = none
    rw [lookup_erase, if_pos rfl]
  · intro q hq
    show (erase m.page_table_ page_id).lookup q = m.page_table_.lookup q
    rw [lookup_erase, if_neg hq]

theorem C16_delete_page_effect_witness :
    examplePoolDirty.find 0 = some 0 ∧ ¬ 0 < (examplePoolDirty.pages_ 0).pin_count_ ∧
    ((examplePoolDirty.DeletePgImp 0).1 = true ∧
    (examplePoolDirty.DeletePgImp 0).2.disk_manager_ =
      (if (examplePoolDirty.pages_ 0).is_dirty_ then
        examplePoolDirty.disk_manager_.WritePage 0 (examplePoolDirty.pages_ 0).data_
        else examplePoolDirty.disk_manager_) ∧
    (examplePoolDirty.DeletePgImp 0).2.pages_ 0 =
      { page_id_ := INVALID_PAGE_ID, pin_count_ := 0, is_dirty_ := false, data_ := default } ∧
    (examplePoolDirty.DeletePgImp 0).2.find 0 = none ∧
    (examplePoolDirty.DeletePgImp 0).2.free_list_ = examplePoolDirty.free_list_ ++ [0] ∧
    (∀ g, g ≠ 0 → (examplePoolDirty.DeletePgImp 0).2.pages_ g = examplePoolDirty.pages_ g) ∧
    (∀ q, q ≠ 0 → (examplePoolDirty.DeletePgImp 0).2.find q = examplePoolDirty.find q)) :=
  ⟨rfl, by decide, C16_delete_page_effect examplePoolDirty 0 0 rfl (by decide)⟩

/-- `FlushPgImp` of a resident page with a valid id: the bytes of its frame are written to
disk, the dirty flag is cleared, the call returns true and nothing else changes. -/
theorem FlushPgImp_resident {m : BufferPoolManagerInstance D} {page_id : Int} {f : Nat}
    (hfind : m.find page_id = some f) (hv : page_id ≠ INVALID_PAGE_ID) :
    m.FlushPgImp page_id = (true, { m with
      disk_manager_ := m.disk_manager_.WritePage (m.pages_ f).page_id_ (m.pages_ f).data_
      pages_ := upd m.pages_ f { m.pages_ f with is_dirty_ := false } }) := by
  unfold FlushPgImp
  rw [hfind]
  simp only []
  rw [if_pos hv]

/-- `FlushPgImp` of a page that is not resident. -/
theorem FlushPgImp_absent {m : BufferPoolManagerInstance D} {page_id : Int}
    (hfind : m.find page_id = none) : m.FlushPgImp page_id = (false, m) := by
  unfold FlushPgImp
  rw [hfind]

/-- With a dirty frame in the page table the loop of `FlushAllPgsImp` reaches the call of
`FlushPgImp`, which waits for the latch its caller holds. -/
theorem FlushAllLoop_dirty (tbl : List (Int × Nat)) :
    ∀ (m : BufferPoolManagerInstance D),
      (∃ e, e ∈ tbl ∧ (m.pages_ e.2).is_dirty_ = true) →
      FlushAllLoop tbl m = .error Fault.deadlock := by
  induction tbl with
  | nil =>
    rintro m ⟨e, he, _⟩
    cases he
  | cons a rest ih =>
    rintro m ⟨e, he, hd⟩
    obtain ⟨page_id, frame_id⟩ := a
    rw [FlushAllLoop]
    by_cases hda : (m.pages_ frame_id).is_dirty_ = true
    · rw [if_pos hda]
      rfl
    · rw [if_neg hda]
      rcases List.mem_cons.mp he with h1 | h1
      · rw [h1] at hd
        exact absurd hd hda
      · exact ih m ⟨e, h1, hd⟩

/-- C17, refuted on the code: when the frame of some page-table entry is dirty,
`FlushAllPgsImp` does not return. It holds `latch_` and calls `FlushPgImp`, which locks
`latch_` again; no page is written and no dirty flag is cleared. -/
theorem C17_flush_all_waits_for_own_latch (m : BufferPoolManagerInstance D)
    (h : ∃ e, e ∈ m.page_table_ ∧ (m.pages_ e.2).is_dirty_ = true) :
    m.FlushAllPgsImp = .error Fault.deadlock := by
  unfold FlushAllPgsImp
  exact FlushAllLoop_dirty m.page_table_ m h

theorem C17_flush_all_waits_for_own_latch_witness :
    Reachable examplePoolDirty ∧
    (∃ e, e ∈ examplePoolDirty.page_table_ ∧ (examplePoolDirty.pages_ e.2).is_dirty_ = true) ∧
    examplePoolDirty.FlushAllPgsImp = .error Fault.deadlock :=
  ⟨examplePoolDirty_reachable, ⟨(0, 0), by decide, rfl⟩,
    C17_flush_all_waits_for_own_latch examplePoolDirty ⟨(0, 0), by decide, rfl⟩⟩

end BufferPoolManagerInstance

end Bustub

namespace Bustub

namespace HashTableBucketPage

variable {K V : Type}

/-! ### The occupied bitmap -/

theorem IsOccupied_eq (b : HashTableBucketPage K V) (i : Nat) :
    b.IsOccupied i = (b.occupied_ (i / 8)).testBit (i % 8) := by
  unfold IsOccupied
  by_cases h : (b.occupied_ (i / 8)).testBit (i % 8) = true
  · rw [h]
    exact decide_eq_true ((and_one_shiftLeft_pos _ _).mpr h)
  · have h' : (b.occupied_ (i / 8)).testBit (i % 8) = false := by simpa using h
    rw [h']
    exact decide_eq_false (fun hp => h ((and_one_shiftLeft_pos _ _).mp hp))

theorem IsOccupied_SetOccupied (b : HashTableBucketPage K V) (i j : Nat) :
    (b.SetOccupied i).IsOccupied j = (decide (j = i) || b.IsOccupied j) := by
  rw [IsOccupied_eq, IsOccupied_eq]
  show (upd b.occupied_ (i / 8) _ (j / 8)).testBit (j % 8) = _
  rw [upd_apply]
  by_cases hb : j / 8 = i / 8
  · rw [if_pos hb]
    have h256 : (256 : Nat) = 2 ^ 8 := by norm_num
    rw [h256, Nat.testBit_mod_two_pow, Nat.testBit_or, Nat.one_shiftLeft, Nat.testBit_two_pow, hb]
    have hj : j % 8 < 8 := Nat.mod_lt _ (by norm_num)
    by_cases hji : j = i
    · subst hji
      simp [hj]
    · have : ¬ i % 8 = j % 8 := fun e => hji (div_mod_eight_eq.mp ⟨hb, e.symm⟩)
      simp [hj, this, hji, Bool.or_comm]
  · rw [if_neg hb]
    have hji : ¬ j = i := fun e => hb (by rw [e])
    simp [hji]

theorem IsOccupied_SetReadable (b : HashTableBucketPage K V) (i j : Nat) :
    (b.SetReadable i).IsOccupied j = b.IsOccupied j := rfl

theorem occupied_RemoveAt (b : HashTableBucketPage K V) (i : Nat) :
    (b.RemoveAt i).occupied_ = b.occupied_ := by
  unfold RemoveAt
  split <;> rfl

theorem array_RemoveAt (b : HashTableBucketPage K V) (i : Nat) :
    (b.RemoveAt i).array_ = b.array_ := by
  unfold RemoveAt
  split <;> rfl

/-- The loop of `Remove` stops at the first slot that matches: the slots it passed do not. -/
theorem RemoveLoop_first [DecidableEq V] (cmp : K → K → Int) (b : HashTableBucketPage K V)
    (key : K) (value : V) (n : Nat) : ∀ (s j : Nat),
    RemoveLoop cmp b key value (List.range' s n) = some j →
    ∀ i, s ≤ i → i < j →
      ¬ (b.IsReadable i = true ∧ cmp key (b.array_ i).1 = 0 ∧ value = (b.array_ i).2) := by
  induction n with
  | zero =>
    intro s j h
    simp [RemoveLoop] at h
  | succ n ih =>
    intro s j h i hsi hij
    rw [List.range'_succ] at h
    simp only [RemoveLoop] at h
    by_cases hr : b.IsReadable s = true
    · rw [if_pos hr] at h
      by_cases hm : cmp key (b.array_ s).1 = 0 ∧ value = (b.array_ s).2
      · rw [if_pos hm] at h
        injection h with h
        omega
      · rw [if_neg hm] at h
        rcases Nat.eq_or_lt_of_le hsi with e | e
        · subst e
          exact fun hh => hm hh.2
        · exact ih (s + 1) j h i e hij
    · rw [if_neg hr] at h
      rcases Nat.eq_or_lt_of_le hsi with e | e
      · subst e
        exact fun hh => hr hh.1
      · exact ih (s + 1) j h i e hij

/-- C21: the bucket-page `Insert(k, v)` returns true exactly when no readable slot holds the
pair (k, v) (key equal under the comparator, value equal) and some slot is not readable; when
it returns true, the lowest non-readable slot holds (k, v) and has its occupied and readable
bits set, and every other slot and every other bit of the two bitmaps is as before; when it
returns false the bucket is unchanged; a pair whose value differs from the value of every
readable slot is accepted whenever a slot is free, whatever the keys in the bucket. -/
theorem C21_bucket_insert [DecidableEq V] (cap : Nat) (cmp : K → K → Int)
    (b : HashTableBucketPage K V) (key : K) (value : V) :
    ((b.Insert cap cmp key value).2 = true ↔
      (¬ ∃ i, i < cap ∧ b.IsReadable i = true ∧ cmp key (b.array_ i).1 = 0 ∧
        value = (b.array_ i).2) ∧ ∃ i, i < cap ∧ b.IsReadable i = false) ∧
    ((b.Insert cap cmp key value).2 = true →
      ∃ id, id < cap ∧ b.IsReadable id = false ∧ (∀ i, i < id → b.IsReadable i = true) ∧
        (b.Insert cap cmp key value).1.array_ id = (key, value) ∧
        (b.Insert cap cmp key value).1.IsOccupied id = true ∧
        (b.Insert cap cmp key value).1.IsReadable id = true ∧
        ∀ j, j ≠ id →
          (b.Insert cap cmp key value).1.array_ j = b.array_ j ∧
          (b.Insert cap cmp key value).1.IsOccupied j = b.IsOccupied j ∧
          (b.Insert cap cmp key value).1.IsReadable j = b.IsReadable j) ∧
    ((b.Insert cap cmp key value).2 = false → (b.Insert cap cmp key value).1 = b) ∧
    ((∀ i, i < cap → b.IsReadable i = true → value ≠ (b.array_ i).2) →
      (∃ i, i < cap ∧ b.IsReadable i = false) → (b.Insert cap cmp key value).2 = true) := by
  rcases Insert_cases cap cmp b key value with ⟨hdup, he⟩ | ⟨hnd, hfull, he⟩ |
    ⟨hnd, id, hid, hrid, hlow, he⟩
  · rw [he]
    refine ⟨⟨fun h => (by cases h), fun h => absurd hdup h.1⟩, fun h => (by cases h),
      fun _ => rfl, ?_⟩
    intro hv _
    obtain ⟨i, hi, hr, _, hval⟩ := hdup
    exact absurd hval (hv i hi hr)
  · rw [he]
    refine ⟨⟨fun h => (by cases h), ?_⟩, fun h => (by cases h), fun _ => rfl, ?_⟩
    · rintro ⟨_, i, hi, hr⟩
      rw [hfull i hi] at hr
      cases hr
    · rintro _ ⟨i, hi, hr⟩
      rw [hfull i hi] at hr
      cases hr
  · rw [he]
    refine ⟨⟨fun _ => ⟨hnd, id, hid, hrid⟩, fun _ => rfl⟩, fun _ => ?_, fun h => (by cases h),
      fun _ _ => rfl⟩
    refine ⟨id, hid, hrid, hlow, ?_, ?_, ?_, ?_⟩
    · show upd b.array_ id (key, value) id = _
      rw [upd_apply, if_pos rfl]
    · show ((_ : HashTableBucketPage K V).SetReadable id).IsOccupied id = true
      rw [IsOccupied_SetReadable, IsOccupied_SetOccupied]
      simp
    · show ((_ : HashTableBucketPage K V).SetReadable id).IsReadable id = true
      rw [IsReadable_SetReadable]
      simp
    · intro j hj
      refine ⟨?_, ?_, ?_⟩
      · show upd b.array_ id (key, value) j = _
        rw [upd_apply, if_neg hj]
      · show ((_ : HashTableBucketPage K V).SetReadable id).IsOccupied j = _
        rw [IsOccupied_SetReadable, IsOccupied_SetOccupied]
        simp only [hj, decide_False, Bool.false_or]
        rfl
      · show ((_ : HashTableBucketPage K V).SetReadable id).IsReadable j = _
        rw [IsReadable_SetReadable]
        simp only [hj, decide_False, Bool.false_or]
        rfl

/-- C22: the bucket-page `Remove(k, v)` returns true exactly when some readable slot holds the
pair (k, v) (key equal under the comparator, value equal); it then clears the readable bit of
the lowest such slot and nothing else: the occupied bitmap and the stored pairs, those of that
slot included, and the readable bit of every other slot are as before; when it returns false
the bucket is unchanged. -/
theorem C22_bucket_remove [DecidableEq V] (cap : Nat) (cmp : K → K → Int)
    (b : HashTableBucketPage K V) (key : K) (value : V) :
    ((b.Remove cap cmp key value).2 = true ↔
      ∃ i, i < cap ∧ b.IsReadable i = true ∧ cmp key (b.array_ i).1 = 0 ∧
        value = (b.array_ i).2) ∧
    ((b.Remove cap cmp key value).2 = true →
      ∃ j, j < cap ∧ b.IsReadable j = true ∧ cmp key (b.array_ j).1 = 0 ∧
        value = (b.array_ j).2 ∧
        (∀ i, i < j → ¬ (b.IsReadable i = true ∧ cmp key (b.array_ i).1 = 0 ∧
          value = (b.array_ i).2)) ∧
        (b.Remove cap cmp key value).1.IsReadable j = false ∧
        (b.Remove cap cmp key value).1.occupied_ = b.occupied_ ∧
        (b.Remove cap cmp key value).1.array_ = b.array_ ∧
        (∀ i, (b.Remove cap cmp key value).1.IsOccupied i = b.IsOccupied i) ∧
        ∀ i, i ≠ j → (b.Remove cap cmp key value).1.IsReadable i = b.IsReadable i) ∧
    ((b.Remove cap cmp key value).2 = false → (b.Remove cap cmp key value).1 = b) := by
  cases hl : RemoveLoop cmp b key value (List.range cap) with
  | none =>
    have he : b.Remove cap cmp key value = (b, false) := by
      unfold Remove
      rw [hl]
    have hno := (RemoveLoop_eq_none_iff cmp b key value _).mp hl
    rw [he]
    refine ⟨⟨fun h => (by cases h), ?_⟩, fun h => (by cases h), fun _ => rfl⟩
    rintro ⟨i, hi, h⟩
    exact absurd ⟨i, List.mem_range.mpr hi, h⟩ hno
  | some j =>
    have he : b.Remove cap cmp key value = (b.RemoveAt j, true) := by
      unfold Remove
      rw [hl]
    obtain ⟨hj, hr, hk, hv⟩ := RemoveLoop_some cmp b key value _ hl
    have hj' : j < cap := List.mem_range.mp hj
    rw [List.range_eq_range'] at hl
    have hfirst := RemoveLoop_first cmp b key value cap 0 j hl
    rw [he]
    refine ⟨⟨fun _ => ⟨j, hj', hr, hk, hv⟩, fun _ => rfl⟩, fun _ => ?_, fun h => (by cases h)⟩
    refine ⟨j, hj', hr, hk, hv, fun i hi => hfirst i (Nat.zero_le _) hi, ?_,
      occupied_RemoveAt b j, array_RemoveAt b j, ?_, ?_⟩
    · show (b.RemoveAt j).IsReadable j = false
      rw [IsReadable_RemoveAt]
      simp
    · intro i
      show (b.RemoveAt j).IsOccupied i = b.IsOccupied i
      unfold IsOccupied
      rw [occupied_RemoveAt]
    · intro i hi
      show (b.RemoveAt j).IsReadable i = b.IsReadable i
      rw [IsReadable_RemoveAt]
      simp [hi]

end HashTableBucketPage

namespace ExtendibleHashTable

open HashTableDirectoryPage HashTableBucketPage

variable {K V : Type}

/-- C23: `GetValue(key)` returns the table with nothing changed but the directory created at
first use (no change at all once the directory exists), appends to `result`, in slot order,
the values of exactly the readable slots of the addressed bucket whose key compares equal to
`key` (the entries `result` had are kept), and returns true exactly when some slot matched,
which is when at least one value was appended. -/
theorem C23_get_value_collects_matches [Inhabited K] [Inhabited V] (P : Params K)
    (t : ExtendibleHashTable K V) (key : K) (result : List V) :
    (GetValue P t key result).1 = t.FetchDirectoryPage ∧
    (t.directory_page_id_ ≠ INVALID_PAGE_ID → (GetValue P t key result).1 = t) ∧
    (GetValue P t key result).2.2 = result ++
      ((List.range P.BUCKET_ARRAY_SIZE).filter (fun i =>
          (t.FetchDirectoryPage.bucket_pages_
            (KeyToPageId P key (dir t.FetchDirectoryPage))).IsReadable i &&
          decide (P.comparator_ key ((t.FetchDirectoryPage.bucket_pages_
            (KeyToPageId P key (dir t.FetchDirectoryPage))).array_ i).1 = 0))).map
        (fun i => ((t.FetchDirectoryPage.bucket_pages_
          (KeyToPageId P key (dir t.FetchDirectoryPage))).array_ i).2) ∧
    ((GetValue P t key result).2.1 = true ↔
      ∃ i, i < P.BUCKET_ARRAY_SIZE ∧
        (t.FetchDirectoryPage.bucket_pages_
          (KeyToPageId P key (dir t.FetchDirectoryPage))).IsReadable i = true ∧
        P.comparator_ key ((t.FetchDirectoryPage.bucket_pages_
          (KeyToPageId P key (dir t.FetchDirectoryPage))).array_ i).1 = 0) ∧
    ((GetValue P t key result).2.1 = true ↔
      result.length < (GetValue P t key result).2.2.length) := by
  refine ⟨rfl, fun hc => ?_, ?_, ?_, ?_⟩
  · show t.FetchDirectoryPage = t
    exact FetchDirectoryPage_of_created hc
  · show (HashTableBucketPage.GetValue P.BUCKET_ARRAY_SIZE P.comparator_ _ key result).2 = _
    unfold HashTableBucketPage.GetValue
    rw [GetValueLoop_eq]
    rfl
  · show (HashTableBucketPage.GetValue P.BUCKET_ARRAY_SIZE P.comparator_ _ key result).1 = true
      ↔ _
    unfold HashTableBucketPage.GetValue
    rw [GetValueLoop_eq]
    simp only [Bool.false_or, List.any_eq_true, List.mem_range, Bool.and_eq_true,
      decide_eq_true_eq]
    rfl
  · show (HashTableBucketPage.GetValue P.BUCKET_ARRAY_SIZE P.comparator_ _ key result).1 = true
      ↔ result.length <
        (HashTableBucketPage.GetValue P.BUCKET_ARRAY_SIZE P.comparator_ _ key result).2.length
    unfold HashTableBucketPage.GetValue
    rw [GetValueLoop_eq]
    simp only [Bool.false_or, List.length_append, List.length_map, Nat.lt_add_right_iff_pos,
      List.length_pos, ne_eq, List.filter_eq_nil_iff, not_forall, Bool.not_eq_true,
      List.any_eq_true]
    constructor
    · rintro ⟨i, hi, h⟩
      exact ⟨i, hi, by simp [h]⟩
    · rintro ⟨i, hi, h⟩
      exact ⟨i, hi, by simpa using h⟩

end ExtendibleHashTable

end Bustub

namespace Bustub

namespace ExtendibleHashTable

/-- C24, refuted on the code: with `MAX_BUCKET_DEPTH` 9, the nine `Insert` calls of
`deepPairs` leave global depth 9 and the slot of the key 4096 at local depth 9 (eleven pages
handed out); `Insert(4096, 4096)`, whose bucket is full, then returns `true` after a split
that takes one more page and raises that local depth and the global depth to 10. -/
theorem C24_split_at_max_depth :
    observeInserts exampleParams deepPairs 4096 =
      .inr (List.replicate 9 true, 9, 9, 11, []) ∧
    observeInserts exampleParams (deepPairs ++ [(4096, 4096)]) 4096 =
      .inr (List.replicate 10 true, 10, 10, 12, [4096]) :=
  ⟨by decide!, by decide!⟩

/-- C25, refuted on the code: after the seventeen `Insert` calls of `mixedPairs` the key 1 has
the value 1, in the bucket of local depth 1 that the four odd slots share at global depth 3;
the split of `SplitInsert` for the key 7 (slot 7, at or above 2^(1+1)) succeeds, leaves the
slot of 7 at local depth 2 with a sixth page handed out, and afterwards `GetValue(1)` returns
nothing: the pair (1, 1) is no longer in the page its key is mapped to. -/
theorem C25_split_loses_entry :
    observeInserts exampleParams mixedPairs 1 =
      .inr (List.replicate 17 true, 3, 1, 5, [1]) ∧
    observeSplit exampleParams mixedPairs 7 1 = .inr (some (3, 2, 6, [])) :=
  ⟨by decide!, by decide!⟩

/-- C26, refuted on the code: after the seventeen `Insert` calls of `mixedPairs`, the split
for the key 7 succeeds and the key 3 keeps its value, the bucket of the key 7 is still full,
and the split for the key 7 that the nested `Insert` goes into stops at an `assert` of the
re-hash loop. -/
theorem C26_second_split_assert_fails :
    observeSplit exampleParams mixedPairs 7 3 = .inr (some (3, 2, 6, [3])) ∧
    observeSplitTwice exampleParams mixedPairs 7 = .inl Fault.assertion :=
  ⟨by decide!, by decide!⟩

end ExtendibleHashTable

end Bustub

namespace Bustub

namespace ExtendibleHashTable

open HashTableDirectoryPage HashTableBucketPage

variable {K V : Type}

theorem exampleTable_created : exampleTable.directory_page_id_ ≠ INVALID_PAGE_ID := by
  decide!

/-- The directory after the split of `SplitInsert` for `key`, with `i` the slot of `key` and
`d` its local depth before, in the table model, whose directory page sets no bound to its
array: the global depth is one
more if `d` was the global depth and else unchanged; every slot that agrees with `i` on the
low `d` bits has local depth `d + 1` and points to the page of `i` if it agrees with `i` on
the low `d + 1` bits and to the page newly taken from the pool otherwise; every other slot
has the page and the local depth it had, or that the slot mirrored into it had when the
directory doubled. -/
theorem Split_directory [DecidableEq V] [Inhabited K] [Inhabited V] (P : Params K)
    (t t' : ExtendibleHashTable K V) (key : K) (i d : Nat)
    (hc : t.directory_page_id_ ≠ INVALID_PAGE_ID)
    (hi : KeyToDirectoryIndex P key (dir t) = i)
    (hd : (dir t).local_depths_ i = d)
    (hs : Split P t key = .ok (some t')) :
    (dir t').global_depth_ =
      (if d = (dir t).global_depth_ then (dir t).global_depth_ + 1
        else (dir t).global_depth_) ∧
    t'.next_page_id_ = t.next_page_id_ + 1 ∧
    (∀ s, s < 2 ^ (dir t').global_depth_ → s % 2 ^ d = i % 2 ^ d →
      (dir t').local_depths_ s = d + 1 ∧
      (dir t').bucket_page_ids_ s =
        if s % 2 ^ (d + 1) = i % 2 ^ (d + 1) then (dir t).bucket_page_ids_ i
        else t.next_page_id_) ∧
    (∀ s, s < 2 ^ (dir t').global_depth_ → s % 2 ^ d ≠ i % 2 ^ d →
      (dir t').local_depths_ s = (dir t).local_depths_ (s % 2 ^ (dir t).global_depth_) ∧
      (dir t').bucket_page_ids_ s =
        (dir t).bucket_page_ids_ (s % 2 ^ (dir t).global_depth_)) := by
  subst hd
  subst hi
  rw [Split_eq P hc] at hs
  split at hs
  · cases hs
  · split at hs
    · cases hs
    · rename_i sb bb _
      injection hs with hs
      injection hs with hs
      subst hs
      rw [dir_SplitResult, KeyToPageId_SplitDir0]
      obtain ⟨h1, _, h3, h4⟩ := SplitDirFinal_spec P (dir t) key
        ((dir t).bucket_page_ids_ (KeyToDirectoryIndex P key (dir t))) t.next_page_id_
      refine ⟨h1, rfl, ?_, ?_⟩
      · intro s hs hmod
        rw [h1] at hs
        rw [h4 s hs, h3 s hs]
        rcases mod_succ_iff.mp hmod with h | h
        · have hne : ¬ s % 2 ^ ((dir t).local_depths_ (KeyToDirectoryIndex P key (dir t)) + 1) =
              (KeyToDirectoryIndex P key (dir t) ^^^
                2 ^ (dir t).local_depths_ (KeyToDirectoryIndex P key (dir t))) %
                2 ^ ((dir t).local_depths_ (KeyToDirectoryIndex P key (dir t)) + 1) := by
            rw [h]
            exact fun e => xor_pow_mod_succ_ne _ _ e.symm
          rw [if_pos (Or.inr h), if_neg hne, if_pos h, if_pos h]
          exact ⟨rfl, rfl⟩
        · have hne : ¬ s % 2 ^ ((dir t).local_depths_ (KeyToDirectoryIndex P key (dir t)) + 1) =
              KeyToDirectoryIndex P key (dir t) %
                2 ^ ((dir t).local_depths_ (KeyToDirectoryIndex P key (dir t)) + 1) := by
            rw [h]
            exact xor_pow_mod_succ_ne _ _
          rw [if_pos (Or.inl h), if_pos h, if_neg hne]
          exact ⟨rfl, rfl⟩
      · intro s hs hmod
        rw [h1] at hs
        rw [h4 s hs, h3 s hs]
        have hn := fun h => hmod (mod_succ_iff.mpr h)
        have hn1 : ¬ s % 2 ^ ((dir t).local_depths_ (KeyToDirectoryIndex P key (dir t)) + 1) =
            KeyToDirectoryIndex P key (dir t) %
              2 ^ ((dir t).local_depths_ (KeyToDirectoryIndex P key (dir t)) + 1) :=
          fun h => hn (Or.inl h)
        have hn2 : ¬ s % 2 ^ ((dir t).local_depths_ (KeyToDirectoryIndex P key (dir t)) + 1) =
            (KeyToDirectoryIndex P key (dir t) ^^^
              2 ^ (dir t).local_depths_ (KeyToDirectoryIndex P key (dir t))) %
              2 ^ ((dir t).local_depths_ (KeyToDirectoryIndex P key (dir t)) + 1) :=
          fun h => hn (Or.inr h)
        rw [if_neg (fun h => h.elim hn2 hn1), if_neg hn2, if_neg hn1]
        exact ⟨rfl, rfl⟩

end ExtendibleHashTable

end Bustub

namespace Bustub

namespace ExtendibleHashTable

open HashTableDirectoryPage HashTableBucketPage

variable {K V : Type}

/-- The shrinking loop changes the global depth only, and does not raise it. -/
theorem ShrinkLoop_fields (n : Nat) : ∀ (d : HashTableDirectoryPage),
    ∃ g, g ≤ d.global_depth_ ∧ ShrinkLoop n d = { d with global_depth_ := g } := by
  induction n with
  | zero =>
    intro d
    exact ⟨d.global_depth_, le_rfl, rfl⟩
  | succ n ih =>
    intro d
    unfold ShrinkLoop
    by_cases hc : d.CanShrink = true
    · rw [if_pos hc]
      obtain ⟨g, hg, he⟩ := ih d.DecrGlobalDepth
      refine ⟨g, le_trans hg (Nat.sub_le _ 1), ?_⟩
      rw [he]
      rfl
    · rw [if_neg hc]
      exact ⟨d.global_depth_, le_rfl, rfl⟩

/-- In the table model, whose directory page sets no bound to its array and whose pool keeps
every page with the bytes last written: in every table reachable from a new one by `Insert`,
`Remove` and `GetValue` calls, every slot `i` below 2^global_depth has a local depth of at
most the global depth, and every slot that agrees with `i` on the low `local_depth(i)` bits
has the bucket page id and the local depth of `i`. -/
theorem Reachable_directory_invariant [DecidableEq V] [Inhabited K] [Inhabited V] (P : Params K)
    (hcmp : ∀ a b, P.comparator_ a b = 0 ↔ a = b) (t : ExtendibleHashTable K V)
    (ht : Reachable P t) :
    ∀ i, i < 2 ^ (dir t).global_depth_ →
      (dir t).local_depths_ i ≤ (dir t).global_depth_ ∧
      ∀ r, r < 2 ^ (dir t).global_depth_ →
        r % 2 ^ (dir t).local_depths_ i = i % 2 ^ (dir t).local_depths_ i →
        (dir t).bucket_page_ids_ r = (dir t).bucket_page_ids_ i ∧
        (dir t).local_depths_ r = (dir t).local_depths_ i := by
  rcases Reachable_cases P hcmp ht with h | h
  · subst h
    intro i hi
    have hi0 : i = 0 := by
      have : i < 2 ^ 0 := hi
      omega
    subst hi0
    refine ⟨le_rfl, fun r hr _ => ?_⟩
    have hr0 : r = 0 := by
      have : r < 2 ^ 0 := hr
      omega
    subst hr0
    exact ⟨rfl, rfl⟩
  · intro i hi
    exact ⟨h.dirInv.depth_le i hi, fun r hr hmod => h.dirInv.same i r hi hr hmod⟩

/-- C29: on a table whose directory exists, with `i` the slot of `key`: if the local depth of
`i` is 0, or the local depth of the split image of `i` differs from it, or the bucket of `i`
has a readable slot, then `Merge` returns the table as it was: directory, bucket pages and
the list of deleted pages are unchanged. -/
theorem C29_merge_inapplicable [Inhabited K] [Inhabited V] (P : Params K)
    (t : ExtendibleHashTable K V) (key : K) (i : Nat)
    (hc : t.directory_page_id_ ≠ INVALID_PAGE_ID)
    (hi : KeyToDirectoryIndex P key (dir t) = i)
    (h : (dir t).local_depths_ i = 0 ∨
      (dir t).local_depths_ ((dir t).GetSplitImageIndex i) ≠ (dir t).local_depths_ i ∨
      ∃ s, s < P.BUCKET_ARRAY_SIZE ∧
        (t.bucket_pages_ ((dir t).bucket_page_ids_ i)).IsReadable s = true) :
    Merge P t key = .ok t := by
  subst hi
  rw [Merge_eq P hc]
  split
  · rfl
  · split
    · rfl
    · split
      · rfl
      · rename_i h0 h1 h2
        exfalso
        rcases h with h | h | ⟨s, hs, hr⟩
        · exact h0 h
        · exact h1 (fun e => h e.symm)
        · have he : (t.bucket_pages_ ((dir t).bucket_page_ids_
              (KeyToDirectoryIndex P key (dir t)))).IsEmpty P.BUCKET_ARRAY_SIZE = true := by
            simpa using h2
          rw [not_IsReadable_of_IsEmpty he hs] at hr
          cases hr

theorem C29_merge_inapplicable_witness :
    exampleTable.directory_page_id_ ≠ INVALID_PAGE_ID ∧
    KeyToDirectoryIndex exampleParams 1 (dir exampleTable) = 0 ∧
    (dir exampleTable).local_depths_ 0 = 0 ∧
    Merge exampleParams exampleTable 1 = .ok exampleTable :=
  ⟨exampleTable_created, by decide!, by decide!,
    C29_merge_inapplicable exampleParams exampleTable 1 0 exampleTable_created (by decide!)
      (Or.inl (by decide!))⟩

end ExtendibleHashTable

end Bustub

namespace Bustub

namespace ExtendibleHashTable

open HashTableDirectoryPage HashTableBucketPage

variable {K V : Type}

/-! ### The fuel of `Insert` is enough -/

theorem RehashEntries_fault [DecidableEq V] (P : Params K) (d : HashTableDirectoryPage)
    (i : Nat) (sp bp : Int) (es : List (K × V)) :
    ∀ (acc : HashTableBucketPage K V × HashTableBucketPage K V) (e : Fault),
      RehashEntries P d i sp bp es acc = .error e → e = Fault.assertion := by
  induction es with
  | nil =>
    intro acc e h
    obtain ⟨sb, bb⟩ := acc
    simp [RehashEntries] at h
  | cons a rest ih =>
    intro acc e h
    obtain ⟨sb, bb⟩ := acc
    simp only [RehashEntries] at h
    split at h
    · split at h
      · split at h
        · exact ih _ e h
        · injection h with h
          exact h.symm
      · split at h
        · exact ih _ e h
        · injection h with h
          exact h.symm
    · injection h with h
      exact h.symm

/-- The split of `SplitInsert` stops at an `assert` or returns. -/
theorem Split_fault [DecidableEq V] [Inhabited K] [Inhabited V] (P : Params K)
    {t : ExtendibleHashTable K V} (hc : t.directory_page_id_ ≠ INVALID_PAGE_ID) (key : K)
    {e : Fault} (h : Split P t key = .error e) : e = Fault.assertion := by
  rw [Split_eq P hc] at h
  split at h
  · cases h
  · split at h
    · rename_i e' he
      injection h with h
      subst h
      exact RehashEntries_fault P _ _ _ _ _ _ _ he
    · cases h

/-- After the split the slot of the key has a local depth one higher than before. -/
theorem SplitResult_local_depth [Inhabited K] [Inhabited V] (P : Params K)
    (t : ExtendibleHashTable K V) (key : K) (sb bb : HashTableBucketPage K V) :
    (dir (SplitResult P t key sb bb)).local_depths_
        (KeyToDirectoryIndex P key (dir (SplitResult P t key sb bb))) =
      (dir t).local_depths_ (KeyToDirectoryIndex P key (dir t)) + 1 := by
  rw [dir_SplitResult]
  obtain ⟨h1, _, _, h4⟩ := SplitDirFinal_spec P (dir t) key
    (KeyToPageId P key (SplitDir0 P (dir t) key)) t.next_page_id_
  have hlt := KeyToDirectoryIndex_lt P key
    (SplitDirFinal P (dir t) key (KeyToPageId P key (SplitDir0 P (dir t) key)) t.next_page_id_)
  have heq := KeyToDirectoryIndex_eq P key
    (SplitDirFinal P (dir t) key (KeyToPageId P key (SplitDir0 P (dir t) key)) t.next_page_id_)
  rw [h1] at hlt heq
  rw [h4 _ hlt]
  have hmod : KeyToDirectoryIndex P key (SplitDirFinal P (dir t) key
        (KeyToPageId P key (SplitDir0 P (dir t) key)) t.next_page_id_) %
        2 ^ (dir t).local_depths_ (KeyToDirectoryIndex P key (dir t)) =
      KeyToDirectoryIndex P key (dir t) %
        2 ^ (dir t).local_depths_ (KeyToDirectoryIndex P key (dir t)) := by
    rw [heq]
    by_cases hc : (dir t).local_depths_ (KeyToDirectoryIndex P key (dir t)) =
        (dir t).global_depth_
    · rw [if_pos hc, hc, mod_pow_of_le (Nat.le_succ _), KeyToDirectoryIndex_eq, Nat.mod_mod]
    · rw [if_neg hc, KeyToDirectoryIndex_eq]
  rcases mod_succ_iff.mp hmod with h | h
  · rw [if_pos (Or.inr h)]
  · rw [if_pos (Or.inl h)]

/-- With `fuel + 1` calls allowed and the local depth of the slot of the key at least
`MAX_BUCKET_DEPTH + 1 - fuel`, `Insert` does not run out of fuel: every split raises that
local depth by one and `SplitInsert` returns at once above `MAX_BUCKET_DEPTH`. -/
theorem Insert_fuel [DecidableEq V] [Inhabited K] [Inhabited V] (P : Params K)
    (key : K) (value : V) (fuel : Nat) :
    ∀ (t : ExtendibleHashTable K V), t.directory_page_id_ ≠ INVALID_PAGE_ID →
      P.MAX_BUCKET_DEPTH + 1 ≤ (dir t).local_depths_ (KeyToDirectoryIndex P key (dir t)) + fuel →
      Insert P (fuel + 1) t key value ≠ .error Fault.fuel := by
  induction fuel with
  | zero =>
    intro t hc hle h
    rw [Insert_succ P 0 hc] at h
    split at h
    · rw [Split_eq P hc, if_pos (by omega)] at h
      cases h
    · cases h
  | succ n ih =>
    intro t hc hle h
    rw [Insert_succ P (n + 1) hc] at h
    split at h
    · by_cases hdep : (dir t).local_depths_ (KeyToDirectoryIndex P key (dir t)) >
          P.MAX_BUCKET_DEPTH
      · rw [Split_eq P hc, if_pos hdep] at h
        cases h
      · cases hr : RehashEntries P (SplitDir P (dir t) key t.next_page_id_)
            (KeyToDirectoryIndex P key (dir t))
            (KeyToPageId P key (SplitDir0 P (dir t) key)) t.next_page_id_
            ((t.bucket_pages_ (KeyToPageId P key (SplitDir0 P (dir t) key))).GetArrayCopy
              P.BUCKET_ARRAY_SIZE)
            (HashTableBucketPage.zero, HashTableBucketPage.zero) with
        | error e =>
          have he := RehashEntries_fault P _ _ _ _ _ _ _ hr
          subst he
          rw [Split_eq P hc, if_neg hdep, hr] at h
          cases h
        | ok r =>
          obtain ⟨sb, bb⟩ := r
          rw [Split_eq P hc, if_neg hdep, hr] at h
          simp only [] at h
          have hc1 : (SplitResult P t key sb bb).directory_page_id_ ≠ INVALID_PAGE_ID := hc
          have hne := ih (SplitResult P t key sb bb) hc1
            (by rw [SplitResult_local_depth]; omega)
          cases hi : Insert P (n + 1) (SplitResult P t key sb bb) key value with
          | error e =>
            rw [hi] at h
            simp only [Except.error.injEq] at h
            subst h
            exact hne hi
          | ok r =>
            rw [hi] at h
            cases h
    · cases h

/-- The public `Insert` never runs out of fuel: it returns or stops at an `assert`. -/
theorem insert_fuel [DecidableEq V] [Inhabited K] [Inhabited V] (P : Params K)
    (t : ExtendibleHashTable K V)
    (hc : t.FetchDirectoryPage.directory_page_id_ ≠ INVALID_PAGE_ID) (key : K) (value : V) :
    insert P t key value ≠ .error Fault.fuel := by
  unfold insert
  rw [Insert_FetchDirectoryPage P _ hc]
  exact Insert_fuel P key value (P.MAX_BUCKET_DEPTH + 1) _ hc (by omega)

/-- On a reachable table the public `Insert` never runs out of fuel. -/
theorem Reachable_insert_fuel [DecidableEq V] [Inhabited K] [Inhabited V] (P : Params K)
    (hcmp : ∀ a b, P.comparator_ a b = 0 ↔ a = b) {t : ExtendibleHashTable K V}
    (ht : Reachable P t) (key : K) (value : V) :
    insert P t key value ≠ .error Fault.fuel := by
  rcases Reachable_cases P hcmp ht with h | h
  · subst h
    exact insert_fuel P _ (new_created (K := K) (V := V)) key value
  · apply insert_fuel P t _ key value
    rw [FetchDirectoryPage_of_created h.created]
    exact h.created

end ExtendibleHashTable

end Bustub

namespace Bustub

namespace HashTableBucketPage

variable {K V : Type}

/-- C32, refuted on the code: with 4 slots, the bucket with no readable slot is reported full
and the bucket whose 4 slots are all readable is not; with 12 slots, the bucket with 8 of 12
slots readable is reported full. On a table of 4-slot buckets the first `Insert` on a new
table therefore goes into `SplitInsert`, splits up to global depth 10 and stores nothing. -/
theorem C32_is_full_tail_bits_inverted :
    ((zero : HashTableBucketPage Nat Nat).IsFull 4 = true ∧
      (zero : HashTableBucketPage Nat Nat).NumReadable 4 = 0) ∧
    ((insertPairs 4 ExtendibleHashTable.smallParams.comparator_ zero
        ExtendibleHashTable.fourPairs).IsFull 4 = false ∧
      (insertPairs 4 ExtendibleHashTable.smallParams.comparator_ zero
        ExtendibleHashTable.fourPairs).NumReadable 4 = 4) ∧
    ((insertPairs 12 ExtendibleHashTable.smallParams.comparator_ zero
        ExtendibleHashTable.fillPairs).IsFull 12 = true ∧
      (insertPairs 12 ExtendibleHashTable.smallParams.comparator_ zero
        ExtendibleHashTable.fillPairs).NumReadable 12 = 8) ∧
    ExtendibleHashTable.observeInserts ExtendibleHashTable.smallParams [(1, 1)] 1 =
      .inr ([true], 10, 10, 12, []) :=
  ⟨⟨by decide!, by decide!⟩, ⟨by decide!, by decide!⟩, ⟨by decide!, by decide!⟩, by decide!⟩

/-! ### The bitmaps of the bucket pages built from a zero-filled page -/

theorem IsOccupied_zero [Inhabited K] [Inhabited V] (i : Nat) :
    (zero : HashTableBucketPage K V).IsOccupied i = false := by
  rw [IsOccupied_eq]
  exact Nat.zero_testBit _

theorem IsOccupied_RemoveAt (b : HashTableBucketPage K V) (i j : Nat) :
    (b.RemoveAt i).IsOccupied j = b.IsOccupied j := by
  unfold IsOccupied
  rw [occupied_RemoveAt]

theorem BitsOK_zero [Inhabited K] [Inhabited V] (cap : Nat) :
    BitsOK cap (zero : HashTableBucketPage K V) := by
  refine ⟨fun i h => ?_, fun i _ => ⟨IsReadable_zero i, IsOccupied_zero i⟩⟩
  rw [IsReadable_zero] at h
  cases h

theorem BitsOK_RemoveAt {cap : Nat} {b : HashTableBucketPage K V} (h : BitsOK cap b)
    (j : Nat) : BitsOK cap (b.RemoveAt j) := by
  refine ⟨fun i hi => ?_, fun i hi => ?_⟩
  · rw [IsReadable_RemoveAt] at hi
    rw [IsOccupied_RemoveAt]
    simp only [Bool.and_eq_true] at hi
    exact h.1 i hi.2
  · rw [IsReadable_RemoveAt, IsOccupied_RemoveAt, (h.2 i hi).1, (h.2 i hi).2]
    simp

theorem BitsOK_Insert [DecidableEq V] {cap : Nat} {b : HashTableBucketPage K V}
    (h : BitsOK cap b) (cmp : K → K → Int) (key : K) (value : V) :
    BitsOK cap (b.Insert cap cmp key value).1 := by
  rcases Insert_cases cap cmp b key value with ⟨_, he⟩ | ⟨_, _, he⟩ | ⟨_, id, hid, _, _, he⟩
  · rw [he]
    exact h
  · rw [he]
    exact h
  · rw [he]
    have hr : ∀ i, ((({ b with array_ := upd b.array_ id (key, value) } :
        HashTableBucketPage K V).SetOccupied id).SetReadable id).IsReadable i =
        (decide (i = id) || b.IsReadable i) := by
      intro i
      rw [IsReadable_SetReadable]
      rfl
    have ho : ∀ i, ((({ b with array_ := upd b.array_ id (key, value) } :
        HashTableBucketPage K V).SetOccupied id).SetReadable id).IsOccupied i =
        (decide (i = id) || b.IsOccupied i) := by
      intro i
      rw [IsOccupied_SetReadable, IsOccupied_SetOccupied]
      rfl
    refine ⟨fun i hi => ?_, fun i hi => ?_⟩
    · show ((({ b with array_ := upd b.array_ id (key, value) } :
        HashTableBucketPage K V).SetOccupied id).SetReadable id).IsOccupied i = true
      have hi' : ((({ b with array_ := upd b.array_ id (key, value) } :
        HashTableBucketPage K V).SetOccupied id).SetReadable id).IsReadable i = true := hi
      rw [hr] at hi'
      rw [ho]
      simp only [Bool.or_eq_true, decide_eq_true_eq] at hi' ⊢
      rcases hi' with e | e
      · exact Or.inl e
      · exact Or.inr (h.1 i e)
    · show ((({ b with array_ := upd b.array_ id (key, value) } :
        HashTableBucketPage K V).SetOccupied id).SetReadable id).IsReadable i = false ∧
        ((({ b with array_ := upd b.array_ id (key, value) } :
        HashTableBucketPage K V).SetOccupied id).SetReadable id).IsOccupied i = false
      have hne : ¬ i = id := by omega
      rw [hr, ho, (h.2 i hi).1, (h.2 i hi).2]
      simp [hne]

theorem BitsOK_Remove [DecidableEq V] {cap : Nat} {b : HashTableBucketPage K V}
    (h : BitsOK cap b) (cmp : K → K → Int) (key : K) (value : V) :
    BitsOK cap (b.Remove cap cmp key value).1 := by
  unfold Remove
  split
  · exact BitsOK_RemoveAt h _
  · exact h

theorem BitsOK_of_Reachable [DecidableEq V] [Inhabited K] [Inhabited V] {cap : Nat}
    {cmp : K → K → Int} {b : HashTableBucketPage K V} (h : Reachable cap cmp b) :
    BitsOK cap b := by
  induction h with
  | zero => exact BitsOK_zero cap
  | insert key value _ ih => exact BitsOK_Insert ih cmp key value
  | remove key value _ ih => exact BitsOK_Remove ih cmp key value
  | removeAt idx _ ih => exact BitsOK_RemoveAt ih idx
  | reset _ _ => exact BitsOK_zero cap

/-- `NumReadable` is 0 exactly when no slot below the capacity is readable. -/
theorem NumReadable_eq_zero_iff (cap : Nat) (b : HashTableBucketPage K V) :
    b.NumReadable cap = 0 ↔ ∀ i, i < cap → b.IsReadable i = false := by
  rw [NumReadable_eq]
  unfold GetArrayCopy
  rw [List.length_map, List.length_eq_zero, List.filter_eq_nil_iff]
  simp only [List.mem_range, Bool.not_eq_true]

/-- C33: on every bucket page built from a zero-filled page by `Insert`, `Remove`, `RemoveAt`
and `Reset` calls, every slot whose readable bit is set has its occupied bit set, no readable
or occupied bit of a slot index at or above the capacity is set, and `IsEmpty()` is true
exactly when `NumReadable()` is 0. -/
theorem C33_bucket_bitmaps [DecidableEq V] [Inhabited K] [Inhabited V] (cap : Nat)
    (cmp : K → K → Int) (b : HashTableBucketPage K V) (h : Reachable cap cmp b) :
    (∀ i, b.IsReadable i = true → b.IsOccupied i = true) ∧
    (∀ i, cap ≤ i → b.IsReadable i = false ∧ b.IsOccupied i = false) ∧
    (b.IsEmpty cap = true ↔ b.NumReadable cap = 0) := by
  obtain ⟨h1, h2⟩ := BitsOK_of_Reachable h
  refine ⟨h1, h2, ?_⟩
  rw [IsEmpty_iff, NumReadable_eq_zero_iff]
  constructor
  · intro he i hi
    apply he
    unfold bitmapBytes
    omega
  · intro he i _
    by_cases hi : i < cap
    · exact he i hi
    · exact (h2 i (by omega)).1

theorem C33_bucket_bitmaps_witness :
    Reachable 8 ExtendibleHashTable.exampleParams.comparator_
      ((zero : HashTableBucketPage Nat Nat).Insert 8
        ExtendibleHashTable.exampleParams.comparator_ 1 1).1 ∧
    (∀ i, ((zero : HashTableBucketPage Nat Nat).Insert 8
        ExtendibleHashTable.exampleParams.comparator_ 1 1).1.IsReadable i = true →
      ((zero : HashTableBucketPage Nat Nat).Insert 8
        ExtendibleHashTable.exampleParams.comparator_ 1 1).1.IsOccupied i = true) ∧
    (∀ i, 8 ≤ i →
      ((zero : HashTableBucketPage Nat Nat).Insert 8
        ExtendibleHashTable.exampleParams.comparator_ 1 1).1.IsReadable i = false ∧
      ((zero : HashTableBucketPage Nat Nat).Insert 8
        ExtendibleHashTable.exampleParams.comparator_ 1 1).1.IsOccupied i = false) ∧
    (((zero : HashTableBucketPage Nat Nat).Insert 8
        ExtendibleHashTable.exampleParams.comparator_ 1 1).1.IsEmpty 8 = true ↔
      ((zero : HashTableBucketPage Nat Nat).Insert 8
        ExtendibleHashTable.exampleParams.comparator_ 1 1).1.NumReadable 8 = 0) :=
  ⟨Reachable.insert 1 1 Reachable.zero,
    C33_bucket_bitmaps 8 ExtendibleHashTable.exampleParams.comparator_ _
      (Reachable.insert 1 1 Reachable.zero)⟩

end HashTableBucketPage

end Bustub

namespace Bustub

namespace BufferPoolManagerInstance

variable {D : Type}

/-- With no dirty frame in the page table the loop of `FlushAllPgsImp` changes nothing. -/
theorem FlushAllLoop_clean (tbl : List (Int × Nat)) (m : BufferPoolManagerInstance D)
    (h : ∀ e, e ∈ tbl → (m.pages_ e.2).is_dirty_ = false) : FlushAllLoop tbl m = .ok m := by
  induction tbl with
  | nil => rfl
  | cons a rest ih =>
    obtain ⟨page_id, frame_id⟩ := a
    rw [FlushAllLoop]
    have hd : (m.pages_ frame_id).is_dirty_ = false := h (page_id, frame_id) (List.mem_cons_self _ _)
    rw [if_neg (by rw [hd]; exact Bool.false_ne_true)]
    exact ih (fun e he => h e (List.mem_cons_of_mem _ he))

/-- C36, refuted on the code: in the reachable pool `examplePoolDirty` (page 0 resident and
dirty) `FlushAllPages` does not return, because it calls `FlushPgImp` with `latch_` held; in
every pool state `FlushAllPages` waits for its own latch exactly when the frame of some
page-table entry is dirty, and otherwise returns with the pool unchanged. -/
theorem C36_flush_all_returns_iff_clean :
    (Reachable examplePoolDirty ∧ examplePoolDirty.FlushAllPgsImp = .error Fault.deadlock) ∧
    ∀ (m : BufferPoolManagerInstance Unit),
      (m.FlushAllPgsImp = .error Fault.deadlock ↔
        ∃ e, e ∈ m.page_table_ ∧ (m.pages_ e.2).is_dirty_ = true) ∧
      ((∀ e, e ∈ m.page_table_ → (m.pages_ e.2).is_dirty_ = false) →
        m.FlushAllPgsImp = .ok m) := by
  refine ⟨⟨examplePoolDirty_reachable, ?_⟩, fun m => ⟨⟨fun h => ?_, fun h => ?_⟩, fun h => ?_⟩⟩
  · exact FlushAllLoop_dirty examplePoolDirty.page_table_ examplePoolDirty
      ⟨(0, 0), by decide, rfl⟩
  · by_contra hno
    have hclean : ∀ e, e ∈ m.page_table_ → (m.pages_ e.2).is_dirty_ = false := by
      intro e he
      cases hd : (m.pages_ e.2).is_dirty_
      · rfl
      · exact absurd ⟨e, he, hd⟩ hno
    have : m.FlushAllPgsImp = .ok m := FlushAllLoop_clean m.page_table_ m hclean
    rw [this] at h
    cases h
  · exact FlushAllLoop_dirty m.page_table_ m h
  · exact FlushAllLoop_clean m.page_table_ m h

end BufferPoolManagerInstance

namespace HashTableDirectoryPage

end HashTableDirectoryPage

namespace ExtendibleHashTable

open HashTableDirectoryPage HashTableBucketPage

variable {K V : Type}

end ExtendibleHashTable

end Bustub

namespace Bustub

namespace ExtendibleHashTable

open HashTableDirectoryPage HashTableBucketPage

variable {K V : Type}

/-! ### Termination of `Insert` -/

/-- More fuel does not change a result that did not run out of fuel. -/
theorem Insert_fuel_succ [DecidableEq V] [Inhabited K] [Inhabited V] (P : Params K)
    (key : K) (value : V) (n : Nat) :
    ∀ (t : ExtendibleHashTable K V), t.directory_page_id_ ≠ INVALID_PAGE_ID →
      Insert P n t key value ≠ .error Fault.fuel →
      Insert P (n + 1) t key value = Insert P n t key value := by
  induction n with
  | zero =>
    intro t _ h
    rw [Insert_zero] at h
    exact absurd rfl h
  | succ n ih =>
    intro t hc h
    rw [Insert_succ P (n + 1) hc]
    rw [Insert_succ P n hc] at h ⊢
    split
    · rename_i hfull
      rw [if_pos hfull] at h
      cases hs : Split P t key with
      | error e => rfl
      | ok r =>
        cases r with
        | none => rfl
        | some t1 =>
          rw [hs] at h
          simp only [] at h ⊢
          have hc1 : t1.directory_page_id_ ≠ INVALID_PAGE_ID := by
            rw [Split_eq P hc] at hs
            split at hs
            · cases hs
            · split at hs
              · cases hs
              · injection hs with hs
                injection hs with hs
                subst hs
                exact hc
          have hne : Insert P n t1 key value ≠ .error Fault.fuel := by
            intro e
            rw [e] at h
            exact h rfl
          rw [ih t1 hc1 hne]
    · rfl

theorem Insert_fuel_add [DecidableEq V] [Inhabited K] [Inhabited V] (P : Params K)
    (key : K) (value : V) (n : Nat) (t : ExtendibleHashTable K V)
    (hc : t.directory_page_id_ ≠ INVALID_PAGE_ID)
    (h : Insert P n t key value ≠ .error Fault.fuel) (k : Nat) :
    Insert P (n + k) t key value = Insert P n t key value := by
  induction k with
  | zero => rfl
  | succ k ih =>
    rw [← Nat.add_assoc, Insert_fuel_succ P key value (n + k) t hc (by rw [ih]; exact h), ih]

/-- Every split takes one page from the pool, and `Insert` splits at most
`MAX_BUCKET_DEPTH + 1 - d` times, `d` being the local depth of the slot of the key. -/
theorem Insert_pages [DecidableEq V] [Inhabited K] [Inhabited V] (P : Params K)
    (key : K) (value : V) (n : Nat) :
    ∀ (t t' : ExtendibleHashTable K V) (res : Bool),
      t.directory_page_id_ ≠ INVALID_PAGE_ID →
      Insert P n t key value = .ok (t', res) →
      t.next_page_id_ ≤ t'.next_page_id_ ∧
      t'.next_page_id_ ≤ t.next_page_id_ +
        ((P.MAX_BUCKET_DEPTH + 1 -
          (dir t).local_depths_ (KeyToDirectoryIndex P key (dir t)) : Nat) : Int) := by
  induction n with
  | zero =>
    intro t t' res _ h
    rw [Insert_zero] at h
    cases h
  | succ n ih =>
    intro t t' res hc h
    rw [Insert_succ P n hc] at h
    split at h
    · by_cases hdep : (dir t).local_depths_ (KeyToDirectoryIndex P key (dir t)) >
          P.MAX_BUCKET_DEPTH
      · rw [Split_eq P hc, if_pos hdep] at h
        simp only [Except.ok.injEq, Prod.mk.injEq] at h
        rw [← h.1]
        exact ⟨le_rfl, by omega⟩
      · cases hr : RehashEntries P (SplitDir P (dir t) key t.next_page_id_)
            (KeyToDirectoryIndex P key (dir t))
            (KeyToPageId P key (SplitDir0 P (dir t) key)) t.next_page_id_
            ((t.bucket_pages_ (KeyToPageId P key (SplitDir0 P (dir t) key))).GetArrayCopy
              P.BUCKET_ARRAY_SIZE)
            (HashTableBucketPage.zero, HashTableBucketPage.zero) with
        | error e =>
          rw [Split_eq P hc, if_neg hdep, hr] at h
          cases h
        | ok r =>
          obtain ⟨sb, bb⟩ := r
          rw [Split_eq P hc, if_neg hdep, hr] at h
          simp only [] at h
          have hc1 : (SplitResult P t key sb bb).directory_page_id_ ≠ INVALID_PAGE_ID := hc
          cases hi : Insert P n (SplitResult P t key sb bb) key value with
          | error e =>
            rw [hi] at h
            cases h
          | ok r =>
            obtain ⟨t2, r2⟩ := r
            rw [hi] at h
            simp only [Except.ok.injEq, Prod.mk.injEq] at h
            obtain ⟨h1, h2⟩ := ih (SplitResult P t key sb bb) t2 r2 hc1 hi
            rw [SplitResult_local_depth] at h2
            have hnx : (SplitResult P t key sb bb).next_page_id_ = t.next_page_id_ + 1 := rfl
            rw [hnx] at h1 h2
            rw [← h.1]
            constructor
            · omega
            · have : ((P.MAX_BUCKET_DEPTH + 1 -
                  (dir t).local_depths_ (KeyToDirectoryIndex P key (dir t)) : Nat) : Int) =
                  ((P.MAX_BUCKET_DEPTH + 1 -
                    ((dir t).local_depths_ (KeyToDirectoryIndex P key (dir t)) + 1) : Nat) :
                    Int) + 1 := by
                omega
              omega
    · simp only [Except.ok.injEq, Prod.mk.injEq] at h
      rw [← h.1]
      refine ⟨le_rfl, ?_⟩
      show t.next_page_id_ ≤ t.next_page_id_ + _
      have := Int.natCast_nonneg (P.MAX_BUCKET_DEPTH + 1 -
        (dir t).local_depths_ (KeyToDirectoryIndex P key (dir t)))
      omega

end ExtendibleHashTable

end Bustub

namespace Bustub

theorem assoc_lookup_none_iff (l : List (Nat × Nat)) (k : Nat) :
    l.lookup k = none ↔ ∀ v, (k, v) ∉ l := by
  induction l with
  | nil => simp
  | cons e rest ih =>
    obtain ⟨a, b⟩ := e
    by_cases hk : k = a
    · subst hk
      simp only [List.lookup_cons, beq_self_eq_true, List.mem_cons, Prod.mk.injEq, true_and,
        not_or]
      constructor
      · intro h
        cases h
      · intro h
        exact absurd rfl (h b).1
    · have hb : (k == a) = false := by simpa using hk
      simp only [List.lookup_cons, hb, ih, List.mem_cons, Prod.mk.injEq, hk, false_and,
        false_or]

theorem assoc_lookup_some_iff {l : List (Nat × Nat)} (hnd : (l.map Prod.fst).Nodup)
    (k v : Nat) : l.lookup k = some v ↔ (k, v) ∈ l := by
  induction l with
  | nil => simp
  | cons e rest ih =>
    obtain ⟨a, b⟩ := e
    rw [List.map_cons, List.nodup_cons] at hnd
    by_cases hk : k = a
    · subst hk
      simp only [List.lookup_cons, beq_self_eq_true, Option.some.injEq, List.mem_cons,
        Prod.mk.injEq, true_and]
      constructor
      · intro h
        exact Or.inl h.symm
      · rintro (h | h)
        · exact h.symm
        · exact absurd (List.mem_map_of_mem Prod.fst h) hnd.1
    · have hb : (k == a) = false := by simpa using hk
      simp only [List.lookup_cons, hb, ih hnd.2, List.mem_cons, Prod.mk.injEq, hk, false_and,
        false_or]

/-- In a list of pairs without a repeated second component, the second component determines
the pair. -/
theorem eq_of_mem_of_snd_nodup {l : List (Nat × Nat)} (hnd : (l.map Prod.snd).Nodup)
    {a b f : Nat} (h1 : (a, f) ∈ l) (h2 : (b, f) ∈ l) : a = b := by
  induction l with
  | nil => cases h1
  | cons e rest ih =>
    rw [List.map_cons, List.nodup_cons] at hnd
    rcases List.mem_cons.mp h1 with e1 | e1 <;> rcases List.mem_cons.mp h2 with e2 | e2
    · rw [← e1] at e2
      exact (Prod.mk.inj e2).1.symm
    · exfalso
      apply hnd.1
      rw [← e1]
      exact List.mem_map.mpr ⟨(b, f), e2, rfl⟩
    · exfalso
      apply hnd.1
      rw [← e2]
      exact List.mem_map.mpr ⟨(a, f), e1, rfl⟩
    · exact ih hnd.2 e1 e2

theorem eq_of_mem_of_fst_nodup {l : List (Nat × Nat)} (hnd : (l.map Prod.fst).Nodup)
    {a f g : Nat} (h1 : (a, f) ∈ l) (h2 : (a, g) ∈ l) : f = g := by
  induction l with
  | nil => cases h1
  | cons e rest ih =>
    rw [List.map_cons, List.nodup_cons] at hnd
    rcases List.mem_cons.mp h1 with e1 | e1 <;> rcases List.mem_cons.mp h2 with e2 | e2
    · rw [← e1] at e2
      exact (Prod.mk.inj e2).2.symm
    · exfalso
      apply hnd.1
      rw [← e1]
      exact List.mem_map.mpr ⟨(a, g), e2, rfl⟩
    · exfalso
      apply hnd.1
      rw [← e2]
      exact List.mem_map.mpr ⟨(a, f), e1, rfl⟩
    · exact ih hnd.2 e1 e2

namespace LRUNodes

theorem RepInv_new (n : Nat) : (LRUNodes.new n).RepInv :=
  { nodup_frames := List.nodup_nil
    nodup_nodes := List.nodup_nil
    nodup_keys := List.nodup_nil
    allocated := fun _ h => by cases h
    entries := fun _ _ => ⟨fun h => (by cases h), fun h => (by cases h)⟩
    size_le := Nat.zero_le _ }

/-- Under the invariant `Victim` fails on the empty list only; otherwise it returns the frame
of the front node and removes that node and its map entry. -/
theorem Victim_of_RepInv {r : LRUNodes} (h : r.RepInv) :
    (r.lt_ = [] ∧ r.Victim = (none, r)) ∨
    ∃ a f rest, r.lt_ = (a, f) :: rest ∧
      r.Victim = (some f, { r with
        lt_ := rest, mp_ := r.mp_.filter (fun e => decide (e.1 ≠ f)) }) := by
  unfold Victim
  cases hl : r.lt_ with
  | nil => exact Or.inl ⟨rfl, rfl⟩
  | cons e rest =>
    obtain ⟨a, f⟩ := e
    right
    refine ⟨a, f, rest, rfl, ?_⟩
    have hmem : (f, a) ∈ r.mp_ := (h.entries f a).mpr (by rw [hl]; exact List.mem_cons_self _ _)
    have hlk : r.mp_.lookup f = some a := (assoc_lookup_some_iff h.nodup_keys f a).mpr hmem
    simp only [hlk]

theorem RepInv_Victim {r : LRUNodes} (h : r.RepInv) : r.Victim.2.RepInv := by
  rcases Victim_of_RepInv h with ⟨_, he⟩ | ⟨a, f, rest, hl, he⟩
  · rw [he]
    exact h
  · rw [he]
    have hf := h.nodup_frames
    have hn := h.nodup_nodes
    rw [hl, List.map_cons, List.nodup_cons] at hf hn
    refine ⟨hf.2, hn.2, (List.filter_sublist _).map _ |>.nodup h.nodup_keys, ?_, ?_, ?_⟩
    · intro e he'
      exact h.allocated e (by rw [hl]; exact List.mem_cons_of_mem _ he')
    · intro g b
      show (g, b) ∈ r.mp_.filter _ ↔ (b, g) ∈ rest
      rw [List.mem_filter, h.entries g b, hl]
      simp only [ne_eq, decide_not, Bool.not_eq_true', decide_eq_false_iff_not, List.mem_cons,
        Prod.mk.injEq]
      constructor
      · rintro ⟨h1 | h1, h2⟩
        · exact absurd h1.2 h2
        · exact h1
      · intro h1
        refine ⟨Or.inr h1, ?_⟩
        intro e
        subst e
        exact hf.1 (List.mem_map.mpr ⟨(b, g), h1, rfl⟩)
    · show rest.length ≤ r.capacity_
      have := h.size_le
      rw [hl] at this
      exact le_trans (Nat.le_succ _) this

theorem RepInv_Pin {r : LRUNodes} (h : r.RepInv) (f : Nat) : (r.Pin f).RepInv := by
  unfold Pin
  cases hlk : r.mp_.lookup f with
  | none => exact h
  | some a =>
    have hmem : (f, a) ∈ r.mp_ := (assoc_lookup_some_iff h.nodup_keys f a).mp hlk
    have hnode : (a, f) ∈ r.lt_ := (h.entries f a).mp hmem
    refine ⟨(List.filter_sublist _).map _ |>.nodup h.nodup_frames,
      (List.filter_sublist _).map _ |>.nodup h.nodup_nodes,
      (List.filter_sublist _).map _ |>.nodup h.nodup_keys, ?_, ?_, ?_⟩
    · intro e he
      exact h.allocated e (List.mem_of_mem_filter he)
    · intro g b
      show (g, b) ∈ r.mp_.filter _ ↔ (b, g) ∈ r.lt_.filter _
      rw [List.mem_filter, List.mem_filter, h.entries g b]
      simp only [ne_eq, decide_not, Bool.not_eq_true', decide_eq_false_iff_not]
      constructor
      · rintro ⟨h1, h2⟩
        refine ⟨h1, fun e => h2 ?_⟩
        subst e
        exact eq_of_mem_of_fst_nodup h.nodup_nodes h1 hnode
      · rintro ⟨h1, h2⟩
        refine ⟨h1, fun e => h2 ?_⟩
        subst e
        exact eq_of_mem_of_snd_nodup h.nodup_frames h1 hnode
    · show (r.lt_.filter _).length ≤ r.capacity_
      exact le_trans (List.length_filter_le _ _) h.size_le

theorem RepInv_Unpin {r : LRUNodes} (h : r.RepInv) (f : Nat) : (r.Unpin f).RepInv := by
  unfold Unpin
  split
  · exact h
  · rename_i hlen
    cases hlk : r.mp_.lookup f with
    | some a => exact h
    | none =>
      have hno := (assoc_lookup_none_iff r.mp_ f).mp hlk
      have hnf : f ∉ r.lt_.map Prod.snd := by
        intro hm
        obtain ⟨e, he, hef⟩ := List.mem_map.mp hm
        obtain ⟨a, g⟩ := e
        simp only at hef
        subst hef
        exact hno a ((h.entries g a).mpr he)
      have hnn : r.next_node_ ∉ r.lt_.map Prod.fst := by
        intro hm
        obtain ⟨e, he, hea⟩ := List.mem_map.mp hm
        have := h.allocated e he
        omega
      have hnk : f ∉ r.mp_.map Prod.fst := by
        intro hm
        obtain ⟨e, he, hef⟩ := List.mem_map.mp hm
        obtain ⟨g, a⟩ := e
        simp only at hef
        subst hef
        exact hno a he
      refine ⟨?_, ?_, ?_, ?_, ?_, ?_⟩
      · show ((r.lt_ ++ [(r.next_node_, f)]).map Prod.snd).Nodup
        rw [List.map_append, List.nodup_append]
        refine ⟨h.nodup_frames, by simp, ?_⟩
        intro x hx hx'
        simp only [List.map_cons, List.map_nil, List.mem_singleton] at hx'
        subst hx'
        exact hnf hx
      · show ((r.lt_ ++ [(r.next_node_, f)]).map Prod.fst).Nodup
        rw [List.map_append, List.nodup_append]
        refine ⟨h.nodup_nodes, by simp, ?_⟩
        intro x hx hx'
        simp only [List.map_cons, List.map_nil, List.mem_singleton] at hx'
        subst hx'
        exact hnn hx
      · show (((f, r.next_node_) :: r.mp_).map Prod.fst).Nodup
        rw [List.map_cons, List.nodup_cons]
        exact ⟨hnk, h.nodup_keys⟩
      · intro e he
        have he' : e ∈ r.lt_ ++ [(r.next_node_, f)] := he
        show e.1 < r.next_node_ + 1
        rcases List.mem_append.mp he' with h1 | h1
        · exact Nat.lt_succ_of_lt (h.allocated e h1)
        · rw [List.mem_singleton] at h1
          subst h1
          exact Nat.lt_succ_self _
      · intro g b
        show (g, b) ∈ (f, r.next_node_) :: r.mp_ ↔ (b, g) ∈ r.lt_ ++ [(r.next_node_, f)]
        rw [List.mem_cons, List.mem_append, List.mem_singleton, h.entries g b]
        simp only [Prod.mk.injEq]
        constructor
        · rintro (⟨h1, h2⟩ | h1)
          · exact Or.inr ⟨h2, h1⟩
          · exact Or.inl h1
        · rintro (h1 | ⟨h1, h2⟩)
          · exact Or.inr h1
          · exact Or.inl ⟨h2, h1⟩
      · show (r.lt_ ++ [(r.next_node_, f)]).length ≤ r.capacity_
        rw [List.length_append, List.length_singleton]
        omega

theorem RepInv_of_Reachable {r : LRUNodes} (h : Reachable r) : r.RepInv := by
  induction h with
  | init n => exact RepInv_new n
  | step c _ ih =>
    cases c with
    | Victim => exact RepInv_Victim ih
    | Pin f => exact RepInv_Pin ih f
    | Unpin f => exact RepInv_Unpin ih f

/-- C39: after any sequence of `Victim`, `Pin` and `Unpin` calls on a new replacer, no frame
is twice in the recency list, the map finds a frame exactly when a node of the list stores
it, and then yields the address of that node, the size is at most the capacity, and `Victim`
returns false only on the empty list: the branch that has popped the front frame and does not
find it in the map is not taken. -/
theorem C39_replacer_representation (r : LRUNodes) (h : Reachable r) :
    (r.lt_.map Prod.snd).Nodup ∧
    (∀ f a, r.mp_.lookup f = some a ↔ (a, f) ∈ r.lt_) ∧
    (∀ f, r.mp_.lookup f = none ↔ f ∉ r.lt_.map Prod.snd) ∧
    r.Size ≤ r.capacity_ ∧
    (r.Victim.1 = none ↔ r.lt_ = []) := by
  have hI := RepInv_of_Reachable h
  refine ⟨hI.nodup_frames, ?_, ?_, hI.size_le, ?_⟩
  · intro f a
    rw [assoc_lookup_some_iff hI.nodup_keys, hI.entries]
  · intro f
    rw [assoc_lookup_none_iff]
    constructor
    · intro hno hm
      obtain ⟨e, he, hef⟩ := List.mem_map.mp hm
      obtain ⟨a, g⟩ := e
      simp only at hef
      subst hef
      exact hno a ((hI.entries g a).mpr he)
    · intro hno v hv
      exact hno (List.mem_map_of_mem Prod.snd ((hI.entries f v).mp hv))
  · rcases Victim_of_RepInv hI with ⟨hl, he⟩ | ⟨a, f, rest, hl, he⟩
    · rw [he]
      exact ⟨fun _ => hl, fun _ => rfl⟩
    · rw [he, hl]
      exact ⟨fun e => (by cases e), fun e => (by cases e)⟩

theorem C39_replacer_representation_witness :
    Reachable exampleNodes ∧
    (exampleNodes.lt_.map Prod.snd).Nodup ∧
    (∀ f a, exampleNodes.mp_.lookup f = some a ↔ (a, f) ∈ exampleNodes.lt_) ∧
    (∀ f, exampleNodes.mp_.lookup f = none ↔ f ∉ exampleNodes.lt_.map Prod.snd) ∧
    exampleNodes.Size ≤ exampleNodes.capacity_ ∧
    (exampleNodes.Victim.1 = none ↔ exampleNodes.lt_ = []) :=
  ⟨Reachable.step (.Pin 0) (Reachable.step (.Unpin 1) (Reachable.step (.Unpin 0)
      (Reachable.init 2))),
    C39_replacer_representation exampleNodes
      (Reachable.step (.Pin 0) (Reachable.step (.Unpin 1) (Reachable.step (.Unpin 0)
        (Reachable.init 2))))⟩

end LRUNodes

end Bustub

namespace Bustub

namespace LRUNodes

theorem map_fst_filter_key (l : List (Nat × Nat)) (f : Nat) :
    (l.filter (fun e => decide (e.1 ≠ f))).map Prod.fst =
      (l.map Prod.fst).filter (fun x => decide (x ≠ f)) := by
  rw [List.filter_map]
  rfl

theorem map_snd_filter_frame (l : List (Nat × Nat)) (f : Nat) :
    (l.filter (fun e => decide (e.2 ≠ f))).map Prod.snd =
      (l.map Prod.snd).filter (fun x => decide (x ≠ f)) := by
  rw [List.filter_map]
  rfl

theorem erase_eq_filter_of_nodup {l : List Nat} (h : l.Nodup) (f : Nat) :
    l.erase f = l.filter (fun x => decide (x ≠ f)) := by
  induction l with
  | nil => rfl
  | cons a rest ih =>
    rw [List.nodup_cons] at h
    by_cases ha : a = f
    · subst ha
      rw [List.erase_cons_head, List.filter_cons_of_neg (by simp)]
      symm
      rw [List.filter_eq_self]
      intro x hx
      have : x ≠ a := fun e => h.1 (e ▸ hx)
      simpa using this
    · rw [List.erase_cons_tail (by simpa using ha), List.filter_cons_of_pos (by simpa using ha),
        ih h.2]

/-- Without the node addresses the replacer with nodes is the replacer `LRUReplacer`: every
call returns the same result on both and leaves corresponding states. -/
theorem toLRUReplacer_call {r : LRUNodes} (h : r.RepInv) (c : LRUReplacer.ReplacerCall) :
    (r.call c).1 = (r.toLRUReplacer.call c).1 ∧
    (r.call c).2.toLRUReplacer = (r.toLRUReplacer.call c).2 := by
  have hkeys : ∀ f, f ∈ r.mp_.map Prod.fst ↔ ∃ a, r.mp_.lookup f = some a := by
    intro f
    constructor
    · intro hm
      obtain ⟨e, he, hef⟩ := List.mem_map.mp hm
      obtain ⟨g, a⟩ := e
      simp only at hef
      subst hef
      exact ⟨a, (assoc_lookup_some_iff h.nodup_keys g a).mpr he⟩
    · rintro ⟨a, ha⟩
      exact List.mem_map.mpr ⟨(f, a), (assoc_lookup_some_iff h.nodup_keys f a).mp ha, rfl⟩
  cases c with
  | Victim =>
    show r.Victim.1 = r.toLRUReplacer.Victim.1 ∧ r.Victim.2.toLRUReplacer = r.toLRUReplacer.Victim.2
    rcases Victim_of_RepInv h with ⟨hl, he⟩ | ⟨a, f, rest, hl, he⟩
    · rw [he]
      have : r.toLRUReplacer.Victim = (none, r.toLRUReplacer) := by
        unfold LRUReplacer.Victim toLRUReplacer
        simp only [hl, List.map_nil]
      rw [this]
      exact ⟨rfl, rfl⟩
    · rw [he]
      have hmem : f ∈ r.mp_.map Prod.fst :=
        List.mem_map.mpr ⟨(f, a), (h.entries f a).mpr (by rw [hl]; exact List.mem_cons_self _ _),
          rfl⟩
      have : r.toLRUReplacer.Victim = (some f,
          LRUReplacer.mk r.capacity_ (rest.map Prod.snd) ((r.mp_.map Prod.fst).erase f)) := by
        unfold LRUReplacer.Victim toLRUReplacer
        simp only [hl, List.map_cons, hmem, if_true]
      rw [this]
      refine ⟨rfl, ?_⟩
      show LRUReplacer.mk r.capacity_ (rest.map Prod.snd)
        ((r.mp_.filter (fun e => decide (e.1 ≠ f))).map Prod.fst) = _
      rw [map_fst_filter_key, erase_eq_filter_of_nodup h.nodup_keys]
  | Pin f =>
    show (none : Option Nat) = none ∧ (r.Pin f).toLRUReplacer = r.toLRUReplacer.Pin f
    refine ⟨rfl, ?_⟩
    unfold Pin LRUReplacer.Pin
    cases hlk : r.mp_.lookup f with
    | none =>
      have hnm : f ∉ r.toLRUReplacer.mp_ := by
        intro hm
        obtain ⟨a, ha⟩ := (hkeys f).mp hm
        rw [hlk] at ha
        cases ha
      rw [if_neg hnm]
    | some a =>
      have hm : f ∈ r.toLRUReplacer.mp_ := (hkeys f).mpr ⟨a, hlk⟩
      rw [if_pos hm]
      have hnode : (a, f) ∈ r.lt_ :=
        (h.entries f a).mp ((assoc_lookup_some_iff h.nodup_keys f a).mp hlk)
      have hfilt : r.lt_.filter (fun e => decide (e.1 ≠ a)) =
          r.lt_.filter (fun e => decide (e.2 ≠ f)) := by
        apply List.filter_congr
        intro e he
        obtain ⟨b, g⟩ := e
        have hiff : b = a ↔ g = f := by
          constructor
          · intro e1
            subst e1
            exact eq_of_mem_of_fst_nodup h.nodup_nodes he hnode
          · intro e1
            subst e1
            exact eq_of_mem_of_snd_nodup h.nodup_frames he hnode
        simp only [ne_eq, hiff]
      show LRUReplacer.mk r.capacity_
          ((r.lt_.filter (fun e => decide (e.1 ≠ a))).map Prod.snd)
          ((r.mp_.filter (fun e => decide (e.1 ≠ f))).map Prod.fst) =
        LRUReplacer.mk r.capacity_ ((r.lt_.map Prod.snd).erase f)
          ((r.mp_.map Prod.fst).erase f)
      rw [hfilt, map_snd_filter_frame, map_fst_filter_key,
        erase_eq_filter_of_nodup h.nodup_frames, erase_eq_filter_of_nodup h.nodup_keys]
  | Unpin f =>
    show (none : Option Nat) = none ∧ (r.Unpin f).toLRUReplacer = r.toLRUReplacer.Unpin f
    refine ⟨rfl, ?_⟩
    unfold Unpin LRUReplacer.Unpin
    have hlen : r.toLRUReplacer.lt_.length = r.lt_.length := List.length_map _ _
    rw [hlen]
    show (if r.lt_.length ≥ r.capacity_ then r else _).toLRUReplacer =
      if r.lt_.length ≥ r.capacity_ then r.toLRUReplacer else _
    split
    · rfl
    · cases hlk : r.mp_.lookup f with
      | none =>
        have hnm : f ∉ r.toLRUReplacer.mp_ := by
          intro hm
          obtain ⟨a, ha⟩ := (hkeys f).mp hm
          rw [hlk] at ha
          cases ha
        rw [if_pos hnm]
        show LRUReplacer.mk r.capacity_ ((r.lt_ ++ [(r.next_node_, f)]).map Prod.snd)
          (((f, r.next_node_) :: r.mp_).map Prod.fst) = _
        rw [List.map_append]
        rfl
      | some a =>
        have hm : f ∈ r.toLRUReplacer.mp_ := (hkeys f).mpr ⟨a, hlk⟩
        rw [if_neg (fun hn => hn hm)]

end LRUNodes

end Bustub

namespace Bustub

namespace BufferPoolManagerInstance

variable {D : Type}

/-- The shapes of the state after a call that returns, from a state that satisfies `Inv`. -/
theorem call_cases [Inhabited D] {m m' : BufferPoolManagerInstance D} (h : Inv m)
    (c : PoolCall D) {fr : Option Nat} {res : Bool} (hc : m.call c = .ok (fr, res, m')) :
    m' = m ∨
    (∃ f m1, c = PoolCall.NewPage ∧ m.acquire = (some f, m1) ∧
      m1.num_instances_ = m.num_instances_ ∧ fr = some f ∧ m' = afterNew m m1 f) ∨
    (∃ q f m1, c = PoolCall.FetchPage q ∧ m.find q = none ∧ m.acquire = (some f, m1) ∧
      m1.num_instances_ = m.num_instances_ ∧ m1.next_page_id_ = m.next_page_id_ ∧
      fr = some f ∧ m' = afterFetch m m1 f q) ∨
    (∃ q f, c = PoolCall.FetchPage q ∧ m.find q = some f ∧ fr = some f ∧
      m' = { m with
        pages_ := upd m.pages_ f { m.pages_ f with pin_count_ := (m.pages_ f).pin_count_ + 1 }
        replacer_ := m.replacer_.Pin f }) ∨
    (∃ q d f k r, c = PoolCall.UnpinPage q d ∧ m.find q = some f ∧
      ((k = (m.pages_ f).pin_count_ ∧ (m.pages_ f).pin_count_ ≤ 0 ∧ res = false) ∨
        (k = (m.pages_ f).pin_count_ - 1 ∧ 0 < (m.pages_ f).pin_count_ ∧ res = true)) ∧
      m' = { m with
        pages_ := upd m.pages_ f
          { m.pages_ f with is_dirty_ := (m.pages_ f).is_dirty_ || d, pin_count_ := k }
        replacer_ := r }) ∨
    (∃ q f, c = PoolCall.DeletePage q ∧ m.find q = some f ∧ ¬ 0 < (m.pages_ f).pin_count_ ∧
      res = true ∧
      m' = { m with
        disk_manager_ := if (m.pages_ f).is_dirty_ then
            m.disk_manager_.WritePage q (m.pages_ f).data_
          else m.disk_manager_
        pages_ := upd m.pages_ f
          { page_id_ := INVALID_PAGE_ID, pin_count_ := 0, is_dirty_ := false, data_ := default }
        page_table_ := erase m.page_table_ q
        free_list_ := m.free_list_ ++ [f] }) ∨
    (∃ q f, c = PoolCall.FlushPage q ∧ m.find q = some f ∧ q ≠ INVALID_PAGE_ID ∧
      m' = { m with
        disk_manager_ := m.disk_manager_.WritePage (m.pages_ f).page_id_ (m.pages_ f).data_
        pages_ := upd m.pages_ f { m.pages_ f with is_dirty_ := false } }) ∨
    (∃ f d, c = PoolCall.Write f d ∧
      m' = { m with pages_ := upd m.pages_ f { m.pages_ f with data_ := d } }) := by
  cases c with
  | NewPage =>
    simp only [call] at hc
    split at hc
    · cases hc
    · rename_i m1 hnew
      injection hc with hc
      simp only [Prod.mk.injEq] at hc
      rcases NewPgImp_cases h with ⟨_, he⟩ | ⟨f, m2, _, _, _, _, he, _⟩
      · rw [he] at hnew
        injection hnew with hnew
        simp only [Prod.mk.injEq] at hnew
        left
        rw [← hc.2.2, hnew.2]
      · rw [he] at hnew
        injection hnew with hnew
        simp at hnew
    · rename_i pid f m1 hnew
      injection hc with hc
      simp only [Prod.mk.injEq] at hc
      obtain ⟨m2, _, hacq, _, he⟩ := NewPgImp_some hnew
      right; left
      exact ⟨f, m2, rfl, hacq, (acquire_frame hacq).2.2.2.1, hc.1.symm, by rw [← hc.2.2, he]⟩
  | FetchPage q =>
    simp only [call] at hc
    obtain hfind | ⟨g, hfind⟩ : m.find q = none ∨ ∃ g, m.find q = some g := by
      cases m.find q <;> simp
    · split at hc
      · rename_i m1 hf
        injection hc with hc
        simp only [Prod.mk.injEq] at hc
        left
        rw [← hc.2.2]
        cases hp : m.all_pinned
        · obtain ⟨f, m2, _, _, _, _, he, _⟩ := Inv_afterFetch h hfind hp
          rw [he] at hf
          simp at hf
        · rw [FetchPgImp_pinned hfind hp] at hf
          simp only [Prod.mk.injEq] at hf
          exact hf.2.symm
      · rename_i f m1 hf
        injection hc with hc
        simp only [Prod.mk.injEq] at hc
        obtain ⟨m2, _, hacq, he⟩ := FetchPgImp_some hfind hf
        right; right; left
        exact ⟨q, f, m2, rfl, hfind, hacq, (acquire_frame hacq).2.2.2.1,
          (acquire_frame hacq).2.2.2.2.2.1, hc.1.symm, by rw [← hc.2.2, he]⟩
    · rw [FetchPgImp_resident hfind] at hc
      simp only [Except.ok.injEq, Prod.mk.injEq] at hc
      right; right; right; left
      exact ⟨q, g, rfl, hfind, hc.1.symm, hc.2.2.symm⟩
  | UnpinPage q d =>
    simp only [call] at hc
    injection hc with hc
    simp only [Prod.mk.injEq] at hc
    obtain hfind | ⟨g, hfind⟩ : m.find q = none ∨ ∃ g, m.find q = some g := by
      cases m.find q <;> simp
    · left
      rw [← hc.2.2, UnpinPgImp_absent d hfind]
    · right; right; right; right; left
      by_cases hpin : (m.pages_ g).pin_count_ ≤ 0
      · rw [UnpinPgImp_zero d hfind hpin] at hc
        exact ⟨q, d, g, (m.pages_ g).pin_count_, m.replacer_, rfl, hfind,
          Or.inl ⟨rfl, hpin, hc.2.1.symm⟩, hc.2.2.symm⟩
      · rw [UnpinPgImp_pos d hfind (by omega)] at hc
        exact ⟨q, d, g, (m.pages_ g).pin_count_ - 1,
          (if (m.pages_ g).pin_count_ - 1 = 0 then m.replacer_.Unpin g else m.replacer_),
          rfl, hfind, Or.inr ⟨rfl, by omega, hc.2.1.symm⟩, hc.2.2.symm⟩
  | DeletePage q =>
    simp only [call] at hc
    injection hc with hc
    simp only [Prod.mk.injEq] at hc
    obtain hfind | ⟨g, hfind⟩ : m.find q = none ∨ ∃ g, m.find q = some g := by
      cases m.find q <;> simp
    · left
      rw [← hc.2.2, DeletePgImp_absent hfind]
    · by_cases hpin : 0 < (m.pages_ g).pin_count_
      · left
        rw [← hc.2.2, DeletePgImp_pinned hfind hpin]
      · right; right; right; right; right; left
        rw [DeletePgImp_unpinned hfind hpin] at hc
        exact ⟨q, g, rfl, hfind, hpin, hc.2.1.symm, hc.2.2.symm⟩
  | FlushPage q =>
    simp only [call] at hc
    injection hc with hc
    simp only [Prod.mk.injEq] at hc
    obtain hfind | ⟨g, hfind⟩ : m.find q = none ∨ ∃ g, m.find q = some g := by
      cases m.find q <;> simp
    · left
      rw [← hc.2.2]
      unfold FlushPgImp
      simp only [hfind]
    · by_cases hq : q = INVALID_PAGE_ID
      · left
        rw [← hc.2.2]
        unfold FlushPgImp
        simp only [hfind, hq, ne_eq, not_true_eq_false, if_false]
        split <;> rfl
      · right; right; right; right; right; right; left
        refine ⟨q, g, rfl, hfind, hq, ?_⟩
        rw [← hc.2.2]
        unfold FlushPgImp
        simp only [hfind, ne_eq, hq, not_false_eq_true, if_true]
  | Write f d =>
    simp only [call] at hc
    injection hc with hc
    simp only [Prod.mk.injEq] at hc
    right; right; right; right; right; right; right
    exact ⟨f, d, rfl, hc.2.2.symm⟩

end BufferPoolManagerInstance

end Bustub

namespace Bustub

namespace BufferPoolManagerInstance

variable {D : Type}

theorem find_afterNew [Inhabited D] (m m1 : BufferPoolManagerInstance D) (f : Nat) (q : Int) :
    (afterNew m m1 f).find q =
      if q = m.next_page_id_ then some f
      else if q = (m.pages_ f).page_id_ then none else m.find q := by
  show (assign (erase m.page_table_ (m.pages_ f).page_id_) m.next_page_id_ f).lookup q = _
  rw [lookup_assign, lookup_erase]
  rfl

theorem find_afterFetch (m m1 : BufferPoolManagerInstance D) (f : Nat) (p q : Int) :
    (afterFetch m m1 f p).find q =
      if q = p then some f
      else if q = (m.pages_ f).page_id_ then none else m.find q := by
  show (assign (erase m.page_table_ (m.pages_ f).page_id_) p f).lookup q = _
  rw [lookup_assign, lookup_erase]
  rfl

theorem Sane_new [Inhabited D] {pool_size num_instances instance_index : Nat}
    {disk : DiskManager D} {m : BufferPoolManagerInstance D}
    (h : new pool_size num_instances instance_index disk = .ok m) : Sane m := by
  have hI := Inv_new h
  unfold new at h
  split at h
  · rename_i hc
    injection h with h
    subst h
    refine ⟨hI, hc.1, Int.natCast_nonneg _, fun f => ?_, fun f q hq hne => ?_⟩
    · show (-1 : Int) < (instance_index : Int)
      have := Int.natCast_nonneg instance_index
      omega
    · exact absurd hq.symm hne
  · cases h

theorem Sane_call [Inhabited D] {m m' : BufferPoolManagerInstance D} (h : Sane m)
    (c : PoolCall D) (ha : m.fetchesAllocated c = true) {fr : Option Nat} {res : Bool}
    (hc : m.call c = .ok (fr, res, m')) : Sane m' := by
  have hI' := Inv_call h.inv c hc
  have hinv : (-1 : Int) < m.next_page_id_ := by
    have := h.next_nonneg
    omega
  rcases call_cases h.inv c hc with e | ⟨f, m1, _, _, hni, _, e⟩ |
    ⟨q, f, m1, ec, hfind, _, hni, hnx, _, e⟩ | ⟨q, f, _, hfind, _, e⟩ |
    ⟨q, d, f, k, r, _, hfind, _, e⟩ | ⟨q, f, _, hfind, _, _, e⟩ | ⟨q, f, _, hfind, _, e⟩ |
    ⟨f, d, _, e⟩
  · rw [e]
    exact h
  · subst e
    have hpos : (0 : Int) < (m.num_instances_ : Int) := by
      have := h.instances
      omega
    refine ⟨hI', by show 0 < m1.num_instances_; rw [hni]; exact h.instances, ?_, ?_, ?_⟩
    · show 0 ≤ m.next_page_id_ + (m.num_instances_ : Int)
      have := h.next_nonneg
      omega
    · intro g
      show (upd m.pages_ f _ g).page_id_ < m.next_page_id_ + (m.num_instances_ : Int)
      rw [upd_apply]
      split
      · show m.next_page_id_ < _
        omega
      · have := h.below g
        omega
    · intro g q hq hne
      rw [find_afterNew]
      have hq' : (upd m.pages_ f
          ({ page_id_ := m.next_page_id_, pin_count_ := (m.pages_ f).pin_count_ + 1,
             is_dirty_ := false, data_ := default } : Page D) g).page_id_ = q := hq
      rw [upd_apply] at hq'
      by_cases hg : g = f
      · rw [if_pos hg] at hq'
        rw [if_pos hq'.symm, hg]
      · rw [if_neg hg] at hq'
        have hlt := h.below g
        rw [hq'] at hlt
        rw [if_neg (by omega)]
        have hown := h.owner g q hq' hne
        by_cases hq0 : q = (m.pages_ f).page_id_
        · have := h.owner f q hq0.symm hne
          rw [hown] at this
          exact absurd (Option.some.inj this) hg
        · rw [if_neg hq0]
          exact hown
  · subst e
    subst ec
    simp only [fetchesAllocated, Bool.and_eq_true, decide_eq_true_eq] at ha
    refine ⟨hI', by show 0 < m1.num_instances_; rw [hni]; exact h.instances, ?_, ?_, ?_⟩
    · show 0 ≤ m1.next_page_id_
      rw [hnx]
      exact h.next_nonneg
    · intro g
      show (upd m.pages_ f _ g).page_id_ < m1.next_page_id_
      rw [hnx, upd_apply]
      split
      · exact ha.2
      · exact h.below g
    · intro g p hp hne
      rw [find_afterFetch]
      have hp' : (upd m.pages_ f
          ({ page_id_ := q, pin_count_ := (m.pages_ f).pin_count_ + 1, is_dirty_ := false,
             data_ := (if (m.pages_ f).is_dirty_ then
                m.disk_manager_.WritePage (m.pages_ f).page_id_ (m.pages_ f).data_
              else m.disk_manager_).blocks_ q } : Page D) g).page_id_ = p := hp
      rw [upd_apply] at hp'
      by_cases hg : g = f
      · rw [if_pos hg] at hp'
        rw [if_pos hp'.symm, hg]
      · rw [if_neg hg] at hp'
        have hown := h.owner g p hp' hne
        have hpq : p ≠ q := by
          intro e
          rw [e, hfind] at hown
          cases hown
        rw [if_neg hpq]
        by_cases hq0 : p = (m.pages_ f).page_id_
        · have := h.owner f p hq0.symm hne
          rw [hown] at this
          exact absurd (Option.some.inj this) hg
        · rw [if_neg hq0]
          exact hown
  · subst e
    refine ⟨hI', h.instances, h.next_nonneg, ?_, ?_⟩
    · intro g
      show (upd m.pages_ f _ g).page_id_ < m.next_page_id_
      rw [upd_apply]
      split
      · exact h.below f
      · exact h.below g
    · intro g p hp hne
      have hp' : (upd m.pages_ f
          { m.pages_ f with pin_count_ := (m.pages_ f).pin_count_ + 1 } g).page_id_ = p := hp
      rw [upd_apply] at hp'
      apply h.owner g p _ hne
      by_cases hg : g = f
      · rw [if_pos hg] at hp'
        rw [hg]
        exact hp'
      · rw [if_neg hg] at hp'
        exact hp'
  · subst e
    refine ⟨hI', h.instances, h.next_nonneg, ?_, ?_⟩
    · intro g
      show (upd m.pages_ f _ g).page_id_ < m.next_page_id_
      rw [upd_apply]
      split
      · exact h.below f
      · exact h.below g
    · intro g p hp hne
      have hp' : (upd m.pages_ f
          { m.pages_ f with is_dirty_ := (m.pages_ f).is_dirty_ || d, pin_count_ := k }
          g).page_id_ = p := hp
      rw [upd_apply] at hp'
      apply h.owner g p _ hne
      by_cases hg : g = f
      · rw [if_pos hg] at hp'
        rw [hg]
        exact hp'
      · rw [if_neg hg] at hp'
        exact hp'
  · subst e
    refine ⟨hI', h.instances, h.next_nonneg, ?_, ?_⟩
    · intro g
      show (upd m.pages_ f _ g).page_id_ < m.next_page_id_
      rw [upd_apply]
      split
      · exact hinv
      · exact h.below g
    · intro g p hp hne
      show (erase m.page_table_ q).lookup p = some g
      have hp' : (upd m.pages_ f
          ({ page_id_ := INVALID_PAGE_ID, pin_count_ := 0, is_dirty_ := false,
             data_ := default } : Page D) g).page_id_ = p := hp
      rw [upd_apply] at hp'
      by_cases hg : g = f
      · rw [if_pos hg] at hp'
        exact absurd hp'.symm hne
      · rw [if_neg hg] at hp'
        have hown := h.owner g p hp' hne
        rw [lookup_erase]
        have hpq : p ≠ q := by
          intro e
          rw [e, hfind] at hown
          exact hg (Option.some.inj hown).symm
        rw [if_neg hpq]
        exact hown
  · subst e
    refine ⟨hI', h.instances, h.next_nonneg, ?_, ?_⟩
    · intro g
      show (upd m.pages_ f _ g).page_id_ < m.next_page_id_
      rw [upd_apply]
      split
      · exact h.below f
      · exact h.below g
    · intro g p hp hne
      have hp' : (upd m.pages_ f { m.pages_ f with is_dirty_ := false } g).page_id_ = p := hp
      rw [upd_apply] at hp'
      apply h.owner g p _ hne
      by_cases hg : g = f
      · rw [if_pos hg] at hp'
        rw [hg]
        exact hp'
      · rw [if_neg hg] at hp'
        exact hp'
  · subst e
    refine ⟨hI', h.instances, h.next_nonneg, ?_, ?_⟩
    · intro g
      show (upd m.pages_ f _ g).page_id_ < m.next_page_id_
      rw [upd_apply]
      split
      · exact h.below f
      · exact h.below g
    · intro g p hp hne
      have hp' : (upd m.pages_ f { m.pages_ f with data_ := d } g).page_id_ = p := hp
      rw [upd_apply] at hp'
      apply h.owner g p _ hne
      by_cases hg : g = f
      · rw [if_pos hg] at hp'
        rw [hg]
        exact hp'
      · rw [if_neg hg] at hp'
        exact hp'

theorem Sane_of_ReachableAllocated [Inhabited D] {m : BufferPoolManagerInstance D}
    (h : ReachableAllocated m) : Sane m := by
  induction h with
  | init h0 => exact Sane_new h0
  | step c _ ha hc ih => exact Sane_call ih c ha hc

end BufferPoolManagerInstance

end Bustub

namespace Bustub

namespace BufferPoolManagerInstance

variable {D : Type}

end BufferPoolManagerInstance

end Bustub

namespace Bustub

namespace BufferPoolManagerInstance

variable {D : Type}

end BufferPoolManagerInstance

end Bustub

namespace Bustub

namespace BufferPoolManagerInstance

variable {D : Type}

theorem pinOf_at {m : BufferPoolManagerInstance D} {p : Int} {f : Nat}
    (h : m.find p = some f) : pinOf m p = (m.pages_ f).pin_count_ := by
  unfold pinOf
  rw [h]

theorem pinOf_none {m : BufferPoolManagerInstance D} {p : Int}
    (h : m.find p = none) : pinOf m p = 0 := by
  unfold pinOf
  rw [h]

theorem pinOf_nonneg {m : BufferPoolManagerInstance D} (h : Inv m) (p : Int) :
    0 ≤ pinOf m p := by
  cases hf : m.find p with
  | none => rw [pinOf_none hf]
  | some f =>
    rw [pinOf_at hf]
    exact h.pin_nonneg f (h.table_lt p f hf)

/-- A change of one frame that holds another page leaves the pin count of the page alone. -/
theorem pinOf_other {m m' : BufferPoolManagerInstance D} {p : Int} {f : Nat}
    (hfind : m'.find p = m.find p) (hpages : ∀ g, g ≠ f → m'.pages_ g = m.pages_ g)
    (hne : m.find p ≠ some f) : pinOf m' p = pinOf m p := by
  unfold pinOf
  rw [hfind]
  cases hf : m.find p with
  | none => rfl
  | some g =>
    have hg : g ≠ f := by
      intro e
      rw [e] at hf
      exact hne hf
    show (m'.pages_ g).pin_count_ = (m.pages_ g).pin_count_
    rw [hpages g hg]

/-- The pin count of a page after a frame was reused for the page `q`: 1 for `q`, as before
for every other page. -/
theorem pinOf_reuse {m m' : BufferPoolManagerInstance D} (h : Sane m) {f : Nat} {q p : Int}
    (hpin : (m.pages_ f).pin_count_ = 0) (hq : pinOf m q = 0)
    (hfind : ∀ p, m'.find p =
      if p = q then some f else if p = (m.pages_ f).page_id_ then none else m.find p)
    (hpages : ∀ g, g ≠ f → m'.pages_ g = m.pages_ g)
    (hf : (m'.pages_ f).pin_count_ = (m.pages_ f).pin_count_ + 1)
    (hp : p ≠ INVALID_PAGE_ID) :
    pinOf m' p = pinOf m p + (if q = p then 1 else 0) := by
  by_cases hpq : q = p
  · subst hpq
    rw [if_pos rfl, hq, pinOf_at (by rw [hfind, if_pos rfl]), hf, hpin]
  · rw [if_neg hpq, add_zero]
    have hpq' : p ≠ q := fun e => hpq e.symm
    by_cases hpf : p = (m.pages_ f).page_id_
    · rw [pinOf_none (by rw [hfind, if_neg hpq', if_pos hpf]),
        pinOf_at (h.owner f p hpf.symm hp), hpin]
    · refine pinOf_other (f := f) (by rw [hfind, if_neg hpq', if_neg hpf]) hpages ?_
      intro e
      exact hpf (h.inv.table_id p f e).symm

/-- The effect of one call on the pin count of a page, from a state in which `FetchPage` was
only asked for allocated ids: a call that hands out the page adds a pin, a successful unpin of
the resident page takes one, and nothing else changes the count. -/
theorem pinOf_call [Inhabited D] {m m' : BufferPoolManagerInstance D} (h : Sane m)
    (c : PoolCall D) {fr : Option Nat} {res : Bool} (ha : m.fetchesAllocated c = true)
    (hc : m.call c = .ok (fr, res, m')) {p : Int} (hp : p ≠ INVALID_PAGE_ID) :
    pinOf m' p + (if m.unpinsPage c p then 1 else 0) =
      pinOf m p + (if m.handsOut c p then 1 else 0) := by
  cases c with
  | NewPage =>
    have hu : m.unpinsPage PoolCall.NewPage p = false := rfl
    rw [hu]
    have hq : pinOf m m.next_page_id_ = 0 := by
      cases hf : m.find m.next_page_id_ with
      | none => exact pinOf_none hf
      | some g =>
        have h1 := h.below g
        rw [h.inv.table_id _ g hf] at h1
        exact absurd h1 (lt_irrefl _)
    rcases NewPgImp_cases h.inv with ⟨_, he⟩ | ⟨f, m1, _, hacq, _, hpin, he, _⟩
    · have ho : m.handsOut PoolCall.NewPage p = false := by
        simp only [handsOut, he]
      simp only [call, he, Except.ok.injEq, Prod.mk.injEq] at hc
      rw [ho, ← hc.2.2]
    · have ho : m.handsOut PoolCall.NewPage p = decide (m.next_page_id_ = p) := by
        simp only [handsOut, he]
      simp only [call, he, Except.ok.injEq, Prod.mk.injEq] at hc
      rw [ho, ← hc.2.2]
      have := @pinOf_reuse D m (afterNew m m1 f) h f m.next_page_id_ p hpin hq
        (find_afterNew m m1 f)
        (fun g hg => by
          show upd m.pages_ f _ g = m.pages_ g
          rw [upd_apply, if_neg hg])
        (by
          show (upd m.pages_ f _ f).pin_count_ = _
          rw [upd_apply, if_pos rfl]) hp
      rw [this]
      simp
  | FetchPage q =>
    have hu : m.unpinsPage (PoolCall.FetchPage q) p = false := rfl
    rw [hu]
    simp only [fetchesAllocated, Bool.and_eq_true, decide_eq_true_eq] at ha
    cases hfind : m.find q with
    | some f =>
      have he := FetchPgImp_resident hfind
      have ho : m.handsOut (PoolCall.FetchPage q) p = decide (q = p) := by
        simp only [handsOut, he, Option.isSome_some, Bool.and_true]
      simp only [call, he, Except.ok.injEq, Prod.mk.injEq] at hc
      rw [ho, ← hc.2.2]
      by_cases hpq : q = p
      · subst hpq
        rw [pinOf_at hfind, pinOf_at (m := { m with
            pages_ := upd m.pages_ f
              { m.pages_ f with pin_count_ := (m.pages_ f).pin_count_ + 1 }
            replacer_ := m.replacer_.Pin f }) (f := f) hfind]
        show (upd m.pages_ f _ f).pin_count_ + _ = _
        rw [upd_apply, if_pos rfl]
        simp
      · have : pinOf ({ m with
            pages_ := upd m.pages_ f
              { m.pages_ f with pin_count_ := (m.pages_ f).pin_count_ + 1 }
            replacer_ := m.replacer_.Pin f } : BufferPoolManagerInstance D) p = pinOf m p := by
          refine pinOf_other (f := f) rfl (fun g hg => ?_) ?_
          · show upd m.pages_ f _ g = m.pages_ g
            rw [upd_apply, if_neg hg]
          · intro e
            have h1 := h.inv.table_id p f e
            have h2 := h.inv.table_id q f hfind
            exact hpq (h2.symm.trans h1)
        rw [this]
        simp [hpq]
    | none =>
      cases hap : m.all_pinned with
      | true =>
        have he := FetchPgImp_pinned hfind hap
        have ho : m.handsOut (PoolCall.FetchPage q) p = false := by
          simp only [handsOut, he, Option.isSome_none, Bool.and_false]
        simp only [call, he, Except.ok.injEq, Prod.mk.injEq] at hc
        rw [ho, ← hc.2.2]
      | false =>
        obtain ⟨f, m1, hacq, _, hpin, hpg, htb, hdk, _⟩ := acquire_some h.inv hap
        have he := FetchPgImp_eq hfind hap hacq hpg htb hdk
        have ho : m.handsOut (PoolCall.FetchPage q) p = decide (q = p) := by
          simp only [handsOut, he, Option.isSome_some, Bool.and_true]
        simp only [call, he, Except.ok.injEq, Prod.mk.injEq] at hc
        rw [ho, ← hc.2.2]
        have := @pinOf_reuse D m (afterFetch m m1 f q) h f q p hpin (pinOf_none hfind)
          (fun p => find_afterFetch m m1 f q p)
          (fun g hg => by
            show upd m.pages_ f _ g = m.pages_ g
            rw [upd_apply, if_neg hg])
          (by
            show (upd m.pages_ f _ f).pin_count_ = _
            rw [upd_apply, if_pos rfl]) hp
        rw [this]
        simp
  | UnpinPage q d =>
    have ho : m.handsOut (PoolCall.UnpinPage q d) p = false := rfl
    rw [ho]
    cases hfind : m.find q with
    | none =>
      have he := UnpinPgImp_absent d hfind
      have hu : m.unpinsPage (PoolCall.UnpinPage q d) p = false := by
        simp only [unpinsPage, hfind, Option.isSome_none, Bool.and_false, Bool.false_and]
      simp only [call, he, Except.ok.injEq, Prod.mk.injEq] at hc
      rw [hu, ← hc.2.2]
    | some f =>
      by_cases hpin : (m.pages_ f).pin_count_ ≤ 0
      · have he := UnpinPgImp_zero d hfind hpin
        have hu : m.unpinsPage (PoolCall.UnpinPage q d) p = false := by
          simp only [unpinsPage, he, Bool.and_false]
        simp only [call, he, Except.ok.injEq, Prod.mk.injEq] at hc
        rw [hu, ← hc.2.2]
        congr 1
        unfold pinOf
        show (match m.find p with
          | some g => (upd m.pages_ f _ g).pin_count_
          | none => 0) = _
        cases m.find p with
        | none => rfl
        | some g =>
          show (upd m.pages_ f _ g).pin_count_ = (m.pages_ g).pin_count_
          rw [upd_apply]
          split
          · rename_i e
            rw [e]
          · rfl
      · have hpos : 0 < (m.pages_ f).pin_count_ := by omega
        have he := UnpinPgImp_pos d hfind hpos
        have hu : m.unpinsPage (PoolCall.UnpinPage q d) p = decide (q = p) := by
          simp only [unpinsPage, he, hfind, Option.isSome_some, Bool.and_true]
        simp only [call, he, Except.ok.injEq, Prod.mk.injEq] at hc
        rw [hu, ← hc.2.2]
        by_cases hpq : q = p
        · subst hpq
          rw [pinOf_at hfind, pinOf_at (m := { m with
            pages_ := upd m.pages_ f
              { m.pages_ f with
                is_dirty_ := (m.pages_ f).is_dirty_ || d
                pin_count_ := (m.pages_ f).pin_count_ - 1 }
            replacer_ := if (m.pages_ f).pin_count_ - 1 = 0 then m.replacer_.Unpin f
              else m.replacer_ }) (f := f) hfind]
          show (upd m.pages_ f _ f).pin_count_ + _ = _
          rw [upd_apply, if_pos rfl]
          simp
        · have : pinOf ({ m with
              pages_ := upd m.pages_ f
                { m.pages_ f with
                  is_dirty_ := (m.pages_ f).is_dirty_ || d
                  pin_count_ := (m.pages_ f).pin_count_ - 1 }
              replacer_ := if (m.pages_ f).pin_count_ - 1 = 0 then m.replacer_.Unpin f
                else m.replacer_ } : BufferPoolManagerInstance D) p = pinOf m p := by
            refine pinOf_other (f := f) rfl (fun g hg => ?_) ?_
            · show upd m.pages_ f _ g = m.pages_ g
              rw [upd_apply, if_neg hg]
            · intro e
              have h1 := h.inv.table_id p f e
              have h2 := h.inv.table_id q f hfind
              exact hpq (h2.symm.trans h1)
          rw [this]
          simp [hpq]
  | DeletePage q =>
    have ho : m.handsOut (PoolCall.DeletePage q) p = false := rfl
    have hu : m.unpinsPage (PoolCall.DeletePage q) p = false := rfl
    rw [ho, hu]
    congr 1
    cases hfind : m.find q with
    | none =>
      have he := DeletePgImp_absent hfind
      simp only [call, he, Except.ok.injEq, Prod.mk.injEq] at hc
      rw [← hc.2.2]
    | some f =>
      by_cases hpos : 0 < (m.pages_ f).pin_count_
      · have he := DeletePgImp_pinned hfind hpos
        simp only [call, he, Except.ok.injEq, Prod.mk.injEq] at hc
        rw [← hc.2.2]
      · have he := DeletePgImp_unpinned hfind hpos
        simp only [call, he, Except.ok.injEq, Prod.mk.injEq] at hc
        rw [← hc.2.2]
        by_cases hpq : p = q
        · subst hpq
          rw [pinOf_at hfind, pinOf_none]
          · have := h.inv.pin_nonneg f (h.inv.table_lt p f hfind)
            omega
          · show (erase m.page_table_ p).lookup p = none
            rw [lookup_erase, if_pos rfl]
        · refine pinOf_other (f := f) ?_ (fun g hg => ?_) ?_
          · show (erase m.page_table_ q).lookup p = _
            rw [lookup_erase, if_neg hpq]
            rfl
          · show upd m.pages_ f _ g = m.pages_ g
            rw [upd_apply, if_neg hg]
          · intro e
            have h1 := h.inv.table_id p f e
            have h2 := h.inv.table_id q f hfind
            exact hpq (h1.symm.trans h2)
  | FlushPage q =>
    have ho : m.handsOut (PoolCall.FlushPage q) p = false := rfl
    have hu : m.unpinsPage (PoolCall.FlushPage q) p = false := rfl
    rw [ho, hu]
    congr 1
    rcases call_cases h.inv _ hc with e | ⟨_, _, ec, _⟩ | ⟨_, _, _, ec, _⟩ | ⟨_, _, ec, _⟩ |
      ⟨_, _, _, _, _, ec, _⟩ | ⟨_, _, ec, _⟩ | ⟨q', f, _, hfind, _, e⟩ | ⟨_, _, ec, _⟩
    · rw [e]
    · cases ec
    · cases ec
    · cases ec
    · cases ec
    · cases ec
    · subst e
      unfold pinOf
      show (match m.find p with
        | some g => (upd m.pages_ f _ g).pin_count_
        | none => 0) = _
      cases m.find p with
      | none => rfl
      | some g =>
        show (upd m.pages_ f _ g).pin_count_ = (m.pages_ g).pin_count_
        rw [upd_apply]
        split
        · rename_i e
          rw [e]
        · rfl
    · cases ec
  | Write f d =>
    have ho : m.handsOut (PoolCall.Write f d) p = false := rfl
    have hu : m.unpinsPage (PoolCall.Write f d) p = false := rfl
    rw [ho, hu]
    congr 1
    simp only [call, Except.ok.injEq, Prod.mk.injEq] at hc
    rw [← hc.2.2]
    unfold pinOf
    show (match m.find p with
      | some g => (upd m.pages_ f _ g).pin_count_
      | none => 0) = _
    cases m.find p with
    | none => rfl
    | some g =>
      show (upd m.pages_ f _ g).pin_count_ = (m.pages_ g).pin_count_
      rw [upd_apply]
      split
      · rename_i e
        rw [e]
      · rfl

end BufferPoolManagerInstance

end Bustub

namespace Bustub

namespace BufferPoolManagerInstance

variable {D : Type}

/-- A call other than `NewPage` leaves the allocation counter alone. -/
theorem counter_call [Inhabited D] {m m' : BufferPoolManagerInstance D} (h : Inv m)
    (c : PoolCall D) (hne : c ≠ PoolCall.NewPage) {fr : Option Nat} {res : Bool}
    (hc : m.call c = .ok (fr, res, m')) :
    m'.next_page_id_ = m.next_page_id_ ∧ m'.num_instances_ = m.num_instances_ := by
  rcases call_cases h c hc with e | ⟨_, _, ec, _⟩ | ⟨_, f, m1, _, _, _, hni, hnx, _, e⟩ |
    ⟨_, _, _, _, _, e⟩ | ⟨_, _, _, _, _, _, _, _, e⟩ | ⟨_, _, _, _, _, _, e⟩ |
    ⟨_, _, _, _, _, e⟩ | ⟨_, _, _, e⟩
  · rw [e]
    exact ⟨rfl, rfl⟩
  · exact absurd ec hne
  · rw [e]
    exact ⟨hnx, hni⟩
  · rw [e]
    exact ⟨rfl, rfl⟩
  · rw [e]
    exact ⟨rfl, rfl⟩
  · rw [e]
    exact ⟨rfl, rfl⟩
  · rw [e]
    exact ⟨rfl, rfl⟩
  · rw [e]
    exact ⟨rfl, rfl⟩

/-- A `NewPage` that hands out a frame hands out the id of the allocation counter and moves
the counter by `num_instances_`. -/
theorem handsOut_NewPage [Inhabited D] {m m' : BufferPoolManagerInstance D} {f : Nat}
    {res : Bool} (hc : m.call PoolCall.NewPage = .ok (some f, res, m')) (p : Int) :
    m.handsOut PoolCall.NewPage p = decide (m.next_page_id_ = p) ∧
    m'.next_page_id_ = m.next_page_id_ + (m.num_instances_ : Int) ∧
    m'.num_instances_ = m.num_instances_ := by
  simp only [call] at hc
  split at hc
  · cases hc
  · simp only [Except.ok.injEq, Prod.mk.injEq] at hc
    cases hc.1
  · rename_i pid g m1 hnew
    simp only [Except.ok.injEq, Prod.mk.injEq] at hc
    obtain ⟨m2, _, hacq, hid, he⟩ := NewPgImp_some hnew
    refine ⟨?_, ?_, ?_⟩
    · simp only [handsOut, hnew, hid]
    · rw [← hc.2.2, he]
      rfl
    · rw [← hc.2.2, he]
      exact (acquire_frame hacq).2.2.2.1

theorem handsOut_FetchPage [Inhabited D] {m m' : BufferPoolManagerInstance D} {q : Int}
    {f : Nat} {res : Bool} (hc : m.call (PoolCall.FetchPage q) = .ok (some f, res, m'))
    (p : Int) : m.handsOut (PoolCall.FetchPage q) p = decide (q = p) := by
  simp only [call] at hc
  split at hc
  · simp only [Except.ok.injEq, Prod.mk.injEq] at hc
    cases hc.1
  · rename_i g m1 he
    simp only [handsOut, he, Option.isSome_some, Bool.and_true]

theorem unpinsPage_UnpinPage [Inhabited D] {m m' : BufferPoolManagerInstance D} {q : Int}
    {d : Bool} {fr : Option Nat} (hc : m.call (PoolCall.UnpinPage q d) = .ok (fr, true, m'))
    {f : Nat} (hfind : m.find q = some f) (p : Int) :
    m.unpinsPage (PoolCall.UnpinPage q d) p = decide (q = p) := by
  simp only [call, Except.ok.injEq, Prod.mk.injEq] at hc
  simp only [unpinsPage, hfind, Option.isSome_some, Bool.and_true, hc.2.1]

/-- The pins a caller holds on a page, along a run in which every call gives the result the
hash table requires: the pin count of the page moves with the number of pins the caller
holds, and that number is the number of calls that handed out the page less the number of
successful unpins of it. -/
theorem pinOf_runAsserted [Inhabited D] {p : Int} (hp : p ≠ INVALID_PAGE_ID)
    (cs : List (PoolCall D)) :
    ∀ {m m' : BufferPoolManagerInstance D} {held held' : Nat}, Sane m →
      m.num_instances_ = 1 → (held : Int) ≤ pinOf m p →
      pinsHeld p m.next_page_id_ cs held = some held' → runAsserted m cs = .ok m' →
      Sane m' ∧ m'.num_instances_ = 1 ∧
      m'.next_page_id_ = m.next_page_id_ + (newPages cs : Int) ∧
      pinOf m' p + (held : Int) = pinOf m p + (held' : Int) ∧
      acquisitions p m cs + held = unpins p m cs + held' := by
  induction cs with
  | nil =>
    intro m m' held held' hS h1 _ hh hr
    simp only [runAsserted, Except.ok.injEq] at hr
    simp only [pinsHeld, Option.some.injEq] at hh
    subst hr
    subst hh
    exact ⟨hS, h1, by simp [newPages], rfl, rfl⟩
  | cons c cs ih =>
    intro m m' held held' hS h1 hle hh hr
    cases hc : m.call c with
    | error e =>
      simp only [runAsserted, hc] at hr
      cases hr
    | ok r =>
      obtain ⟨fr, res, m1⟩ := r
      simp only [runAsserted, hc] at hr
      split at hr
      swap
      · cases hr
      rename_i hpass
      have hacq : acquisitions p m (c :: cs) =
          (if m.handsOut c p then 1 else 0) + acquisitions p m1 cs := by
        simp only [acquisitions, hc]
      have hunp : unpins p m (c :: cs) =
          (if m.unpinsPage c p then 1 else 0) + unpins p m1 cs := by
        simp only [unpins, hc]
      rw [hacq, hunp]
      cases c with
      | NewPage =>
        simp only [passes, Option.isSome_iff_exists] at hpass
        obtain ⟨f, hf⟩ := hpass
        subst hf
        obtain ⟨ho, hnx, hni⟩ := handsOut_NewPage hc p
        have hu : m.unpinsPage PoolCall.NewPage p = false := rfl
        have hlaw := pinOf_call hS PoolCall.NewPage rfl hc hp
        rw [ho, hu] at hlaw
        rw [ho, hu]
        simp only [pinsHeld] at hh
        rw [h1] at hnx
        have hS1 := Sane_call hS PoolCall.NewPage rfl hc
        have hnx' : m.next_page_id_ + 1 = m1.next_page_id_ := by
          rw [hnx]
          rfl
        rw [hnx'] at hh
        by_cases hq : m.next_page_id_ = p
        · simp only [hq, if_true, decide_True, Bool.false_eq_true, if_false, add_zero] at hlaw hh ⊢
          obtain ⟨a, b, c1, d, e⟩ := ih hS1 (hni.trans h1) (by push_cast; omega) hh hr
          refine ⟨a, b, ?_, ?_, ?_⟩
          · rw [c1, ← hnx', ← hq]
            simp only [newPages]
            push_cast
            omega
          · push_cast at d
            omega
          · omega
        · simp only [hq, if_false, decide_False, Bool.false_eq_true, add_zero] at hlaw hh ⊢
          obtain ⟨a, b, c1, d, e⟩ := ih hS1 (hni.trans h1) (by omega) hh hr
          refine ⟨a, b, ?_, ?_, ?_⟩
          · rw [c1, ← hnx']
            simp only [newPages]
            push_cast
            omega
          · omega
          · omega
      | FetchPage q =>
        simp only [passes, Option.isSome_iff_exists] at hpass
        obtain ⟨f, hf⟩ := hpass
        subst hf
        have ho := handsOut_FetchPage hc p
        have hu : m.unpinsPage (PoolCall.FetchPage q) p = false := rfl
        simp only [pinsHeld] at hh
        split at hh
        swap
        · cases hh
        rename_i hq
        have ha : m.fetchesAllocated (PoolCall.FetchPage q) = true := by
          simp only [fetchesAllocated, Bool.and_eq_true, decide_eq_true_eq]
          exact hq
        have hlaw := pinOf_call hS _ ha hc hp
        rw [ho, hu] at hlaw
        rw [ho, hu]
        have hS1 := Sane_call hS _ ha hc
        obtain ⟨hnx, hni⟩ := counter_call hS.inv _ (by simp) hc
        rw [← hnx] at hh
        by_cases hqp : q = p
        · simp only [hqp, if_true, decide_True, Bool.false_eq_true, if_false, add_zero] at hlaw hh ⊢
          obtain ⟨a, b, c1, d, e⟩ := ih hS1 (hni.trans h1) (by push_cast; omega) hh hr
          refine ⟨a, b, ?_, ?_, ?_⟩
          · rw [c1, hnx]
            simp only [newPages]
          · push_cast at d
            omega
          · omega
        · simp only [hqp, if_false, decide_False, Bool.false_eq_true, add_zero] at hlaw hh ⊢
          obtain ⟨a, b, c1, d, e⟩ := ih hS1 (hni.trans h1) (by omega) hh hr
          refine ⟨a, b, ?_, ?_, ?_⟩
          · rw [c1, hnx]
            simp only [newPages]
          · omega
          · omega
      | UnpinPage q d =>
        simp only [passes] at hpass
        subst hpass
        have ho : m.handsOut (PoolCall.UnpinPage q d) p = false := rfl
        have hlaw := pinOf_call hS (PoolCall.UnpinPage q d) rfl hc hp
        rw [ho] at hlaw
        rw [ho]
        have hS1 := Sane_call hS (PoolCall.UnpinPage q d) rfl hc
        obtain ⟨hnx, hni⟩ := counter_call hS.inv _ (by simp) hc
        simp only [pinsHeld] at hh
        rw [← hnx] at hh
        by_cases hqp : q = p
        · rw [if_pos hqp] at hh
          split at hh
          · cases hh
          rename_i hheld
          have hres : ∃ f, m.find q = some f := by
            cases hfq : m.find q with
            | some f => exact ⟨f, rfl⟩
            | none =>
              rw [hqp] at hfq
              rw [pinOf_none hfq] at hle
              omega
          obtain ⟨f, hfq⟩ := hres
          have hu := unpinsPage_UnpinPage hc hfq p
          rw [hu] at hlaw ⊢
          simp only [hqp, decide_True, if_true, Bool.false_eq_true, if_false, add_zero] at hlaw ⊢
          obtain ⟨a, b, c1, d1, e⟩ := ih hS1 (hni.trans h1) (by omega) hh hr
          refine ⟨a, b, ?_, ?_, ?_⟩
          · rw [c1, hnx]
            simp only [newPages]
          · omega
          · omega
        · rw [if_neg hqp] at hh
          have hu : m.unpinsPage (PoolCall.UnpinPage q d) p = false := by
            simp only [unpinsPage, hqp, decide_False, Bool.false_and]
          rw [hu] at hlaw ⊢
          simp only [Bool.false_eq_true, if_false, add_zero] at hlaw ⊢
          obtain ⟨a, b, c1, d1, e⟩ := ih hS1 (hni.trans h1) (by omega) hh hr
          refine ⟨a, b, ?_, ?_, ?_⟩
          · rw [c1, hnx]
            simp only [newPages]
          · omega
          · omega
      | DeletePage q =>
        have ho : m.handsOut (PoolCall.DeletePage q) p = false := rfl
        have hu : m.unpinsPage (PoolCall.DeletePage q) p = false := rfl
        have hlaw := pinOf_call hS (PoolCall.DeletePage q) rfl hc hp
        rw [ho, hu] at hlaw
        rw [ho, hu]
        have hS1 := Sane_call hS (PoolCall.DeletePage q) rfl hc
        obtain ⟨hnx, hni⟩ := counter_call hS.inv _ (by simp) hc
        simp only [pinsHeld] at hh
        rw [← hnx] at hh
        simp only [Bool.false_eq_true, if_false, add_zero] at hlaw ⊢
        obtain ⟨a, b, c1, d1, e⟩ := ih hS1 (hni.trans h1) (by omega) hh hr
        refine ⟨a, b, ?_, ?_, ?_⟩
        · rw [c1, hnx]
          simp only [newPages]
        · omega
        · omega
      | FlushPage q =>
        have ho : m.handsOut (PoolCall.FlushPage q) p = false := rfl
        have hu : m.unpinsPage (PoolCall.FlushPage q) p = false := rfl
        have hlaw := pinOf_call hS (PoolCall.FlushPage q) rfl hc hp
        rw [ho, hu] at hlaw
        rw [ho, hu]
        have hS1 := Sane_call hS (PoolCall.FlushPage q) rfl hc
        obtain ⟨hnx, hni⟩ := counter_call hS.inv _ (by simp) hc
        simp only [pinsHeld] at hh
        rw [← hnx] at hh
        simp only [Bool.false_eq_true, if_false, add_zero] at hlaw ⊢
        obtain ⟨a, b, c1, d1, e⟩ := ih hS1 (hni.trans h1) (by omega) hh hr
        refine ⟨a, b, ?_, ?_, ?_⟩
        · rw [c1, hnx]
          simp only [newPages]
        · omega
        · omega
      | Write g d =>
        have ho : m.handsOut (PoolCall.Write g d) p = false := rfl
        have hu : m.unpinsPage (PoolCall.Write g d) p = false := rfl
        have hlaw := pinOf_call hS (PoolCall.Write g d) rfl hc hp
        rw [ho, hu] at hlaw
        rw [ho, hu]
        have hS1 := Sane_call hS (PoolCall.Write g d) rfl hc
        obtain ⟨hnx, hni⟩ := counter_call hS.inv _ (by simp) hc
        simp only [pinsHeld] at hh
        rw [← hnx] at hh
        simp only [Bool.false_eq_true, if_false, add_zero] at hlaw ⊢
        obtain ⟨a, b, c1, d1, e⟩ := ih hS1 (hni.trans h1) (by omega) hh hr
        refine ⟨a, b, ?_, ?_, ?_⟩
        · rw [c1, hnx]
          simp only [newPages]
        · omega
        · omega

end BufferPoolManagerInstance

end Bustub

namespace Bustub

namespace BufferPoolManagerInstance

variable {D : Type}

theorem newPages_append (cs1 cs2 : List (PoolCall D)) :
    newPages (cs1 ++ cs2) = newPages cs1 + newPages cs2 := by
  induction cs1 with
  | nil => simp [newPages]
  | cons c cs ih =>
    cases c with
    | NewPage =>
      show newPages (cs ++ cs2) + 1 = newPages cs + 1 + newPages cs2
      omega
    | FetchPage q => exact ih
    | UnpinPage q d => exact ih
    | DeletePage q => exact ih
    | FlushPage q => exact ih
    | Write f d => exact ih

/-- The pins held after two sequences of calls, one after the other. -/
theorem pinsHeld_append (p : Int) (cs1 cs2 : List (PoolCall D)) :
    ∀ (n : Int) (h : Nat), pinsHeld p n (cs1 ++ cs2) h =
      (pinsHeld p n cs1 h).bind (fun h1 => pinsHeld p (n + (newPages cs1 : Int)) cs2 h1) := by
  induction cs1 with
  | nil =>
    intro n h
    simp [pinsHeld, newPages]
  | cons c cs ih =>
    intro n h
    cases c with
    | NewPage =>
      show pinsHeld p (n + 1) (cs ++ cs2) _ =
        (pinsHeld p (n + 1) cs _).bind (fun h1 =>
          pinsHeld p (n + ((newPages cs + 1 : Nat) : Int)) cs2 h1)
      rw [ih]
      have : n + 1 + (newPages cs : Int) = n + ((newPages cs + 1 : Nat) : Int) := by
        push_cast
        omega
      rw [this]
    | FetchPage q =>
      show (if q ≠ INVALID_PAGE_ID ∧ q < n then pinsHeld p n (cs ++ cs2) _ else none) =
        (if q ≠ INVALID_PAGE_ID ∧ q < n then pinsHeld p n cs _ else none).bind (fun h1 =>
          pinsHeld p (n + (newPages cs : Int)) cs2 h1)
      split
      · exact ih _ _
      · rfl
    | UnpinPage q d =>
      show (if q = p then (if h = 0 then none else pinsHeld p n (cs ++ cs2) (h - 1))
          else pinsHeld p n (cs ++ cs2) h) =
        (if q = p then (if h = 0 then none else pinsHeld p n cs (h - 1))
          else pinsHeld p n cs h).bind (fun h1 =>
          pinsHeld p (n + (newPages cs : Int)) cs2 h1)
      split
      · split
        · rfl
        · exact ih _ _
      · exact ih _ _
    | DeletePage q => exact ih _ _
    | FlushPage q => exact ih _ _
    | Write f d => exact ih _ _

/-- A sequence after which the caller holds the pins it held before, followed by another. -/
theorem pinsHeld_block (p : Int) {cs1 : List (PoolCall D)} {n : Int} {k : Nat}
    (h1 : ∀ h, pinsHeld p n cs1 h = some h) (hk : newPages cs1 = k)
    (cs2 : List (PoolCall D)) (h : Nat) :
    pinsHeld p n (cs1 ++ cs2) h = pinsHeld p (n + (k : Int)) cs2 h := by
  rw [pinsHeld_append, h1, hk]
  rfl

theorem pinsHeld_fetch_fetch (p : Int) {n d b : Int} (f1 f2 : Bool)
    (hd : d ≠ INVALID_PAGE_ID ∧ d < n) (hb : b ≠ INVALID_PAGE_ID ∧ b < n) (h : Nat) :
    pinsHeld (D := D) p n
      [.FetchPage d, .FetchPage b, .UnpinPage b f1, .UnpinPage d f2] h = some h := by
  simp only [pinsHeld, if_pos hd, if_pos hb]
  split_ifs <;> first | rfl | contradiction

theorem pinsHeld_fetch_unpin (p : Int) {n d : Int} (f : Bool)
    (hd : d ≠ INVALID_PAGE_ID ∧ d < n) (h : Nat) :
    pinsHeld (D := D) p n [.FetchPage d, .UnpinPage d f] h = some h := by
  simp only [pinsHeld, if_pos hd]
  split_ifs <;> first | rfl | contradiction

theorem pinsHeld_split (p : Int) {n d s : Int} (f1 f2 f3 : Bool)
    (hd : d ≠ INVALID_PAGE_ID ∧ d < n) (hs : s ≠ INVALID_PAGE_ID ∧ s < n) (h : Nat) :
    pinsHeld (D := D) p n
      [.FetchPage d, .FetchPage s, .NewPage, .UnpinPage s f1, .UnpinPage n f2,
        .UnpinPage d f3] h = some h := by
  simp only [pinsHeld, if_pos hd, if_pos hs]
  split_ifs <;> first | rfl | contradiction

theorem pinsHeld_merge (p : Int) {n d x : Int} (f1 f2 : Bool)
    (hd : d ≠ INVALID_PAGE_ID ∧ d < n) (hx : x ≠ INVALID_PAGE_ID ∧ x < n) (h : Nat) :
    pinsHeld (D := D) p n
      [.FetchPage d, .FetchPage x, .UnpinPage x f1, .DeletePage x, .UnpinPage d f2] h =
      some h := by
  simp only [pinsHeld, if_pos hd, if_pos hx]
  split_ifs <;> first | rfl | contradiction

theorem pinsHeld_create (p : Int) (n : Int) (f1 f2 : Bool) (h : Nat) :
    pinsHeld (D := D) p n
      [.NewPage, .NewPage, .UnpinPage n f1, .UnpinPage (n + 1) f2] h = some h := by
  simp only [pinsHeld]
  split_ifs <;> first | rfl | contradiction

end BufferPoolManagerInstance

end Bustub

namespace Bustub

namespace ExtendibleHashTable

open HashTableDirectoryPage HashTableBucketPage BufferPoolManagerInstance

variable {K V : Type}

theorem Alloc_created_new [Inhabited K] [Inhabited V] :
    Alloc (new : ExtendibleHashTable K V).FetchDirectoryPage := by
  have hgd : (dir (new : ExtendibleHashTable K V).FetchDirectoryPage).global_depth_ = 0 := rfl
  have hpg : (dir (new : ExtendibleHashTable K V).FetchDirectoryPage).bucket_page_ids_ 0 = 1 :=
    rfl
  have hid : (new : ExtendibleHashTable K V).FetchDirectoryPage.directory_page_id_ = 0 := rfl
  refine ⟨by rw [hid], rfl, ?_⟩
  intro s hs
  rw [hgd] at hs
  have : s = 0 := by omega
  rw [this, hpg]
  decide

/-- A change of bucket pages keeps the ids of the directory. -/
theorem Alloc_setBucket {t : ExtendibleHashTable K V} (h : Alloc t)
    (b : Int → HashTableBucketPage K V) : Alloc { t with bucket_pages_ := b } :=
  ⟨h.dir_nonneg, h.page_id, h.nonneg⟩

theorem Alloc_SplitResult [Inhabited K] [Inhabited V] (P : Params K)
    {t : ExtendibleHashTable K V} (hI : Inv P t) (h : Alloc t) (key : K)
    (sb bb : HashTableBucketPage K V) : Alloc (SplitResult P t key sb bb) := by
  obtain ⟨e1, e2, e3, _⟩ := SplitDirFinal_spec P (dir t) key
    (KeyToPageId P key (SplitDir0 P (dir t) key)) t.next_page_id_
  have hi := KeyToDirectoryIndex_lt P key (dir t)
  have hn : 0 ≤ t.next_page_id_ := le_trans h.dir_nonneg (le_of_lt hI.dir_lt)
  refine ⟨h.dir_nonneg, ?_, ?_⟩
  · rw [dir_SplitResult, e2]
    exact h.page_id
  · intro s hs
    rw [dir_SplitResult] at hs ⊢
    rw [e1] at hs
    rw [e3 s hs]
    split
    · exact hn
    · split
      · rw [KeyToPageId_SplitDir0]
        exact h.nonneg _ hi
      · exact h.nonneg _ (Nat.mod_lt _ (Nat.pos_pow_of_pos _ (by norm_num)))

theorem foldl_merge_page_id (l : List Nat) (pd pb : Int) (dep : Nat) :
    ∀ (d : HashTableDirectoryPage), (l.foldl (fun d index =>
      let traverse_page_id := d.GetBucketPageId index
      if traverse_page_id = pd ∨ traverse_page_id = pb then
        (d.SetLocalDepth index dep).SetBucketPageId index pb
      else d) d).page_id_ = d.page_id_ := by
  induction l with
  | nil => exact fun _ => rfl
  | cons a rest ih =>
    intro d
    simp only [List.foldl_cons]
    split
    · rw [ih]
      rfl
    · rw [ih]

theorem MergeDir_page_id (d : HashTableDirectoryPage) (i : Nat) :
    (MergeDir d i).page_id_ = d.page_id_ := by
  unfold MergeDir MergeRepoint
  simp only []
  rw [foldl_merge_page_id]
  rfl

theorem Alloc_Merge [Inhabited K] [Inhabited V] (P : Params K)
    {t t' : ExtendibleHashTable K V} (hc : t.directory_page_id_ ≠ INVALID_PAGE_ID)
    (hd : (dir t).DirInv) (h : Alloc t) (key : K) (hm : Merge P t key = .ok t') :
    Alloc t' ∧ t'.next_page_id_ = t.next_page_id_ ∧
      t'.directory_page_id_ = t.directory_page_id_ := by
  rw [Merge_eq P hc] at hm
  split at hm
  · cases hm
    exact ⟨h, rfl, rfl⟩
  rename_i h0
  split at hm
  · cases hm
    exact ⟨h, rfl, rfl⟩
  rename_i h1
  split at hm
  · cases hm
    exact ⟨h, rfl, rfl⟩
  simp only [Except.ok.injEq] at hm
  subst hm
  push_neg at h1
  obtain ⟨m, hm⟩ : ∃ m, (dir t).local_depths_ (KeyToDirectoryIndex P key (dir t)) = m + 1 :=
    ⟨_, (Nat.succ_pred_eq_of_ne_zero h0).symm⟩
  have hi := KeyToDirectoryIndex_lt P key (dir t)
  have hbro : (dir t).GetSplitImageIndex (KeyToDirectoryIndex P key (dir t)) =
      KeyToDirectoryIndex P key (dir t) ^^^ 2 ^ m := by
    unfold GetSplitImageIndex
    rw [hm, Nat.add_sub_cancel, Nat.one_shiftLeft]
  rw [hbro, hm] at h1
  have hle : m + 1 ≤ (dir t).global_depth_ := hm ▸ hd.depth_le _ hi
  have hbl : KeyToDirectoryIndex P key (dir t) ^^^ 2 ^ m < 2 ^ (dir t).global_depth_ :=
    xor_pow_lt hi (by omega)
  obtain ⟨e1, e3, _⟩ := MergeDir_spec (dir t) _ m hi hm h1.symm
  obtain ⟨g, hg, hS⟩ := ShrinkLoop_fields (MergeDir (dir t)
    (KeyToDirectoryIndex P key (dir t))).global_depth_
    (MergeDir (dir t) (KeyToDirectoryIndex P key (dir t)))
  rw [hS]
  rw [e1] at hg
  have hpow : 2 ^ g ≤ 2 ^ (dir t).global_depth_ := Nat.pow_le_pow_right (by norm_num) hg
  refine ⟨⟨h.dir_nonneg, ?_, ?_⟩, rfl, rfl⟩
  · show (updI t.dir_pages_ t.directory_page_id_ _ t.directory_page_id_).page_id_ = _
    rw [updI_same]
    show (MergeDir (dir t) _).page_id_ = _
    rw [MergeDir_page_id]
    exact h.page_id
  · intro s hs
    have hdT : dir ({ t with
        deleted_ := t.deleted_ ++ [(dir t).bucket_page_ids_ (KeyToDirectoryIndex P key (dir t))]
        dir_pages_ := updI t.dir_pages_ t.directory_page_id_
          ({ MergeDir (dir t) (KeyToDirectoryIndex P key (dir t)) with global_depth_ := g } :
            HashTableDirectoryPage) } : ExtendibleHashTable K V) =
        { MergeDir (dir t) (KeyToDirectoryIndex P key (dir t)) with global_depth_ := g } :=
      updI_same _ _ _
    rw [hdT] at hs ⊢
    have hs' : s < 2 ^ (dir t).global_depth_ := lt_of_lt_of_le hs hpow
    show 0 ≤ (MergeDir (dir t) (KeyToDirectoryIndex P key (dir t))).bucket_page_ids_ s
    rw [e3 s hs']
    split
    · exact h.nonneg _ hbl
    · exact h.nonneg _ hs'

end ExtendibleHashTable

end Bustub

namespace Bustub

namespace ExtendibleHashTable

open HashTableDirectoryPage HashTableBucketPage BufferPoolManagerInstance

variable {K V : Type}

/-- The three ways in which `Insert` returns on a table that satisfies the invariant: the
bucket has room; the bucket is full and cannot be split; the bucket is split, the split keeps
the invariant, and the `Insert` that follows returns. -/
theorem Insert_succ_cases [DecidableEq V] [Inhabited K] [Inhabited V] (P : Params K)
    (hcmp : ∀ a b, P.comparator_ a b = 0 ↔ a = b) (fuel : Nat)
    {t t' : ExtendibleHashTable K V} {key : K} {value : V} {res : Bool} (hI : Inv P t)
    (h : Insert P (fuel + 1) t key value = .ok (t', res)) :
    ((t.bucket_pages_ ((dir t).bucket_page_ids_ (KeyToDirectoryIndex P key (dir t)))).IsFull
        P.BUCKET_ARRAY_SIZE = false ∧
      ∃ b, t' = { t with bucket_pages_ := b }) ∨
    ((t.bucket_pages_ ((dir t).bucket_page_ids_ (KeyToDirectoryIndex P key (dir t)))).IsFull
        P.BUCKET_ARRAY_SIZE = true ∧
      (dir t).local_depths_ (KeyToDirectoryIndex P key (dir t)) > P.MAX_BUCKET_DEPTH ∧
      t' = t) ∨
    ((t.bucket_pages_ ((dir t).bucket_page_ids_ (KeyToDirectoryIndex P key (dir t)))).IsFull
        P.BUCKET_ARRAY_SIZE = true ∧
      (dir t).local_depths_ (KeyToDirectoryIndex P key (dir t)) ≤ P.MAX_BUCKET_DEPTH ∧
      ∃ sb bb r2, Split P t key = .ok (some (SplitResult P t key sb bb)) ∧
        Inv P (SplitResult P t key sb bb) ∧
        Insert P fuel (SplitResult P t key sb bb) key value = .ok (t', r2)) := by
  rw [Insert_succ P fuel hI.created] at h
  split at h
  · rename_i hfull
    right
    by_cases hdep : (dir t).local_depths_ (KeyToDirectoryIndex P key (dir t)) ≤
        P.MAX_BUCKET_DEPTH
    · right
      obtain ⟨sb, bb, hS, hsb, hbb⟩ := Split_ok P hcmp hI key hdep
      rw [hS] at h
      simp only [] at h
      by_cases hbad : ∃ e, e ∈ (t.bucket_pages_ ((dir t).bucket_page_ids_
          (KeyToDirectoryIndex P key (dir t)))).GetArrayCopy P.BUCKET_ARRAY_SIZE ∧
          Hash P e.1 % 2 ^ ((dir t).local_depths_ (KeyToDirectoryIndex P key (dir t)) + 1) ≠
            KeyToDirectoryIndex P key (dir t) ^^^
              2 ^ (dir t).local_depths_ (KeyToDirectoryIndex P key (dir t)) ∧
          Hash P e.1 % 2 ^ ((dir t).local_depths_ (KeyToDirectoryIndex P key (dir t)) + 1) ≠
            KeyToDirectoryIndex P key (dir t) %
              2 ^ ((dir t).local_depths_ (KeyToDirectoryIndex P key (dir t)) + 1)
      · obtain ⟨err, herr⟩ := Insert_SplitResult_error P hI key rfl rfl rfl hfull sb bb hsb
          hbad fuel value
        rw [herr] at h
        cases h
      · have hI1 := Inv_SplitResult P hI key rfl rfl rfl hdep sb bb hsb hbb
          (fun e he h1 => by
            by_contra h2
            exact hbad ⟨e, he, h1, h2⟩)
        cases hins : Insert P fuel (SplitResult P t key sb bb) key value with
        | error err =>
          rw [hins] at h
          cases h
        | ok r =>
          rw [hins] at h
          obtain ⟨t2, r2⟩ := r
          simp only [Except.ok.injEq, Prod.mk.injEq] at h
          refine ⟨hfull, hdep, sb, bb, r2, hS, hI1, ?_⟩
          rw [← h.1]
          exact hins
    · left
      rw [Split_eq P hI.created, if_pos (by omega)] at h
      simp only [Except.ok.injEq, Prod.mk.injEq] at h
      exact ⟨hfull, by omega, h.1.symm⟩
  · rename_i hfull
    left
    simp only [Except.ok.injEq, Prod.mk.injEq] at h
    exact ⟨by simpa using hfull, _, h.1.symm⟩

theorem FetchDirectoryPageCalls_created (D : Type) [Inhabited K] [Inhabited V]
    {t : ExtendibleHashTable K V} (hc : t.directory_page_id_ ≠ INVALID_PAGE_ID) :
    FetchDirectoryPageCalls D t = [.FetchPage t.directory_page_id_] := by
  unfold FetchDirectoryPageCalls
  rw [FetchDirectoryPage_of_created hc]
  simp only [if_neg hc, List.nil_append]

theorem GetValueCalls_created (D : Type) [Inhabited K] [Inhabited V] (P : Params K)
    {t : ExtendibleHashTable K V} (hc : t.directory_page_id_ ≠ INVALID_PAGE_ID) (key : K) :
    GetValueCalls D P t key =
      [.FetchPage t.directory_page_id_,
        .FetchPage ((dir t).bucket_page_ids_ (KeyToDirectoryIndex P key (dir t))),
        .UnpinPage ((dir t).bucket_page_ids_ (KeyToDirectoryIndex P key (dir t))) false,
        .UnpinPage (dir t).page_id_ false] := by
  unfold GetValueCalls
  rw [FetchDirectoryPageCalls_created D hc, FetchDirectoryPage_of_created hc]
  rfl

theorem InsertCalls_succ (D : Type) [DecidableEq V] [Inhabited K] [Inhabited V] (P : Params K)
    (fuel : Nat) {t : ExtendibleHashTable K V} (hc : t.directory_page_id_ ≠ INVALID_PAGE_ID)
    (key : K) (value : V) :
    InsertCalls D P (fuel + 1) t key value =
      if (t.bucket_pages_ ((dir t).bucket_page_ids_ (KeyToDirectoryIndex P key (dir t)))).IsFull
          P.BUCKET_ARRAY_SIZE = true then
        [.FetchPage t.directory_page_id_,
          .FetchPage ((dir t).bucket_page_ids_ (KeyToDirectoryIndex P key (dir t))),
          .UnpinPage ((dir t).bucket_page_ids_ (KeyToDirectoryIndex P key (dir t))) false,
          .UnpinPage (dir t).page_id_ false] ++
        (if (dir t).local_depths_ (KeyToDirectoryIndex P key (dir t)) > P.MAX_BUCKET_DEPTH then
          [.FetchPage t.directory_page_id_, .UnpinPage (dir t).page_id_ false]
        else
          match Split P t key with
          | .ok (some t1) =>
            [.FetchPage t.directory_page_id_,
              .FetchPage (KeyToPageId P key (SplitDir0 P (dir t) key)), .NewPage,
              .UnpinPage (KeyToPageId P key (SplitDir0 P (dir t) key)) true,
              .UnpinPage t.next_page_id_ true, .UnpinPage (dir t1).page_id_ true] ++
              InsertCalls D P fuel t1 key value
          | _ => [.FetchPage t.directory_page_id_,
              .FetchPage (KeyToPageId P key (SplitDir0 P (dir t) key)), .NewPage])
      else
        [.FetchPage t.directory_page_id_,
          .FetchPage ((dir t).bucket_page_ids_ (KeyToDirectoryIndex P key (dir t))),
          .UnpinPage ((dir t).bucket_page_ids_ (KeyToDirectoryIndex P key (dir t))) true,
          .UnpinPage (dir t).page_id_ false] := by
  rw [InsertCalls]
  simp only [FetchDirectoryPage_of_created hc, FetchDirectoryPageCalls_created D hc]
  by_cases hf : (t.bucket_pages_ ((dir t).bucket_page_ids_
      (KeyToDirectoryIndex P key (dir t)))).IsFull P.BUCKET_ARRAY_SIZE = true
  · rw [if_pos hf]
    have hf' : (t.bucket_pages_ (KeyToPageId P key (t.dir_pages_ t.directory_page_id_))).IsFull
        P.BUCKET_ARRAY_SIZE = true := hf
    simp only [hf', Bool.not_true, Bool.false_eq_true, if_false]
    rw [SplitInsertCalls]
    simp only [FetchDirectoryPage_of_created hc, FetchDirectoryPageCalls_created D hc]
    by_cases hdep : (dir t).local_depths_ (KeyToDirectoryIndex P key (dir t)) >
        P.MAX_BUCKET_DEPTH
    · rw [if_pos hdep]
      have hdep' : (t.dir_pages_ t.directory_page_id_).GetLocalDepth
          (KeyToDirectoryIndex P key (t.dir_pages_ t.directory_page_id_)) >
          P.MAX_BUCKET_DEPTH := hdep
      rw [if_pos hdep']
      rfl
    · rw [if_neg hdep]
      have hdep' : ¬ (t.dir_pages_ t.directory_page_id_).GetLocalDepth
          (KeyToDirectoryIndex P key (t.dir_pages_ t.directory_page_id_)) >
          P.MAX_BUCKET_DEPTH := hdep
      rw [if_neg hdep']
      cases hS : Split P t key with
      | error e => rfl
      | ok r =>
        cases r with
        | none => rfl
        | some t1 => rfl
  · rw [if_neg hf]
    have hf' : (t.bucket_pages_ (KeyToPageId P key (t.dir_pages_ t.directory_page_id_))).IsFull
        P.BUCKET_ARRAY_SIZE = false := by
      simpa using hf
    simp only [hf', Bool.not_false, if_true]
    rfl

end ExtendibleHashTable

end Bustub

namespace Bustub

namespace ExtendibleHashTable

open HashTableDirectoryPage HashTableBucketPage BufferPoolManagerInstance

variable {K V : Type}

/-- The ids the table asks the pool for are allocated. -/
theorem ids_allocated (P : Params K) {t : ExtendibleHashTable K V} (hI : Inv P t)
    (hA : Alloc t) :
    (t.directory_page_id_ ≠ INVALID_PAGE_ID ∧ t.directory_page_id_ < t.next_page_id_) ∧
    ∀ s, s < 2 ^ (dir t).global_depth_ →
      (dir t).bucket_page_ids_ s ≠ INVALID_PAGE_ID ∧
        (dir t).bucket_page_ids_ s < t.next_page_id_ := by
  refine ⟨⟨hI.created, hI.dir_lt⟩, fun s hs => ⟨?_, hI.fresh s hs⟩⟩
  have := hA.nonneg s hs
  show (dir t).bucket_page_ids_ s ≠ -1
  omega

theorem GetValue_pins (D : Type) [Inhabited K] [Inhabited V] (P : Params K)
    {t : ExtendibleHashTable K V} (hI : Inv P t) (hA : Alloc t) (key : K) :
    (∀ p h, pinsHeld p t.next_page_id_ (GetValueCalls D P t key) h = some h) ∧
    newPages (GetValueCalls D P t key) = 0 := by
  obtain ⟨hd, hb⟩ := ids_allocated P hI hA
  rw [GetValueCalls_created D P hI.created, hA.page_id]
  exact ⟨fun p h => pinsHeld_fetch_fetch p _ _ hd (hb _ (KeyToDirectoryIndex_lt P key _)) h,
    rfl⟩

/-- The calls of `Merge` leave no pin behind; they need the ids of the directory only. -/
theorem Merge_pins (D : Type) [Inhabited K] [Inhabited V] (P : Params K)
    {t : ExtendibleHashTable K V}
    (hd : t.directory_page_id_ ≠ INVALID_PAGE_ID ∧ t.directory_page_id_ < t.next_page_id_)
    (hb : ∀ s, s < 2 ^ (dir t).global_depth_ →
      (dir t).bucket_page_ids_ s ≠ INVALID_PAGE_ID ∧
        (dir t).bucket_page_ids_ s < t.next_page_id_)
    (hpg : (dir t).page_id_ = t.directory_page_id_) (key : K) :
    (∀ p h, pinsHeld p t.next_page_id_ (MergeCalls D P t key) h = some h) ∧
    newPages (MergeCalls D P t key) = 0 := by
  have hx := hb _ (KeyToDirectoryIndex_lt P key (dir t))
  unfold MergeCalls
  rw [FetchDirectoryPageCalls_created D hd.1, FetchDirectoryPage_of_created hd.1]
  simp only [GetPageId]
  have e1 : (t.dir_pages_ t.directory_page_id_).page_id_ = t.directory_page_id_ := hpg
  rw [e1]
  split
  · exact ⟨fun p h => pinsHeld_fetch_unpin p _ hd h, rfl⟩
  · split
    · exact ⟨fun p h => pinsHeld_fetch_unpin p _ hd h, rfl⟩
    · split
      · exact ⟨fun p h => pinsHeld_fetch_fetch p _ _ hd hx h, rfl⟩
      · exact ⟨fun p h => pinsHeld_merge p _ _ hd hx h, rfl⟩

theorem Remove_pins (D : Type) [DecidableEq V] [Inhabited K] [Inhabited V] (P : Params K)
    {t t' : ExtendibleHashTable K V} {key : K} {value : V} {res : Bool}
    (hI : Inv P t) (hA : Alloc t) (hr : Remove P t key value = .ok (t', res)) :
    Alloc t' ∧ (∀ p h, pinsHeld p t.next_page_id_ (RemoveCalls D P t key value) h = some h) ∧
    newPages (RemoveCalls D P t key value) = 0 ∧ t'.next_page_id_ = t.next_page_id_ ∧
    t'.directory_page_id_ = t.directory_page_id_ := by
  obtain ⟨hd, hb⟩ := ids_allocated P hI hA
  have hx := hb _ (KeyToDirectoryIndex_lt P key (dir t))
  unfold Remove at hr
  unfold RemoveCalls
  rw [FetchDirectoryPage_of_created hI.created] at hr
  rw [FetchDirectoryPageCalls_created D hI.created, FetchDirectoryPage_of_created hI.created]
  simp only [GetPageId]
  have e1 : (t.dir_pages_ t.directory_page_id_).page_id_ = t.directory_page_id_ := hA.page_id
  rw [e1]
  dsimp only at hr
  cases hrem : (t.bucket_pages_ (KeyToPageId P key (t.dir_pages_ t.directory_page_id_))).Remove
      P.BUCKET_ARRAY_SIZE P.comparator_ key value with
  | mk b' r =>
    rw [hrem] at hr
    dsimp only at hr ⊢
    have hblock : ∀ (p : Int) (h : Nat), pinsHeld (D := D) p t.next_page_id_
        [.FetchPage t.directory_page_id_,
          .FetchPage (KeyToPageId P key (t.dir_pages_ t.directory_page_id_)),
          .UnpinPage (KeyToPageId P key (t.dir_pages_ t.directory_page_id_)) true,
          .UnpinPage t.directory_page_id_ false] h = some h :=
      fun p h => pinsHeld_fetch_fetch p _ _ hd hx h
    obtain ⟨t1, ht1⟩ : ∃ t1 : ExtendibleHashTable K V, t1 = { t with
        bucket_pages_ := updI t.bucket_pages_
          (KeyToPageId P key (t.dir_pages_ t.directory_page_id_)) b' } := ⟨_, rfl⟩
    rw [← ht1] at hr ⊢
    have hA1 : Alloc t1 := by
      rw [ht1]
      exact Alloc_setBucket hA _
    have hn1 : t1.next_page_id_ = t.next_page_id_ := by rw [ht1]
    have hi1 : t1.directory_page_id_ = t.directory_page_id_ := by rw [ht1]
    have hdir1 : dir t1 = dir t := by rw [ht1]; rfl
    by_cases he : b'.IsEmpty P.BUCKET_ARRAY_SIZE = true
    · rw [if_pos he] at hr
      rw [if_pos he]
      cases hm : Merge P t1 key with
      | error e =>
        rw [hm] at hr
        cases hr
      | ok t2 =>
        rw [hm] at hr
        simp only [Except.ok.injEq, Prod.mk.injEq] at hr
        obtain ⟨hA2, hn2, hd2⟩ := Alloc_Merge P (by rw [hi1]; exact hI.created)
          (by rw [hdir1]; exact hI.dirInv) hA1 key hm
        obtain ⟨hp2, hk2⟩ := Merge_pins D P (t := t1) (by rw [hi1, hn1]; exact hd)
          (by rw [hdir1, hn1]; exact hb) (by rw [hdir1, hi1]; exact hA.page_id) key
        rw [← hr.1]
        refine ⟨hA2, fun p h => ?_, ?_, hn2.trans hn1, hd2.trans hi1⟩
        · show pinsHeld p t.next_page_id_
            ([.FetchPage t.directory_page_id_,
              .FetchPage (KeyToPageId P key (t.dir_pages_ t.directory_page_id_)),
              .UnpinPage (KeyToPageId P key (t.dir_pages_ t.directory_page_id_)) true,
              .UnpinPage t.directory_page_id_ false] ++ MergeCalls D P t1 key) h = some h
          rw [pinsHeld_block p (k := 0) (hblock p) rfl]
          have := hp2 p h
          rw [hn1] at this
          simpa using this
        · show newPages ([.FetchPage t.directory_page_id_,
              .FetchPage (KeyToPageId P key (t.dir_pages_ t.directory_page_id_)),
              .UnpinPage (KeyToPageId P key (t.dir_pages_ t.directory_page_id_)) true,
              .UnpinPage t.directory_page_id_ false] ++ MergeCalls D P t1 key) = 0
          rw [newPages_append, hk2]
          rfl
    · rw [if_neg he] at hr
      rw [if_neg he]
      simp only [Except.ok.injEq, Prod.mk.injEq] at hr
      rw [← hr.1]
      exact ⟨hA1, fun p h => hblock p h, rfl, hn1, hi1⟩

end ExtendibleHashTable

end Bustub

namespace Bustub

namespace ExtendibleHashTable

open HashTableDirectoryPage HashTableBucketPage BufferPoolManagerInstance

variable {K V : Type}

/-- The calls of `Insert`, with the splits it goes through, leave no pin behind, and every
split takes one new page. -/
theorem Insert_pins (D : Type) [DecidableEq V] [Inhabited K] [Inhabited V] (P : Params K)
    (hcmp : ∀ a b, P.comparator_ a b = 0 ↔ a = b) (fuel : Nat) :
    ∀ {t t' : ExtendibleHashTable K V} {key : K} {value : V} {res : Bool}, Inv P t → Alloc t →
      Insert P fuel t key value = .ok (t', res) →
      Alloc t' ∧
      (∀ p h, pinsHeld p t.next_page_id_ (InsertCalls D P fuel t key value) h = some h) ∧
      t'.next_page_id_ = t.next_page_id_ + (newPages (InsertCalls D P fuel t key value) : Int) ∧
      t'.directory_page_id_ = t.directory_page_id_ := by
  induction fuel with
  | zero =>
    intro t t' key value res _ _ h
    rw [Insert_zero] at h
    cases h
  | succ fuel ih =>
    intro t t' key value res hI hA h
    obtain ⟨hd, hb⟩ := ids_allocated P hI hA
    have hx := hb _ (KeyToDirectoryIndex_lt P key (dir t))
    have hB1 : ∀ (f : Bool) (p : Int) (h : Nat), pinsHeld (D := D) p t.next_page_id_
        [.FetchPage t.directory_page_id_,
          .FetchPage ((dir t).bucket_page_ids_ (KeyToDirectoryIndex P key (dir t))),
          .UnpinPage ((dir t).bucket_page_ids_ (KeyToDirectoryIndex P key (dir t))) f,
          .UnpinPage t.directory_page_id_ false] h = some h :=
      fun f p h => pinsHeld_fetch_fetch p _ _ hd hx h
    rw [InsertCalls_succ D P fuel hI.created, hA.page_id]
    rcases Insert_succ_cases P hcmp fuel hI h with ⟨hf, b, e⟩ | ⟨hf, hdep, e⟩ |
      ⟨hf, hdep, sb, bb, r2, hS, hI1, hins⟩
    · rw [if_neg (by rw [hf]; simp)]
      subst e
      exact ⟨Alloc_setBucket hA _, fun p h => hB1 true p h, by simp [newPages], rfl⟩
    · rw [if_pos hf, if_pos hdep]
      subst e
      refine ⟨hA, fun p h => ?_, ?_, rfl⟩
      · rw [pinsHeld_block p (k := 0) (hB1 false p) rfl]
        simp only [Nat.cast_zero, add_zero]
        exact pinsHeld_fetch_unpin p _ hd h
      · rw [newPages_append]
        simp [newPages]
    · rw [if_pos hf, if_neg (by omega), hS]
      simp only []
      have hA1 := Alloc_SplitResult P hI hA key sb bb
      obtain ⟨a1, a2, a3, a4⟩ := ih hI1 hA1 hins
      have hn1 : (SplitResult P t key sb bb).next_page_id_ = t.next_page_id_ + 1 := rfl
      have hi1 : (SplitResult P t key sb bb).directory_page_id_ = t.directory_page_id_ := rfl
      rw [hA1.page_id, hi1, KeyToPageId_SplitDir0]
      refine ⟨a1, fun p h => ?_, ?_, a4.trans hi1⟩
      · rw [pinsHeld_block p (k := 0) (hB1 false p) rfl]
        simp only [Nat.cast_zero, add_zero]
        rw [pinsHeld_block p (k := 1) (fun h => pinsHeld_split p _ _ _ hd hx h) rfl]
        have := a2 p h
        rw [hn1] at this
        exact this
      · rw [a3, hn1, newPages_append, newPages_append]
        simp only [newPages]
        push_cast
        omega

/-- On first use the calls start with the two `NewPage` calls and the two unpins of
`FetchDirectoryPage`; the rest is as on the table with its directory page. -/
theorem FetchDirectoryPageCalls_new (D : Type) [Inhabited K] [Inhabited V] :
    FetchDirectoryPageCalls D (new : ExtendibleHashTable K V) =
      [.NewPage, .NewPage, .UnpinPage 0 true, .UnpinPage 1 true] ++
        FetchDirectoryPageCalls D (new : ExtendibleHashTable K V).FetchDirectoryPage := by
  rw [FetchDirectoryPageCalls_created D (new_created (K := K) (V := V))]
  rfl

theorem GetValueCalls_new (D : Type) [Inhabited K] [Inhabited V] (P : Params K) (key : K) :
    GetValueCalls D P (new : ExtendibleHashTable K V) key =
      [.NewPage, .NewPage, .UnpinPage 0 true, .UnpinPage 1 true] ++
        GetValueCalls D P (new : ExtendibleHashTable K V).FetchDirectoryPage key := by
  unfold GetValueCalls
  rw [FetchDirectoryPageCalls_new, FetchDirectoryPage_of_created (new_created (K := K) (V := V))]
  simp only [List.append_assoc]

theorem InsertCalls_new (D : Type) [DecidableEq V] [Inhabited K] [Inhabited V] (P : Params K)
    (fuel : Nat) (key : K) (value : V) :
    InsertCalls D P (fuel + 1) (new : ExtendibleHashTable K V) key value =
      [.NewPage, .NewPage, .UnpinPage 0 true, .UnpinPage 1 true] ++
        InsertCalls D P (fuel + 1) (new : ExtendibleHashTable K V).FetchDirectoryPage key
          value := by
  rw [InsertCalls, InsertCalls]
  rw [FetchDirectoryPageCalls_new, FetchDirectoryPage_of_created (new_created (K := K) (V := V))]
  split
  · simp only [List.append_assoc]
  · simp only [List.append_assoc]

theorem RemoveCalls_new (D : Type) [DecidableEq V] [Inhabited K] [Inhabited V] (P : Params K)
    (key : K) (value : V) :
    RemoveCalls D P (new : ExtendibleHashTable K V) key value =
      [.NewPage, .NewPage, .UnpinPage 0 true, .UnpinPage 1 true] ++
        RemoveCalls D P (new : ExtendibleHashTable K V).FetchDirectoryPage key value := by
  unfold RemoveCalls
  rw [FetchDirectoryPageCalls_new, FetchDirectoryPage_of_created (new_created (K := K) (V := V))]
  simp only []
  split
  · simp only [List.append_assoc]
  · simp only [List.append_assoc]

/-- Every reachable table is the newly constructed one or satisfies the invariant with ids
that the pool has handed out. -/
theorem Reachable_alloc [DecidableEq V] [Inhabited K] [Inhabited V] (P : Params K)
    (hcmp : ∀ a b, P.comparator_ a b = 0 ↔ a = b) {t : ExtendibleHashTable K V}
    (h : Reachable P t) : t = new ∨ (Inv P t ∧ Alloc t) := by
  induction h with
  | new => exact Or.inl rfl
  | @insert t0 t1 key value res hprev hins ih =>
    right
    have hI1 : Inv P t1 := by
      rcases Reachable_cases P hcmp (Reachable.insert hprev hins) with e | hI
      · exfalso
        unfold insert at hins
        rcases ih with h0 | ⟨hI0, hA0⟩
        · subst h0
          rw [Insert_FetchDirectoryPage P _ (new_created (K := K) (V := V))] at hins
          have := (Insert_pins Unit P hcmp _ (Inv_created_new (V := V) P) Alloc_created_new
            hins).2.2.2
          rw [e] at this
          exact new_created (K := K) (V := V) this.symm
        · have := (Insert_pins Unit P hcmp _ hI0 hA0 hins).2.2.2
          rw [e] at this
          exact hI0.created this.symm
      · exact hI
    refine ⟨hI1, ?_⟩
    unfold insert at hins
    rcases ih with h0 | ⟨hI0, hA0⟩
    · subst h0
      rw [Insert_FetchDirectoryPage P _ (new_created (K := K) (V := V))] at hins
      exact (Insert_pins Unit P hcmp _ (Inv_created_new (V := V) P) Alloc_created_new hins).1
    · exact (Insert_pins Unit P hcmp _ hI0 hA0 hins).1
  | @remove t0 t1 key value res hprev hrem ih =>
    right
    rcases ih with h0 | ⟨hI0, hA0⟩
    · subst h0
      rw [Remove_FetchDirectoryPage P (new_created (K := K) (V := V))] at hrem
      obtain ⟨t', res', h1, h2, _⟩ := Remove_spec P hcmp (Inv_created_new (V := V) P) key value
      have hA := (Remove_pins Unit P (Inv_created_new (V := V) P) Alloc_created_new hrem).1
      rw [h1] at hrem
      cases hrem
      exact ⟨h2, hA⟩
    · obtain ⟨t', res', h1, h2, _⟩ := Remove_spec P hcmp hI0 key value
      have hA := (Remove_pins Unit P hI0 hA0 hrem).1
      rw [h1] at hrem
      cases hrem
      exact ⟨h2, hA⟩
  | getValue key result _ ih =>
    right
    show Inv P (FetchDirectoryPage _) ∧ Alloc (FetchDirectoryPage _)
    rcases ih with h0 | ⟨hI, hA⟩
    · subst h0
      exact ⟨Inv_created_new P, Alloc_created_new⟩
    · rw [FetchDirectoryPage_of_created hI.created]
      exact ⟨hI, hA⟩

end ExtendibleHashTable

end Bustub

namespace Bustub

namespace BufferPoolManagerInstance

variable {D : Type}

/-- A run in which every call gives the required result is a run. -/
theorem runCalls_of_runAsserted [Inhabited D] (cs : List (PoolCall D)) :
    ∀ {m m' : BufferPoolManagerInstance D}, runAsserted m cs = .ok m' →
      runCalls m cs = .ok m' := by
  induction cs with
  | nil => exact fun h => h
  | cons c cs ih =>
    intro m m' h
    cases hc : m.call c with
    | error e =>
      simp only [runAsserted, hc] at h
      cases h
    | ok r =>
      obtain ⟨fr, res, m1⟩ := r
      simp only [runAsserted, hc] at h
      split at h
      · simp only [runCalls, hc]
        exact ih h
      · cases h

/-- Calls that fetch allocated pages only keep the pool among the states reached by such
calls. -/
theorem ReachableAllocated_runAsserted [Inhabited D] (p : Int) (cs : List (PoolCall D)) :
    ∀ {m m' : BufferPoolManagerInstance D} {held held' : Nat}, ReachableAllocated m →
      m.num_instances_ = 1 → pinsHeld p m.next_page_id_ cs held = some held' →
      runAsserted m cs = .ok m' → ReachableAllocated m' := by
  induction cs with
  | nil =>
    intro m m' held held' hm _ _ hr
    simp only [runAsserted, Except.ok.injEq] at hr
    exact hr ▸ hm
  | cons c cs ih =>
    intro m m' held held' hm h1 hh hr
    have hI := (Sane_of_ReachableAllocated hm).inv
    cases hc : m.call c with
    | error e =>
      simp only [runAsserted, hc] at hr
      cases hr
    | ok r =>
      obtain ⟨fr, res, m1⟩ := r
      simp only [runAsserted, hc] at hr
      split at hr
      swap
      · cases hr
      rename_i hpass
      cases c with
      | NewPage =>
        simp only [passes, Option.isSome_iff_exists] at hpass
        obtain ⟨f, hf⟩ := hpass
        subst hf
        obtain ⟨_, hnx, hni⟩ := handsOut_NewPage hc p
        rw [h1] at hnx
        simp only [pinsHeld] at hh
        have hnx' : m.next_page_id_ + 1 = m1.next_page_id_ := by
          rw [hnx]
          rfl
        rw [hnx'] at hh
        exact ih (ReachableAllocated.step PoolCall.NewPage hm rfl hc) (hni.trans h1) hh hr
      | FetchPage q =>
        simp only [pinsHeld] at hh
        split at hh
        swap
        · cases hh
        rename_i hq
        have ha : m.fetchesAllocated (PoolCall.FetchPage q) = true := by
          simp only [fetchesAllocated, Bool.and_eq_true, decide_eq_true_eq]
          exact hq
        obtain ⟨hnx, hni⟩ := counter_call hI _ (by simp) hc
        rw [← hnx] at hh
        exact ih (ReachableAllocated.step _ hm ha hc) (hni.trans h1) hh hr
      | UnpinPage q d =>
        obtain ⟨hnx, hni⟩ := counter_call hI _ (by simp) hc
        simp only [pinsHeld] at hh
        rw [← hnx] at hh
        split at hh
        · split at hh
          · cases hh
          · exact ih (ReachableAllocated.step (PoolCall.UnpinPage q d) hm rfl hc)
              (hni.trans h1) hh hr
        · exact ih (ReachableAllocated.step (PoolCall.UnpinPage q d) hm rfl hc)
            (hni.trans h1) hh hr
      | DeletePage q =>
        obtain ⟨hnx, hni⟩ := counter_call hI _ (by simp) hc
        simp only [pinsHeld] at hh
        rw [← hnx] at hh
        exact ih (ReachableAllocated.step (PoolCall.DeletePage q) hm rfl hc)
          (hni.trans h1) hh hr
      | FlushPage q =>
        obtain ⟨hnx, hni⟩ := counter_call hI _ (by simp) hc
        simp only [pinsHeld] at hh
        rw [← hnx] at hh
        exact ih (ReachableAllocated.step (PoolCall.FlushPage q) hm rfl hc)
          (hni.trans h1) hh hr
      | Write g d =>
        obtain ⟨hnx, hni⟩ := counter_call hI _ (by simp) hc
        simp only [pinsHeld] at hh
        rw [← hnx] at hh
        exact ih (ReachableAllocated.step (PoolCall.Write g d) hm rfl hc)
          (hni.trans h1) hh hr

end BufferPoolManagerInstance

namespace ExtendibleHashTable

open HashTableDirectoryPage HashTableBucketPage BufferPoolManagerInstance

variable {K V : Type}

/-- The calls of first use before the rest of a sequence. -/
theorem pins_first_use (D : Type) [Inhabited K] [Inhabited V] (rest : List (PoolCall D)) :
    (∀ p h, pinsHeld p (new : ExtendibleHashTable K V).next_page_id_
      ([.NewPage, .NewPage, .UnpinPage 0 true, .UnpinPage 1 true] ++ rest) h =
      pinsHeld p (new : ExtendibleHashTable K V).FetchDirectoryPage.next_page_id_ rest h) ∧
    newPages ([.NewPage, .NewPage, .UnpinPage 0 true, .UnpinPage 1 true] ++ rest) =
      newPages rest + 2 := by
  refine ⟨fun p h => ?_, ?_⟩
  · show pinsHeld p 0
      ([.NewPage, .NewPage, .UnpinPage 0 true, .UnpinPage (0 + 1) true] ++ rest) h =
      pinsHeld p (0 + ((2 : Nat) : Int)) rest h
    rw [pinsHeld_block p (k := 2) (fun h => pinsHeld_create p 0 true true h) rfl]
  · rw [newPages_append]
    simp [newPages]
    omega

/-- The calls of each public operation on a reachable table leave no pin behind and ask for
allocated pages only, and the table afterwards has counted the pages they take. -/
theorem op_pins (D : Type) [DecidableEq V] [Inhabited K] [Inhabited V] (P : Params K)
    (hcmp : ∀ a b, P.comparator_ a b = 0 ↔ a = b) {t t' : ExtendibleHashTable K V}
    (ht : Reachable P t) {cs : List (PoolCall D)}
    (hcs : (∃ key result, t' = (GetValue P t key result).1 ∧ cs = GetValueCalls D P t key) ∨
      (∃ key value res, insert P t key value = .ok (t', res) ∧
        cs = insertCalls D P t key value) ∨
      (∃ key value res, Remove P t key value = .ok (t', res) ∧
        cs = RemoveCalls D P t key value)) :
    (∀ p h, pinsHeld p t.next_page_id_ cs h = some h) ∧
    t'.next_page_id_ = t.next_page_id_ + (newPages cs : Int) := by
  have hI0 := Inv_created_new (V := V) P
  have hA0 := Alloc_created_new (K := K) (V := V)
  have hc0 := new_created (K := K) (V := V)
  have hn0 : (new : ExtendibleHashTable K V).next_page_id_ = 0 := rfl
  have hn2 : (new : ExtendibleHashTable K V).FetchDirectoryPage.next_page_id_ = 2 := rfl
  rcases hcs with ⟨key, result, e1, e2⟩ | ⟨key, value, res, e1, e2⟩ | ⟨key, value, res, e1, e2⟩
  · subst e2
    have e1' : t' = t.FetchDirectoryPage := e1
    rcases Reachable_alloc P hcmp ht with h0 | ⟨hI, hA⟩
    · subst h0
      obtain ⟨a, b⟩ := GetValue_pins D P hI0 hA0 key
      obtain ⟨c, d⟩ := pins_first_use (K := K) (V := V) D
        (GetValueCalls D P (new : ExtendibleHashTable K V).FetchDirectoryPage key)
      rw [GetValueCalls_new, e1']
      refine ⟨fun p h => (c p h).trans (a p h), ?_⟩
      rw [d, b, hn0, hn2]
      rfl
    · obtain ⟨a, b⟩ := GetValue_pins D P hI hA key
      rw [e1', FetchDirectoryPage_of_created hI.created, b]
      exact ⟨a, by simp⟩
  · subst e2
    unfold insert at e1
    unfold insertCalls
    rcases Reachable_alloc P hcmp ht with h0 | ⟨hI, hA⟩
    · subst h0
      rw [Insert_FetchDirectoryPage P _ hc0] at e1
      obtain ⟨_, a, b, _⟩ := Insert_pins D P hcmp (P.MAX_BUCKET_DEPTH + 1 + 1) hI0 hA0 e1
      obtain ⟨c, d⟩ := pins_first_use (K := K) (V := V) D
        (InsertCalls D P (P.MAX_BUCKET_DEPTH + 1 + 1)
          (new : ExtendibleHashTable K V).FetchDirectoryPage key value)
      rw [show P.MAX_BUCKET_DEPTH + 2 = P.MAX_BUCKET_DEPTH + 1 + 1 from rfl, InsertCalls_new]
      refine ⟨fun p h => (c p h).trans (a p h), ?_⟩
      rw [d, b, hn0, hn2]
      push_cast
      omega
    · obtain ⟨_, a, b, _⟩ := Insert_pins D P hcmp _ hI hA e1
      exact ⟨a, b⟩
  · subst e2
    rcases Reachable_alloc P hcmp ht with h0 | ⟨hI, hA⟩
    · subst h0
      rw [Remove_FetchDirectoryPage P hc0] at e1
      obtain ⟨_, a, b, b', _⟩ := Remove_pins D P hI0 hA0 e1
      obtain ⟨c, d⟩ := pins_first_use (K := K) (V := V) D
        (RemoveCalls D P (new : ExtendibleHashTable K V).FetchDirectoryPage key value)
      rw [RemoveCalls_new]
      refine ⟨fun p h => (c p h).trans (a p h), ?_⟩
      rw [d, b, b', hn0, hn2]
      rfl
    · obtain ⟨_, a, b, b', _⟩ := Remove_pins D P hI hA e1
      rw [b, b']
      exact ⟨a, by simp⟩

end ExtendibleHashTable

end Bustub

namespace Bustub

namespace ExtendibleHashTable

open HashTableDirectoryPage HashTableBucketPage BufferPoolManagerInstance

variable {K V : Type}

/-- Pin balance in the table model, whose directory page sets no bound to its array. Let `t`
be a table reachable by `Insert`, `Remove` and `GetValue` calls and `m` a buffer pool of one
instance, reached by calls that fetch allocated pages only, whose allocation counter is the
one of the table (other users may hold pins). If the calls that a `GetValue`, an `Insert`
(with its splits) or a `Remove` (with its merge) makes to the pool all give the result the
table requires (every `NewPage` and `FetchPage` hands out a frame; the asserted `UnpinPage`
and `DeletePage` calls return true), then for every page the number of calls that hand the
page out is the number of successful unpins of it, the pin count of the page after the call
is the pin count before it, a page that was unpinned before is unpinned after and, if
resident, a candidate of the replacer, and the pool is again a pool of the table after the
call. -/
theorem table_calls_leave_no_pin {D : Type} [Inhabited D] [DecidableEq V] [Inhabited K]
    [Inhabited V] (P : Params K) (hcmp : ∀ a b, P.comparator_ a b = 0 ↔ a = b)
    (t t' : ExtendibleHashTable K V) (ht : Reachable P t)
    (m m' : BufferPoolManagerInstance D) (hm : ReachableAllocated m)
    (h1 : m.num_instances_ = 1) (hn : m.next_page_id_ = t.next_page_id_)
    (cs : List (PoolCall D))
    (hcs : (∃ key result, t' = (GetValue P t key result).1 ∧ cs = GetValueCalls D P t key) ∨
      (∃ key value res, insert P t key value = .ok (t', res) ∧
        cs = insertCalls D P t key value) ∨
      (∃ key value res, Remove P t key value = .ok (t', res) ∧
        cs = RemoveCalls D P t key value))
    (hrun : runAsserted m cs = .ok m') (p : Int) (hp : p ≠ INVALID_PAGE_ID) :
    acquisitions p m cs = unpins p m cs ∧ pinOf m' p = pinOf m p ∧
    (pinOf m p = 0 → ∀ f, m'.find p = some f →
      (m'.pages_ f).pin_count_ = 0 ∧ f ∈ m'.replacer_.lt_) ∧
    ReachableAllocated m' ∧ m'.num_instances_ = 1 ∧ m'.next_page_id_ = t'.next_page_id_ := by
  obtain ⟨hpins, hnew⟩ := op_pins D P hcmp ht hcs
  have hS := Sane_of_ReachableAllocated hm
  have hh : pinsHeld p m.next_page_id_ cs 0 = some 0 := by
    rw [hn]
    exact hpins p 0
  obtain ⟨hS', h1', hnx', hpin, hacq⟩ := pinOf_runAsserted hp cs hS h1
    (show ((0 : Nat) : Int) ≤ pinOf m p by simpa using pinOf_nonneg hS.inv p) hh hrun
  have hpin' : pinOf m' p = pinOf m p := by simpa using hpin
  refine ⟨by simpa using hacq, hpin', ?_, ReachableAllocated_runAsserted p cs hm h1 hh hrun,
    h1', by rw [hnx', hn, hnew]⟩
  intro h0 f hf
  have hz : (m'.pages_ f).pin_count_ = 0 := by
    rw [← pinOf_at hf, hpin', h0]
  refine ⟨hz, ?_⟩
  rcases hS'.inv.unpinned f (hS'.inv.table_lt p f hf) hz with hfree | hlt
  · exact absurd hf ((hS'.inv.free_pin f hfree).2.2 p)
  · exact hlt

/-- C35, refuted on the code: `Merge` changes the directory page and releases it with
`is_dirty = false`. On the reachable table `mergeableTable` (directory page 0 of global depth
1, slot 1 on the empty bucket page 2), `Remove(1, 1)` returns false and leaves a directory of
global depth 0 whose slot 1 is on page 1, and its four `UnpinPage` calls are `(2, true)`,
`(0, false)` from `Remove` and `(2, false)`, `(0, false)` from `Merge`: no unpin of page 0
carries true. On a pool of four frames in which page 0 is resident and clean after
`FlushPage(0)`, the calls of this `Remove`, with the change of the directory bytes (from 0 to
1 in frame 0) before the last unpin, leave page 0 with the bytes 1 and the dirty flag unset;
once four `NewPage` calls have evicted the page, `FetchPage(0)` hands out the bytes 0. -/
theorem C35_merge_releases_directory_clean :
    observeRemove exampleParams mergeableTable 1 1 =
      .inr (false, (1, 2), (0, 1), [(2, true), (0, false), (2, false), (0, false)]) ∧
    mergeableTable.directory_page_id_ = 0 ∧
    observeFetch 4 [.NewPage, .UnpinPage 0 true, .NewPage, .UnpinPage 1 true, .NewPage,
      .UnpinPage 2 true, .NewPage, .UnpinPage 3 true, .FlushPage 0,
      .FetchPage 0, .FetchPage 2, .UnpinPage 2 true, .UnpinPage 0 false,
      .FetchPage 0, .FetchPage 2, .UnpinPage 2 false, .DeletePage 2, .Write 0 1,
      .UnpinPage 0 false] 0 = .inr (some (0, 1, false), some 1) ∧
    observeFetch 4 [.NewPage, .UnpinPage 0 true, .NewPage, .UnpinPage 1 true, .NewPage,
      .UnpinPage 2 true, .NewPage, .UnpinPage 3 true, .FlushPage 0,
      .FetchPage 0, .FetchPage 2, .UnpinPage 2 true, .UnpinPage 0 false,
      .FetchPage 0, .FetchPage 2, .UnpinPage 2 false, .DeletePage 2, .Write 0 1,
      .UnpinPage 0 false,
      .NewPage, .UnpinPage 4 false, .NewPage, .UnpinPage 5 false, .NewPage,
      .UnpinPage 6 false, .NewPage, .UnpinPage 7 false] 0 = .inr (none, some 0) :=
  ⟨by decide!, by decide!, by decide!, by decide!⟩

end ExtendibleHashTable

end Bustub

namespace Bustub

namespace BufferPoolManagerInstance

variable {D : Type}

/-- The frame `acquire` takes: the front of the free list, else the victim of the replacer. -/
theorem acquire_of_choice {m : BufferPoolManagerInstance D} {f : Nat}
    (hf : m.free_list_.head? = some f ∨
      (m.free_list_ = [] ∧ m.replacer_.Victim.1 = some f)) :
    ∃ m1, m.acquire = (some f, m1) := by
  rcases hf with h | ⟨h1, h2⟩
  · cases hl : m.free_list_ with
    | nil =>
      rw [hl] at h
      cases h
    | cons g rest =>
      rw [hl] at h
      simp only [List.head?_cons, Option.some.injEq] at h
      subst h
      exact ⟨{ m with free_list_ := rest }, by simp only [acquire, hl]⟩
  · cases hv : m.replacer_.Victim with
    | mk v r =>
      rw [hv] at h2
      simp only at h2
      subst h2
      exact ⟨{ m with replacer_ := r }, by simp only [acquire, h1, hv]⟩

/-- C10: let frame `f` be the frame a `FetchPage` of a non-resident page or a `NewPage`
reuses (not all frames are pinned, and `f` is the front of the free list or, the free list
being empty, the victim of the replacer). Then the call hands out `f`, and its disk calls
are: one `WritePage` carrying the page id and the bytes the frame had before the call when
the frame was dirty, none when it was clean, followed for `FetchPage` by the `ReadPage` that
loads the frame; the written block is then on disk, and the frame holds the block read
(`FetchPage`) or zeroes (`NewPage`, whose `AllocatePage` passes its assertion). -/
theorem C10_dirty_frame_written_back_once [Inhabited D] (m : BufferPoolManagerInstance D)
    (f : Nat) (hp : m.all_pinned = false)
    (hf : m.free_list_.head? = some f ∨
      (m.free_list_ = [] ∧ m.replacer_.Victim.1 = some f)) :
    (∀ page_id, m.find page_id = none →
      ∃ m', m.FetchPgImp page_id = (some f, m') ∧
        m'.disk_manager_.calls_ = m.disk_manager_.calls_ ++
          (if (m.pages_ f).is_dirty_ then
            [DiskCall.WritePage (m.pages_ f).page_id_ (m.pages_ f).data_] else []) ++
          [DiskCall.ReadPage page_id] ∧
        ((m.pages_ f).is_dirty_ = true →
          m'.disk_manager_.blocks_ (m.pages_ f).page_id_ = (m.pages_ f).data_) ∧
        (m'.pages_ f).data_ = m'.disk_manager_.blocks_ page_id) ∧
    (m.ValidatePageId m.next_page_id_ = true →
      ∃ page_id m', m.NewPgImp = .ok (some (page_id, f), m') ∧
        m'.disk_manager_.calls_ = m.disk_manager_.calls_ ++
          (if (m.pages_ f).is_dirty_ then
            [DiskCall.WritePage (m.pages_ f).page_id_ (m.pages_ f).data_] else []) ∧
        ((m.pages_ f).is_dirty_ = true →
          m'.disk_manager_.blocks_ (m.pages_ f).page_id_ = (m.pages_ f).data_) ∧
        (m'.pages_ f).data_ = default) := by
  obtain ⟨m1, hacq⟩ := acquire_of_choice hf
  obtain ⟨hpages, htbl, hdisk, hni, hii, hnx, _⟩ := acquire_frame hacq
  constructor
  · intro page_id hfind
    refine ⟨_, FetchPgImp_eq hfind hp hacq hpages htbl hdisk, ?_⟩
    cases hd : (m.pages_ f).is_dirty_
    · simp [afterFetch, hd, DiskManager.ReadPage]
    · simp [afterFetch, hd, DiskManager.ReadPage, DiskManager.WritePage]
  · intro hv
    have halloc : m.next_page_id_ % (m.num_instances_ : Int) = (m.instance_index_ : Int) := by
      simpa [ValidatePageId] using hv
    refine ⟨_, _, NewPgImp_eq hp hacq hpages htbl hdisk hni hii hnx halloc, ?_⟩
    cases hd : (m.pages_ f).is_dirty_
    · simp [afterNew, hd]
    · simp [afterNew, hd, DiskManager.WritePage]

theorem C10_dirty_frame_written_back_once_witness :
    natPoolWritten.all_pinned = false ∧
    (natPoolWritten.free_list_.head? = some 0 ∨
      (natPoolWritten.free_list_ = [] ∧ natPoolWritten.replacer_.Victim.1 = some 0)) ∧
    natPoolWritten.find 5 = none ∧
    ((natPoolWritten.pages_ 0).is_dirty_ = true ∧ (natPoolWritten.pages_ 0).page_id_ = 0 ∧
      (natPoolWritten.pages_ 0).data_ = 7 ∧ natPoolWritten.disk_manager_.calls_ = []) ∧
    (∃ m', natPoolWritten.FetchPgImp 5 = (some 0, m') ∧
      m'.disk_manager_.calls_ = natPoolWritten.disk_manager_.calls_ ++
        (if (natPoolWritten.pages_ 0).is_dirty_ then
          [DiskCall.WritePage (natPoolWritten.pages_ 0).page_id_
            (natPoolWritten.pages_ 0).data_] else []) ++
        [DiskCall.ReadPage 5] ∧
      ((natPoolWritten.pages_ 0).is_dirty_ = true →
        m'.disk_manager_.blocks_ (natPoolWritten.pages_ 0).page_id_ =
          (natPoolWritten.pages_ 0).data_) ∧
      (m'.pages_ 0).data_ = m'.disk_manager_.blocks_ 5) ∧
    natPoolWritten.ValidatePageId natPoolWritten.next_page_id_ = true ∧
    (∃ page_id m', natPoolWritten.NewPgImp = .ok (some (page_id, 0), m') ∧
        m'.disk_manager_.calls_ = natPoolWritten.disk_manager_.calls_ ++
          (if (natPoolWritten.pages_ 0).is_dirty_ then
            [DiskCall.WritePage (natPoolWritten.pages_ 0).page_id_
              (natPoolWritten.pages_ 0).data_] else []) ∧
        ((natPoolWritten.pages_ 0).is_dirty_ = true →
          m'.disk_manager_.blocks_ (natPoolWritten.pages_ 0).page_id_ =
            (natPoolWritten.pages_ 0).data_) ∧
        (m'.pages_ 0).data_ = default) :=
  ⟨by decide!, Or.inr ⟨by decide!, by decide!⟩, by decide!,
    ⟨by decide!, by decide!, by decide!, rfl⟩,
    (C10_dirty_frame_written_back_once natPoolWritten 0 (by decide!)
      (Or.inr ⟨by decide!, by decide!⟩)).1 5 (by decide!),
    by decide!,
    (C10_dirty_frame_written_back_once natPoolWritten 0 (by decide!)
      (Or.inr ⟨by decide!, by decide!⟩)).2 (by decide!)⟩

end BufferPoolManagerInstance

end Bustub

namespace Bustub

namespace BufferPoolManagerInstance

variable {D : Type}

end BufferPoolManagerInstance

end Bustub

namespace Bustub

namespace ExtendibleHashTable

open HashTableDirectoryPage HashTableBucketPage

variable {K V : Type}

end ExtendibleHashTable

end Bustub

namespace Bustub

namespace ExtendibleHashTable

/-- C27, refuted on the code: after the nine `Insert` calls of `deepPairs` the key 4096 has
slot 0, of local depth 9 at global depth 9 = `MAX_BUCKET_DEPTH`, and the array of the
directory page has 2^9 = 512 entries, all in use. The split of `SplitInsert` for the key 4096
is carried out: it raises the global depth to 10 and gives the new page 11 to the split
image of slot 0, which is slot 512, the first slot past the end of the array. -/
theorem C27_split_image_past_array :
    observeSplitImage exampleParams deepPairs 4096 =
      .inr (some ((0, 9, 9), (10, 512, 11))) ∧
    DIRECTORY_ARRAY_SIZE exampleParams = 512 :=
  ⟨by decide!, by decide!⟩

/-- C28, refuted on the code: the nine `Insert` calls of `deepPairs` leave a directory of
global depth 9 whose 512 slots fill the array of the directory page; after `Insert(4096,
4096)` the directory has global depth 10 and 1024 slots, twice the 512 entries of the array:
the slots 512 to 1023, over which the invariant ranges, are not in the page. -/
theorem C28_directory_outgrows_array :
    observeDirectory exampleParams deepPairs = .inr (9, 512) ∧
    observeDirectory exampleParams (deepPairs ++ [(4096, 4096)]) = .inr (10, 1024) ∧
    DIRECTORY_ARRAY_SIZE exampleParams = 512 :=
  ⟨by decide!, by decide!, by decide!⟩

end ExtendibleHashTable

namespace OnPool

namespace ExtendibleHashTable

open Bustub.ExtendibleHashTable (exampleParams)

/-- C2, refuted on the code: on a table over a pool of three frames, after the calls of
`mergeCalls` (twelve table operations that return true, then `GetValue(3)`, which finds the
value 3), `GetValue(3)`, `Remove(3, 3)`, `GetValue(3)` give [3], true and nothing. When the
calls of `otherUserCalls` come in between, the directory page is read back from disk as it
was before the `Merge` of `Remove(1, 1)`, whose change was released with `is_dirty = false`:
`GetValue(3)` finds nothing, `Remove(3, 3)` returns false, and `GetValue(3)` after the
`Remove` returns the value 3. -/
theorem C2_value_present_after_remove :
    observe exampleParams 3 (mergeCalls ++ [.GetValue 3, .Remove 3 3, .GetValue 3]) =
      .inr (List.replicate 12 (true, []) ++
        [(true, [3]), (true, [3]), (true, []), (false, [])]) ∧
    observe exampleParams 3
      (mergeCalls ++ otherUserCalls ++ [.GetValue 3, .Remove 3 3, .GetValue 3]) =
      .inr (List.replicate 12 (true, []) ++
        [(true, [3]), (false, []), (false, []), (true, [3])]) :=
  ⟨by decide!, by decide!⟩

/-- C5, refuted on the code: on a table over a pool of three frames, after the calls of
`mergeCalls`, `GetValue(3)`, `Remove(5, 5)`, `GetValue(3)` give [3], false and [3]. When the
calls of `otherUserCalls` come in between, the directory page is read back from disk as it
was before the `Merge` of `Remove(1, 1)`: `GetValue(3)` finds nothing; `Remove(5, 5)` returns
false and merges the bucket of the odd keys once more; and `GetValue(3)` then returns the
value 3, a pair other than (5, 5) that `GetValue` did not return before the call. -/
theorem C5_remove_changes_other_pair :
    observe exampleParams 3 (mergeCalls ++ [.GetValue 3, .Remove 5 5, .GetValue 3]) =
      .inr (List.replicate 12 (true, []) ++
        [(true, [3]), (true, [3]), (false, []), (true, [3])]) ∧
    observe exampleParams 3
      (mergeCalls ++ otherUserCalls ++ [.GetValue 3, .Remove 5 5, .GetValue 3]) =
      .inr (List.replicate 12 (true, []) ++
        [(true, [3]), (false, []), (false, []), (true, [3])]) :=
  ⟨by decide!, by decide!⟩

end ExtendibleHashTable

end OnPool

end Bustub
